import Mathlib

/-!
# Assurance service: the audit log, the token summary, signatures and policy

A shallow embedding of `internal/audit` (canonical.go, hash.go, merkle.go,
types.go, store.go, verify.go), of `internal/privacy` (aggregate.go), of
`verifySignature` of `internal/server` (handlers.go) and of `internal/policy`
(engine.go), and theorems about them.

Modelling conventions.

* Go `string` is `String`; `[]byte` is `List UInt8`; `[]byte(s)` is the UTF-8
  encoding `utf8 s`.
* `int64` and `int` are `Int`.  An index counts lines of a file, so it stays
  far below `2^63` and no operation of the audit package can wrap; the sum of
  the counts in `SummarizeTokenCounts` wraps at 64 bits (`wrapInt`).
* `time.Time` is `Time`, the offset in nanoseconds from Go's zero instant.
  Every `time.Now()` is an input of the operation (`Env`).
* A log file is the list of its lines, each line being what `json.Unmarshal`
  makes of it (`Line`): a line written by `appendJSONLine` decodes to the
  record that was written.
* A scanner gives up at a line of 5 MiB or more (64 KiB in `readLastRoot`),
  and `appendJSONLine` writes lines of any length.  `Verify`, `NewStore`,
  `loadState`, `readRoots` and `readLastRoot` are these functions on files in
  which no line reaches the limit.  `VerifyFile`, `NewStoreFile`,
  `loadStateFile`, `readRootsFile` and `readLastRootFile` take the length of
  every line (`LineSizes`) and read through `scanFile`; they agree with the
  former when no line reaches the limit (`verifyFile_short`,
  `newStoreFile_short`).
* A Go map is the list of its entries in the order in which `range` yields
  them; its keys are distinct.
* Library code (`crypto/sha256`, `encoding/json`, `bytes.TrimSpace`) is a
  parameter `Lib`; `encoding/hex` is written out.  `float64`, `math`,
  `math/rand` and `sort.Slice` are a parameter `Runtime`.  `crypto/hmac` and
  `strings.TrimSpace` are parameters of the functions that call them, and the
  `strings`, `fmt` and `float64` functions of the policy engine are a
  parameter `PolicyLib`.
* The functions of package `policy` carry the name of the package
  (`policy.Evaluate`, `policy.compare`, ...).
* The outcome of each file write is an input of the operation (`Env`); a
  failed write leaves the file as it was.
-/

namespace Audit

/-- Go `[]byte`. -/
abbrev Bytes := List UInt8

/-- Go `time.Time`: nanoseconds since the zero instant. -/
abbrev Time := Int

/-- The method `Time.IsZero`. -/
def Time.IsZero (t : Time) : Bool := t == 0

/-- The conversion `[]byte(s)`. -/
def utf8 (s : String) : Bytes := s.data.flatMap String.utf8EncodeChar

/-! ## Dynamic values (`interface{}`) -/

/-- A Go value of static type `interface{}`, as the type switch of `normalize`
sees it.  `O` is the type of values of any other dynamic type (`int`, a
struct, ...); the values `json.Unmarshal` produces are `Value Empty`. -/
inductive Value (O : Type) where
  | null : Value O
  | bool (b : Bool) : Value O
  | float (bits : Nat) : Value O
  | number (s : String) : Value O
  | str (s : String) : Value O
  | list (items : List (Value O)) : Value O
  | map (entries : List (String × Value O)) : Value O
  | other (o : O) : Value O

/-- The struct `Event` of types.go.  A nil `Payload` map is `none`. -/
structure Event (O : Type) where
  ID : String
  /-- The field `Type` (a keyword here). -/
  Type_ : String
  Source : String
  Timestamp : Time
  Payload : Option (List (String × Value O))

/-- The struct `Record` of types.go. -/
structure Record (O : Type) where
  Index : Int
  Timestamp : Time
  Event : Event O
  PrevHash : String
  Hash : String

/-- The struct `RootRecord` of types.go. -/
structure RootRecord where
  FromIndex : Int
  ToIndex : Int
  RootHash : String
  CreatedAt : Time
deriving DecidableEq

/-- The struct `VerifyReport` of types.go. -/
structure VerifyReport where
  OK : Bool
  Total : Int
  LastIndex : Int
  LastHash : String
  RootsChecked : Int
  Errors : List String
deriving DecidableEq

/-- The zero value `Event{}`. -/
def Event.zero {O : Type} : Event O :=
  { ID := "", Type_ := "", Source := "", Timestamp := 0, Payload := none }

/-- The zero value `Record{}`. -/
def Record.zero {O : Type} : Record O :=
  { Index := 0, Timestamp := 0, Event := Event.zero, PrevHash := "", Hash := "" }

/-- What a caller hands to `StableJSON` as `interface{}`: a dynamic value or
an `Event` struct. -/
inductive Any (O : Type) where
  | value (v : Value O) : Any O
  | event (e : Event O) : Any O

/-! ## Library code -/

/-- The library functions the package calls. -/
structure Lib (O : Type) where
  /-- The digest `sha256.New()` ... `Sum(nil)` of the bytes written. -/
  sha256 : Bytes → Bytes
  /-- The call `json.Marshal` on a value of a type `normalize` does not list. -/
  marshal : O → Except String Bytes
  /-- The call `json.Marshal` on an `Event` struct. -/
  marshalEvent : Event O → Except String Bytes
  /-- The call `json.Unmarshal` into an `interface{}`. -/
  unmarshal : Bytes → Except String (Value Empty)
  /-- The call `Encoder.Encode` with `SetEscapeHTML(false)`. -/
  encode : Value Empty → Except String Bytes
  /-- The call `bytes.TrimSpace`. -/
  trimSpace : Bytes → Bytes

/-- The table `hextable` of encoding/hex, indexed by a nibble. -/
def hexDigit (n : Nat) : Char :=
  if n < 10 then Char.ofNat (48 + n) else Char.ofNat (87 + n)

/-- The function `hex.EncodeToString`. -/
def hexEncode (b : Bytes) : String :=
  String.mk (b.flatMap fun v => [hexDigit (v.toNat / 16), hexDigit (v.toNat % 16)])

/-- The function `fromHexChar` of encoding/hex. -/
def fromHexChar (c : Char) : Option Nat :=
  if 48 ≤ c.toNat ∧ c.toNat ≤ 57 then some (c.toNat - 48)
  else if 97 ≤ c.toNat ∧ c.toNat ≤ 102 then some (c.toNat - 97 + 10)
  else if 65 ≤ c.toNat ∧ c.toNat ≤ 70 then some (c.toNat - 65 + 10)
  else none

/-- The loop of `hex.Decode` over the characters of the input: an odd length
or a character that is no hex digit is an error. -/
def hexDecodeChars : List Char → Option Bytes
  | [] => some []
  | [_] => none
  | p :: q :: rest =>
    match fromHexChar p, fromHexChar q, hexDecodeChars rest with
    | some a, some b, some out => some (UInt8.ofNat (a * 16 + b) :: out)
    | _, _, _ => none

/-- The function `hex.DecodeString`. -/
def hexDecode (s : String) : Option Bytes := hexDecodeChars s.data

/-! ## canonical.go -/

/-- The order of Go byte slices: lexicographic, byte by byte. -/
def bytesLE : Bytes → Bytes → Bool
  | [], _ => true
  | _ :: _, [] => false
  | a :: as, b :: bs =>
    if a.toNat < b.toNat then true else if b.toNat < a.toNat then false else bytesLE as bs

/-- The order `a <= b` of Go strings, which compares their bytes. -/
def stringLE (a b : String) : Bool := bytesLE (utf8 a) (utf8 b)

/-- The call `sort.Strings`: the keys in ascending order. -/
def sortStrings (keys : List String) : List String :=
  keys.insertionSort (fun a b => stringLE a b = true)

/-- The lookup `val[k]` in the entries of a map whose values have been
passed through `normalize` lazily; a key that is absent yields nil. -/
def lookupNorm (k : String) (vals : List (String × Except String (Value Empty))) :
    Except String (Value Empty) :=
  match vals.lookup k with
  | some r => r
  | none => .ok .null

mutual
/-- The type switch of `normalize`, with its `default` branch as `dflt`. -/
def normalizeWith {O : Type} (dflt : O → Except String (Value Empty)) :
    Value O → Except String (Value Empty)
  | .map entries =>
    let vals := normalizeEntries dflt entries
    let keys := sortStrings (entries.map Prod.fst)
    (keys.mapM fun k => (lookupNorm k vals).map fun nv => [Value.str k, nv]).map
      fun out => Value.list out.flatten
  | .list items => ((normalizeItems dflt items).mapM id).map Value.list
  | .number s => .ok (.str s)
  | .str s => .ok (.str s)
  | .float bits => .ok (.float bits)
  | .bool b => .ok (.bool b)
  | .null => .ok .null
  | .other o => dflt o
/-- The calls `normalize(item)` over a slice. -/
def normalizeItems {O : Type} (dflt : O → Except String (Value Empty)) :
    List (Value O) → List (Except String (Value Empty))
  | [] => []
  | v :: rest => normalizeWith dflt v :: normalizeItems dflt rest
/-- The calls `normalize(val[k])` over the entries of a map. -/
def normalizeEntries {O : Type} (dflt : O → Except String (Value Empty)) :
    List (String × Value O) → List (String × Except String (Value Empty))
  | [] => []
  | (k, v) :: rest => (k, normalizeWith dflt v) :: normalizeEntries dflt rest
end

/-- The `default` branch of `normalize` after `json.Marshal`: wrap a marshal
error, `json.Unmarshal` into an `interface{}`, and `normalize` the result. -/
def reparse {O : Type} (lib : Lib O) (b : Except String Bytes) :
    Except String (Value Empty) :=
  match b with
  | .error e => .error ("normalize: " ++ e)
  | .ok bs =>
    match lib.unmarshal bs with
    | .error e => .error ("normalize: " ++ e)
    | .ok decoded => normalizeWith (fun o => nomatch o) decoded

/-- The function `normalize`. -/
def normalize {O : Type} (lib : Lib O) : Any O → Except String (Value Empty)
  | .value v => normalizeWith (fun o => reparse lib (lib.marshal o)) v
  | .event e => reparse lib (lib.marshalEvent e)

/-- The function `StableJSON`. -/
def StableJSON {O : Type} (lib : Lib O) (v : Any O) : Except String Bytes :=
  match normalize lib v with
  | .error e => .error e
  | .ok stable =>
    match lib.encode stable with
    | .error e => .error e
    | .ok buf => .ok (lib.trimSpace buf)

/-! ## hash.go and merkle.go -/

/-- The function `hashBytes`. -/
def hashBytes {O : Type} (lib : Lib O) (parts : List Bytes) : String :=
  hexEncode (lib.sha256 parts.flatten)

/-- The function `hashPair`. -/
def hashPair {O : Type} (lib : Lib O) (left right : Bytes) : Bytes :=
  lib.sha256 (left ++ right)

/-- The decoding loop of `MerkleRoot`: `none` when a hash is not hex. -/
def decodeLevel : List String → Option (List Bytes)
  | [] => some []
  | h :: rest =>
    match hexDecode h, decodeLevel rest with
    | some b, some out => some (b :: out)
    | _, _ => none

/-- The inner loop of `MerkleRoot`: one pass over `level`, two at a time, the
last element paired with itself when the length is odd. -/
def nextLevel {O : Type} (lib : Lib O) : List Bytes → List Bytes
  | [] => []
  | [left] => [hashPair lib left left]
  | left :: right :: rest => hashPair lib left right :: nextLevel lib rest

/-- The outer loop `for len(level) > 1` of `MerkleRoot`, run for at most
`fuel` passes. -/
def reduceLevel {O : Type} (lib : Lib O) : Nat → List Bytes → List Bytes
  | 0, level => level
  | fuel + 1, level =>
    if level.length > 1 then reduceLevel lib fuel (nextLevel lib level) else level

/-- The function `MerkleRoot`.  The outer loop gets as many passes as the
level has nodes, which is more than it takes. -/
def MerkleRoot {O : Type} (lib : Lib O) (hashes : List String) : String :=
  if hashes.length = 0 then ""
  else
    match decodeLevel hashes with
    | none => ""
    | some level => hexEncode ((reduceLevel lib level.length level).headD [])

/-! ## store.go -/

/-- One line of a log file as a reader meets it: an empty line
(`len(line) == 0`), a line on which `json.Unmarshal` fails with `err`, or a
line that decodes to `a`. -/
inductive Line (α : Type) where
  | blank : Line α
  | garbled (err : String) : Line α
  | entry (a : α) : Line α

/-- The data directory: the lines of `events.log` and of `roots.log`.  A file
that does not exist yet reads as no lines and is created by the first open. -/
structure Disk (O : Type) where
  events : List (Line (Record O))
  roots : List (Line RootRecord)

/-- The struct `Store`; the mutex and the paths (which name the two files of
the `Disk`) are left out. -/
structure Store where
  batchSize : Int
  lastIndex : Int
  lastHash : String
  batchHashes : List String
  batchStart : Int
deriving DecidableEq

/-- What one `AppendEvent` call takes from its surroundings: the three
readings of `time.Now().UTC()` in program order, and the error (`none` for
nil) that `appendJSONLine` meets on the events log and on the roots log. -/
structure Env where
  nowEvent : Time
  nowRecord : Time
  nowRoot : Time
  eventsErr : Option String
  rootsErr : Option String

/-- The function `appendJSONLine`: on success the file has one more line, the
one that decodes to `v`; on failure the file is as it was. -/
def appendJSONLine {α : Type} (file : List (Line α)) (v : α) (err : Option String) :
    Option String × List (Line α) :=
  match err with
  | some e => (some e, file)
  | none => (none, file ++ [Line.entry v])

/-- What `AppendEvent` returns, and the store and the files after the call. -/
structure Outcome (O : Type) where
  record : Record O
  root : Option RootRecord
  err : Option String
  store : Store
  disk : Disk O

/-- The chain hash of store.go line 64 and verify.go line 59. -/
def chainHash {O : Type} (lib : Lib O) (prevHash : String) (index : Int) (payload : Bytes) :
    String :=
  hashBytes lib [utf8 prevHash, utf8 ("|" ++ toString index ++ "|"), payload]

/-- Lines 51 to 53 of `AppendEvent`: a zero event timestamp becomes the
current time. -/
def stamp {O : Type} (event : Event O) (now : Time) : Event O :=
  if event.Timestamp.IsZero then { event with Timestamp := now } else event

/-- Lines 71 to 97 of `AppendEvent`: what follows the write of record `r` to
the events log (`d` being the files after that write). -/
def commit {O : Type} (lib : Lib O) (s : Store) (d : Disk O) (r : Record O) (env : Env) :
    Outcome O :=
  let s : Store := { s with lastIndex := r.Index, lastHash := r.Hash }
  let s : Store := if s.batchHashes.length = 0 then { s with batchStart := r.Index } else s
  let s : Store := { s with batchHashes := s.batchHashes ++ [r.Hash] }
  if (s.batchHashes.length : Int) ≥ s.batchSize then
    let root : RootRecord :=
      { FromIndex := s.batchStart, ToIndex := r.Index,
        RootHash := MerkleRoot lib s.batchHashes, CreatedAt := env.nowRoot }
    if root.RootHash ≠ "" then
      match appendJSONLine d.roots root env.rootsErr with
      | (some e, roots) => ⟨r, none, some e, s, { d with roots := roots }⟩
      | (none, roots) =>
        ⟨r, some root, none, { s with batchHashes := [], batchStart := 0 },
          { d with roots := roots }⟩
    else ⟨r, none, none, { s with batchHashes := [], batchStart := 0 }, d⟩
  else ⟨r, none, none, s, d⟩

/-- The method `Store.AppendEvent`. -/
def AppendEvent {O : Type} (lib : Lib O) (s : Store) (d : Disk O) (event : Event O)
    (env : Env) : Outcome O :=
  let event : Event O := stamp event env.nowEvent
  let index := s.lastIndex + 1
  match StableJSON lib (Any.event event) with
  | .error e => ⟨Record.zero, none, some e, s, d⟩
  | .ok payload =>
    let r : Record O :=
      { Index := index, Timestamp := env.nowRecord, Event := event, PrevHash := s.lastHash,
        Hash := chainHash lib s.lastHash index payload }
    match appendJSONLine d.events r env.eventsErr with
    | (some e, events) => ⟨Record.zero, none, some e, s, { d with events := events }⟩
    | (none, events) => commit lib s { d with events := events } r env

/-- The method `Store.CurrentBatchRoot`. -/
def CurrentBatchRoot {O : Type} (lib : Lib O) (s : Store) : String :=
  MerkleRoot lib s.batchHashes

/-- The scanning loop of `readLastRoot`, `last` being the root read last. -/
def readLastRootLoop : List (Line RootRecord) → Option RootRecord →
    Except String (Option RootRecord)
  | [], last => .ok last
  | .blank :: rest, last => readLastRootLoop rest last
  | .garbled e :: _, _ => .error e
  | .entry r :: rest, _ => readLastRootLoop rest (some r)

/-- The function `readLastRoot` on a file in which no line reaches the limit
of the scanner, so that `scanner.Err()` is nil; `readLastRootFile` has the
limit. -/
def readLastRoot (roots : List (Line RootRecord)) : Except String (Option RootRecord) :=
  readLastRootLoop roots none

/-- The method `Store.LastRoot`. -/
def LastRoot {O : Type} (d : Disk O) : Except String (Option RootRecord) :=
  readLastRoot d.roots

/-- The scanning loop of `loadState` over the events log. -/
def loadLoop {O : Type} (lastCompletedIndex : Int) :
    List (Line (Record O)) → Store → Except String Store
  | [], s => .ok s
  | .blank :: rest, s => loadLoop lastCompletedIndex rest s
  | .garbled e :: _, _ => .error ("decode record: " ++ e)
  | .entry r :: rest, s =>
    let s : Store := { s with lastIndex := r.Index, lastHash := r.Hash }
    let s : Store :=
      if r.Index > lastCompletedIndex then
        let s : Store := if s.batchStart = 0 then { s with batchStart := r.Index } else s
        { s with batchHashes := s.batchHashes ++ [r.Hash] }
      else s
    loadLoop lastCompletedIndex rest s

/-- The method `Store.loadState` on files in which no line reaches the limit
of a scanner, so that `scanner.Err()` is nil; `loadStateFile` has the
limits. -/
def loadState {O : Type} (s : Store) (d : Disk O) : Except String Store :=
  match readLastRoot d.roots with
  | .error e => .error e
  | .ok lastRoot =>
    let lastCompletedIndex : Int :=
      match lastRoot with
      | some r => r.ToIndex
      | none => 0
    loadLoop lastCompletedIndex d.events s

/-- The function `NewStore` on a data directory that can be created and
read and in which no line reaches the limit of a scanner; `NewStoreFile` has
the limits. -/
def NewStore {O : Type} (d : Disk O) (batchSize : Int) : Except String Store :=
  let batchSize := if batchSize ≤ 0 then 100 else batchSize
  loadState
    { batchSize := batchSize, lastIndex := 0, lastHash := "", batchHashes := [],
      batchStart := 0 } d

/-! ## verify.go -/

/-- The function `readRoots` on a file in which no line reaches the limit of
the scanner, so that `scanner.Err()` is nil; `readRootsFile` has the limit. -/
def readRoots : List (Line RootRecord) → Except String (List RootRecord)
  | [] => .ok []
  | .blank :: rest => readRoots rest
  | .garbled e :: _ => .error e
  | .entry r :: rest =>
    match readRoots rest with
    | .error e => .error e
    | .ok out => .ok (r :: out)

/-- The local variables of `Verify` that live across iterations. -/
structure VerifyState where
  report : VerifyReport
  rootIndex : Nat
  currentBatch : List String
  expectedPrev : String
  expectedIndex : Int
deriving DecidableEq

/-- The pair `report.OK = false; report.Errors = append(report.Errors, msg)`. -/
def VerifyReport.fail (report : VerifyReport) (msg : String) : VerifyReport :=
  { report with OK := false, Errors := report.Errors ++ [msg] }

/-- The statement `if cond { report.OK = false; report.Errors = append(...) }`. -/
def VerifyReport.failIf (report : VerifyReport) (cond : Bool) (msg : String) : VerifyReport :=
  if cond then report.fail msg else report

/-- The body of the scanning loop of `Verify`, for one line. -/
def verifyStep {O : Type} (lib : Lib O) (roots : List RootRecord) (batchSize : Int)
    (st : VerifyState) : Line (Record O) → VerifyState
  | .blank => st
  | .garbled e => { st with report := st.report.fail ("decode record: " ++ e) }
  | .entry r =>
    let expectedIndex := st.expectedIndex + 1
    let report := st.report.failIf (r.Index != expectedIndex)
      ("index mismatch at " ++ toString r.Index)
    let report := report.failIf (r.PrevHash != st.expectedPrev)
      ("prev_hash mismatch at " ++ toString r.Index)
    match StableJSON lib (Any.event r.Event) with
    | .error e =>
      { st with expectedIndex := expectedIndex, report := report.fail ("stable json: " ++ e) }
    | .ok payload =>
      let computed := chainHash lib r.PrevHash r.Index payload
      let report := report.failIf (computed != r.Hash)
        ("hash mismatch at " ++ toString r.Index)
      let report : VerifyReport :=
        { report with Total := r.Index, LastIndex := r.Index, LastHash := r.Hash }
      let currentBatch := st.currentBatch ++ [r.Hash]
      if batchSize > 0 ∧ (currentBatch.length : Int) = batchSize then
        match roots[st.rootIndex]? with
        | none =>
          { report := report.fail "missing root record", rootIndex := st.rootIndex,
            currentBatch := [], expectedPrev := r.Hash, expectedIndex := expectedIndex }
        | some expected =>
          let root := MerkleRoot lib currentBatch
          let report := report.failIf (expected.RootHash != root)
            ("root mismatch for batch ending " ++ toString r.Index)
          { report := { report with RootsChecked := report.RootsChecked + 1 },
            rootIndex := st.rootIndex + 1, currentBatch := [], expectedPrev := r.Hash,
            expectedIndex := expectedIndex }
      else
        { report := report, rootIndex := st.rootIndex, currentBatch := currentBatch,
          expectedPrev := r.Hash, expectedIndex := expectedIndex }

/-- The state of `Verify` when the scanning loop starts. -/
def VerifyState.init : VerifyState :=
  { report := { OK := true, Total := 0, LastIndex := 0, LastHash := "", RootsChecked := 0,
                Errors := [] },
    rootIndex := 0, currentBatch := [], expectedPrev := "", expectedIndex := 0 }

/-- The scanning loop of `Verify`. -/
def verifyLoop {O : Type} (lib : Lib O) (roots : List RootRecord) (batchSize : Int)
    (st : VerifyState) (events : List (Line (Record O))) : VerifyState :=
  events.foldl (verifyStep lib roots batchSize) st

/-- The function `Verify` on two files that can be opened and in which no
line reaches the limit of a scanner, so that `scanner.Err()` is nil;
`VerifyFile` has the limits. -/
def Verify {O : Type} (lib : Lib O) (events : List (Line (Record O)))
    (roots : List (Line RootRecord)) (batchSize : Int) : VerifyReport :=
  match readRoots roots with
  | .error e => VerifyState.init.report.fail ("read roots: " ++ e)
  | .ok rs => (verifyLoop lib rs batchSize VerifyState.init events).report

/-! ## Runs of the store and the vocabulary of the theorems -/

/-- A fresh data directory. -/
def Disk.empty {O : Type} : Disk O := { events := [], roots := [] }

/-- The values a file holds, in file order, its empty and undecodable lines
left out. -/
def entries {α : Type} : List (Line α) → List α
  | [] => []
  | .entry a :: rest => a :: entries rest
  | .blank :: rest => entries rest
  | .garbled _ :: rest => entries rest

/-- Whether every line of a file is empty or decodes. -/
def decodable {α : Type} : List (Line α) → Bool
  | [] => true
  | .garbled _ :: _ => false
  | .entry _ :: rest => decodable rest
  | .blank :: rest => decodable rest

/-- The store and the files after a run of `AppendEvent` calls, each made on
what the call before it left. -/
def appendAll {O : Type} (lib : Lib O) (s : Store) (d : Disk O) :
    List (Event O × Env) → Store × Disk O
  | [] => (s, d)
  | (event, env) :: rest =>
    appendAll lib (AppendEvent lib s d event env).store (AppendEvent lib s d event env).disk rest

/-- Whether every call of a run of `AppendEvent` calls returns a nil error. -/
def appendsOk {O : Type} (lib : Lib O) (s : Store) (d : Disk O) :
    List (Event O × Env) → Bool
  | [] => true
  | (event, env) :: rest =>
    (AppendEvent lib s d event env).err.isNone &&
      appendsOk lib (AppendEvent lib s d event env).store
        (AppendEvent lib s d event env).disk rest

/-- The hash a record stores is the chain hash recomputed from its own
`prev_hash`, `index` and event. -/
def HashOk {O : Type} (lib : Lib O) (r : Record O) : Prop :=
  ∃ payload, StableJSON lib (Any.event r.Event) = .ok payload ∧
    r.Hash = chainHash lib r.PrevHash r.Index payload

/-- Records that continue a chain whose last index is `idx` and whose last
hash is `prev`. -/
def ChainFrom {O : Type} (lib : Lib O) : Int → String → List (Record O) → Prop
  | _, _, [] => True
  | idx, prev, r :: rest =>
    r.Index = idx + 1 ∧ r.PrevHash = prev ∧ HashOk lib r ∧ ChainFrom lib (idx + 1) r.Hash rest

/-- The hash of the last record, `prev` when there is none. -/
def lastHashOf {O : Type} (prev : String) : List (Record O) → String
  | [] => prev
  | r :: rest => lastHashOf r.Hash rest

/-- The root records that seal `hashes` in batches of `B`, the open batch
holding `pending` already and starting at index `start`. -/
def RootsMatch {O : Type} (lib : Lib O) (B : Nat) :
    Int → List String → List String → List RootRecord → Prop
  | _, _, [], rts => rts = []
  | start, pending, h :: hs, rts =>
    if (pending ++ [h]).length = B then
      ∃ rt rest, rts = rt :: rest ∧ rt.FromIndex = start ∧ rt.ToIndex = start + B - 1 ∧
        rt.RootHash = MerkleRoot lib (pending ++ [h]) ∧
        RootsMatch lib B (start + B) [] hs rest
    else RootsMatch lib B start (pending ++ [h]) hs rts

/-- The hashes left in the open batch once `hashes` have been pushed, in
batches of `B`, onto an open batch that held `pending`. -/
def openBatch (B : Nat) : List String → List String → List String
  | pending, [] => pending
  | pending, h :: hs =>
    if (pending ++ [h]).length = B then openBatch B [] hs else openBatch B (pending ++ [h]) hs

/-- The hash function returns 32 bytes, as SHA-256 does. -/
def ShaSized {O : Type} (lib : Lib O) : Prop := ∀ x, (lib.sha256 x).length = 32

/-- A hash string that is the hex encoding of some bytes, not none. -/
def GoodHash (h : String) : Prop := ∃ b : Bytes, b ≠ [] ∧ h = hexEncode b

/-- The state of a store between two appends of a run without failures: the
open batch is short of `B` hashes, each the hex of some bytes, and it starts
where `batchStart` says. -/
structure StoreInv (B : Nat) (s : Store) : Prop where
  size : s.batchSize = B
  open_lt : s.batchHashes.length < B
  good : ∀ h ∈ s.batchHashes, GoodHash h
  start : s.batchStart =
    if s.batchHashes = [] then 0 else s.lastIndex + 1 - s.batchHashes.length

/-- The record `AppendEvent` builds at lines 59 to 65, `payload` being the
stable JSON of the stamped event. -/
def newRecord {O : Type} (lib : Lib O) (s : Store) (event : Event O) (env : Env)
    (payload : Bytes) : Record O :=
  { Index := s.lastIndex + 1, Timestamp := env.nowRecord, Event := stamp event env.nowEvent,
    PrevHash := s.lastHash, Hash := chainHash lib s.lastHash (s.lastIndex + 1) payload }

/-- The state of `Verify` after records that raised no error. -/
structure GoodV (st : VerifyState) : Prop where
  ok : st.report.OK = true
  errors : st.report.Errors = []
  total : st.report.Total = st.expectedIndex
  lastIndex : st.report.LastIndex = st.expectedIndex
  lastHash : st.report.LastHash = st.expectedPrev

/-! ## A small instance, for concrete runs -/

/-- A stand-in for the library: the digest is 32 copies of the byte sum, an
event marshals to its id, type and source, and the JSON text of a string is
the string itself. -/
def demoLib : Lib Nat where
  sha256 := fun b => List.replicate 32 (UInt8.ofNat (b.foldl (fun acc x => acc + x.toNat) 0))
  marshal := fun n => .ok (utf8 (toString n))
  marshalEvent := fun e => .ok (utf8 (e.ID ++ "/" ++ e.Type_ ++ "/" ++ e.Source))
  unmarshal := fun b => .ok (.str (String.mk (b.map fun x => Char.ofNat x.toNat)))
  encode := fun v =>
    match v with
    | .str s => .ok (utf8 s ++ [10])
    | _ => .ok [110, 10]
  trimSpace := fun b => (b.reverse.dropWhile fun x => x == 10).reverse

/-- A trade event with sequence number `seq` in its payload. -/
def demoEvent (seq : Nat) : Event Nat :=
  { ID := toString seq, Type_ := "trade", Source := "test", Timestamp := 1700000000,
    Payload := some [("mint", .str "MINT"), ("seq", .other seq)] }

/-- Surroundings in which every write succeeds. -/
def demoEnv : Env :=
  { nowEvent := 1700000001, nowRecord := 1700000002, nowRoot := 1700000003,
    eventsErr := none, rootsErr := none }

/-- Three appends. -/
def demoInputs : List (Event Nat × Env) :=
  [(demoEvent 0, demoEnv), (demoEvent 1, demoEnv), (demoEvent 2, demoEnv)]

/-- The fresh store of batch size 2. -/
def demoStore : Store :=
  { batchSize := 2, lastIndex := 0, lastHash := "", batchHashes := [], batchStart := 0 }

/-- The index of the last record, `dflt` when there is none. -/
def lastIndexOf {O : Type} (dflt : Int) : List (Record O) → Int
  | [] => dflt
  | r :: rest => lastIndexOf r.Index rest

/-- The records whose index is greater than `c`, in order. -/
def pendingOf {O : Type} (c : Int) (recs : List (Record O)) : List (Record O) :=
  recs.filter fun r => decide (r.Index > c)

/-- The `to_index` of the last root record of a roots log, 0 when it has
none. -/
def lastCompleted (roots : List (Line RootRecord)) : Int :=
  match (entries roots).getLast? with
  | some r => r.ToIndex
  | none => 0

/-- The files the three appends leave. -/
def demoDisk : Disk Nat := (appendAll demoLib demoStore Disk.empty demoInputs).2

/-- The index of the first record, 0 when there is none. -/
def firstIndexOf {O : Type} : List (Record O) → Int
  | [] => 0
  | r :: _ => r.Index

/-- A line that `Verify` cannot take for the record `r` it stands in for: it
does not decode, or it decodes to a record whose index or `prev_hash` is not
that of `r`, or whose stored hash is not the chain hash recomputed from its
own fields. -/
def Detectable {O : Type} (lib : Lib O) (r : Record O) : Line (Record O) → Prop
  | .blank => False
  | .garbled _ => True
  | .entry t => t.Index ≠ r.Index ∨ t.PrevHash ≠ r.PrevHash ∨ ¬ HashOk lib t

/-- The record the first demo append writes. -/
def demoRecord : Record Nat :=
  (AppendEvent demoLib demoStore Disk.empty (demoEvent 0) demoEnv).record

/-- The same record, the seconds of its own timestamp one higher: in the
JSON line, one digit of the `timestamp` member replaced. -/
def demoRestamped : Record Nat :=
  { demoRecord with Timestamp := demoRecord.Timestamp + 1000000000 }

/-- Surroundings in which the write to the events log fails. -/
def demoEnvEventsFail : Env := { demoEnv with eventsErr := some "write events.log: disk full" }

/-- Surroundings in which the write to the roots log fails. -/
def demoEnvRootsFail : Env := { demoEnv with rootsErr := some "write roots.log: disk full" }

/-- The files after a crash between the second append and the write of its
root record, with batch size 2: two records, no root record. -/
def demoCrashDisk : Disk Nat :=
  { events := (appendAll demoLib demoStore Disk.empty (demoInputs.take 2)).2.events,
    roots := [] }

/-! ## The Merkle root as the spec words it (section 4.3) -/

/-- One level up, in the words of the spec: the entries are paired left to
right, node `i` being the SHA-256 of entry `2 i` followed by entry `2 i + 1`,
and the last entry of a level of odd length is paired with itself. -/
def specPairs {O : Type} (lib : Lib O) (level : List Bytes) : List Bytes :=
  (List.range ((level.length + 1) / 2)).map fun i =>
    lib.sha256 (level.getD (2 * i) [] ++
      (if 2 * i + 1 < level.length then level.getD (2 * i + 1) [] else level.getD (2 * i) []))

/-! ## The vocabulary of the theorems on `Verify` -/

/-- The root records `Verify` needs from position `k` of the roots list
onwards when `hashes` are pushed, in batches of `B`, onto an open batch that
holds `pending`: each completed batch finds a root record whose `root_hash`
is the Merkle root of the batch. -/
def BatchesOk {O : Type} (lib : Lib O) (roots : List RootRecord) (B : Nat) :
    Nat → List String → List String → Prop
  | _, _, [] => True
  | k, pending, h :: hs =>
    if (pending ++ [h]).length = B then
      (∃ rt, roots[k]? = some rt ∧ rt.RootHash = MerkleRoot lib (pending ++ [h])) ∧
        BatchesOk lib roots B (k + 1) [] hs
    else BatchesOk lib roots B k (pending ++ [h]) hs

/-- Whether the hash a record stores differs from the chain hash recomputed
from its `prev_hash`, index and event (false when `StableJSON` fails). -/
def hashMismatch {O : Type} (lib : Lib O) (r : Record O) : Bool :=
  match StableJSON lib (Any.event r.Event) with
  | .ok payload => chainHash lib r.PrevHash r.Index payload != r.Hash
  | .error _ => false

/-- The entries the three checks of the chain leave in the error list for a
record that should have index `idx` and `prev_hash` `prev`, in the order of
the checks. -/
def recordErrors {O : Type} (lib : Lib O) (idx : Int) (prev : String) (r : Record O) :
    List String :=
  (if r.Index != idx then ["index mismatch at " ++ toString r.Index] else []) ++
  (if r.PrevHash != prev then ["prev_hash mismatch at " ++ toString r.Index] else []) ++
  (if hashMismatch lib r then ["hash mismatch at " ++ toString r.Index] else [])

/-- The entries of `recordErrors`, record by record in file order, for
records that follow a record of index `idx` and hash `prev`: a record is
held against its position and against the hash stored in the record before
it. -/
def chainErrors {O : Type} (lib : Lib O) : Int → String → List (Record O) → List (List String)
  | _, _, [] => []
  | idx, prev, r :: rest => recordErrors lib (idx + 1) prev r :: chainErrors lib (idx + 1) r.Hash rest

/-- The entries the loop body of `Verify` adds to the error list on one
line, from state `st`. -/
def stepMessages {O : Type} (lib : Lib O) (roots : List RootRecord) (batchSize : Int)
    (st : VerifyState) : Line (Record O) → List String
  | .blank => []
  | .garbled e => ["decode record: " ++ e]
  | .entry r =>
    (if r.Index != st.expectedIndex + 1 then ["index mismatch at " ++ toString r.Index] else []) ++
    (if r.PrevHash != st.expectedPrev then ["prev_hash mismatch at " ++ toString r.Index]
      else []) ++
    match StableJSON lib (Any.event r.Event) with
    | .error e => ["stable json: " ++ e]
    | .ok payload =>
      (if chainHash lib r.PrevHash r.Index payload != r.Hash then
        ["hash mismatch at " ++ toString r.Index] else []) ++
      if batchSize > 0 ∧ ((st.currentBatch ++ [r.Hash]).length : Int) = batchSize then
        match roots[st.rootIndex]? with
        | none => ["missing root record"]
        | some expected =>
          if expected.RootHash != MerkleRoot lib (st.currentBatch ++ [r.Hash]) then
            ["root mismatch for batch ending " ++ toString r.Index]
          else []
      else []

/-- The entries of `stepMessages`, line by line, along a run of the loop of
`Verify` from state `st`. -/
def loopMessages {O : Type} (lib : Lib O) (roots : List RootRecord) (batchSize : Int) :
    VerifyState → List (Line (Record O)) → List (List String)
  | _, [] => []
  | st, line :: rest =>
    stepMessages lib roots batchSize st line ::
      loopMessages lib roots batchSize (verifyStep lib roots batchSize st line) rest

/-- A state of `Verify` with the flag `OK` and the error list replaced. -/
def VerifyState.setLog (st : VerifyState) (ok : Bool) (errors : List String) : VerifyState :=
  { st with report := { st.report with OK := ok, Errors := errors } }

/-- An entry of the error list that comes from the check of a batch against
the roots log. -/
def IsRootError (e : String) : Prop :=
  e = "missing root record" ∨ ∃ k : Int, e = "root mismatch for batch ending " ++ toString k

/-- Whether `StableJSON` succeeds on the event of a record. -/
def canonOk {O : Type} (lib : Lib O) (r : Record O) : Bool :=
  match StableJSON lib (Any.event r.Event) with
  | .ok _ => true
  | .error _ => false

/-- The demo log after damage: the first record carries index 5 and the
second a foreign hash. -/
def demoDamaged : List (Line (Record Nat)) :=
  (entries demoDisk.events).map fun r =>
    Line.entry { r with Index := if r.Index = 1 then 5 else r.Index,
                        Hash := if r.Index = 2 then "00" else r.Hash }

/-- The damaged demo log with a cut-off line after its first record. -/
def demoGarbled : List (Line (Record Nat)) :=
  demoDamaged.take 1 ++ Line.garbled "unexpected end of JSON input" :: demoDamaged.drop 1

/-! ## privacy/aggregate.go -/

/-- The type `TokenCount`; `F` stands for `float64`. -/
structure TokenCount (F : Type) where
  Mint : String
  Count : Int
  Noised : F
  WindowHrs : Int

/-- The type `TokenSummary`. -/
structure TokenSummary (F : Type) where
  Items : List (TokenCount F)
  RedactedCount : Int
  TotalSeen : Int
  AppliedK : Int
  AppliedEpsilon : F

/-- What `SummarizeTokenCounts` takes from the language and its libraries:
`float64` (type `F`) with its constants (`lit m e` is the `float64` of the
decimal constant `m / 10^e`), arithmetic, comparisons and conversion from
`int`, `math.Abs` and `math.Log`, a generator of `math/rand` (type `R`:
`newSource seed` is `rand.New(rand.NewSource(seed))`, `float64 r` the value
of `rng.Float64()` and the generator after the call), and `sort.Slice`. -/
structure Runtime (F R : Type) where
  lit : Int → Nat → F
  ofInt : Int → F
  add : F → F → F
  sub : F → F → F
  mul : F → F → F
  div : F → F → F
  neg : F → F
  abs : F → F
  log : F → F
  lt : F → F → Bool
  le : F → F → Bool
  newSource : Int → R
  float64 : R → F × R
  sortSlice : (TokenCount F → TokenCount F → Bool) → List (TokenCount F) → List (TokenCount F)

/-- The function `laplace`, with the generator after the call. -/
def laplace {F R : Type} (rt : Runtime F R) (rng : R) (scale : F) : F × R :=
  if rt.le scale (rt.lit 0 0) then (rt.lit 0 0, rng)
  else
    let draw := rt.float64 rng
    let u := rt.sub draw.1 (rt.lit 5 1)
    let sign := if rt.lt u (rt.lit 0 0) then rt.lit (-1) 0 else rt.lit 1 0
    (rt.mul (rt.mul (rt.neg scale) sign)
      (rt.log (rt.sub (rt.lit 1 0) (rt.mul (rt.lit 2 0) (rt.abs u)))), draw.2)

/-- The value of `k` after `if k <= 0 { k = 1 }`. -/
def appliedK (k : Int) : Int := if k ≤ 0 then 1 else k

/-- The value of `epsilon` after `if epsilon <= 0 { epsilon = 0.7 }`. -/
def appliedEpsilon {F R : Type} (rt : Runtime F R) (epsilon : F) : F :=
  if rt.le epsilon (rt.lit 0 0) then rt.lit 7 1 else epsilon

/-- The generator `rng` of `SummarizeTokenCounts`; `now` is the reading of
`time.Now().UnixNano()`. -/
def seededRng {F R : Type} (rt : Runtime F R) (seed now : Int) : R :=
  if seed = 0 then rt.newSource now else rt.newSource seed

/-- The local variables of the first loop of `SummarizeTokenCounts`. -/
structure SummaryState (F R : Type) where
  redacted : Int
  items : List (TokenCount F)
  rng : R

/-- The first loop of `SummarizeTokenCounts`, over the entries of the map
in the order in which `range` yields them. -/
def summarizeLoop {F R : Type} (rt : Runtime F R) (k : Int) (epsilon : F) (windowHours : Int) :
    List (String × Int) → SummaryState F R → SummaryState F R
  | [], st => st
  | (mint, count) :: rest, st =>
    if count < k then
      summarizeLoop rt k epsilon windowHours rest { st with redacted := st.redacted + 1 }
    else
      let drawn := laplace rt st.rng (rt.div (rt.lit 1 0) epsilon)
      summarizeLoop rt k epsilon windowHours rest
        { st with
          items := st.items ++
            [{ Mint := mint, Count := count, Noised := rt.add (rt.ofInt count) drawn.1,
               WindowHrs := windowHours }],
          rng := drawn.2 }

/-- The value of an `int` sum on a 64-bit platform. -/
def wrapInt (x : Int) : Int := (x + 2 ^ 63) % 2 ^ 64 - 2 ^ 63

/-- The function `SummarizeTokenCounts`. The map `counts` is given by its
entries in the order in which the first `range` yields them, an order the
language leaves open; the sum of the second `range` is the same in every
order. -/
def SummarizeTokenCounts {F R : Type} (rt : Runtime F R) (counts : List (String × Int))
    (k : Int) (epsilon : F) (seed : Int) (windowHours : Int) (now : Int) : TokenSummary F :=
  let k := appliedK k
  let epsilon := appliedEpsilon rt epsilon
  let st := summarizeLoop rt k epsilon windowHours counts
    { redacted := 0, items := [], rng := seededRng rt seed now }
  let items := rt.sortSlice (fun x y => rt.lt y.Noised x.Noised) st.items
  let total := counts.foldl (fun total p => wrapInt (total + p.2)) 0
  { Items := items, RedactedCount := st.redacted, TotalSeen := total, AppliedK := k,
    AppliedEpsilon := epsilon }

/-- A runtime for examples: fixed point numbers with three decimals for
`float64`, `x - 1` for the logarithm of `x`, a linear congruential
generator, and insertion sort. -/
def demoRuntime : Runtime Int Nat where
  lit := fun m e => m * 1000 / 10 ^ e
  ofInt := fun n => n * 1000
  add := fun a b => a + b
  sub := fun a b => a - b
  mul := fun a b => a * b / 1000
  div := fun a b => a * 1000 / b
  neg := fun a => -a
  abs := fun a => |a|
  log := fun a => a - 1000
  lt := fun a b => decide (a < b)
  le := fun a b => decide (a ≤ b)
  newSource := fun seed => seed.toNat
  float64 := fun r => (((r * 1103515245 + 12345) % 1000 : Nat), (r * 1103515245 + 12345) % 2 ^ 31)
  sortSlice := fun less l => l.insertionSort fun x y => less x y = true

/-- The counts of the test `TestSummarizeTokenCountsKAnon`, in one order of
iteration. -/
def demoCounts : List (String × Int) := [("A", 10), ("B", 3), ("C", 1)]

/-- The bytes of `String.utf8EncodeChar` for the code point `v`, as
numbers. -/
def encNat (v : Nat) : List Nat :=
  if v ≤ 127 then [v]
  else if v ≤ 2047 then [192 + v / 64 % 32, 128 + v % 64]
  else if v ≤ 65535 then [224 + v / 4096 % 16, 128 + v / 64 % 64, 128 + v % 64]
  else [240 + v / 262144 % 8, 128 + v / 4096 % 64, 128 + v / 64 % 64, 128 + v % 64]

/-- A sequence of alternating key and value items, in the words of the spec
(section 4.1): the item of key `ks[i]` is followed by the value `nvs[i]`. -/
def alternating (ks : List String) (nvs : List (Value Empty)) : List (Value Empty) :=
  (List.zipWith (fun k nv => [Value.str k, nv]) ks nvs).flatten

/-- A payload with three members, in one order of insertion. -/
def demoEntries : List (String × Value Nat) :=
  [("mint", .str "MINT"), ("amount", .number "5"), ("tags", .list [.bool true, .null])]

mutual
/-- Values that are equal up to the order of the entries of their maps, at
every depth; the keys of a map are distinct. -/
def SameValue {O : Type} : Value O → Value O → Prop
  | .map es, w => (es.map Prod.fst).Nodup ∧
      ∃ es2 es', w = .map es' ∧ SameEntries es es2 ∧ es2.Perm es'
  | .list xs, w => ∃ ys, w = .list ys ∧ SameItems xs ys
  | .null, w => w = .null
  | .bool b, w => w = .bool b
  | .float x, w => w = .float x
  | .number s, w => w = .number s
  | .str s, w => w = .str s
  | .other o, w => w = .other o
/-- Lists of values that are item by item the same. -/
def SameItems {O : Type} : List (Value O) → List (Value O) → Prop
  | [], ys => ys = []
  | x :: xs, ys => ∃ y ys', ys = y :: ys' ∧ SameValue x y ∧ SameItems xs ys'
/-- Entries with the same keys and, key by key, the same values. -/
def SameEntries {O : Type} : List (String × Value O) → List (String × Value O) → Prop
  | [], es' => es' = []
  | (k, v) :: es, es' => ∃ v' rest, es' = (k, v') :: rest ∧ SameValue v v' ∧ SameEntries es rest
end

/-- A payload with a nested map, in one order of insertion. -/
def demoNested : Value Nat :=
  .map [("a", .map [("x", .null), ("y", .bool true)]), ("b", .list [.str "s", .number "1"])]

/-- The same payload, the entries of both maps in the other order. -/
def demoNestedSwapped : Value Nat :=
  .map [("b", .list [.str "s", .number "1"]), ("a", .map [("y", .bool true), ("x", .null)])]

mutual
/-- A value made by `json.Unmarshal`, as a value of static type
`interface{}`. -/
def liftValue {O : Type} : Value Empty → Value O
  | .null => .null
  | .bool b => .bool b
  | .float x => .float x
  | .number s => .number s
  | .str s => .str s
  | .list xs => .list (liftItems xs)
  | .map es => .map (liftEntries es)
  | .other o => nomatch o
/-- The items of a list, lifted. -/
def liftItems {O : Type} : List (Value Empty) → List (Value O)
  | [] => []
  | x :: xs => liftValue x :: liftItems xs
/-- The entries of a map, lifted. -/
def liftEntries {O : Type} : List (String × Value Empty) → List (String × Value O)
  | [] => []
  | (k, v) :: es => (k, liftValue v) :: liftEntries es
end

mutual
/-- Whether a value holds no `json.Number`, at any depth. -/
def numberFree {O : Type} : Value O → Bool
  | .number _ => false
  | .list xs => numberFreeItems xs
  | .map es => numberFreeEntries es
  | _ => true
/-- Whether no item holds a `json.Number`. -/
def numberFreeItems {O : Type} : List (Value O) → Bool
  | [] => true
  | x :: xs => numberFree x && numberFreeItems xs
/-- Whether no entry holds a `json.Number`. -/
def numberFreeEntries {O : Type} : List (String × Value O) → Bool
  | [] => true
  | (_, v) :: es => numberFree v && numberFreeEntries es
end

/-- What a JSON serialization followed by parsing into generic values makes
of the bits of a `float64` and of the literal of a `json.Number`: in both
cases the bits of a `float64`, or an error. -/
structure JsonCodec where
  float : Nat → Except String Nat
  number : String → Except String Nat

mutual
/-- The value `decode(encode(v))` of the spec (section 4.1): a JSON
serialization followed by parsing back into generic values.  Null, booleans
and strings come back as they are, a list as the list of its items and a map
as the map of its members; a `float64` and a `json.Number` come back as the
`float64` of the codec; a value of any other type comes back as what
`json.Unmarshal` makes of its `json.Marshal`. -/
def roundTrip {O : Type} (lib : Lib O) (codec : JsonCodec) :
    Value O → Except String (Value Empty)
  | .null => .ok .null
  | .bool b => .ok (.bool b)
  | .str s => .ok (.str s)
  | .float x => (codec.float x).map Value.float
  | .number s => (codec.number s).map Value.float
  | .list xs => ((roundTripItems lib codec xs).mapM id).map Value.list
  | .map es => ((roundTripEntries lib codec es).mapM id).map Value.map
  | .other o =>
    match lib.marshal o with
    | .error e => .error e
    | .ok b => lib.unmarshal b
/-- The round trip of the items of a list. -/
def roundTripItems {O : Type} (lib : Lib O) (codec : JsonCodec) :
    List (Value O) → List (Except String (Value Empty))
  | [] => []
  | x :: xs => roundTrip lib codec x :: roundTripItems lib codec xs
/-- The round trip of the members of a map. -/
def roundTripEntries {O : Type} (lib : Lib O) (codec : JsonCodec) :
    List (String × Value O) → List (Except String (String × Value Empty))
  | [] => []
  | (k, v) :: es =>
    (roundTrip lib codec v).map (fun d => (k, d)) :: roundTripEntries lib codec es
end

/-- A codec for examples: a `float64` comes back as it is, and the literals
`0` and `1` are the only numbers it reads. -/
def demoCodec : JsonCodec where
  float := fun x => .ok x
  number := fun s =>
    if s = "1" then .ok 4607182418800017408 else if s = "0" then .ok 0
    else .error "number out of range of the example"

/-- A payload without `json.Number`: a float, a value of another type, a
list and a nested map. -/
def demoPlain : Value Nat :=
  .map [("n", .float 0), ("o", .other 7), ("l", .list [.str "s", .null]),
    ("m", .map [("k", .bool true)])]

mutual
/-- A JSON writer for examples, for the values `normalize` returns: strings
in quotes without escapes, the floats 0 and 1 as `0` and `1` (any other
float as `?`), lists in brackets. -/
def demoEncode : Value Empty → Bytes
  | .null => utf8 "null"
  | .bool b => if b then utf8 "true" else utf8 "false"
  | .float x => if x = 0 then utf8 "0" else if x = 4607182418800017408 then utf8 "1" else utf8 "?"
  | .number s => utf8 s
  | .str s => [34] ++ utf8 s ++ [34]
  | .list xs => [91] ++ demoEncodeItems xs ++ [93]
  | .map _ => utf8 "{}"
  | .other o => nomatch o
/-- The items of a list, separated by commas. -/
def demoEncodeItems : List (Value Empty) → Bytes
  | [] => []
  | [x] => demoEncode x
  | x :: y :: rest => demoEncode x ++ [44] ++ demoEncodeItems (y :: rest)
end

/-- The library of the examples with the JSON writer `demoEncode`, which
ends its output with a newline as `Encoder.Encode` does. -/
def demoJson : Lib Nat := { demoLib with encode := fun v => .ok (demoEncode v ++ [10]) }

/-- The roots log of the demo with the range and the time of its root record
replaced, followed by a root record for records the events log does not
hold. -/
def demoRootsForged : List (Line RootRecord) :=
  (entries demoDisk.roots).map
      (fun rt => Line.entry { rt with FromIndex := 41, ToIndex := 42, CreatedAt := 0 }) ++
    [Line.entry { FromIndex := 1000, ToIndex := 2000, RootHash := "ff", CreatedAt := 0 }]

/-- The runtime of the examples with a not-a-number value: `none` is NaN,
every operation on NaN gives NaN and every comparison with NaN is false, as
for `float64`. -/
def nanRuntime : Runtime (Option Int) Nat where
  lit := fun m e => some (demoRuntime.lit m e)
  ofInt := fun n => some (demoRuntime.ofInt n)
  add := fun a b => a.bind fun x => b.map fun y => demoRuntime.add x y
  sub := fun a b => a.bind fun x => b.map fun y => demoRuntime.sub x y
  mul := fun a b => a.bind fun x => b.map fun y => demoRuntime.mul x y
  div := fun a b => a.bind fun x => b.map fun y => demoRuntime.div x y
  neg := fun a => a.map demoRuntime.neg
  abs := fun a => a.map demoRuntime.abs
  log := fun a => a.map demoRuntime.log
  lt := fun a b => (a.bind fun x => b.map fun y => demoRuntime.lt x y).getD false
  le := fun a b => (a.bind fun x => b.map fun y => demoRuntime.le x y).getD false
  newSource := demoRuntime.newSource
  float64 := fun r => (some (demoRuntime.float64 r).1, (demoRuntime.float64 r).2)
  sortSlice := fun less l => l.insertionSort fun x y => less x y = true

/-! ## server/handlers.go -/

/-- The function `verifySignature`.  `hmac key body` stands for the bytes of
`hmac.New(sha256.New, key)` after `Write(body)` and `Sum(nil)`; lengths and
slices of a Go string count bytes; `hmac.Equal` is equality of byte
sequences. -/
def verifySignature (hmac : Bytes → Bytes → Bytes) (body : Bytes) (header secret : String) :
    Bool :=
  if header = "" ∨ secret = "" then false
  else
    let pfx := utf8 "sha256="
    if (utf8 header).length ≤ pfx.length ∨ (utf8 header).take pfx.length ≠ pfx then false
    else
      let provided := (utf8 header).drop pfx.length
      let expected := hexEncode (hmac (utf8 secret) body)
      decide (utf8 expected = provided)

/-- A keyed digest for examples: the example digest of the key followed by
the body. -/
def demoHmac (key body : Bytes) : Bytes := demoLib.sha256 (key ++ body)

/-! ## privacy/aggregate.go: `TokenCounts` -/

/-- The type assertion `val.(string)` on the result of `payload[key]`: the
string when the key is present with a value of dynamic type `string`. -/
def stringOf {O : Type} : Option (Value O) → Option String
  | some (.str s) => some s
  | _ => none

/-- The loop of `extractMint` over the member names.  `trim` stands for
`strings.TrimSpace`; the map `payload` is given by its entries, and
`payload[key]` is `List.lookup`. -/
def extractMintLoop {O : Type} (trim : String → String) (payload : List (String × Value O)) :
    List String → String
  | [] => ""
  | key :: rest =>
    match stringOf (payload.lookup key) with
    | some s => trim s
    | none => extractMintLoop trim payload rest

/-- The function `extractMint`. -/
def extractMint {O : Type} (trim : String → String)
    (payload : Option (List (String × Value O))) : String :=
  match payload with
  | none => ""
  | some p => extractMintLoop trim p ["mint", "tokenMint", "token_address"]

/-- The read `counts[mint]` of a `map[string]int` given by its entries: zero
for a key that is absent. -/
def countOf : List (String × Int) → String → Int
  | [], _ => 0
  | (key, c) :: rest, mint => if key = mint then c else countOf rest mint

/-- The statement `counts[mint]++`.  The count cannot leave the range of
`int`: every counted line holds at least two bytes. -/
def increment : List (String × Int) → String → List (String × Int)
  | [], mint => [(mint, 1)]
  | (key, c) :: rest, mint =>
    if key = mint then (key, c + 1) :: rest else (key, c) :: increment rest mint

/-- The loop of `TokenCounts` over the lines of the events log; `cutoff` is
`time.Now().Add(-window)`. -/
def tokenCountsLoop {O : Type} (trim : String → String) (cutoff : Time) :
    List (Line (Record O)) → List (String × Int) → Except String (List (String × Int))
  | [], counts => .ok counts
  | .blank :: rest, counts => tokenCountsLoop trim cutoff rest counts
  | .garbled err :: _, _ => .error err
  | .entry rec :: rest, counts =>
    if rec.Event.Type_ ≠ "trade" then tokenCountsLoop trim cutoff rest counts
    else if (!rec.Event.Timestamp.IsZero && decide (rec.Event.Timestamp < cutoff)) = true then
      tokenCountsLoop trim cutoff rest counts
    else
      let mint := extractMint trim rec.Event.Payload
      if mint = "" then tokenCountsLoop trim cutoff rest counts
      else tokenCountsLoop trim cutoff rest (increment counts mint)

/-- The function `TokenCounts` on the lines of the events log, with `now` the
reading of `time.Now()`. -/
def TokenCounts {O : Type} (trim : String → String) (events : List (Line (Record O)))
    (window : Int) (now : Time) : Except String (List (String × Int)) :=
  tokenCountsLoop trim (now - window) events []

/-- The key of a payload in the words of the specification: the first member
that is present among the three names decides; its value is the key when it
is a string, and there is no key otherwise. -/
def specKey {O : Type} (trim : String → String) (payload : Option (List (String × Value O))) :
    String :=
  match payload with
  | none => ""
  | some p =>
    match (["mint", "tokenMint", "token_address"].filterMap fun key => p.lookup key).head? with
    | some (.str s) => trim s
    | _ => ""

/-- A record is counted under `mint`: it is a trade, its timestamp is zero or
not before the cutoff, and `extractMint` gives `mint`. -/
def countedAs {O : Type} (trim : String → String) (cutoff : Time) (mint : String)
    (r : Record O) : Bool :=
  decide (r.Event.Type_ = "trade") &&
    (r.Event.Timestamp.IsZero || !decide (r.Event.Timestamp < cutoff)) &&
    decide (extractMint trim r.Event.Payload = mint)

/-- A trim for examples: it removes the spaces at both ends. -/
def demoTrim (s : String) : String :=
  String.mk ((s.data.dropWhile fun c => c == ' ').reverse.dropWhile fun c => c == ' ').reverse

/-- A trade record whose payload holds the given entries. -/
def demoTrade (index : Int) (timestamp : Time) (payload : List (String × Value Empty)) :
    Record Empty :=
  { Index := index, Timestamp := timestamp,
    Event := { ID := "e", Type_ := "trade", Source := "dex", Timestamp := timestamp,
               Payload := some payload },
    PrevHash := "", Hash := "" }

/-- An events log of four trades: a number under `mint` and a string under
`tokenMint`; a string with spaces under `mint`; a trade before the cutoff; a
string of spaces under `mint` and a string under `tokenMint`. -/
def demoTrades : List (Line (Record Empty)) :=
  [.entry (demoTrade 0 100 [("mint", .float 7), ("tokenMint", .str "ABC")]),
   .blank,
   .entry (demoTrade 1 101 [("mint", .str " ABC ")]),
   .entry (demoTrade 2 10 [("mint", .str "ABC")]),
   .entry (demoTrade 3 102 [("mint", .str "  "), ("tokenMint", .str "XYZ")])]

/-! ## policy/engine.go -/

/-- The struct `Condition`. -/
structure Condition (O : Type) where
  Key : String
  Op : String
  Value : Value O

/-- The struct `Rule`.  A nil slice is the empty list. -/
structure Rule (O : Type) where
  ID : String
  Effect : String
  Actions : List String
  Resources : List String
  Roles : List String
  Conditions : List (Condition O)

/-- The struct `Policy`. -/
structure Policy (O : Type) where
  Rules : List (Rule O)

/-- The struct `Subject`.  The map `Attributes` is given by its entries; a nil
map has none. -/
structure Subject (O : Type) where
  ID : String
  Roles : List String
  Attributes : List (String × Value O)

/-- The struct `Input`. -/
structure Input (O : Type) where
  Subject : Subject O
  Action : String
  Resource : String
  Context : List (String × Value O)

/-- The struct `Decision`. -/
structure Decision where
  Allow : Bool
  MatchedRules : List String
  DeniedRules : List String
  Reason : String
  DefaultDeny : Bool
  EvaluatedRule : Int
deriving DecidableEq

/-- What the policy engine takes from the language and its libraries.  `F` is
`float64`; `O` is the type of the dynamic values that are no JSON value, such
as an `int`. -/
structure PolicyLib (F O : Type) where
  /-- The function `strings.ToLower`. -/
  toLower : String → String
  /-- The function `strings.TrimSpace`. -/
  trimSpace : String → String
  /-- The function `strings.EqualFold`. -/
  equalFold : String → String → Bool
  /-- The call `strings.Split(path, ".")`. -/
  splitDots : String → List String
  /-- The call `fmt.Sprintf("%v", v)` on a value that is not nil. -/
  sprint : Value O → String
  /-- The `float64` of the given bits. -/
  ofBits : Nat → F
  /-- The conversion `float64(val)` of an `int` or `int64`; `none` for a value
  of another dynamic type. -/
  intFloat : O → Option F
  /-- The method `json.Number.Float64`; `none` when it returns an error. -/
  parseFloat : String → Option F
  /-- The comparison `>=` of `float64`. -/
  ge : F → F → Bool
  /-- The comparison `<=` of `float64`. -/
  le : F → F → Bool

/-- The function `matchString`. -/
def policy.matchString {F O : Type} (lib : PolicyLib F O) (patterns : List String)
    (value : String) : Bool :=
  if patterns.length = 0 then true
  else patterns.any fun p => decide (p = "*") || lib.equalFold p value

/-- The function `intersects`: the set holds the lower-cased members of `a`. -/
def policy.intersects {F O : Type} (lib : PolicyLib F O) (a b : List String) : Bool :=
  b.any fun v => decide (lib.toLower v ∈ a.map lib.toLower)

/-- The function `toString`; the nil interface is `Value.null`. -/
def policy.toString {F O : Type} (lib : PolicyLib F O) (v : Value O) : String :=
  match v with
  | .null => ""
  | v => lib.sprint v

/-- The function `toFloat`, `none` when its second result is false. -/
def policy.toFloat {F O : Type} (lib : PolicyLib F O) (v : Value O) : Option F :=
  match v with
  | .float bits => some (lib.ofBits bits)
  | .other o => lib.intFloat o
  | .number s => lib.parseFloat s
  | .str s => lib.parseFloat s
  | _ => none

/-- The function `compare`. -/
def policy.compare {F O : Type} (lib : PolicyLib F O) (actual : Value O) (op : String)
    (expected : Value O) : Bool :=
  let o := lib.toLower op
  if o = "eq" then decide (policy.toString lib actual = policy.toString lib expected)
  else if o = "neq" then decide (policy.toString lib actual ≠ policy.toString lib expected)
  else if o = "gte" then
    match policy.toFloat lib actual, policy.toFloat lib expected with
    | some av, some ev => lib.ge av ev
    | _, _ => false
  else if o = "lte" then
    match policy.toFloat lib actual, policy.toFloat lib expected with
    | some av, some ev => lib.le av ev
    | _, _ => false
  else if o = "in" then
    match expected with
    | .list expectedList =>
      expectedList.any fun item =>
        decide (policy.toString lib item = policy.toString lib actual)
    | _ => false
  else false

/-- The loop of `resolveValue` over `parts[1:]`. -/
def policy.walk {O : Type} : Value O → List String → Option (Value O)
  | current, [] => some current
  | .map m, part :: rest =>
    match m.lookup part with
    | some v => policy.walk v rest
    | none => none
  | _, _ :: _ => none

/-- The function `resolveValue`, `none` when its second result is false. -/
def policy.resolveValue {F O : Type} (lib : PolicyLib F O) (path : String) (input : Input O) :
    Option (Value O) :=
  match lib.splitDots path with
  | [] => none
  | first :: rest =>
    if first = "subject" then policy.walk (.map input.Subject.Attributes) rest
    else if first = "context" then policy.walk (.map input.Context) rest
    else none

/-- The function `conditionsMatch`. -/
def policy.conditionsMatch {F O : Type} (lib : PolicyLib F O) :
    List (Condition O) → Input O → Bool
  | [], _ => true
  | cond :: rest, input =>
    if cond.Key = "" then policy.conditionsMatch lib rest input
    else
      match policy.resolveValue lib cond.Key input with
      | none => false
      | some actual =>
        if (!policy.compare lib actual cond.Op cond.Value) = true then false
        else policy.conditionsMatch lib rest input

/-- The loop of `Evaluate` over the rules, on the local variables `decision`
and `allowFound`. -/
def policy.evaluateLoop {F O : Type} (lib : PolicyLib F O) (input : Input O) :
    List (Rule O) → Decision → Bool → Except String (Decision × Bool)
  | [], decision, allowFound => .ok (decision, allowFound)
  | rule :: rest, decision, allowFound =>
    let decision := { decision with EvaluatedRule := decision.EvaluatedRule + 1 }
    if (!policy.matchString lib rule.Actions input.Action) = true then
      policy.evaluateLoop lib input rest decision allowFound
    else if (!policy.matchString lib rule.Resources input.Resource) = true then
      policy.evaluateLoop lib input rest decision allowFound
    else if (decide (rule.Roles.length > 0) &&
        !policy.intersects lib rule.Roles input.Subject.Roles) = true then
      policy.evaluateLoop lib input rest decision allowFound
    else if (!policy.conditionsMatch lib rule.Conditions input) = true then
      policy.evaluateLoop lib input rest decision allowFound
    else
      let effect := lib.toLower (lib.trimSpace rule.Effect)
      if effect = "deny" then
        policy.evaluateLoop lib input rest
          { decision with DeniedRules := decision.DeniedRules ++ [rule.ID] } allowFound
      else if effect = "allow" then
        policy.evaluateLoop lib input rest
          { decision with MatchedRules := decision.MatchedRules ++ [rule.ID] } true
      else .error ("unknown policy effect: " ++ rule.Effect)

/-- The method `Evaluate`; a nil engine is `none`. -/
def policy.Evaluate {F O : Type} (lib : PolicyLib F O) (e : Option (Policy O))
    (input : Input O) : Except String Decision :=
  match e with
  | none => .error "policy engine not configured"
  | some pol =>
    match policy.evaluateLoop lib input pol.Rules
        { Allow := false, MatchedRules := [], DeniedRules := [], Reason := "",
          DefaultDeny := true, EvaluatedRule := 0 } false with
    | .error err => .error err
    | .ok (decision, allowFound) =>
      if decision.DeniedRules.length > 0 then
        .ok { decision with Allow := false, Reason := "explicit deny" }
      else if allowFound = true then
        .ok { decision with Allow := true, Reason := "allow", DefaultDeny := false }
      else .ok { decision with Allow := false, Reason := "no matching allow" }

/-- A rule matches an input: its actions, resources, roles and conditions
pass the four tests of the loop of `Evaluate`. -/
def ruleMatches {F O : Type} (lib : PolicyLib F O) (input : Input O) (rule : Rule O) : Bool :=
  policy.matchString lib rule.Actions input.Action &&
    policy.matchString lib rule.Resources input.Resource &&
    (decide (rule.Roles = []) || policy.intersects lib rule.Roles input.Subject.Roles) &&
    policy.conditionsMatch lib rule.Conditions input

/-- The effect of a rule as `Evaluate` reads it: trimmed and in lower case. -/
def effectOf {F O : Type} (lib : PolicyLib F O) (rule : Rule O) : String :=
  lib.toLower (lib.trimSpace rule.Effect)

/-- The lower case of a string of ASCII letters, for examples. -/
def demoLower (s : String) : String := String.mk (s.data.map Char.toLower)

/-- The pieces of a list of characters between dots, for examples; `cur`
holds the piece being read, last character first. -/
def demoSplit : List Char → List Char → List String
  | [], cur => [String.mk cur.reverse]
  | c :: rest, cur =>
    if c = '.' then String.mk cur.reverse :: demoSplit rest []
    else demoSplit rest (c :: cur)

/-- The number a list of decimal digits writes, for examples. -/
def demoDigits : List Char → Int → Option Int
  | [], acc => some acc
  | c :: rest, acc =>
    if c.isDigit then demoDigits rest (acc * 10 + (c.toNat - 48 : Nat)) else none

/-- A library for examples, on whole numbers: `float64` and `int` are `Int`,
and only strings and truth values are printed as Go prints them. -/
def demoPolicyLib : PolicyLib Int Int where
  toLower := demoLower
  trimSpace := demoTrim
  equalFold := fun a b => decide (demoLower a = demoLower b)
  splitDots := fun s => demoSplit s.data []
  sprint := fun v =>
    match v with
    | .str s => s
    | .bool true => "true"
    | .bool false => "false"
    | _ => "?"
  ofBits := fun n => n
  intFloat := fun o => some o
  parseFloat := fun s => if s.data = [] then none else demoDigits s.data 0
  ge := fun a b => decide (a ≥ b)
  le := fun a b => decide (a ≤ b)

/-- The policy of `TestPolicyDenyOverridesAllow`. -/
def demoPolicy : Policy Int :=
  { Rules :=
      [{ ID := "allow", Effect := "allow", Actions := ["swap.execute"], Resources := ["wallet"],
         Roles := ["user"], Conditions := [] },
       { ID := "deny-large", Effect := "deny", Actions := ["swap.execute"],
         Resources := ["wallet"], Roles := ["user"],
         Conditions := [{ Key := "context.amount_usd", Op := "gte", Value := .other 1000 }] }] }

/-- The input of `TestPolicyDenyOverridesAllow`, with the given amount. -/
def demoInput (amount : Int) : Input Int :=
  { Subject := { ID := "u1", Roles := ["user"], Attributes := [] },
    Action := "swap.execute", Resource := "wallet",
    Context := [("amount_usd", .other amount)] }

/-- The policy of `TestPolicyAllow`. -/
def demoIngestPolicy : Policy Int :=
  { Rules :=
      [{ ID := "allow", Effect := "allow", Actions := ["audit.ingest"], Resources := ["trade"],
         Roles := ["backend"], Conditions := [] }] }

/-- The input of `TestPolicyAllow`. -/
def demoIngestInput : Input Int :=
  { Subject := { ID := "svc", Roles := ["backend"], Attributes := [] },
    Action := "audit.ingest", Resource := "trade", Context := [] }

/-- The decision of `TestPolicyDenyOverridesAllow`. -/
def demoDecision : Decision :=
  { Allow := false, MatchedRules := ["allow"], DeniedRules := ["deny-large"],
    Reason := "explicit deny", DefaultDeny := true, EvaluatedRule := 2 }

/-! ## The limit of the scanners -/

/-- The text of `bufio.ErrTooLong`. -/
def errTooLong : String := "bufio.Scanner: token too long"

/-- The limit `5*1024*1024` that `loadState`, `Verify` and `readRoots` give
their scanner with `scanner.Buffer`. -/
def scanLimit : Nat := 5 * 1024 * 1024

/-- The limit `bufio.MaxScanTokenSize` of the scanner of `readLastRoot`, which
sets no buffer. -/
def defaultScanLimit : Nat := 64 * 1024

/-- The length in bytes, the newline left out, of the lines of the two logs.
The line that `appendJSONLine` writes for a value has the length of
`json.Marshal` of the value; an empty line has length 0. -/
structure LineSizes (O : Type) where
  record : Line (Record O) → Nat
  root : Line RootRecord → Nat

/-- What a `bufio.Scanner` with the given limit makes of a file: the lines it
yields, which are those before the first line of `limit` bytes or more, and
the value of `scanner.Err()`, which is `ErrTooLong` when there is such a
line. -/
def scanFile {α : Type} (limit : Nat) (size : Line α → Nat) :
    List (Line α) → List (Line α) × Option String
  | [] => ([], none)
  | l :: rest =>
    if limit ≤ size l then ([], some errTooLong)
    else (l :: (scanFile limit size rest).1, (scanFile limit size rest).2)

/-- The function `readLastRoot` with the limit of its scanner. -/
def readLastRootFile {O : Type} (sz : LineSizes O) (roots : List (Line RootRecord)) :
    Except String (Option RootRecord) :=
  match readLastRoot (scanFile defaultScanLimit sz.root roots).1 with
  | .error e => .error e
  | .ok last =>
    match (scanFile defaultScanLimit sz.root roots).2 with
    | some e => .error e
    | none => .ok last

/-- The function `readRoots` with the limit of its scanner. -/
def readRootsFile {O : Type} (sz : LineSizes O) (roots : List (Line RootRecord)) :
    Except String (List RootRecord) :=
  match readRoots (scanFile scanLimit sz.root roots).1 with
  | .error e => .error e
  | .ok out =>
    match (scanFile scanLimit sz.root roots).2 with
    | some e => .error e
    | none => .ok out

/-- The method `Store.loadState` with the limits of its scanners: after the
loop over the lines the scanner yields, `return scanner.Err()`. -/
def loadStateFile {O : Type} (sz : LineSizes O) (s : Store) (d : Disk O) :
    Except String Store :=
  match readLastRootFile sz d.roots with
  | .error e => .error e
  | .ok lastRoot =>
    let lastCompletedIndex : Int :=
      match lastRoot with
      | some r => r.ToIndex
      | none => 0
    match loadLoop lastCompletedIndex (scanFile scanLimit sz.record d.events).1 s with
    | .error e => .error e
    | .ok s =>
      match (scanFile scanLimit sz.record d.events).2 with
      | some e => .error e
      | none => .ok s

/-- The function `NewStore` with the limits of the scanners of `loadState`. -/
def NewStoreFile {O : Type} (sz : LineSizes O) (d : Disk O) (batchSize : Int) :
    Except String Store :=
  let batchSize := if batchSize ≤ 0 then 100 else batchSize
  loadStateFile sz
    { batchSize := batchSize, lastIndex := 0, lastHash := "", batchHashes := [],
      batchStart := 0 } d

/-- The function `Verify` with the limits of its scanners: after the loop
over the lines the scanner yields, the test of `scanner.Err()` of lines 88 to
91. -/
def VerifyFile {O : Type} (lib : Lib O) (sz : LineSizes O) (events : List (Line (Record O)))
    (roots : List (Line RootRecord)) (batchSize : Int) : VerifyReport :=
  match readRootsFile sz roots with
  | .error e => VerifyState.init.report.fail ("read roots: " ++ e)
  | .ok rs =>
    let report :=
      (verifyLoop lib rs batchSize VerifyState.init (scanFile scanLimit sz.record events).1).report
    match (scanFile scanLimit sz.record events).2 with
    | some e => report.fail ("scan: " ++ e)
    | none => report

/-- Line lengths for examples: the line of the record of index `big` is taken
to hold 5 MiB, every other record line 120 bytes and every root line 150
bytes. -/
def demoSizes (big : Int) : LineSizes Nat where
  record := fun l =>
    match l with
    | .blank => 0
    | .garbled _ => 1
    | .entry r => if r.Index = big then 5 * 1024 * 1024 else 120
  root := fun l =>
    match l with
    | .blank => 0
    | .garbled _ => 1
    | .entry _ => 150

/-! # Theorems -/

/-! ## encoding/hex and the Merkle root -/

theorem fromHexChar_hexDigit : ∀ n : Fin 16, fromHexChar (hexDigit n.val) = some n.val := by
  decide

theorem fromHexChar_hexDigit_lt (n : Nat) (h : n < 16) : fromHexChar (hexDigit n) = some n :=
  fromHexChar_hexDigit ⟨n, h⟩

theorem uint8_ofNat_split (v : UInt8) : UInt8.ofNat (v.toNat / 16 * 16 + v.toNat % 16) = v := by
  rw [Nat.div_add_mod']
  cases v with
  | mk val =>
    simp [UInt8.ofNat, UInt8.toNat, Fin.ofNat]

theorem hexDecodeChars_encode (b : Bytes) :
    hexDecodeChars (b.flatMap fun v => [hexDigit (v.toNat / 16), hexDigit (v.toNat % 16)]) = some b := by
  induction b with
  | nil => rfl
  | cons v rest ih =>
    have h1 : v.toNat / 16 < 16 := by
      have := v.val.isLt
      have h2 : v.toNat < 256 := this
      omega
    have h2 : v.toNat % 16 < 16 := Nat.mod_lt _ (by decide)
    show hexDecodeChars (hexDigit (v.toNat / 16) :: hexDigit (v.toNat % 16) ::
      (rest.flatMap fun v => [hexDigit (v.toNat / 16), hexDigit (v.toNat % 16)])) = _
    simp only [hexDecodeChars, fromHexChar_hexDigit_lt _ h1, fromHexChar_hexDigit_lt _ h2, ih,
      uint8_ofNat_split]

theorem hexDecode_hexEncode (b : Bytes) : hexDecode (hexEncode b) = some b := by
  simp only [hexDecode, hexEncode, hexDecodeChars_encode]

theorem hexEncode_ne_empty (b : Bytes) (h : b ≠ []) : hexEncode b ≠ "" := by
  cases b with
  | nil => exact absurd rfl h
  | cons v rest =>
    intro hc
    have := congrArg String.data hc
    simp [hexEncode] at this

theorem decodeLevel_map_hexEncode (level : List Bytes) :
    decodeLevel (level.map hexEncode) = some level := by
  induction level with
  | nil => rfl
  | cons b rest ih => simp only [List.map_cons, decodeLevel, hexDecode_hexEncode, ih]

theorem exists_level_of_good (hashes : List String) (h : ∀ x ∈ hashes, GoodHash x) :
    ∃ level : List Bytes, hashes = level.map hexEncode ∧ ∀ b ∈ level, b ≠ [] := by
  induction hashes with
  | nil => exact ⟨[], rfl, by simp⟩
  | cons x rest ih =>
    obtain ⟨level, hl, hne⟩ := ih (fun y hy => h y (List.mem_cons_of_mem _ hy))
    obtain ⟨b, hb, hx⟩ := h x (List.mem_cons_self _ _)
    refine ⟨b :: level, by simp [hx, hl], ?_⟩
    intro c hc
    rcases List.mem_cons.mp hc with rfl | hc
    · exact hb
    · exact hne c hc

theorem sha_ne_nil {O : Type} (lib : Lib O) (hs : ShaSized lib) (x : Bytes) : lib.sha256 x ≠ [] := by
  intro h
  have := hs x
  rw [h] at this
  simp at this

theorem nextLevel_ne_nil {O : Type} (lib : Lib O) (hs : ShaSized lib) :
    ∀ level : List Bytes, level ≠ [] → (∀ b ∈ level, b ≠ []) →
      nextLevel lib level ≠ [] ∧ ∀ b ∈ nextLevel lib level, b ≠ []
  | [], h, _ => absurd rfl h
  | [left], _, _ => by
    simp [nextLevel, hashPair, sha_ne_nil lib hs]
  | left :: right :: [], _, _ => by
    simp [nextLevel, hashPair, sha_ne_nil lib hs]
  | left :: right :: x :: rest, _, hne => by
    have ih := nextLevel_ne_nil lib hs (x :: rest) (by simp)
      (fun b hb => hne b (by simp at hb ⊢; tauto))
    refine ⟨by simp [nextLevel], ?_⟩
    intro b hb
    simp only [nextLevel, List.mem_cons] at hb
    rcases hb with rfl | hb
    · exact sha_ne_nil lib hs _
    · exact ih.2 b (by simpa [nextLevel] using hb)

theorem reduceLevel_ne_nil {O : Type} (lib : Lib O) (hs : ShaSized lib) (fuel : Nat) :
    ∀ level : List Bytes, level ≠ [] → (∀ b ∈ level, b ≠ []) →
      reduceLevel lib fuel level ≠ [] ∧ ∀ b ∈ reduceLevel lib fuel level, b ≠ [] := by
  induction fuel with
  | zero => intro level h1 h2; exact ⟨h1, h2⟩
  | succ n ih =>
    intro level h1 h2
    simp only [reduceLevel]
    split
    · obtain ⟨a, b⟩ := nextLevel_ne_nil lib hs level h1 h2
      exact ih _ a b
    · exact ⟨h1, h2⟩

theorem MerkleRoot_ne_empty {O : Type} (lib : Lib O) (hs : ShaSized lib) (hashes : List String)
    (hne : hashes ≠ []) (hgood : ∀ x ∈ hashes, GoodHash x) : MerkleRoot lib hashes ≠ "" := by
  obtain ⟨level, hl, hb⟩ := exists_level_of_good hashes hgood
  have hlev : level ≠ [] := by
    intro h; apply hne; simp [hl, h]
  subst hl
  have hlen : ¬ (level.map hexEncode).length = 0 := by
    intro h; exact hne (List.length_eq_zero.mp h)
  simp only [MerkleRoot, if_neg hlen, decodeLevel_map_hexEncode]
  obtain ⟨h1, h2⟩ := reduceLevel_ne_nil lib hs level.length level hlev hb
  apply hexEncode_ne_empty
  cases hr : reduceLevel lib level.length level with
  | nil => exact absurd hr h1
  | cons x rest =>
    simp only [List.headD_cons]
    exact h2 x (by simp [hr])

theorem chainHash_good {O : Type} (lib : Lib O) (hs : ShaSized lib) (prev : String) (i : Int) (p : Bytes) :
    GoodHash (chainHash lib prev i p) :=
  ⟨_, sha_ne_nil lib hs _, rfl⟩

/-! ## One append -/

theorem commit_eq {O : Type} (lib : Lib O) (s : Store) (d : Disk O) (r : Record O) (env : Env) :
    commit lib s d r env =
      if s.batchSize ≤ (s.batchHashes.length : Int) + 1 then
        if MerkleRoot lib (s.batchHashes ++ [r.Hash]) = "" then
          ⟨r, none, none, ⟨s.batchSize, r.Index, r.Hash, [], 0⟩, d⟩
        else
          match env.rootsErr with
          | some e =>
            ⟨r, none, some e,
              ⟨s.batchSize, r.Index, r.Hash, s.batchHashes ++ [r.Hash],
                if s.batchHashes.length = 0 then r.Index else s.batchStart⟩, d⟩
          | none =>
            ⟨r, some ⟨if s.batchHashes.length = 0 then r.Index else s.batchStart, r.Index,
                MerkleRoot lib (s.batchHashes ++ [r.Hash]), env.nowRoot⟩, none,
              ⟨s.batchSize, r.Index, r.Hash, [], 0⟩,
              ⟨d.events, d.roots ++ [Line.entry
                ⟨if s.batchHashes.length = 0 then r.Index else s.batchStart, r.Index,
                  MerkleRoot lib (s.batchHashes ++ [r.Hash]), env.nowRoot⟩]⟩⟩
      else
        ⟨r, none, none,
          ⟨s.batchSize, r.Index, r.Hash, s.batchHashes ++ [r.Hash],
            if s.batchHashes.length = 0 then r.Index else s.batchStart⟩, d⟩ := by
  unfold commit appendJSONLine
  by_cases hb : s.batchHashes.length = 0
  · simp only [hb, if_true, List.length_append, List.length_singleton, Nat.cast_add, Nat.cast_one,
      ge_iff_le, ne_eq, ite_not]
    cases env.rootsErr <;> rfl
  · simp only [hb, if_false, List.length_append, List.length_singleton, Nat.cast_add, Nat.cast_one,
      ge_iff_le, ne_eq, ite_not]
    cases env.rootsErr <;> rfl

theorem appendEvent_eq {O : Type} (lib : Lib O) (s : Store) (d : Disk O) (event : Event O) (env : Env) :
    AppendEvent lib s d event env =
      match StableJSON lib (Any.event (stamp event env.nowEvent)) with
      | .error e => ⟨Record.zero, none, some e, s, d⟩
      | .ok payload =>
        match env.eventsErr with
        | some e => ⟨Record.zero, none, some e, s, d⟩
        | none =>
          commit lib s ⟨d.events ++ [Line.entry (newRecord lib s event env payload)], d.roots⟩
            (newRecord lib s event env payload) env := by
  unfold AppendEvent appendJSONLine newRecord
  dsimp only
  cases StableJSON lib (Any.event (stamp event env.nowEvent)) with
  | error e => rfl
  | ok payload => cases env.eventsErr <;> rfl

theorem append_step {O : Type} (lib : Lib O) (hs : ShaSized lib) (B : Nat) (s : Store) (d : Disk O)
    (event : Event O) (env : Env) (hinv : StoreInv B s)
    (hok : (AppendEvent lib s d event env).err = none) :
    ∃ r : Record O, (AppendEvent lib s d event env).record = r ∧
      r.Index = s.lastIndex + 1 ∧ r.PrevHash = s.lastHash ∧ HashOk lib r ∧
      r.Event = stamp event env.nowEvent ∧
      (AppendEvent lib s d event env).disk.events = d.events ++ [Line.entry r] ∧
      (AppendEvent lib s d event env).store.lastIndex = s.lastIndex + 1 ∧
      (AppendEvent lib s d event env).store.lastHash = r.Hash ∧
      StoreInv B (AppendEvent lib s d event env).store ∧
      (if (s.batchHashes ++ [r.Hash]).length = B then
        (AppendEvent lib s d event env).store.batchHashes = [] ∧
        ∃ rt, (AppendEvent lib s d event env).root = some rt ∧
          (AppendEvent lib s d event env).disk.roots = d.roots ++ [Line.entry rt] ∧
          rt.FromIndex = s.lastIndex + 1 - s.batchHashes.length ∧
          rt.ToIndex = s.lastIndex + 1 - s.batchHashes.length + B - 1 ∧
          rt.RootHash = MerkleRoot lib (s.batchHashes ++ [r.Hash])
      else
        (AppendEvent lib s d event env).store.batchHashes = s.batchHashes ++ [r.Hash] ∧
        (AppendEvent lib s d event env).root = none ∧
        (AppendEvent lib s d event env).disk.roots = d.roots) := by
  rw [appendEvent_eq] at hok ⊢
  cases hj : StableJSON lib (Any.event (stamp event env.nowEvent)) with
  | error e => simp [hj] at hok
  | ok payload =>
    simp only [hj] at hok ⊢
    cases he : env.eventsErr with
    | some e => simp [he] at hok
    | none =>
      simp only [he] at hok ⊢
      have hgood : ∀ x ∈ s.batchHashes ++ [(newRecord lib s event env payload).Hash],
          GoodHash x := by
        intro x hx
        rcases List.mem_append.mp hx with hx | hx
        · exact hinv.good x hx
        · simp at hx; subst hx; exact chainHash_good lib hs _ _ _
      have hm := MerkleRoot_ne_empty lib hs _ (by simp) hgood
      have hlt := hinv.open_lt
      have hsz := hinv.size
      have hst := hinv.start
      rw [commit_eq] at hok ⊢
      refine ⟨newRecord lib s event env payload, ?_, rfl, rfl, ⟨payload, hj, rfl⟩, rfl, ?_⟩
      · split <;> [(split <;> [rfl; (split <;> rfl)]); rfl]
      · by_cases hlen : (s.batchHashes ++ [(newRecord lib s event env payload).Hash]).length = B
        · have hle : s.batchSize ≤ (s.batchHashes.length : Int) + 1 := by
            simp at hlen; omega
          rw [if_pos hle, if_neg hm] at hok ⊢
          cases hr : env.rootsErr with
          | some e => simp [hr] at hok
          | none =>
            rw [if_pos hlen]
            refine ⟨rfl, rfl, rfl, ⟨hsz, by simp; omega, by simp, by simp⟩, rfl, _, rfl, rfl, ?_,
              ?_, rfl⟩
            · by_cases hb : s.batchHashes = []
              · simp [hb, newRecord]
              · simp [hb, hst]
            · simp at hlen; simp [newRecord]; omega
        · have hle : ¬ s.batchSize ≤ (s.batchHashes.length : Int) + 1 := by
            simp at hlen; omega
          rw [if_neg hle]
          rw [if_neg hlen]
          refine ⟨rfl, rfl, rfl, ⟨hsz, ?_, hgood, ?_⟩, rfl, rfl, rfl⟩
          · simp at hlen ⊢; omega
          · by_cases hb : s.batchHashes = []
            · simp [hb, newRecord]
            · simp [hb, hst, newRecord]

/-! ## Runs of appends -/

theorem run_inv {O : Type} (lib : Lib O) (hs : ShaSized lib) (B : Nat) :
    ∀ (inputs : List (Event O × Env)) (s : Store) (d : Disk O), StoreInv B s →
      appendsOk lib s d inputs = true →
      ∃ (recs : List (Record O)) (rts : List RootRecord),
        (appendAll lib s d inputs).2.events = d.events ++ recs.map Line.entry ∧
        (appendAll lib s d inputs).2.roots = d.roots ++ rts.map Line.entry ∧
        recs.length = inputs.length ∧
        ChainFrom lib s.lastIndex s.lastHash recs ∧
        RootsMatch lib B (s.lastIndex + 1 - s.batchHashes.length) s.batchHashes
          (recs.map fun r => r.Hash) rts ∧
        StoreInv B (appendAll lib s d inputs).1 ∧
        (appendAll lib s d inputs).1.lastIndex = s.lastIndex + recs.length ∧
        (appendAll lib s d inputs).1.lastHash = lastHashOf s.lastHash recs ∧
        (appendAll lib s d inputs).1.batchHashes =
          openBatch B s.batchHashes (recs.map fun r => r.Hash) := by
  intro inputs
  induction inputs with
  | nil =>
    intro s d hinv _
    exact ⟨[], [], by simp [appendAll], by simp [appendAll], rfl, trivial, rfl, hinv,
      by simp [appendAll], rfl, rfl⟩
  | cons x rest ih =>
    obtain ⟨event, env⟩ := x
    intro s d hinv hok
    simp only [appendsOk, Bool.and_eq_true, Option.isNone_iff_eq_none] at hok
    obtain ⟨r, hrec, hidx, hprev, hhash, _, hev, hli, hlh, hinv1, hroot⟩ :=
      append_step lib hs B s d event env hinv hok.1
    obtain ⟨recs, rts, h1, h2, h3, h4, h5, h6, h7, h8, h9⟩ :=
      ih (AppendEvent lib s d event env).store (AppendEvent lib s d event env).disk hinv1 hok.2
    simp only [appendAll]
    by_cases hlen : (s.batchHashes ++ [r.Hash]).length = B
    · rw [if_pos hlen] at hroot
      obtain ⟨hbh, rt, _, hrts, hfrom, hto, hrh⟩ := hroot
      refine ⟨r :: recs, rt :: rts, ?_, ?_, by simp [h3], ?_, ?_, h6, ?_, ?_, ?_⟩
      · rw [h1, hev]; simp
      · rw [h2, hrts]; simp
      · refine ⟨hidx, hprev, hhash, ?_⟩
        rw [← hli, ← hlh]; exact h4
      · simp only [List.map_cons, RootsMatch, if_pos hlen]
        refine ⟨rt, rts, rfl, hfrom, hto, hrh, ?_⟩
        rw [hbh, hli] at h5
        simp only [List.length_append, List.length_singleton] at hlen
        have : s.lastIndex + 1 + 1 - ((([] : List String).length : Nat) : Int)
            = s.lastIndex + 1 - (s.batchHashes.length : Int) + (B : Int) := by
          simp; omega
        rw [← this]; exact h5
      · rw [h7, hli]; simp; omega
      · rw [h8, hlh]; rfl
      · rw [h9, hbh]; simp only [List.map_cons, openBatch, if_pos hlen]
    · rw [if_neg hlen] at hroot
      obtain ⟨hbh, _, hrts⟩ := hroot
      refine ⟨r :: recs, rts, ?_, ?_, by simp [h3], ?_, ?_, h6, ?_, ?_, ?_⟩
      · rw [h1, hev]; simp
      · rw [h2, hrts]
      · refine ⟨hidx, hprev, hhash, ?_⟩
        rw [← hli, ← hlh]; exact h4
      · simp only [List.map_cons, RootsMatch, if_neg hlen]
        rw [hbh, hli] at h5
        have : s.lastIndex + 1 + 1 - (((s.batchHashes ++ [r.Hash]).length : Nat) : Int)
            = s.lastIndex + 1 - (s.batchHashes.length : Int) := by
          simp
        rw [← this]; exact h5
      · rw [h7, hli]; simp; omega
      · rw [h8, hlh]; rfl
      · rw [h9, hbh]; simp only [List.map_cons, openBatch, if_neg hlen]

theorem chainFrom_index {O : Type} (lib : Lib O) :
    ∀ (recs : List (Record O)) (idx : Int) (prev : String), ChainFrom lib idx prev recs →
      ∀ (i : Nat) (h : i < recs.length), (recs[i]).Index = idx + i + 1
  | [], _, _, _, i, h => absurd h (Nat.not_lt_zero i)
  | r :: rest, idx, prev, hc, 0, _ => by simpa using hc.1
  | r :: rest, idx, prev, hc, i + 1, h => by
    have := chainFrom_index lib rest (idx + 1) r.Hash hc.2.2.2 i (by simpa using h)
    simp only [List.getElem_cons_succ, this]
    push_cast; ring

theorem chainFrom_head {O : Type} (lib : Lib O) (recs : List (Record O)) (idx : Int)
    (prev : String) (hc : ChainFrom lib idx prev recs) (h : 0 < recs.length) :
    (recs[0]).PrevHash = prev := by
  cases recs with
  | nil => exact absurd h (Nat.lt_irrefl 0)
  | cons r rest => exact hc.2.1

theorem chainFrom_link {O : Type} (lib : Lib O) :
    ∀ (recs : List (Record O)) (idx : Int) (prev : String), ChainFrom lib idx prev recs →
      ∀ (i : Nat) (h : i + 1 < recs.length), (recs[i + 1]).PrevHash = (recs[i]).Hash
  | [], _, _, _, i, h => absurd h (Nat.not_lt_zero _)
  | [_], _, _, _, i, h => by simp at h
  | r :: r2 :: rest, idx, prev, hc, 0, _ => hc.2.2.2.2.1
  | r :: r2 :: rest, idx, prev, hc, i + 1, h => by
    have := chainFrom_link lib (r2 :: rest) (idx + 1) r.Hash hc.2.2.2 i (by simpa using h)
    simpa using this

theorem chainFrom_hashOk {O : Type} (lib : Lib O) :
    ∀ (recs : List (Record O)) (idx : Int) (prev : String), ChainFrom lib idx prev recs →
      ∀ r ∈ recs, HashOk lib r
  | [], _, _, _, r, h => by simp at h
  | r0 :: rest, idx, prev, hc, r, h => by
    rcases List.mem_cons.mp h with rfl | h
    · exact hc.2.2.1
    · exact chainFrom_hashOk lib rest _ _ hc.2.2.2 r h

theorem lastHashOf_eq {O : Type} :
    ∀ (recs : List (Record O)) (prev : String) (h : 0 < recs.length),
      lastHashOf prev recs = (recs[recs.length - 1]).Hash
  | [], _, h => absurd h (Nat.lt_irrefl 0)
  | [r], _, _ => rfl
  | r :: r2 :: rest, prev, _ => by
    have := lastHashOf_eq (r2 :: rest) r.Hash (by simp)
    simp only [lastHashOf] at this ⊢
    rw [this]
    simp

theorem openBatch_eq (B : Nat) (hB : 0 < B) :
    ∀ (hashes pending : List String), pending.length < B →
      openBatch B pending hashes =
        (pending ++ hashes).drop ((pending.length + hashes.length) / B * B)
  | [], pending, hlt => by
    simp [openBatch, Nat.div_eq_of_lt hlt]
  | h :: hs, pending, hlt => by
    simp only [openBatch]
    by_cases hlen : (pending ++ [h]).length = B
    · rw [if_pos hlen, openBatch_eq B hB hs [] (by simpa using hB)]
      simp only [List.length_append, List.length_singleton] at hlen
      have e1 : pending.length + (h :: hs).length = hs.length + B := by
        simp; omega
      rw [e1, Nat.add_div_right _ hB, Nat.succ_mul]
      simp only [List.nil_append, List.length_nil, Nat.zero_add]
      have e2 : pending ++ h :: hs = (pending ++ [h]) ++ hs := by simp
      rw [e2, Nat.add_comm (hs.length / B * B) B, ← List.drop_drop]
      congr 1
      rw [List.drop_append_of_le_length (by simp; omega)]
      have : List.drop B (pending ++ [h]) = [] := by
        apply List.drop_of_length_le; simp; omega
      rw [this]; rfl
    · rw [if_neg hlen, openBatch_eq B hB hs (pending ++ [h]) (by
        simp only [List.length_append, List.length_singleton] at hlen ⊢; omega)]
      have e1 : (pending ++ [h]) ++ hs = pending ++ h :: hs := by simp
      have e2 : (pending ++ [h]).length + hs.length = pending.length + (h :: hs).length := by
        simp; omega
      rw [e1, e2]

theorem rootsMatch_closed {O : Type} (lib : Lib O) (B : Nat) (hB : 0 < B) :
    ∀ (hashes pending : List String) (start : Int) (rts : List RootRecord),
      pending.length < B → RootsMatch lib B start pending hashes rts →
      rts.length = (pending.length + hashes.length) / B ∧
      ∀ (j : Nat) (h : j < rts.length),
        (rts[j]).FromIndex = start + j * B ∧ (rts[j]).ToIndex = start + (j + 1) * B - 1 ∧
        (rts[j]).RootHash = MerkleRoot lib (((pending ++ hashes).drop (j * B)).take B)
  | [], pending, start, rts, hlt, hm => by
    simp only [RootsMatch] at hm
    subst hm
    simp [Nat.div_eq_of_lt hlt]
  | h :: hs, pending, start, rts, hlt, hm => by
    simp only [RootsMatch] at hm
    by_cases hlen : (pending ++ [h]).length = B
    · rw [if_pos hlen] at hm
      obtain ⟨rt, rest, hrts, hfrom, hto, hrh, hrest⟩ := hm
      obtain ⟨ih1, ih2⟩ := rootsMatch_closed lib B hB hs [] (start + B) rest (by simpa using hB) hrest
      subst hrts
      have hlen2 : pending.length + 1 = B := by simpa using hlen
      have e2 : pending ++ h :: hs = (pending ++ [h]) ++ hs := by simp
      constructor
      · have e1 : pending.length + (h :: hs).length = hs.length + B := by
          simp; omega
        rw [e1, Nat.add_div_right _ hB]
        simp [ih1]
      · intro j hj
        cases j with
        | zero =>
          refine ⟨by simpa using hfrom, by simpa using hto, ?_⟩
          simp only [List.getElem_cons_zero, Nat.zero_mul, List.drop_zero]
          rw [hrh, e2, List.take_append_of_le_length (by omega), List.take_of_length_le (by omega)]
        | succ j =>
          obtain ⟨a, b, c⟩ := ih2 j (by simpa using hj)
          simp only [List.getElem_cons_succ]
          refine ⟨?_, ?_, ?_⟩
          · rw [a]; push_cast; ring
          · rw [b]; push_cast; ring
          · rw [c, e2, Nat.succ_mul, Nat.add_comm (j * B) B, ← List.drop_drop]
            rw [@List.drop_append_of_le_length _ (pending ++ [h]) hs B (by omega)]
            rw [@List.drop_of_length_le _ B (pending ++ [h]) (by omega)]
    · rw [if_neg hlen] at hm
      have hlen2 : pending.length + 1 ≠ B := by simpa using hlen
      obtain ⟨ih1, ih2⟩ := rootsMatch_closed lib B hB hs (pending ++ [h]) start rts
        (by simp; omega) hm
      have e1 : (pending ++ [h]) ++ hs = pending ++ h :: hs := by simp
      have e2 : (pending ++ [h]).length + hs.length = pending.length + (h :: hs).length := by
        simp; omega
      rw [e1] at ih2
      rw [e2] at ih1
      exact ⟨ih1, ih2⟩

/-! ## Verification of a log without faults -/

theorem verifyStep_entry {O : Type} (lib : Lib O) (roots : List RootRecord) (B : Int)
    (st : VerifyState) (r : Record O) (hidx : r.Index = st.expectedIndex + 1)
    (hprev : r.PrevHash = st.expectedPrev) (hhash : HashOk lib r) :
    verifyStep lib roots B st (Line.entry r) =
      if B > 0 ∧ ((st.currentBatch ++ [r.Hash]).length : Int) = B then
        match roots[st.rootIndex]? with
        | none =>
          ⟨VerifyReport.fail
              { st.report with Total := r.Index, LastIndex := r.Index, LastHash := r.Hash }
              "missing root record",
            st.rootIndex, [], r.Hash, st.expectedIndex + 1⟩
        | some expected =>
          if expected.RootHash ≠ MerkleRoot lib (st.currentBatch ++ [r.Hash]) then
            ⟨{ VerifyReport.fail
                { st.report with Total := r.Index, LastIndex := r.Index, LastHash := r.Hash }
                ("root mismatch for batch ending " ++ toString r.Index) with
                RootsChecked := st.report.RootsChecked + 1 },
              st.rootIndex + 1, [], r.Hash, st.expectedIndex + 1⟩
          else
            ⟨{ st.report with Total := r.Index, LastIndex := r.Index, LastHash := r.Hash,
                              RootsChecked := st.report.RootsChecked + 1 },
              st.rootIndex + 1, [], r.Hash, st.expectedIndex + 1⟩
      else
        ⟨{ st.report with Total := r.Index, LastIndex := r.Index, LastHash := r.Hash },
          st.rootIndex, st.currentBatch ++ [r.Hash], r.Hash, st.expectedIndex + 1⟩ := by
  obtain ⟨payload, hj, hh⟩ := hhash
  have h1 : (r.Index != st.expectedIndex + 1) = false := by simp [hidx]
  have h2 : (r.PrevHash != st.expectedPrev) = false := by simp [hprev]
  have h3 : (chainHash lib r.PrevHash r.Index payload != r.Hash) = false := by simp [← hh]
  unfold verifyStep
  dsimp only
  rw [h1, h2]
  simp only [hj, h3, VerifyReport.failIf, Bool.false_eq_true, if_false]
  split
  · cases roots[st.rootIndex]? with
    | none => rfl
    | some expected =>
      dsimp only
      by_cases h5 : expected.RootHash = MerkleRoot lib (st.currentBatch ++ [r.Hash])
      · simp [h5]
      · simp [h5, VerifyReport.fail]
  · rfl

theorem verifyLoop_honest {O : Type} (lib : Lib O) (roots : List RootRecord) (B : Nat)
    (hB : 0 < B) :
    ∀ (recs : List (Record O)) (st : VerifyState) (start : Int) (rts more : List RootRecord),
      GoodV st → st.currentBatch.length < B →
      ChainFrom lib st.expectedIndex st.expectedPrev recs →
      roots.drop st.rootIndex = rts ++ more →
      RootsMatch lib B start st.currentBatch (recs.map fun r => r.Hash) rts →
      GoodV (verifyLoop lib roots B st (recs.map Line.entry)) ∧
      (verifyLoop lib roots B st (recs.map Line.entry)).expectedIndex =
        st.expectedIndex + recs.length ∧
      (verifyLoop lib roots B st (recs.map Line.entry)).expectedPrev =
        lastHashOf st.expectedPrev recs ∧
      (verifyLoop lib roots B st (recs.map Line.entry)).rootIndex =
        st.rootIndex + rts.length ∧
      (verifyLoop lib roots B st (recs.map Line.entry)).report.RootsChecked =
        st.report.RootsChecked + rts.length ∧
      (verifyLoop lib roots B st (recs.map Line.entry)).currentBatch =
        openBatch B st.currentBatch (recs.map fun r => r.Hash)
  | [], st, start, rts, more, hg, _, _, _, hm => by
    simp only [List.map_nil, RootsMatch] at hm
    subst hm
    simp [verifyLoop, openBatch, lastHashOf, hg]
  | r :: rest, st, start, rts, more, hg, hlt, hc, hroots, hm => by
    obtain ⟨hidx, hprev, hhash, hc2⟩ := hc
    have hstep := verifyStep_entry lib roots B st r hidx hprev hhash
    simp only [List.map_cons, RootsMatch] at hm
    simp only [verifyLoop, List.map_cons, List.foldl_cons]
    by_cases hlen : (st.currentBatch ++ [r.Hash]).length = B
    · rw [if_pos hlen] at hm
      obtain ⟨rt, rts2, hrts, _, _, hrh, hm2⟩ := hm
      subst hrts
      have hget : roots[st.rootIndex]? = some rt := by
        have := congrArg (fun l => l[0]?) hroots
        simpa using this
      have hcond : (B : Int) > 0 ∧ ((st.currentBatch ++ [r.Hash]).length : Int) = B := by
        rw [hlen]; exact ⟨by exact_mod_cast hB, rfl⟩
      rw [if_pos hcond, hget] at hstep
      simp only [hrh, ne_eq, not_true_eq_false, if_false] at hstep
      have hroots2 : roots.drop (st.rootIndex + 1) = rts2 ++ more := by
        have := congrArg (List.drop 1) hroots
        simpa [List.drop_drop, Nat.add_comm] using this
      rw [hstep]
      obtain ⟨g, a, b, c, d, e⟩ := verifyLoop_honest lib roots B hB rest
        ⟨{ st.report with Total := r.Index, LastIndex := r.Index, LastHash := r.Hash,
                          RootsChecked := st.report.RootsChecked + 1 },
          st.rootIndex + 1, [], r.Hash, st.expectedIndex + 1⟩ (start + B) rts2 more
        ⟨hg.ok, hg.errors, hidx, hidx, rfl⟩ (by simpa using hB) hc2 hroots2 hm2
      simp only [verifyLoop] at g a b c d e
      refine ⟨g, ?_, ?_, ?_, ?_, ?_⟩
      · rw [a]; simp; omega
      · rw [b]; rfl
      · rw [c]; simp; omega
      · rw [d]; simp; omega
      · rw [e]; simp only [openBatch, if_pos hlen]
    · rw [if_neg hlen] at hm
      have hcond : ¬ ((B : Int) > 0 ∧ ((st.currentBatch ++ [r.Hash]).length : Int) = B) := by
        intro h; exact hlen (by exact_mod_cast h.2)
      rw [if_neg hcond] at hstep
      rw [hstep]
      obtain ⟨g, a, b, c, d, e⟩ := verifyLoop_honest lib roots B hB rest
        ⟨{ st.report with Total := r.Index, LastIndex := r.Index, LastHash := r.Hash },
          st.rootIndex, st.currentBatch ++ [r.Hash], r.Hash, st.expectedIndex + 1⟩ start rts more
        ⟨hg.ok, hg.errors, hidx, hidx, rfl⟩
        (by simp only [List.length_append, List.length_singleton] at hlen ⊢; omega)
        hc2 hroots hm
      simp only [verifyLoop] at g a b c d e
      refine ⟨g, ?_, ?_, c, d, ?_⟩
      · rw [a]; simp; omega
      · rw [b]; rfl
      · rw [e]; simp only [openBatch, if_neg hlen]

/-! ## The chain of records -/

theorem readRoots_entries : ∀ rts : List RootRecord, readRoots (rts.map Line.entry) = .ok rts
  | [] => rfl
  | r :: rest => by simp only [List.map_cons, readRoots, readRoots_entries rest]

theorem newStore_empty {O : Type} (B : Nat) (hB : 0 < B) :
    NewStore (Disk.empty : Disk O) (B : Int) = .ok ⟨B, 0, "", [], 0⟩ := by
  have h : ¬ ((B : Int) ≤ 0) := by omega
  simp only [NewStore, if_neg h, loadState, Disk.empty, readLastRoot, readLastRootLoop, loadLoop]

theorem storeInv_fresh (B : Nat) (hB : 0 < B) : StoreInv B ⟨B, 0, "", [], 0⟩ :=
  ⟨rfl, hB, by simp, by simp⟩

theorem append_record {O : Type} (lib : Lib O) (s : Store) (d : Disk O) (event : Event O)
    (env : Env) (hok : (AppendEvent lib s d event env).err = none) :
    ∃ payload, StableJSON lib (Any.event (stamp event env.nowEvent)) = .ok payload ∧
      env.eventsErr = none ∧
      (AppendEvent lib s d event env).record = newRecord lib s event env payload ∧
      (AppendEvent lib s d event env).disk.events =
        d.events ++ [Line.entry (newRecord lib s event env payload)] ∧
      (AppendEvent lib s d event env).store.lastIndex = s.lastIndex + 1 ∧
      (AppendEvent lib s d event env).store.lastHash =
        (newRecord lib s event env payload).Hash := by
  rw [appendEvent_eq] at hok ⊢
  cases hj : StableJSON lib (Any.event (stamp event env.nowEvent)) with
  | error e => simp [hj] at hok
  | ok payload =>
    simp only [hj] at hok ⊢
    cases he : env.eventsErr with
    | some e => simp [he] at hok
    | none =>
      simp only [he] at hok ⊢
      rw [commit_eq]
      refine ⟨payload, rfl, trivial, ?_, ?_, ?_, ?_⟩ <;>
        (split <;> [(split <;> [rfl; (split <;> rfl)]); rfl])

theorem run_chain {O : Type} (lib : Lib O) :
    ∀ (inputs : List (Event O × Env)) (s : Store) (d : Disk O),
      appendsOk lib s d inputs = true →
      ∃ recs : List (Record O),
        (appendAll lib s d inputs).2.events = d.events ++ recs.map Line.entry ∧
        recs.length = inputs.length ∧ ChainFrom lib s.lastIndex s.lastHash recs
  | [], s, d, _ => ⟨[], by simp [appendAll], rfl, trivial⟩
  | (event, env) :: rest, s, d, hok => by
    simp only [appendsOk, Bool.and_eq_true, Option.isNone_iff_eq_none] at hok
    obtain ⟨payload, hj, _, hrec, hev, hli, hlh⟩ := append_record lib s d event env hok.1
    obtain ⟨recs, h1, h2, h3⟩ := run_chain lib rest _ _ hok.2
    refine ⟨newRecord lib s event env payload :: recs, ?_, by simp [h2], ?_⟩
    · simp only [appendAll]; rw [h1, hev]; simp
    · refine ⟨rfl, rfl, ⟨payload, hj, rfl⟩, ?_⟩
      rw [hli, hlh] at h3; exact h3

/-- C1. After any run of successful `AppendEvent` calls on a fresh store, of
any positive batch size, the events log holds one record per call, the
record at position `i` (from 0) has index `i + 1`, the first record has an
empty `prev_hash`, and every later record's `prev_hash` is the `hash` of the
record before it. -/
theorem events_log_is_chain {O : Type} (lib : Lib O) (B : Nat) (s0 : Store)
    (inputs : List (Event O × Env)) (hB : 0 < B)
    (hnew : NewStore (Disk.empty : Disk O) (B : Int) = .ok s0)
    (hok : appendsOk lib s0 Disk.empty inputs = true) :
    ∃ recs : List (Record O),
      (appendAll lib s0 Disk.empty inputs).2.events = recs.map Line.entry ∧
      recs.length = inputs.length ∧
      (∀ (i : Nat) (h : i < recs.length), (recs[i]).Index = i + 1) ∧
      (∀ h : 0 < recs.length, (recs[0]).PrevHash = "") ∧
      ∀ (i : Nat) (h : i + 1 < recs.length), (recs[i + 1]).PrevHash = (recs[i]).Hash := by
  rw [newStore_empty B hB] at hnew
  cases hnew
  obtain ⟨recs, h1, h2, h3⟩ := run_chain lib inputs _ _ hok
  refine ⟨recs, by simpa [Disk.empty] using h1, h2, ?_, ?_, ?_⟩
  · intro i h
    simpa using chainFrom_index lib recs _ _ h3 i h
  · intro h
    exact chainFrom_head lib recs _ _ h3 h
  · intro i h
    exact chainFrom_link lib recs _ _ h3 i h

theorem events_log_is_chain_witness :
    (0 < 2 ∧ appendsOk demoLib demoStore Disk.empty demoInputs = true) ∧
    ∃ recs : List (Record Nat),
      (appendAll demoLib demoStore Disk.empty demoInputs).2.events = recs.map Line.entry ∧
      recs.length = demoInputs.length ∧
      (∀ (i : Nat) (h : i < recs.length), (recs[i]).Index = i + 1) ∧
      (∀ h : 0 < recs.length, (recs[0]).PrevHash = "") ∧
      ∀ (i : Nat) (h : i + 1 < recs.length), (recs[i + 1]).PrevHash = (recs[i]).Hash :=
  ⟨⟨by decide, by decide⟩,
    events_log_is_chain demoLib 2 demoStore demoInputs (by decide)
      (newStore_empty 2 (by decide)) (by decide)⟩

theorem utf8_append (a b : String) : utf8 (a ++ b) = utf8 a ++ utf8 b := by
  simp [utf8, String.data_append]

theorem hexDigit_lower : ∀ n : Fin 16, hexDigit n.val ∈ "0123456789abcdef".data := by
  decide

theorem hexEncode_lower (b : Bytes) : ∀ c ∈ (hexEncode b).data, c ∈ "0123456789abcdef".data := by
  intro c hc
  simp only [hexEncode, List.mem_flatMap] at hc
  obtain ⟨v, _, hv⟩ := hc
  have h1 : v.toNat / 16 < 16 := by
    have h2 : v.toNat < 256 := v.val.isLt
    omega
  have h2 : v.toNat % 16 < 16 := Nat.mod_lt _ (by decide)
  simp only [List.mem_cons, List.mem_singleton, List.not_mem_nil, or_false] at hv
  rcases hv with rfl | rfl
  · exact hexDigit_lower ⟨_, h1⟩
  · exact hexDigit_lower ⟨_, h2⟩

/-- C2. The record a successful `AppendEvent` returns is the line it adds to
the events log; its index is `lastIndex + 1`, its `prev_hash` is the store's
`lastHash` before the call, and its hash is the lowercase hex of SHA-256 over
the bytes of `prev_hash`, `|`, the decimal digits of the index, `|` and the
stable JSON of the stored event, so that recomputing the chain hash from the
stored fields gives the stored hash. -/
theorem appended_record_hash {O : Type} (lib : Lib O) (s : Store) (d : Disk O)
    (event : Event O) (env : Env) (hok : (AppendEvent lib s d event env).err = none) :
    (AppendEvent lib s d event env).disk.events =
        d.events ++ [Line.entry (AppendEvent lib s d event env).record] ∧
      (AppendEvent lib s d event env).record.Index = s.lastIndex + 1 ∧
      (AppendEvent lib s d event env).record.PrevHash = s.lastHash ∧
      ∃ payload,
        StableJSON lib (Any.event (AppendEvent lib s d event env).record.Event) = .ok payload ∧
        (AppendEvent lib s d event env).record.Hash =
          hexEncode (lib.sha256
            (utf8 (AppendEvent lib s d event env).record.PrevHash ++ utf8 "|" ++
              utf8 (toString (AppendEvent lib s d event env).record.Index) ++ utf8 "|" ++
              payload)) ∧
        (AppendEvent lib s d event env).record.Hash =
          chainHash lib (AppendEvent lib s d event env).record.PrevHash
            (AppendEvent lib s d event env).record.Index payload ∧
        ∀ c ∈ (AppendEvent lib s d event env).record.Hash.data,
          c ∈ "0123456789abcdef".data := by
  obtain ⟨payload, hj, _, hrec, hev, _, _⟩ := append_record lib s d event env hok
  rw [hrec]
  refine ⟨hev, rfl, rfl, payload, hj, ?_, rfl, ?_⟩
  · simp [newRecord, chainHash, hashBytes, utf8_append]
  · exact hexEncode_lower _

theorem appended_record_hash_witness :
    (AppendEvent demoLib demoStore Disk.empty (demoEvent 0) demoEnv).err = none ∧
    (AppendEvent demoLib demoStore Disk.empty (demoEvent 0) demoEnv).record.Index = 1 ∧
    (AppendEvent demoLib demoStore Disk.empty (demoEvent 0) demoEnv).record.PrevHash = "" :=
  ⟨by decide,
    (appended_record_hash demoLib demoStore Disk.empty (demoEvent 0) demoEnv (by decide)).2.1,
    (appended_record_hash demoLib demoStore Disk.empty (demoEvent 0) demoEnv (by decide)).2.2.1⟩

/-! ## Runs from a fresh store -/

theorem demoLib_sized : ShaSized demoLib := fun _ => List.length_replicate _ _

/-- What a run of successful appends on a fresh store of batch size `B`
leaves: the records, the root records, and the store. -/
theorem fresh_run {O : Type} (lib : Lib O) (hs : ShaSized lib) (B : Nat) (hB : 0 < B)
    (s0 : Store) (inputs : List (Event O × Env))
    (hnew : NewStore (Disk.empty : Disk O) (B : Int) = .ok s0)
    (hok : appendsOk lib s0 Disk.empty inputs = true) :
    ∃ (recs : List (Record O)) (rts : List RootRecord),
      (appendAll lib s0 Disk.empty inputs).2.events = recs.map Line.entry ∧
      (appendAll lib s0 Disk.empty inputs).2.roots = rts.map Line.entry ∧
      recs.length = inputs.length ∧
      ChainFrom lib 0 "" recs ∧
      RootsMatch lib B 1 [] (recs.map fun r => r.Hash) rts ∧
      StoreInv B (appendAll lib s0 Disk.empty inputs).1 ∧
      (appendAll lib s0 Disk.empty inputs).1.lastIndex = recs.length ∧
      (appendAll lib s0 Disk.empty inputs).1.lastHash = lastHashOf "" recs ∧
      (appendAll lib s0 Disk.empty inputs).1.batchHashes =
        openBatch B [] (recs.map fun r => r.Hash) := by
  rw [newStore_empty B hB] at hnew
  cases hnew
  obtain ⟨recs, rts, h1, h2, h3, h4, h5, h6, h7, h8, h9⟩ :=
    run_inv lib hs B inputs _ _ (storeInv_fresh B hB) hok
  refine ⟨recs, rts, by simpa [Disk.empty] using h1, by simpa [Disk.empty] using h2, h3, h4,
    by simpa using h5, h6, by simpa using h7, h8, h9⟩

/-- C5. After any run of `N` successful `AppendEvent` calls on a fresh store
of positive batch size `B`, the roots log holds `N / B` root records; the one
at position `j` (from 0) has `from_index = j * B + 1` and
`to_index = (j + 1) * B`, so it spans `B` indices, all of them in the events
log, and its `root_hash` is the Merkle root of the hashes of the records at
positions `j * B` to `(j + 1) * B - 1`, which are the records with those
indices. -/
theorem roots_log_of_appends {O : Type} (lib : Lib O) (B : Nat) (s0 : Store)
    (inputs : List (Event O × Env)) (hs : ShaSized lib) (hB : 0 < B)
    (hnew : NewStore (Disk.empty : Disk O) (B : Int) = .ok s0)
    (hok : appendsOk lib s0 Disk.empty inputs = true) :
    ∃ (recs : List (Record O)) (rts : List RootRecord),
      (appendAll lib s0 Disk.empty inputs).2.events = recs.map Line.entry ∧
      (appendAll lib s0 Disk.empty inputs).2.roots = rts.map Line.entry ∧
      recs.length = inputs.length ∧
      (∀ (i : Nat) (h : i < recs.length), (recs[i]).Index = i + 1) ∧
      rts.length = inputs.length / B ∧
      ∀ (j : Nat) (h : j < rts.length),
        (rts[j]).FromIndex = j * B + 1 ∧ (rts[j]).ToIndex = (j + 1) * B ∧
        (rts[j]).ToIndex - (rts[j]).FromIndex + 1 = B ∧
        (rts[j]).ToIndex ≤ recs.length ∧
        (rts[j]).RootHash =
          MerkleRoot lib (((recs.map fun r => r.Hash).drop (j * B)).take B) := by
  obtain ⟨recs, rts, h1, h2, h3, h4, h5, _⟩ := fresh_run lib hs B hB s0 inputs hnew hok
  obtain ⟨c1, c2⟩ := rootsMatch_closed lib B hB _ [] 1 rts (by simpa using hB) h5
  simp only [List.length_nil, Nat.zero_add, List.length_map, List.nil_append] at c1 c2
  refine ⟨recs, rts, h1, h2, h3, ?_, by rw [c1, h3], ?_⟩
  · intro i h
    simpa using chainFrom_index lib recs _ _ h4 i h
  · intro j hj
    obtain ⟨a, b, c⟩ := c2 j hj
    have hjB : (j + 1) * B ≤ recs.length := by
      have h1 : j + 1 ≤ recs.length / B := by omega
      calc (j + 1) * B ≤ recs.length / B * B := Nat.mul_le_mul_right B h1
        _ ≤ recs.length := Nat.div_mul_le_self _ _
    refine ⟨by rw [a]; ring, by rw [b]; ring, by rw [a, b]; ring, ?_, c⟩
    have hjB2 : (((j : Int) + 1) * (B : Int)) ≤ (recs.length : Int) := by exact_mod_cast hjB
    rw [b]; linarith

theorem roots_log_of_appends_witness :
    (ShaSized demoLib ∧ 0 < 2 ∧ appendsOk demoLib demoStore Disk.empty demoInputs = true) ∧
    ∃ (recs : List (Record Nat)) (rts : List RootRecord),
      (appendAll demoLib demoStore Disk.empty demoInputs).2.events = recs.map Line.entry ∧
      (appendAll demoLib demoStore Disk.empty demoInputs).2.roots = rts.map Line.entry ∧
      recs.length = demoInputs.length ∧
      (∀ (i : Nat) (h : i < recs.length), (recs[i]).Index = i + 1) ∧
      rts.length = demoInputs.length / 2 ∧
      ∀ (j : Nat) (h : j < rts.length),
        (rts[j]).FromIndex = j * (2 : Nat) + 1 ∧ (rts[j]).ToIndex = (j + 1) * (2 : Nat) ∧
        (rts[j]).ToIndex - (rts[j]).FromIndex + 1 = (2 : Nat) ∧
        (rts[j]).ToIndex ≤ recs.length ∧
        (rts[j]).RootHash =
          MerkleRoot demoLib (((recs.map fun r => r.Hash).drop (j * 2)).take 2) :=
  ⟨⟨demoLib_sized, by decide, by decide⟩,
    roots_log_of_appends demoLib 2 demoStore demoInputs demoLib_sized (by decide)
      (newStore_empty 2 (by decide)) (by decide)⟩

/-! ## Recovery of the store from the files -/

theorem readLastRootLoop_spec :
    ∀ (roots : List (Line RootRecord)) (last : Option RootRecord), decodable roots = true →
      readLastRootLoop roots last =
        .ok (match (entries roots).getLast? with
          | some r => some r
          | none => last)
  | [], last, _ => rfl
  | .blank :: rest, last, h => by
    simpa [readLastRootLoop, entries] using readLastRootLoop_spec rest last (by simpa [decodable] using h)
  | .garbled e :: rest, last, h => by simp [decodable] at h
  | .entry r :: rest, last, h => by
    have ih := readLastRootLoop_spec rest (some r) (by simpa [decodable] using h)
    simp only [readLastRootLoop, entries, ih]
    cases hr : entries rest with
    | nil => simp
    | cons x xs =>
      simp only [List.getLast?_cons_cons]
      cases hg : (x :: xs).getLast? with
      | none => simp at hg
      | some y => rfl

theorem loadLoop_spec {O : Type} (c : Int) :
    ∀ (lines : List (Line (Record O))) (s : Store), decodable lines = true →
      (∀ r ∈ entries lines, 1 ≤ r.Index) →
      ∃ s', loadLoop c lines s = .ok s' ∧ s'.batchSize = s.batchSize ∧
        s'.lastIndex = lastIndexOf s.lastIndex (entries lines) ∧
        s'.lastHash = lastHashOf s.lastHash (entries lines) ∧
        s'.batchHashes = s.batchHashes ++ (pendingOf c (entries lines)).map (fun r => r.Hash) ∧
        s'.batchStart =
          if s.batchStart = 0 then firstIndexOf (pendingOf c (entries lines)) else s.batchStart
  | [], s, _, _ => by
    refine ⟨s, rfl, rfl, rfl, rfl, by simp [entries, pendingOf], ?_⟩
    by_cases hb : s.batchStart = 0 <;> simp [entries, pendingOf, hb, firstIndexOf]
  | .blank :: rest, s, h, hi => by
    simpa [loadLoop, entries] using loadLoop_spec c rest s (by simpa [decodable] using h)
      (by simpa [entries] using hi)
  | .garbled e :: rest, s, h, _ => by simp [decodable] at h
  | .entry r :: rest, s, h, hi => by
    have hr : 1 ≤ r.Index := hi r (by simp [entries])
    have hi2 : ∀ x ∈ entries rest, 1 ≤ x.Index := fun x hx => hi x (by simp [entries, hx])
    have hd : decodable rest = true := by simpa [decodable] using h
    by_cases hc : r.Index > c
    · by_cases hb : s.batchStart = 0
      · obtain ⟨s', h1, h2, h3, h4, h5, h6⟩ := loadLoop_spec c rest
          ⟨s.batchSize, r.Index, r.Hash, s.batchHashes ++ [r.Hash], r.Index⟩ hd hi2
        refine ⟨s', ?_, h2, h3, h4, ?_, ?_⟩
        · simp only [loadLoop, hc, hb, if_true]; exact h1
        · rw [h5]; simp [entries, pendingOf, hc]
        · have : r.Index ≠ 0 := by omega
          rw [h6]; simp [entries, pendingOf, hc, hb, this, firstIndexOf]
      · obtain ⟨s', h1, h2, h3, h4, h5, h6⟩ := loadLoop_spec c rest
          ⟨s.batchSize, r.Index, r.Hash, s.batchHashes ++ [r.Hash], s.batchStart⟩ hd hi2
        refine ⟨s', ?_, h2, h3, h4, ?_, ?_⟩
        · simp only [loadLoop, hc, hb, if_true, if_false]; exact h1
        · rw [h5]; simp [entries, pendingOf, hc]
        · rw [h6]; simp [hb]
    · obtain ⟨s', h1, h2, h3, h4, h5, h6⟩ := loadLoop_spec c rest
        ⟨s.batchSize, r.Index, r.Hash, s.batchHashes, s.batchStart⟩ hd hi2
      refine ⟨s', ?_, h2, h3, h4, ?_, ?_⟩
      · simp only [loadLoop, hc, if_false]; exact h1
      · rw [h5]; simp [entries, pendingOf, hc]
      · rw [h6]; simp [entries, pendingOf, hc]

/-- What `loadState` makes of a new store on files without undecodable lines. -/
theorem loadState_spec {O : Type} (d : Disk O) (b : Int)
    (he : decodable d.events = true) (hr : decodable d.roots = true)
    (hidx : ∀ r ∈ entries d.events, 1 ≤ r.Index) :
    ∃ s, loadState ⟨b, 0, "", [], 0⟩ d = .ok s ∧ s.batchSize = b ∧
      s.lastIndex = lastIndexOf 0 (entries d.events) ∧
      s.lastHash = lastHashOf "" (entries d.events) ∧
      s.batchHashes =
        (pendingOf (lastCompleted d.roots) (entries d.events)).map (fun r => r.Hash) ∧
      s.batchStart = firstIndexOf (pendingOf (lastCompleted d.roots) (entries d.events)) := by
  have hroot := readLastRootLoop_spec d.roots none hr
  obtain ⟨s, h1, h2, h3, h4, h5, h6⟩ :=
    loadLoop_spec (lastCompleted d.roots) d.events ⟨b, 0, "", [], 0⟩ he hidx
  refine ⟨s, ?_, h2, h3, h4, by simpa using h5, by simpa using h6⟩
  simp only [loadState, readLastRoot, hroot]
  rw [← h1]
  simp only [lastCompleted]
  cases (entries d.roots).getLast? <;> rfl

/-- C7. On an events log and a roots log without undecodable lines, the
records having indices of at least 1, `loadState` succeeds on a new store and
leaves `lastIndex` and `lastHash` equal to the index and hash of the final
record (0 and the empty string when there is none), `batchHashes` equal to
the hashes, in file order, of the records whose index is greater than the
`to_index` of the last root record (than 0 when there is none), and
`batchStart` equal to the index of the first of these (0 when there is
none). -/
theorem loadState_recovers {O : Type} (d : Disk O) (b : Int)
    (he : decodable d.events = true) (hr : decodable d.roots = true)
    (hidx : ∀ r ∈ entries d.events, 1 ≤ r.Index) :
    ∃ s, loadState ⟨b, 0, "", [], 0⟩ d = .ok s ∧ s.batchSize = b ∧
      s.lastIndex = lastIndexOf 0 (entries d.events) ∧
      s.lastHash = lastHashOf "" (entries d.events) ∧
      s.batchHashes =
        (pendingOf (lastCompleted d.roots) (entries d.events)).map (fun r => r.Hash) ∧
      s.batchStart = firstIndexOf (pendingOf (lastCompleted d.roots) (entries d.events)) :=
  loadState_spec d b he hr hidx

theorem loadState_recovers_witness :
    (decodable demoDisk.events = true ∧ decodable demoDisk.roots = true) ∧
    ∃ s, loadState ⟨2, 0, "", [], 0⟩ demoDisk = .ok s ∧ s.batchSize = 2 ∧
      s.lastIndex = lastIndexOf 0 (entries demoDisk.events) ∧
      s.lastHash = lastHashOf "" (entries demoDisk.events) ∧
      s.batchHashes =
        (pendingOf (lastCompleted demoDisk.roots) (entries demoDisk.events)).map
          (fun r => r.Hash) ∧
      s.batchStart =
        firstIndexOf (pendingOf (lastCompleted demoDisk.roots) (entries demoDisk.events)) :=
  ⟨⟨by decide, by decide⟩,
    loadState_recovers demoDisk 2 (by decide) (by decide) (by decide)⟩

/-! ## Reopening the store -/

theorem entries_map_entry {α : Type} : ∀ xs : List α, entries (xs.map Line.entry) = xs
  | [] => rfl
  | x :: rest => by simp only [List.map_cons, entries, entries_map_entry rest]

theorem decodable_map_entry {α : Type} : ∀ xs : List α, decodable (xs.map Line.entry) = true
  | [] => rfl
  | x :: rest => by simp only [List.map_cons, decodable, decodable_map_entry rest]

theorem pendingOf_chain {O : Type} (lib : Lib O) :
    ∀ (recs : List (Record O)) (idx : Int) (prev : String) (c : Int),
      ChainFrom lib idx prev recs → pendingOf c recs = recs.drop (c - idx).toNat
  | [], _, _, _, _ => by simp [pendingOf]
  | r :: rest, idx, prev, c, hc => by
    have ih := pendingOf_chain lib rest (idx + 1) r.Hash c hc.2.2.2
    have hidx := hc.1
    simp only [pendingOf] at ih ⊢
    by_cases hgt : r.Index > c
    · have h0 : (c - idx).toNat = 0 := by omega
      have h1 : (c - (idx + 1)).toNat = 0 := by omega
      rw [h1] at ih
      rw [h0, List.filter_cons_of_pos (by simpa using hgt), ih]
      rfl
    · have h0 : (c - idx).toNat = (c - (idx + 1)).toNat + 1 := by omega
      rw [h0, List.filter_cons_of_neg (by simpa using hgt), ih]
      rfl

theorem lastIndexOf_chain {O : Type} (lib : Lib O) :
    ∀ (recs : List (Record O)) (idx : Int) (prev : String),
      ChainFrom lib idx prev recs → lastIndexOf idx recs = idx + recs.length
  | [], _, _, _ => by simp [lastIndexOf]
  | r :: rest, idx, prev, hc => by
    have ih := lastIndexOf_chain lib rest (idx + 1) r.Hash hc.2.2.2
    simp only [lastIndexOf, hc.1, ih, List.length_cons]
    push_cast; ring

theorem appendAll_append {O : Type} (lib : Lib O) :
    ∀ (xs ys : List (Event O × Env)) (s : Store) (d : Disk O),
      appendAll lib s d (xs ++ ys) =
        appendAll lib (appendAll lib s d xs).1 (appendAll lib s d xs).2 ys
  | [], _, _, _ => rfl
  | (event, env) :: rest, ys, s, d => by
    simp only [List.cons_append, appendAll]
    exact appendAll_append lib rest ys _ _

theorem appendsOk_append {O : Type} (lib : Lib O) :
    ∀ (xs ys : List (Event O × Env)) (s : Store) (d : Disk O),
      appendsOk lib s d (xs ++ ys) =
        (appendsOk lib s d xs &&
          appendsOk lib (appendAll lib s d xs).1 (appendAll lib s d xs).2 ys)
  | [], _, _, _ => by simp [appendsOk, appendAll]
  | (event, env) :: rest, ys, s, d => by
    have ih := appendsOk_append lib rest ys (AppendEvent lib s d event env).store
      (AppendEvent lib s d event env).disk
    show ((AppendEvent lib s d event env).err.isNone && appendsOk lib _ _ (rest ++ ys)) = _
    rw [ih]
    simp only [appendsOk, appendAll, Bool.and_assoc]

/-- Reopening the store on the files a run of successful appends left
gives back the store the run ended with. -/
theorem newStore_after_run {O : Type} (lib : Lib O) (hs : ShaSized lib) (B : Nat) (hB : 0 < B)
    (s0 : Store) (inputs : List (Event O × Env))
    (hnew : NewStore (Disk.empty : Disk O) (B : Int) = .ok s0)
    (hok : appendsOk lib s0 Disk.empty inputs = true) :
    NewStore (appendAll lib s0 Disk.empty inputs).2 (B : Int) =
      .ok (appendAll lib s0 Disk.empty inputs).1 := by
  obtain ⟨recs, rts, h1, h2, h3, h4, h5, h6, h7, h8, h9⟩ :=
    fresh_run lib hs B hB s0 inputs hnew hok
  obtain ⟨c1, c2⟩ := rootsMatch_closed lib B hB _ [] 1 rts (by simpa using hB) h5
  simp only [List.length_nil, Nat.zero_add, List.length_map, List.nil_append] at c1 c2
  have hidx : ∀ r ∈ entries (appendAll lib s0 Disk.empty inputs).2.events, 1 ≤ r.Index := by
    rw [h1, entries_map_entry]
    intro r hr
    obtain ⟨i, hi, rfl⟩ := List.getElem_of_mem hr
    have := chainFrom_index lib recs _ _ h4 i hi
    omega
  obtain ⟨s, e1, e0, e2, e3, e4, e5⟩ :=
    loadState_spec (appendAll lib s0 Disk.empty inputs).2 B
      (by rw [h1]; exact decodable_map_entry _) (by rw [h2]; exact decodable_map_entry _) hidx
  have hlc : lastCompleted (appendAll lib s0 Disk.empty inputs).2.roots
      = ((recs.length / B * B : Nat) : Int) := by
    rw [h2]
    simp only [lastCompleted, entries_map_entry]
    cases hg : rts.getLast? with
    | none =>
      have : rts = [] := List.getLast?_eq_none_iff.mp hg
      rw [this] at c1
      simp only [List.length_nil] at c1
      rw [← c1]; simp
    | some rt =>
      have hne : rts ≠ [] := by intro h; rw [h] at hg; simp at hg
      have hpos : 0 < rts.length := List.length_pos.mpr hne
      have hrt : rt = rts[rts.length - 1] := by
        rw [List.getLast?_eq_getElem?, List.getElem?_eq_getElem (by omega)] at hg
        exact (Option.some.inj hg).symm
      obtain ⟨_, b, _⟩ := c2 (rts.length - 1) (by omega)
      rw [hrt]
      show (rts[rts.length - 1]).ToIndex = _
      rw [b, ← c1]
      have : ((rts.length - 1 : Nat) : Int) + 1 = rts.length := by omega
      rw [this]; push_cast; ring
  have hpend : pendingOf (lastCompleted (appendAll lib s0 Disk.empty inputs).2.roots)
      (entries (appendAll lib s0 Disk.empty inputs).2.events)
      = recs.drop (recs.length / B * B) := by
    rw [h1, entries_map_entry, hlc]
    have := pendingOf_chain lib recs 0 "" ((recs.length / B * B : Nat) : Int) h4
    simpa using this
  rw [hpend] at e4 e5
  rw [h1, entries_map_entry] at e2 e3
  have hob := openBatch_eq B hB (recs.map fun r => r.Hash) [] (by simpa using hB)
  simp only [List.length_nil, Nat.zero_add, List.length_map, List.nil_append] at hob
  rw [hob, ← List.map_drop] at h9
  have hle : recs.length / B * B ≤ recs.length := Nat.div_mul_le_self _ _
  have hst := h6.start
  have hfin : s = (appendAll lib s0 Disk.empty inputs).1 := by
    rcases s with ⟨a1, a2, a3, a4, a5⟩
    rcases hS : (appendAll lib s0 Disk.empty inputs).1 with ⟨b1, b2, b3, b4, b5⟩
    have hsz := h6.size
    rw [hS] at h7 h8 h9 hst hsz
    simp only at e0 e2 e3 e4 e5 h7 h8 h9 hst hsz
    have l1 : a2 = b2 := by
      rw [e2, h7, lastIndexOf_chain lib recs 0 "" h4]; simp
    have l2 : a3 = b3 := by rw [e3, h8]
    have l3 : a4 = b4 := by rw [e4, h9]
    have l4 : a5 = b5 := by
      rw [e5, hst, h9]
      by_cases hk : recs.length / B * B = recs.length
      · rw [hk]; simp [firstIndexOf]
      · have hlt : recs.length / B * B < recs.length := lt_of_le_of_ne hle hk
        have hne : List.map (fun r => r.Hash) (List.drop (recs.length / B * B) recs) ≠ [] := by
          intro h
          have := congrArg List.length h
          simp at this; omega
        have hd : List.drop (recs.length / B * B) recs =
            recs[recs.length / B * B] :: List.drop (recs.length / B * B + 1) recs :=
          List.drop_eq_getElem_cons hlt
        rw [if_neg hne]
        simp only [List.length_map, List.length_drop]
        rw [hd]
        simp only [firstIndexOf]
        rw [chainFrom_index lib recs _ _ h4 _ hlt, h7]
        push_cast [Nat.cast_sub hle]; ring
    rw [l1, l2, l3, l4, e0, hsz]
  have hnb : ¬ ((B : Int) ≤ 0) := by omega
  simp only [NewStore, if_neg hnb]
  rw [e1, hfin]

/-- The report of `Verify` on the files a run of successful appends on a
fresh store left. -/
theorem verify_report_of_run {O : Type} (lib : Lib O) (hs : ShaSized lib) (B : Nat)
    (hB : 0 < B) (s0 : Store) (inputs : List (Event O × Env))
    (hnew : NewStore (Disk.empty : Disk O) (B : Int) = .ok s0)
    (hok : appendsOk lib s0 Disk.empty inputs = true) :
    Verify lib (appendAll lib s0 Disk.empty inputs).2.events
        (appendAll lib s0 Disk.empty inputs).2.roots B =
      { OK := true, Total := inputs.length, LastIndex := inputs.length,
        LastHash := (appendAll lib s0 Disk.empty inputs).1.lastHash,
        RootsChecked := ((inputs.length / B : Nat) : Int), Errors := [] } := by
  obtain ⟨recs, rts, h1, h2, h3, h4, h5, _, _, h8, _⟩ :=
    fresh_run lib hs B hB s0 inputs hnew hok
  obtain ⟨c1, _⟩ := rootsMatch_closed lib B hB _ [] 1 rts (by simpa using hB) h5
  simp only [List.length_nil, Nat.zero_add, List.length_map] at c1
  obtain ⟨g, a, b, _, d, _⟩ := verifyLoop_honest lib rts B hB recs VerifyState.init 1 rts []
    ⟨rfl, rfl, rfl, rfl, rfl⟩ (by simpa [VerifyState.init] using hB) h4
    (by simp [VerifyState.init]) h5
  simp only [Verify, h1, h2, readRoots_entries]
  rcases hv : (verifyLoop lib rts (B : Int) VerifyState.init (recs.map Line.entry)).report with
    ⟨v1, v2, v3, v4, v5, v6⟩
  have g1 := g.ok
  have g2 := g.errors
  have g3 := g.total
  have g4 := g.lastIndex
  have g5 := g.lastHash
  rw [hv] at g1 g2 g3 g4 g5 d
  simp only at g1 g2 g3 g4 g5 d
  rw [a] at g3 g4
  rw [b] at g5
  rw [g1, g2, g3, g4, g5, d, h8, c1, h3]
  simp [VerifyState.init]

/-- On files in which no line reaches the limit of a scanner: after any run
of `N` successful appends on a fresh store of positive batch size `B`,
`NewStore` on the same files with the same `B` succeeds, and
if the next `AppendEvent` on the reopened store succeeds, its record has
index `N + 1` and a `prev_hash` equal to the hash of the last record of the
log (`lastHashOf`, empty when `N = 0`), and `Verify` with batch size `B` over the files
reports `OK = true`, `Total = N + 1` and `RootsChecked = (N + 1) / B`. -/
theorem reopen_then_append {O : Type} (lib : Lib O) (B : Nat) (s0 : Store)
    (inputs : List (Event O × Env)) (event : Event O) (env : Env)
    (hs : ShaSized lib) (hB : 0 < B)
    (hnew : NewStore (Disk.empty : Disk O) (B : Int) = .ok s0)
    (hok : appendsOk lib s0 Disk.empty inputs = true) :
    ∃ s1, NewStore (appendAll lib s0 Disk.empty inputs).2 (B : Int) = .ok s1 ∧
      ((AppendEvent lib s1 (appendAll lib s0 Disk.empty inputs).2 event env).err = none →
        (AppendEvent lib s1 (appendAll lib s0 Disk.empty inputs).2 event env).record.Index =
          inputs.length + 1 ∧
        (∀ recs : List (Record O),
          (appendAll lib s0 Disk.empty inputs).2.events = recs.map Line.entry →
          (AppendEvent lib s1 (appendAll lib s0 Disk.empty inputs).2 event env).record.PrevHash =
            lastHashOf "" recs) ∧
        (Verify lib
          (AppendEvent lib s1 (appendAll lib s0 Disk.empty inputs).2 event env).disk.events
          (AppendEvent lib s1 (appendAll lib s0 Disk.empty inputs).2 event env).disk.roots
          B).OK = true ∧
        (Verify lib
          (AppendEvent lib s1 (appendAll lib s0 Disk.empty inputs).2 event env).disk.events
          (AppendEvent lib s1 (appendAll lib s0 Disk.empty inputs).2 event env).disk.roots
          B).Total = inputs.length + 1 ∧
        (Verify lib
          (AppendEvent lib s1 (appendAll lib s0 Disk.empty inputs).2 event env).disk.events
          (AppendEvent lib s1 (appendAll lib s0 Disk.empty inputs).2 event env).disk.roots
          B).RootsChecked = (((inputs.length + 1) / B : Nat) : Int)) := by
  refine ⟨_, newStore_after_run lib hs B hB s0 inputs hnew hok, ?_⟩
  intro hnext
  obtain ⟨recs, _, h1, _, h3, _, _, _, h7, h8, _⟩ := fresh_run lib hs B hB s0 inputs hnew hok
  obtain ⟨payload, _, _, hrec, _, _, _⟩ := append_record lib _ _ event env hnext
  have hall : appendAll lib s0 Disk.empty (inputs ++ [(event, env)]) =
      ((AppendEvent lib (appendAll lib s0 Disk.empty inputs).1
          (appendAll lib s0 Disk.empty inputs).2 event env).store,
        (AppendEvent lib (appendAll lib s0 Disk.empty inputs).1
          (appendAll lib s0 Disk.empty inputs).2 event env).disk) := by
    rw [appendAll_append]; rfl
  have hok2 : appendsOk lib s0 Disk.empty (inputs ++ [(event, env)]) = true := by
    rw [appendsOk_append, hok]
    simp [appendsOk, hnext]
  have hv := verify_report_of_run lib hs B hB s0 (inputs ++ [(event, env)]) hnew hok2
  rw [hall] at hv
  simp only at hv
  refine ⟨?_, ?_, ?_, ?_, ?_⟩
  · rw [hrec]; simp [newRecord, h7, h3]
  · intro recs2 h2
    have : recs2 = recs := by
      have := h1.symm.trans h2
      exact (List.map_injective_iff.mpr (fun a b h => by injection h) this).symm
    rw [hrec, this]
    show (appendAll lib s0 Disk.empty inputs).1.lastHash = _
    exact h8
  · rw [hv]
  · rw [hv]; simp
  · rw [hv]; simp

/-! ## Tampering with a record line -/

theorem failIf_ok (report : VerifyReport) (c : Bool) (msg : String) :
    (report.failIf c msg).OK = (report.OK && !c) := by
  cases c <;> simp [VerifyReport.failIf, VerifyReport.fail]

theorem not_bne_eq_decide {α : Type} [DecidableEq α] (a b : α) : (!(a != b)) = decide (a = b) := by
  by_cases h : a = b <;> simp [h]

/-- The flag `OK` after the loop body of `Verify` has run on a record. -/
theorem verifyStep_entry_ok {O : Type} (lib : Lib O) (roots : List RootRecord) (B : Int)
    (st : VerifyState) (r : Record O) :
    (verifyStep lib roots B st (Line.entry r)).report.OK =
      (st.report.OK && decide (r.Index = st.expectedIndex + 1) &&
        decide (r.PrevHash = st.expectedPrev) &&
        match StableJSON lib (Any.event r.Event) with
        | .error _ => false
        | .ok payload =>
          decide (chainHash lib r.PrevHash r.Index payload = r.Hash) &&
            (if B > 0 ∧ ((st.currentBatch ++ [r.Hash]).length : Int) = B then
              match roots[st.rootIndex]? with
              | none => false
              | some expected =>
                decide (expected.RootHash = MerkleRoot lib (st.currentBatch ++ [r.Hash]))
            else true)) := by
  unfold verifyStep
  dsimp only
  cases hj : StableJSON lib (Any.event r.Event) with
  | error e => simp [VerifyReport.fail]
  | ok payload =>
    dsimp only
    split
    · cases hr : roots[st.rootIndex]? with
      | none => simp [VerifyReport.fail]
      | some expected => simp only [failIf_ok, Bool.and_assoc, not_bne_eq_decide]
    · simp only [failIf_ok, Bool.and_assoc, not_bne_eq_decide, if_false, Bool.and_true]

/-- Once `OK` is false it stays false. -/
theorem verifyStep_sticky {O : Type} (lib : Lib O) (roots : List RootRecord) (B : Int)
    (st : VerifyState) (line : Line (Record O)) (h : st.report.OK = false) :
    (verifyStep lib roots B st line).report.OK = false := by
  cases line with
  | blank => exact h
  | garbled e => rfl
  | entry r => rw [verifyStep_entry_ok, h]; simp

theorem verifyLoop_sticky {O : Type} (lib : Lib O) (roots : List RootRecord) (B : Int) :
    ∀ (lines : List (Line (Record O))) (st : VerifyState), st.report.OK = false →
      (verifyLoop lib roots B st lines).report.OK = false
  | [], _, h => h
  | line :: rest, st, h => by
    simp only [verifyLoop, List.foldl_cons]
    exact verifyLoop_sticky lib roots B rest _ (verifyStep_sticky lib roots B st line h)

theorem verifyLoop_append {O : Type} (lib : Lib O) (roots : List RootRecord) (B : Int)
    (st : VerifyState) (xs ys : List (Line (Record O))) :
    verifyLoop lib roots B st (xs ++ ys) =
      verifyLoop lib roots B (verifyLoop lib roots B st xs) ys := by
  simp [verifyLoop, List.foldl_append]

/-- A record on which the loop body leaves `OK` true passes the three
checks. -/
theorem verifyStep_passes {O : Type} (lib : Lib O) (roots : List RootRecord) (B : Int)
    (st : VerifyState) (r : Record O)
    (h : (verifyStep lib roots B st (Line.entry r)).report.OK = true) :
    r.Index = st.expectedIndex + 1 ∧ r.PrevHash = st.expectedPrev ∧ HashOk lib r := by
  rw [verifyStep_entry_ok] at h
  simp only [Bool.and_eq_true, decide_eq_true_eq] at h
  obtain ⟨⟨⟨_, h1⟩, h2⟩, h3⟩ := h
  refine ⟨h1, h2, ?_⟩
  cases hj : StableJSON lib (Any.event r.Event) with
  | error e => simp [hj] at h3
  | ok payload =>
    simp only [hj, Bool.and_eq_true, decide_eq_true_eq] at h3
    exact ⟨payload, hj, h3.1.symm⟩

/-- A detectable line makes the loop body set `OK` to false, when the record
it stands in for passed from the same state. -/
theorem verifyStep_detects {O : Type} (lib : Lib O) (roots : List RootRecord) (B : Int)
    (st : VerifyState) (r : Record O) (line : Line (Record O))
    (hidx : r.Index = st.expectedIndex + 1) (hprev : r.PrevHash = st.expectedPrev)
    (hdet : Detectable lib r line) :
    (verifyStep lib roots B st line).report.OK = false := by
  cases line with
  | blank => exact absurd hdet id
  | garbled e => rfl
  | entry t =>
    rw [verifyStep_entry_ok]
    rcases hdet with h | h | h
    · have : ¬ t.Index = st.expectedIndex + 1 := by rw [← hidx]; exact h
      simp [this]
    · have : ¬ t.PrevHash = st.expectedPrev := by rw [← hprev]; exact h
      simp [this]
    · cases hj : StableJSON lib (Any.event t.Event) with
      | error e => simp
      | ok payload =>
        have : ¬ chainHash lib t.PrevHash t.Index payload = t.Hash :=
          fun hc => h ⟨payload, hj, hc.symm⟩
        simp [this]

/-- A detectable line in the place of a record line turns `OK` to false. -/
theorem verify_flags_detectable {O : Type} (lib : Lib O)
    (before after : List (Line (Record O))) (r : Record O) (line : Line (Record O))
    (roots : List (Line RootRecord)) (B : Int)
    (hok : (Verify lib (before ++ Line.entry r :: after) roots B).OK = true)
    (hdet : Detectable lib r line) :
    (Verify lib (before ++ line :: after) roots B).OK = false := by
  unfold Verify at hok ⊢
  cases hr : readRoots roots with
  | error e => rfl
  | ok rs =>
    simp only [hr] at hok ⊢
    rw [verifyLoop_append] at hok ⊢
    simp only [verifyLoop, List.foldl_cons] at hok ⊢
    have hstep : (verifyStep lib rs B (List.foldl (verifyStep lib rs B) VerifyState.init before)
        (Line.entry r)).report.OK = true := by
      by_contra hc
      have hf := verifyLoop_sticky lib rs B after _ (Bool.eq_false_iff.mpr hc)
      simp only [verifyLoop] at hf
      rw [hf] at hok
      exact Bool.false_ne_true hok
    obtain ⟨h1, h2, _⟩ := verifyStep_passes lib rs B _ r hstep
    have hd := verifyStep_detects lib rs B _ r line h1 h2 hdet
    exact verifyLoop_sticky lib rs B after _ hd

/-- The loop body of `Verify` does not read the timestamp of the record. -/
theorem verifyStep_timestamp {O : Type} (lib : Lib O) (roots : List RootRecord) (B : Int)
    (st : VerifyState) (r : Record O) (t : Time) :
    verifyStep lib roots B st (Line.entry { r with Timestamp := t }) =
      verifyStep lib roots B st (Line.entry r) := rfl

/-- C4, as amended.  On an events log and a roots log on which `Verify`
reports `OK = true`, replacing one record line by a line that does not
decode, or that decodes to a record whose index or `prev_hash` differs from
the original's, or whose stored hash is not the chain hash recomputed from
its own `prev_hash`, index and event, makes `Verify`, with the same roots log
and batch size, report `OK = false`; replacing the record's own timestamp,
which the chain hash does not cover, leaves the report as it was. -/
theorem verify_detects_tamper {O : Type} (lib : Lib O) (before after : List (Line (Record O)))
    (r : Record O) (roots : List (Line RootRecord)) (B : Int)
    (hok : (Verify lib (before ++ Line.entry r :: after) roots B).OK = true) :
    (∀ line, Detectable lib r line →
      (Verify lib (before ++ line :: after) roots B).OK = false) ∧
    ∀ t : Time,
      Verify lib (before ++ Line.entry { r with Timestamp := t } :: after) roots B =
        Verify lib (before ++ Line.entry r :: after) roots B := by
  refine ⟨fun line hdet => verify_flags_detectable lib before after r line roots B hok hdet, ?_⟩
  intro t
  unfold Verify
  cases readRoots roots with
  | error e => rfl
  | ok rs =>
    simp only [verifyLoop, List.foldl_append, List.foldl_cons, verifyStep_timestamp]

theorem verify_detects_tamper_witness :
    (Verify demoLib ([] ++ Line.entry demoRecord :: demoDisk.events.drop 1) demoDisk.roots 2).OK
      = true ∧
    (Verify demoLib ([] ++ Line.garbled "invalid character 'X'" :: demoDisk.events.drop 1)
      demoDisk.roots 2).OK = false :=
  ⟨by decide,
    (verify_detects_tamper demoLib [] (demoDisk.events.drop 1) demoRecord demoDisk.roots 2
      (by decide)).1 (Line.garbled "invalid character 'X'") trivial⟩

theorem tamper_timestamp_undetected :
    demoDisk.events = Line.entry demoRecord :: demoDisk.events.drop 1 ∧
    (Verify demoLib demoDisk.events demoDisk.roots 2).OK = true ∧
    demoRestamped.Timestamp ≠ demoRecord.Timestamp ∧
    demoRestamped.Index = demoRecord.Index ∧
    demoRestamped.PrevHash = demoRecord.PrevHash ∧
    demoRestamped.Hash = demoRecord.Hash ∧
    (Verify demoLib (Line.entry demoRestamped :: demoDisk.events.drop 1) demoDisk.roots 2).OK
      = true :=
  ⟨rfl, by decide, by decide, rfl, rfl, rfl, by decide⟩

/-! ## Failures of a single append -/

/-- C10. When `AppendEvent` fails because `StableJSON` fails on the stamped
event, or because the write to the events log fails, it returns the zero
`Record`, no `RootRecord` and an error, the store is as it was before the
call and the roots log is untouched; when it is `StableJSON` that fails, the
events log is untouched as well and the error is that of `StableJSON`. -/
theorem appendEvent_failure_keeps_state {O : Type} (lib : Lib O) (s : Store) (d : Disk O)
    (event : Event O) (env : Env)
    (hfail : (∃ e, StableJSON lib (Any.event (stamp event env.nowEvent)) = .error e) ∨
      env.eventsErr ≠ none) :
    (AppendEvent lib s d event env).record = Record.zero ∧
    (AppendEvent lib s d event env).root = none ∧
    (AppendEvent lib s d event env).err ≠ none ∧
    (AppendEvent lib s d event env).store = s ∧
    (AppendEvent lib s d event env).disk.roots = d.roots ∧
    (∀ e, StableJSON lib (Any.event (stamp event env.nowEvent)) = .error e →
      (AppendEvent lib s d event env).err = some e ∧
      (AppendEvent lib s d event env).disk.events = d.events) ∧
    (∀ payload, StableJSON lib (Any.event (stamp event env.nowEvent)) = .ok payload →
      (AppendEvent lib s d event env).err = env.eventsErr) := by
  rw [appendEvent_eq]
  cases hj : StableJSON lib (Any.event (stamp event env.nowEvent)) with
  | error e =>
    refine ⟨rfl, rfl, by simp, rfl, rfl, ?_, ?_⟩
    · intro e2 h2; cases h2; exact ⟨rfl, rfl⟩
    · intro p h2; cases h2
  | ok payload =>
    rcases hfail with ⟨e, he⟩ | he
    · rw [hj] at he; cases he
    · cases hw : env.eventsErr with
      | none => exact absurd hw he
      | some e =>
        refine ⟨rfl, rfl, by simp, rfl, rfl, ?_, ?_⟩
        · intro e2 h2; cases h2
        · intro p _; rfl

theorem appendEvent_failure_keeps_state_witness :
    demoEnvEventsFail.eventsErr ≠ none ∧
    (AppendEvent demoLib demoStore Disk.empty (demoEvent 0) demoEnvEventsFail).root = none ∧
    (AppendEvent demoLib demoStore Disk.empty (demoEvent 0) demoEnvEventsFail).store
      = demoStore :=
  ⟨by decide,
    (appendEvent_failure_keeps_state demoLib demoStore Disk.empty (demoEvent 0)
      demoEnvEventsFail (Or.inr (by decide))).2.1,
    (appendEvent_failure_keeps_state demoLib demoStore Disk.empty (demoEvent 0)
      demoEnvEventsFail (Or.inr (by decide))).2.2.2.1⟩

/-- C9, what the code does.  When an append completes a batch, the write to
the events log succeeds and the write of the root record fails,
`AppendEvent` returns the error with `lastIndex` and `lastHash` advanced, and
the open batch is not reset: it keeps every hash, the new one included, and
`batchStart` stays at the first index of the batch. -/
theorem roots_write_failure_keeps_batch {O : Type} (lib : Lib O) (s : Store) (d : Disk O)
    (event : Event O) (env : Env) (payload : Bytes) (e : String)
    (hj : StableJSON lib (Any.event (stamp event env.nowEvent)) = .ok payload)
    (hw : env.eventsErr = none) (hr : env.rootsErr = some e)
    (hfull : s.batchSize ≤ (s.batchHashes.length : Int) + 1)
    (hroot : MerkleRoot lib (s.batchHashes ++ [(newRecord lib s event env payload).Hash]) ≠ "") :
    (AppendEvent lib s d event env).err = some e ∧
    (AppendEvent lib s d event env).record = newRecord lib s event env payload ∧
    (AppendEvent lib s d event env).store.lastIndex = s.lastIndex + 1 ∧
    (AppendEvent lib s d event env).store.lastHash = (newRecord lib s event env payload).Hash ∧
    (AppendEvent lib s d event env).store.batchHashes =
      s.batchHashes ++ [(newRecord lib s event env payload).Hash] ∧
    (AppendEvent lib s d event env).store.batchHashes ≠ [] ∧
    (AppendEvent lib s d event env).store.batchStart =
      (if s.batchHashes.length = 0 then s.lastIndex + 1 else s.batchStart) := by
  rw [appendEvent_eq]
  simp only [hj, hw]
  rw [commit_eq, if_pos hfull, if_neg hroot, hr]
  exact ⟨rfl, rfl, rfl, rfl, rfl, by simp, rfl⟩

theorem roots_write_failure_keeps_batch_witness :
    (AppendEvent demoLib { demoStore with batchSize := 1 } Disk.empty (demoEvent 0)
      demoEnvRootsFail).err = some "write roots.log: disk full" ∧
    (AppendEvent demoLib { demoStore with batchSize := 1 } Disk.empty (demoEvent 0)
      demoEnvRootsFail).store.batchHashes ≠ [] ∧
    (AppendEvent demoLib { demoStore with batchSize := 1 } Disk.empty (demoEvent 0)
      demoEnvRootsFail).store.batchStart = 1 :=
  ⟨(roots_write_failure_keeps_batch demoLib { demoStore with batchSize := 1 } Disk.empty
      (demoEvent 0) demoEnvRootsFail [48, 47, 116, 114, 97, 100, 101, 47, 116, 101, 115, 116]
      "write roots.log: disk full" rfl rfl rfl (by decide) (by decide)).1,
    by decide, by decide⟩

/-! ## A crash between a record and its root -/

/-- C8, what the code does.  After `m * B` successful appends and a crash
that lost the last root record (the roots log holds the first `m - 1`),
`NewStore` finds an open batch that is already full, with `B` hashes; the
next successful `AppendEvent` then seals `B + 1` hashes into one root record,
from index `(m - 1) * B + 1` to index `m * B + 1`. -/
theorem crash_before_root_oversized_batch {O : Type} (lib : Lib O) (B m : Nat) (s0 : Store)
    (inputs : List (Event O × Env)) (event : Event O) (env : Env)
    (hs : ShaSized lib) (hB : 0 < B) (hm : 0 < m) (hlen : inputs.length = m * B)
    (hnew : NewStore (Disk.empty : Disk O) (B : Int) = .ok s0)
    (hok : appendsOk lib s0 Disk.empty inputs = true) :
    ∃ s1,
      NewStore
        { events := (appendAll lib s0 Disk.empty inputs).2.events,
          roots := (appendAll lib s0 Disk.empty inputs).2.roots.take (m - 1) } (B : Int)
        = .ok s1 ∧
      s1.batchHashes.length = B ∧
      ((AppendEvent lib s1
          { events := (appendAll lib s0 Disk.empty inputs).2.events,
            roots := (appendAll lib s0 Disk.empty inputs).2.roots.take (m - 1) }
          event env).err = none →
        ∃ rt,
          (AppendEvent lib s1
            { events := (appendAll lib s0 Disk.empty inputs).2.events,
              roots := (appendAll lib s0 Disk.empty inputs).2.roots.take (m - 1) }
            event env).root = some rt ∧
          (AppendEvent lib s1
            { events := (appendAll lib s0 Disk.empty inputs).2.events,
              roots := (appendAll lib s0 Disk.empty inputs).2.roots.take (m - 1) }
            event env).disk.roots =
            (appendAll lib s0 Disk.empty inputs).2.roots.take (m - 1) ++ [Line.entry rt] ∧
          rt.FromIndex = ((m - 1) * B + 1 : Nat) ∧ rt.ToIndex = (m * B + 1 : Nat) ∧
          rt.ToIndex - rt.FromIndex + 1 = (B + 1 : Nat)) := by
  obtain ⟨recs, rts, h1, h2, h3, h4, h5, _⟩ := fresh_run lib hs B hB s0 inputs hnew hok
  obtain ⟨c1, c2⟩ := rootsMatch_closed lib B hB _ [] 1 rts (by simpa using hB) h5
  simp only [List.length_nil, Nat.zero_add, List.length_map, List.nil_append] at c1 c2
  have hn : recs.length = m * B := h3.trans hlen
  have hq : rts.length = m := by rw [c1, hn, Nat.mul_div_cancel _ hB]
  have hk : (m - 1) * B + B = m * B := by
    rw [← Nat.succ_mul]; congr 1; omega
  have hidx : ∀ r ∈ recs, 1 ≤ r.Index := by
    intro r hr
    obtain ⟨i, hi, rfl⟩ := List.getElem_of_mem hr
    have := chainFrom_index lib recs _ _ h4 i hi
    omega
  rw [h1, h2, ← List.map_take]
  obtain ⟨s1, e1, e0, e2, e3, e4, e5⟩ :=
    loadState_spec (⟨recs.map Line.entry, (rts.take (m - 1)).map Line.entry⟩ : Disk O) B
      (decodable_map_entry _) (decodable_map_entry _) (by simpa [entries_map_entry] using hidx)
  simp only [entries_map_entry] at e2 e3 e4 e5
  have hlc : lastCompleted ((rts.take (m - 1)).map Line.entry) = (((m - 1) * B : Nat) : Int) := by
    simp only [lastCompleted, entries_map_entry]
    cases hg : (rts.take (m - 1)).getLast? with
    | none =>
      have h0 : rts.take (m - 1) = [] := List.getLast?_eq_none_iff.mp hg
      have h00 := congrArg List.length h0
      simp only [List.length_take, List.length_nil] at h00
      have : m - 1 = 0 := by omega
      rw [this]; simp
    | some rt =>
      have hne : rts.take (m - 1) ≠ [] := by intro h; rw [h] at hg; simp at hg
      have hpos : 0 < (rts.take (m - 1)).length := List.length_pos.mpr hne
      have hl : (rts.take (m - 1)).length = m - 1 := by simp; omega
      have hrt : rt = rts[m - 2] := by
        rw [List.getLast?_eq_getElem?, List.getElem?_eq_getElem (by omega)] at hg
        have := (Option.some.inj hg).symm
        rw [this, List.getElem_take]
        congr 1; omega
      obtain ⟨_, b, _⟩ := c2 (m - 2) (by omega)
      rw [hrt]
      show (rts[m - 2]).ToIndex = _
      rw [b]
      have : ((m - 2 : Nat) : Int) + 1 = ((m - 1 : Nat) : Int) := by omega
      rw [this]; push_cast; ring
  have hpend : pendingOf (lastCompleted ((rts.take (m - 1)).map Line.entry)) recs
      = recs.drop ((m - 1) * B) := by
    rw [hlc]
    have := pendingOf_chain lib recs 0 "" (((m - 1) * B : Nat) : Int) h4
    simpa using this
  rw [hpend] at e4 e5
  have hlt : (m - 1) * B < recs.length := by omega
  have hbl : s1.batchHashes.length = B := by
    rw [e4]; simp; omega
  have hstart : s1.batchStart = (((m - 1) * B + 1 : Nat) : Int) := by
    rw [e5, List.drop_eq_getElem_cons hlt]
    simp only [firstIndexOf]
    rw [chainFrom_index lib recs _ _ h4 _ hlt]
    push_cast; ring
  have hli : s1.lastIndex = ((m * B : Nat) : Int) := by
    rw [e2, lastIndexOf_chain lib recs 0 "" h4, hn]; simp
  have hnb : ¬ ((B : Int) ≤ 0) := by omega
  refine ⟨s1, by simp only [NewStore, if_neg hnb]; exact e1, hbl, ?_⟩
  intro hnext
  have hgood : ∀ x ∈ s1.batchHashes, GoodHash x := by
    intro x hx
    rw [e4] at hx
    obtain ⟨r, hr, rfl⟩ := List.mem_map.mp hx
    obtain ⟨payload, _, hh⟩ := chainFrom_hashOk lib recs _ _ h4 r (List.mem_of_mem_drop hr)
    rw [hh]; exact chainHash_good lib hs _ _ _
  rw [appendEvent_eq] at hnext ⊢
  cases hj : StableJSON lib (Any.event (stamp event env.nowEvent)) with
  | error e => simp [hj] at hnext
  | ok payload =>
    simp only [hj] at hnext ⊢
    cases hw : env.eventsErr with
    | some e => simp [hw] at hnext
    | none =>
      simp only [hw] at hnext ⊢
      have hm2 : MerkleRoot lib (s1.batchHashes ++ [(newRecord lib s1 event env payload).Hash])
          ≠ "" := by
        apply MerkleRoot_ne_empty lib hs _ (by simp)
        intro x hx
        rcases List.mem_append.mp hx with hx | hx
        · exact hgood x hx
        · simp at hx; subst hx; exact chainHash_good lib hs _ _ _
      have hfull : s1.batchSize ≤ (s1.batchHashes.length : Int) + 1 := by
        rw [e0, hbl]; omega
      have hl0 : ¬ s1.batchHashes.length = 0 := by omega
      rw [commit_eq, if_pos hfull, if_neg hm2] at hnext ⊢
      cases hr : env.rootsErr with
      | some e => simp [hr] at hnext
      | none =>
        refine ⟨_, rfl, rfl, ?_, ?_, ?_⟩
        · simp only [if_neg hl0]; exact hstart
        · show s1.lastIndex + 1 = _
          rw [hli]; push_cast; ring
        · simp only [if_neg hl0]
          show s1.lastIndex + 1 - s1.batchStart + 1 = _
          rw [hli, hstart]
          have : ((m * B : Nat) : Int) = (((m - 1) * B : Nat) : Int) + B := by
            rw [← hk]; push_cast; ring
          rw [this]; push_cast; ring

theorem crash_before_root_oversized_batch_witness :
    (ShaSized demoLib ∧ 0 < 2 ∧ 0 < 1 ∧ (demoInputs.take 2).length = 1 * 2 ∧
      appendsOk demoLib demoStore Disk.empty (demoInputs.take 2) = true) ∧
    (Verify demoLib demoCrashDisk.events demoCrashDisk.roots 2).OK = false ∧
    ∃ s1,
      NewStore
        { events := (appendAll demoLib demoStore Disk.empty (demoInputs.take 2)).2.events,
          roots := (appendAll demoLib demoStore Disk.empty (demoInputs.take 2)).2.roots.take
            (1 - 1) } ((2 : Nat) : Int)
        = .ok s1 ∧
      s1.batchHashes.length = 2 ∧
      ((AppendEvent demoLib s1
          { events := (appendAll demoLib demoStore Disk.empty (demoInputs.take 2)).2.events,
            roots := (appendAll demoLib demoStore Disk.empty (demoInputs.take 2)).2.roots.take
              (1 - 1) }
          (demoEvent 2) demoEnv).err = none →
        ∃ rt,
          (AppendEvent demoLib s1
            { events := (appendAll demoLib demoStore Disk.empty (demoInputs.take 2)).2.events,
              roots := (appendAll demoLib demoStore Disk.empty (demoInputs.take 2)).2.roots.take
                (1 - 1) }
            (demoEvent 2) demoEnv).root = some rt ∧
          (AppendEvent demoLib s1
            { events := (appendAll demoLib demoStore Disk.empty (demoInputs.take 2)).2.events,
              roots := (appendAll demoLib demoStore Disk.empty (demoInputs.take 2)).2.roots.take
                (1 - 1) }
            (demoEvent 2) demoEnv).disk.roots =
            (appendAll demoLib demoStore Disk.empty (demoInputs.take 2)).2.roots.take (1 - 1) ++
              [Line.entry rt] ∧
          rt.FromIndex = ((1 - 1) * 2 + 1 : Nat) ∧ rt.ToIndex = (1 * 2 + 1 : Nat) ∧
          rt.ToIndex - rt.FromIndex + 1 = (2 + 1 : Nat)) :=
  ⟨⟨demoLib_sized, by decide, by decide, by decide, by decide⟩, by decide,
    crash_before_root_oversized_batch demoLib 2 1 demoStore (demoInputs.take 2) (demoEvent 2)
      demoEnv demoLib_sized (by decide) (by decide) (by decide) (newStore_empty 2 (by decide))
      (by decide)⟩

/-! ## The Merkle root against the spec -/


theorem specPairs_eq_nextLevel {O : Type} (lib : Lib O) :
    ∀ level : List Bytes, specPairs lib level = nextLevel lib level
  | [] => rfl
  | [a] => by simp [specPairs, nextLevel, hashPair, List.range_succ]
  | a :: b :: rest => by
    have ih := specPairs_eq_nextLevel lib rest
    have hlen : ((a :: b :: rest).length + 1) / 2 = (rest.length + 1) / 2 + 1 := by
      simp only [List.length_cons]; omega
    simp only [nextLevel, ← ih, specPairs, hlen, List.range_succ_eq_map, List.map_cons,
      List.map_map, hashPair]
    refine congrArg₂ _ (by simp) ?_
    apply List.map_congr_left
    intro i _
    have e1 : 2 * (i + 1) = 2 * i + 2 := by ring
    simp only [Function.comp, Nat.succ_eq_add_one, e1, List.length_cons]
    have h1 : (a :: b :: rest).getD (2 * i + 2) [] = rest.getD (2 * i) [] := rfl
    have h2 : (a :: b :: rest).getD (2 * i + 2 + 1) [] = rest.getD (2 * i + 1) [] := rfl
    rw [h1, h2]
    by_cases h : 2 * i + 1 < rest.length
    · rw [if_pos h, if_pos (by omega)]
    · rw [if_neg h, if_neg (by omega)]

theorem nextLevel_length {O : Type} (lib : Lib O) :
    ∀ level : List Bytes, (nextLevel lib level).length = (level.length + 1) / 2
  | [] => rfl
  | [a] => by simp [nextLevel]
  | a :: b :: rest => by
    simp only [nextLevel, List.length_cons, nextLevel_length lib rest]; omega

/-- The loop of `MerkleRoot` reaches a single node, in fewer passes than the
level has entries, and any fuel of at least that many passes returns it. -/
theorem reduceLevel_single {O : Type} (lib : Lib O) :
    ∀ (n : Nat) (level : List Bytes), level.length = n + 1 →
      ∃ (k : Nat) (node : Bytes), k ≤ n ∧ (nextLevel lib)^[k] level = [node] ∧
        (∀ j, j < k → 1 < ((nextLevel lib)^[j] level).length) ∧
        ∀ fuel, k ≤ fuel → reduceLevel lib fuel level = [node] := by
  intro n
  induction n using Nat.strong_induction_on with
  | _ n ih =>
    intro level hlen
    cases n with
    | zero =>
      obtain ⟨x, rfl⟩ : ∃ x, level = [x] := List.length_eq_one.mp (by simpa using hlen)
      refine ⟨0, x, le_refl _, rfl, fun j hj => absurd hj (Nat.not_lt_zero j), ?_⟩
      intro fuel _
      cases fuel <;> simp [reduceLevel]
    | succ m =>
      have hn := nextLevel_length lib level
      have hpos : (nextLevel lib level).length = (m + 1) / 2 + 1 := by rw [hn, hlen]; omega
      obtain ⟨k, node, hk, hit, hlt, hfuel⟩ := ih ((m + 1) / 2) (by omega) _ hpos
      refine ⟨k + 1, node, by omega, by rw [Function.iterate_succ_apply]; exact hit, ?_, ?_⟩
      · intro j hj
        cases j with
        | zero => simp [hlen]
        | succ j => rw [Function.iterate_succ_apply]; exact hlt j (by omega)
      · intro fuel hf
        obtain ⟨f, rfl⟩ : ∃ f, fuel = f + 1 := ⟨fuel - 1, by omega⟩
        have h1 : level.length > 1 := by omega
        simp only [reduceLevel, if_pos h1]
        exact hfuel f (by omega)

theorem decodeLevel_some :
    ∀ H : List String, (∀ h ∈ H, (hexDecode h).isSome = true) →
      ∃ level : List Bytes, decodeLevel H = some level ∧ level.map some = H.map hexDecode
  | [], _ => ⟨[], rfl, rfl⟩
  | h :: rest, hv => by
    obtain ⟨level, h1, h2⟩ := decodeLevel_some rest (fun x hx => hv x (List.mem_cons_of_mem _ hx))
    obtain ⟨b, hb⟩ := Option.isSome_iff_exists.mp (hv h (List.mem_cons_self _ _))
    exact ⟨b :: level, by simp [decodeLevel, hb, h1], by simp [hb, h2]⟩

/-- C11. `MerkleRoot` of no hashes is the empty string.  On a non-empty list
of valid hex strings the loop of `MerkleRoot` ends (in fewer passes than
there are hashes, any fuel of at least that many passes giving the same
result), and the root is the hex of the single node reached from the decoded
hashes by pairing level after level as the spec says (`specPairs`), every
level before the last having more than one node.  For three hashes the root
is the hex of SHA-256 of SHA-256 of the first two followed by SHA-256 of the
third with itself. -/
theorem merkleRoot_meets_spec {O : Type} (lib : Lib O) (H : List String)
    (hvalid : ∀ h ∈ H, (hexDecode h).isSome = true) :
    (H = [] → MerkleRoot lib H = "") ∧
    (H ≠ [] → ∃ (level : List Bytes) (k : Nat) (node : Bytes),
      level.map some = H.map hexDecode ∧ k < H.length ∧
      (specPairs lib)^[k] level = [node] ∧
      (∀ j, j < k → 1 < ((specPairs lib)^[j] level).length) ∧
      (∀ fuel, k ≤ fuel → reduceLevel lib fuel level = [node]) ∧
      MerkleRoot lib H = hexEncode node) ∧
    ∀ a b c : Bytes,
      MerkleRoot lib [hexEncode a, hexEncode b, hexEncode c] =
        hexEncode (lib.sha256 (lib.sha256 (a ++ b) ++ lib.sha256 (c ++ c))) := by
  have hfun : specPairs lib = nextLevel lib := funext (specPairs_eq_nextLevel lib)
  refine ⟨fun h => by rw [h]; rfl, ?_, ?_⟩
  · intro hne
    obtain ⟨level, hdec, hmap⟩ := decodeLevel_some H hvalid
    have hl : level.length = H.length := by
      have := congrArg List.length hmap
      simpa using this
    have hpos : 0 < H.length := List.length_pos.mpr hne
    obtain ⟨k, node, hk, hit, hlt, hfuel⟩ :=
      reduceLevel_single lib (H.length - 1) level (by omega)
    refine ⟨level, k, node, hmap, by omega, by rw [hfun]; exact hit,
      by rw [hfun]; exact hlt, hfuel, ?_⟩
    have h0 : ¬ H.length = 0 := by omega
    simp only [MerkleRoot, if_neg h0, hdec, hfuel level.length (by omega), List.headD_cons]
  · intro a b c
    simp [MerkleRoot, decodeLevel, hexDecode_hexEncode, reduceLevel, nextLevel, hashPair]

theorem merkleRoot_meets_spec_witness :
    (∀ h ∈ ["ab", "CD", "01"], (hexDecode h).isSome = true) ∧
    MerkleRoot demoLib ["ab", "CD", "01"] ≠ "" ∧
    ∃ (level : List Bytes) (k : Nat) (node : Bytes),
      level.map some = ["ab", "CD", "01"].map hexDecode ∧ k < ["ab", "CD", "01"].length ∧
      (specPairs demoLib)^[k] level = [node] ∧
      (∀ j, j < k → 1 < ((specPairs demoLib)^[j] level).length) ∧
      (∀ fuel, k ≤ fuel → reduceLevel demoLib fuel level = [node]) ∧
      MerkleRoot demoLib ["ab", "CD", "01"] = hexEncode node :=
  ⟨by decide, by decide,
    (merkleRoot_meets_spec demoLib ["ab", "CD", "01"] (by decide)).2.1 (by decide)⟩

/-! ## The root of the open batch -/


theorem merkleRoot_singleton {O : Type} (lib : Lib O) (b : Bytes) :
    MerkleRoot lib [hexEncode b] = hexEncode b := by
  simp [MerkleRoot, decodeLevel, hexDecode_hexEncode, reduceLevel]

/-- C12. After `N` successful appends on a fresh store of positive batch
size `B`, `CurrentBatchRoot` is the Merkle root of the hashes of the records
at positions `N / B * B` onwards (indices `N / B * B + 1` to `N`), the ones
no root record covers; it is empty when `B` divides `N`, and it is the hash
of the last record when that is the one record pending. -/
theorem currentBatchRoot_of_appends {O : Type} (lib : Lib O) (B : Nat) (s0 : Store)
    (inputs : List (Event O × Env)) (hs : ShaSized lib) (hB : 0 < B)
    (hnew : NewStore (Disk.empty : Disk O) (B : Int) = .ok s0)
    (hok : appendsOk lib s0 Disk.empty inputs = true) :
    ∃ recs : List (Record O),
      (appendAll lib s0 Disk.empty inputs).2.events = recs.map Line.entry ∧
      recs.length = inputs.length ∧
      (∀ (i : Nat) (h : i < recs.length), (recs[i]).Index = i + 1) ∧
      CurrentBatchRoot lib (appendAll lib s0 Disk.empty inputs).1 =
        MerkleRoot lib ((recs.map fun r => r.Hash).drop (inputs.length / B * B)) ∧
      (B ∣ inputs.length → CurrentBatchRoot lib (appendAll lib s0 Disk.empty inputs).1 = "") ∧
      (inputs.length / B * B + 1 = inputs.length →
        CurrentBatchRoot lib (appendAll lib s0 Disk.empty inputs).1 = lastHashOf "" recs) := by
  obtain ⟨recs, rts, h1, _, h3, h4, _, _, _, _, h9⟩ := fresh_run lib hs B hB s0 inputs hnew hok
  have hob := openBatch_eq B hB (recs.map fun r => r.Hash) [] (by simpa using hB)
  simp only [List.length_nil, Nat.zero_add, List.length_map, List.nil_append] at hob
  have hroot : CurrentBatchRoot lib (appendAll lib s0 Disk.empty inputs).1 =
      MerkleRoot lib ((recs.map fun r => r.Hash).drop (inputs.length / B * B)) := by
    rw [CurrentBatchRoot, h9, hob, h3]
  refine ⟨recs, h1, h3, ?_, hroot, ?_, ?_⟩
  · intro i h
    simpa using chainFrom_index lib recs _ _ h4 i h
  · intro hdvd
    rw [hroot, Nat.div_mul_cancel hdvd, List.drop_of_length_le (by simp [h3])]
    rfl
  · intro hone
    have hlt : inputs.length / B * B < recs.length := by omega
    have hlast : recs.length - 1 = inputs.length / B * B := by omega
    rw [hroot, ← List.map_drop, List.drop_eq_getElem_cons hlt,
      List.drop_of_length_le (by omega), lastHashOf_eq recs "" (by omega)]
    simp only [List.map_cons, List.map_nil, hlast]
    obtain ⟨payload, _, hh⟩ := chainFrom_hashOk lib recs _ _ h4 _ (List.getElem_mem hlt)
    rw [hh]
    exact merkleRoot_singleton lib _

theorem currentBatchRoot_of_appends_witness :
    (ShaSized demoLib ∧ 0 < 2 ∧ appendsOk demoLib demoStore Disk.empty demoInputs = true ∧
      demoInputs.length / 2 * 2 + 1 = demoInputs.length) ∧
    ∃ recs : List (Record Nat),
      (appendAll demoLib demoStore Disk.empty demoInputs).2.events = recs.map Line.entry ∧
      recs.length = demoInputs.length ∧
      (∀ (i : Nat) (h : i < recs.length), (recs[i]).Index = i + 1) ∧
      CurrentBatchRoot demoLib (appendAll demoLib demoStore Disk.empty demoInputs).1 =
        MerkleRoot demoLib ((recs.map fun r => r.Hash).drop (demoInputs.length / 2 * 2)) ∧
      (2 ∣ demoInputs.length →
        CurrentBatchRoot demoLib (appendAll demoLib demoStore Disk.empty demoInputs).1 = "") ∧
      (demoInputs.length / 2 * 2 + 1 = demoInputs.length →
        CurrentBatchRoot demoLib (appendAll demoLib demoStore Disk.empty demoInputs).1 =
          lastHashOf "" recs) :=
  ⟨⟨demoLib_sized, by decide, by decide, by decide⟩,
    currentBatchRoot_of_appends demoLib 2 demoStore demoInputs demoLib_sized (by decide)
      (newStore_empty 2 (by decide)) (by decide)⟩

/-! ## When `Verify` accepts -/


theorem verifyLoop_entries {O : Type} (lib : Lib O) (roots : List RootRecord) (B : Int) :
    ∀ (lines : List (Line (Record O))) (st : VerifyState), decodable lines = true →
      verifyLoop lib roots B st lines = verifyLoop lib roots B st ((entries lines).map Line.entry)
  | [], _, _ => rfl
  | .blank :: rest, st, h => by
    have ih := verifyLoop_entries lib roots B rest st (by simpa [decodable] using h)
    simp only [verifyLoop, List.foldl_cons, entries] at ih ⊢
    exact ih
  | .garbled e :: rest, st, h => by simp [decodable] at h
  | .entry r :: rest, st, h => by
    have ih := verifyLoop_entries lib roots B rest (verifyStep lib roots B st (Line.entry r))
      (by simpa [decodable] using h)
    simp only [verifyLoop, List.foldl_cons, entries, List.map_cons] at ih ⊢
    exact ih

theorem readRoots_decodable :
    ∀ roots : List (Line RootRecord), decodable roots = true →
      readRoots roots = .ok (entries roots)
  | [], _ => rfl
  | .blank :: rest, h => by
    simpa [readRoots, entries] using readRoots_decodable rest (by simpa [decodable] using h)
  | .garbled e :: rest, h => by simp [decodable] at h
  | .entry r :: rest, h => by
    simp [readRoots, entries, readRoots_decodable rest (by simpa [decodable] using h)]

/-- From a state without errors, the loop of `Verify` over records ends with
`OK` true exactly when the records continue the chain and every batch they
complete finds its root. -/
theorem verifyLoop_ok_iff {O : Type} (lib : Lib O) (roots : List RootRecord) (B : Nat)
    (hB : 0 < B) :
    ∀ (recs : List (Record O)) (st : VerifyState), GoodV st → st.currentBatch.length < B →
      (((verifyLoop lib roots B st (recs.map Line.entry)).report.OK = true ↔
        ChainFrom lib st.expectedIndex st.expectedPrev recs ∧
          BatchesOk lib roots B st.rootIndex st.currentBatch (recs.map fun r => r.Hash)) ∧
      ((verifyLoop lib roots B st (recs.map Line.entry)).report.OK = true →
        GoodV (verifyLoop lib roots B st (recs.map Line.entry)) ∧
        (verifyLoop lib roots B st (recs.map Line.entry)).expectedIndex =
          st.expectedIndex + recs.length ∧
        (verifyLoop lib roots B st (recs.map Line.entry)).expectedPrev =
          lastHashOf st.expectedPrev recs))
  | [], st, hg, _ => by
    simp [verifyLoop, ChainFrom, BatchesOk, hg.ok, lastHashOf, hg]
  | r :: rest, st, hg, hlt => by
    simp only [List.map_cons, verifyLoop, List.foldl_cons]
    by_cases hstep : (verifyStep lib roots B st (Line.entry r)).report.OK = true
    · obtain ⟨hidx, hprev, hhash⟩ := verifyStep_passes lib roots B st r hstep
      have hnf := verifyStep_entry lib roots B st r hidx hprev hhash
      have hokf := verifyStep_entry_ok lib roots B st r
      obtain ⟨payload, hj, hh⟩ := hhash
      have e1 : decide (r.Index = st.expectedIndex + 1) = true := decide_eq_true hidx
      have e2 : decide (r.PrevHash = st.expectedPrev) = true := decide_eq_true hprev
      have e3 : decide (chainHash lib r.PrevHash r.Index payload = r.Hash) = true :=
        decide_eq_true hh.symm
      rw [hstep, hj] at hokf
      simp only [hg.ok, e1, e2, e3, Bool.and_self, Bool.true_and] at hokf
      by_cases hlen : (st.currentBatch ++ [r.Hash]).length = B
      · have hcond : (B : Int) > 0 ∧ ((st.currentBatch ++ [r.Hash]).length : Int) = B := by
          rw [hlen]; exact ⟨by exact_mod_cast hB, rfl⟩
        rw [if_pos hcond] at hokf hnf
        cases hr : roots[st.rootIndex]? with
        | none => rw [hr] at hokf; exact absurd hokf (by simp)
        | some rt =>
          rw [hr] at hokf hnf
          have hroot : rt.RootHash = MerkleRoot lib (st.currentBatch ++ [r.Hash]) := by
            simpa using hokf.symm
          simp only [hroot, ne_eq, not_true_eq_false, if_false] at hnf
          obtain ⟨ih1, ih2⟩ := verifyLoop_ok_iff lib roots B hB rest
            ⟨{ st.report with Total := r.Index, LastIndex := r.Index, LastHash := r.Hash,
                              RootsChecked := st.report.RootsChecked + 1 },
              st.rootIndex + 1, [], r.Hash, st.expectedIndex + 1⟩
            ⟨hg.ok, hg.errors, hidx, hidx, rfl⟩ (by simpa using hB)
          simp only [verifyLoop] at ih1 ih2
          rw [hnf]
          constructor
          · rw [ih1]
            simp only [ChainFrom, List.map_cons, BatchesOk, if_pos hlen]
            constructor
            · rintro ⟨a, b⟩
              exact ⟨⟨hidx, hprev, ⟨payload, hj, hh⟩, a⟩, ⟨rt, hr, hroot⟩, b⟩
            · rintro ⟨⟨_, _, _, a⟩, _, b⟩
              exact ⟨a, b⟩
          · intro hfin
            obtain ⟨g, a, b⟩ := ih2 hfin
            refine ⟨g, ?_, ?_⟩
            · rw [a]; simp; omega
            · rw [b]; rfl
      · have hcond : ¬ ((B : Int) > 0 ∧ ((st.currentBatch ++ [r.Hash]).length : Int) = B) := by
          intro h; exact hlen (by exact_mod_cast h.2)
        rw [if_neg hcond] at hnf
        obtain ⟨ih1, ih2⟩ := verifyLoop_ok_iff lib roots B hB rest
          ⟨{ st.report with Total := r.Index, LastIndex := r.Index, LastHash := r.Hash },
            st.rootIndex, st.currentBatch ++ [r.Hash], r.Hash, st.expectedIndex + 1⟩
          ⟨hg.ok, hg.errors, hidx, hidx, rfl⟩
          (by simp only [List.length_append, List.length_singleton] at hlen ⊢; omega)
        simp only [verifyLoop] at ih1 ih2
        rw [hnf]
        constructor
        · rw [ih1]
          simp only [ChainFrom, List.map_cons, BatchesOk, if_neg hlen]
          constructor
          · rintro ⟨a, b⟩
            exact ⟨⟨hidx, hprev, ⟨payload, hj, hh⟩, a⟩, b⟩
          · rintro ⟨⟨_, _, _, a⟩, b⟩
            exact ⟨a, b⟩
        · intro hfin
          obtain ⟨g, a, b⟩ := ih2 hfin
          refine ⟨g, ?_, ?_⟩
          · rw [a]; simp; omega
          · rw [b]; rfl
    · have hfalse : (verifyStep lib roots B st (Line.entry r)).report.OK = false :=
        Bool.eq_false_iff.mpr hstep
      have hfin := verifyLoop_sticky lib roots B (rest.map Line.entry) _ hfalse
      simp only [verifyLoop] at hfin
      rw [hfin]
      refine ⟨⟨fun h => absurd h (by simp), ?_⟩, fun h => absurd h (by simp)⟩
      rintro ⟨⟨hidx, hprev, hhash, _⟩, hb⟩
      exfalso
      apply hstep
      rw [verifyStep_entry_ok]
      obtain ⟨payload, hj, hh⟩ := hhash
      have e1 : decide (r.Index = st.expectedIndex + 1) = true := decide_eq_true hidx
      have e2 : decide (r.PrevHash = st.expectedPrev) = true := decide_eq_true hprev
      have e3 : decide (chainHash lib r.PrevHash r.Index payload = r.Hash) = true :=
        decide_eq_true hh.symm
      simp only [List.map_cons, BatchesOk] at hb
      rw [hj]
      simp only [hg.ok, e1, e2, e3, Bool.and_self, Bool.true_and]
      by_cases hlen : (st.currentBatch ++ [r.Hash]).length = B
      · rw [if_pos hlen] at hb
        obtain ⟨⟨rt, hr, hroot⟩, _⟩ := hb
        have hcond : (B : Int) > 0 ∧ ((st.currentBatch ++ [r.Hash]).length : Int) = B := by
          rw [hlen]; exact ⟨by exact_mod_cast hB, rfl⟩
        rw [if_pos hcond, hr]
        simp [hroot]
      · have hcond : ¬ ((B : Int) > 0 ∧ ((st.currentBatch ++ [r.Hash]).length : Int) = B) := by
          intro h; exact hlen (by exact_mod_cast h.2)
        rw [if_neg hcond]

theorem chainFrom_of_index {O : Type} (lib : Lib O) :
    ∀ (recs : List (Record O)) (idx : Int) (prev : String),
      (∀ (i : Nat) (h : i < recs.length), (recs[i]).Index = idx + i + 1) →
      (∀ h : 0 < recs.length, (recs[0]).PrevHash = prev) →
      (∀ (i : Nat) (h : i + 1 < recs.length), (recs[i + 1]).PrevHash = (recs[i]).Hash) →
      (∀ (i : Nat) (h : i < recs.length), HashOk lib (recs[i])) →
      ChainFrom lib idx prev recs
  | [], _, _, _, _, _, _ => trivial
  | r :: rest, idx, prev, h1, h2, h3, h4 => by
    refine ⟨by simpa using h1 0 (by simp), h2 (by simp), h4 0 (by simp), ?_⟩
    apply chainFrom_of_index lib rest
    · intro i h
      have := h1 (i + 1) (by simpa using h)
      simp only [List.getElem_cons_succ] at this
      rw [this]; push_cast; ring
    · intro h
      exact h3 0 (by simpa using h)
    · intro i h
      exact h3 (i + 1) (by simpa using h)
    · intro i h
      exact h4 (i + 1) (by simpa using h)

theorem batchesOk_closed {O : Type} (lib : Lib O) (roots : List RootRecord) (B : Nat)
    (hB : 0 < B) :
    ∀ (hashes pending : List String) (k : Nat), pending.length < B →
      (BatchesOk lib roots B k pending hashes ↔
        ∀ j, j < (pending.length + hashes.length) / B →
          ∃ rt, roots[k + j]? = some rt ∧
            rt.RootHash = MerkleRoot lib (((pending ++ hashes).drop (j * B)).take B))
  | [], pending, k, hlt => by
    simp [BatchesOk, Nat.div_eq_of_lt hlt]
  | h :: hs, pending, k, hlt => by
    simp only [BatchesOk]
    by_cases hlen : (pending ++ [h]).length = B
    · rw [if_pos hlen, batchesOk_closed lib roots B hB hs [] (k + 1) (by simpa using hB)]
      have hlen2 : pending.length + 1 = B := by simpa using hlen
      have e1 : pending.length + (h :: hs).length = hs.length + B := by simp; omega
      have e2 : pending ++ h :: hs = (pending ++ [h]) ++ hs := by simp
      rw [e1, Nat.add_div_right _ hB]
      simp only [List.length_nil, Nat.zero_add, List.nil_append]
      constructor
      · rintro ⟨⟨rt, hr, hroot⟩, hrest⟩ j hj
        cases j with
        | zero =>
          refine ⟨rt, by simpa using hr, ?_⟩
          rw [hroot, e2]
          simp only [Nat.zero_mul, List.drop_zero]
          rw [List.take_append_of_le_length (by omega), List.take_of_length_le (by omega)]
        | succ j =>
          obtain ⟨rt2, hr2, hroot2⟩ := hrest j (by omega)
          refine ⟨rt2, by rw [← hr2]; congr 1; omega, ?_⟩
          rw [hroot2, e2, Nat.succ_mul, Nat.add_comm (j * B) B, ← List.drop_drop,
            @List.drop_append_of_le_length _ (pending ++ [h]) hs B (by omega),
            @List.drop_of_length_le _ B (pending ++ [h]) (by omega)]
          rfl
      · intro hall
        constructor
        · obtain ⟨rt, hr, hroot⟩ := hall 0 (Nat.succ_pos _)
          refine ⟨rt, by simpa using hr, ?_⟩
          rw [hroot, e2]
          simp only [Nat.zero_mul, List.drop_zero]
          rw [List.take_append_of_le_length (by omega), List.take_of_length_le (by omega)]
        · intro j hj
          obtain ⟨rt2, hr2, hroot2⟩ := hall (j + 1) (by omega)
          refine ⟨rt2, by rw [← hr2]; congr 1; omega, ?_⟩
          rw [hroot2, e2, Nat.succ_mul, Nat.add_comm (j * B) B, ← List.drop_drop,
            @List.drop_append_of_le_length _ (pending ++ [h]) hs B (by omega),
            @List.drop_of_length_le _ B (pending ++ [h]) (by omega)]
          rfl
    · rw [if_neg hlen, batchesOk_closed lib roots B hB hs (pending ++ [h]) k (by
        simp only [List.length_append, List.length_singleton] at hlen ⊢; omega)]
      have e1 : (pending ++ [h]) ++ hs = pending ++ h :: hs := by simp
      have e2 : (pending ++ [h]).length + hs.length = pending.length + (h :: hs).length := by
        simp; omega
      rw [e1, e2]

/-- The report of `Verify` on files without undecodable lines. -/
theorem verify_ok_spec {O : Type} (lib : Lib O) (events : List (Line (Record O)))
    (roots : List (Line RootRecord)) (B : Nat) (hB : 0 < B)
    (hev : decodable events = true) (hroots : decodable roots = true) :
    ((Verify lib events roots B).OK = true ↔
      (∀ (i : Nat) (h : i < (entries events).length), ((entries events)[i]).Index = i + 1) ∧
      (∀ h : 0 < (entries events).length, ((entries events)[0]).PrevHash = "") ∧
      (∀ (i : Nat) (h : i + 1 < (entries events).length),
        ((entries events)[i + 1]).PrevHash = ((entries events)[i]).Hash) ∧
      (∀ (i : Nat) (h : i < (entries events).length), HashOk lib ((entries events)[i])) ∧
      (∀ j, j < (entries events).length / B →
        ∃ rt, (entries roots)[j]? = some rt ∧
          rt.RootHash =
            MerkleRoot lib ((((entries events).map fun r => r.Hash).drop (j * B)).take B))) ∧
    ((Verify lib events roots B).OK = true →
      (Verify lib events roots B).Total = (entries events).length ∧
      (Verify lib events roots B).LastIndex = (entries events).length ∧
      (Verify lib events roots B).LastHash = lastHashOf "" (entries events) ∧
      (Verify lib events roots B).Errors = []) := by
  simp only [Verify, readRoots_decodable roots hroots]
  rw [verifyLoop_entries lib (entries roots) B events VerifyState.init hev]
  obtain ⟨h1, h2⟩ := verifyLoop_ok_iff lib (entries roots) B hB (entries events) VerifyState.init
    ⟨rfl, rfl, rfl, rfl, rfl⟩ (by simpa [VerifyState.init] using hB)
  have hc := batchesOk_closed lib (entries roots) B hB ((entries events).map fun r => r.Hash) [] 0
    (by simpa using hB)
  simp only [List.length_nil, Nat.zero_add, List.length_map, List.nil_append] at hc
  constructor
  · rw [h1]
    simp only [VerifyState.init]
    rw [hc]
    constructor
    · rintro ⟨hch, hb⟩
      refine ⟨?_, chainFrom_head lib _ _ _ hch, chainFrom_link lib _ _ _ hch, ?_, hb⟩
      · intro i h
        simpa using chainFrom_index lib _ _ _ hch i h
      · intro i h
        exact chainFrom_hashOk lib _ _ _ hch _ (List.getElem_mem h)
    · rintro ⟨a, b, c, d, e⟩
      refine ⟨chainFrom_of_index lib _ 0 "" ?_ b c d, e⟩
      intro i h
      simpa using a i h
  · intro hok
    obtain ⟨g, a, b⟩ := h2 hok
    refine ⟨?_, ?_, ?_, g.errors⟩
    · rw [g.total, a]; simp [VerifyState.init]
    · rw [g.lastIndex, a]; simp [VerifyState.init]
    · rw [g.lastHash, b]; rfl

/-- C16. On an events log and a roots log without undecodable lines and with
a positive batch size `B`, `Verify` reports `OK = true` exactly when, for the
`n` records in file order: the record at position `i` (from 0) has index
`i + 1`; the first record has an empty `prev_hash` and every later one the
hash of the record before it; every record's hash is the chain hash
recomputed from its `prev_hash`, index and the stable JSON of its event; and
for every `j < n / B` the roots list has an entry at position `j` whose
`root_hash` is the Merkle root of the hashes of the records at positions
`j * B` to `(j + 1) * B - 1`.  When `OK = true`, `Total` and `LastIndex` are
`n`, `LastHash` is the hash of the last record and the error list is
empty. -/
theorem verify_ok_iff {O : Type} (lib : Lib O) (events : List (Line (Record O)))
    (roots : List (Line RootRecord)) (B : Nat) (hB : 0 < B)
    (hev : decodable events = true) (hroots : decodable roots = true) :
    ((Verify lib events roots B).OK = true ↔
      (∀ (i : Nat) (h : i < (entries events).length), ((entries events)[i]).Index = i + 1) ∧
      (∀ h : 0 < (entries events).length, ((entries events)[0]).PrevHash = "") ∧
      (∀ (i : Nat) (h : i + 1 < (entries events).length),
        ((entries events)[i + 1]).PrevHash = ((entries events)[i]).Hash) ∧
      (∀ (i : Nat) (h : i < (entries events).length), HashOk lib ((entries events)[i])) ∧
      (∀ j, j < (entries events).length / B →
        ∃ rt, (entries roots)[j]? = some rt ∧
          rt.RootHash =
            MerkleRoot lib ((((entries events).map fun r => r.Hash).drop (j * B)).take B))) ∧
    ((Verify lib events roots B).OK = true →
      (Verify lib events roots B).Total = (entries events).length ∧
      (Verify lib events roots B).LastIndex = (entries events).length ∧
      (Verify lib events roots B).LastHash = lastHashOf "" (entries events) ∧
      (Verify lib events roots B).Errors = []) :=
  verify_ok_spec lib events roots B hB hev hroots

theorem verify_ok_iff_witness :
    (0 < 2 ∧ decodable demoDisk.events = true ∧ decodable demoDisk.roots = true) ∧
    (Verify demoLib demoDisk.events demoDisk.roots (2 : Nat)).OK = true ∧
    (((Verify demoLib demoDisk.events demoDisk.roots (2 : Nat)).OK = true ↔
      (∀ (i : Nat) (h : i < (entries demoDisk.events).length), ((entries demoDisk.events)[i]).Index = i + 1) ∧
      (∀ h : 0 < (entries demoDisk.events).length, ((entries demoDisk.events)[0]).PrevHash = "") ∧
      (∀ (i : Nat) (h : i + 1 < (entries demoDisk.events).length),
        ((entries demoDisk.events)[i + 1]).PrevHash = ((entries demoDisk.events)[i]).Hash) ∧
      (∀ (i : Nat) (h : i < (entries demoDisk.events).length), HashOk demoLib ((entries demoDisk.events)[i])) ∧
      (∀ j, j < (entries demoDisk.events).length / 2 →
        ∃ rt, (entries demoDisk.roots)[j]? = some rt ∧
          rt.RootHash =
            MerkleRoot demoLib ((((entries demoDisk.events).map fun r => r.Hash).drop (j * (2 : Nat))).take (2 : Nat)))) ∧
    ((Verify demoLib demoDisk.events demoDisk.roots (2 : Nat)).OK = true →
      (Verify demoLib demoDisk.events demoDisk.roots (2 : Nat)).Total = (entries demoDisk.events).length ∧
      (Verify demoLib demoDisk.events demoDisk.roots (2 : Nat)).LastIndex = (entries demoDisk.events).length ∧
      (Verify demoLib demoDisk.events demoDisk.roots (2 : Nat)).LastHash = lastHashOf "" (entries demoDisk.events) ∧
      (Verify demoLib demoDisk.events demoDisk.roots (2 : Nat)).Errors = [])) :=
  ⟨⟨by decide, by decide, by decide⟩, by decide,
    verify_ok_iff demoLib demoDisk.events demoDisk.roots 2 (by decide) (by decide) (by decide)⟩

/-! ## The error list of `Verify` -/


/-- The loop body of `Verify` treats the flag `OK` and the error list as a
log: it appends `stepMessages` and clears the flag when there are any, and
nothing else in the state depends on them. -/
theorem verifyStep_setLog {O : Type} (lib : Lib O) (roots : List RootRecord) (B : Int)
    (st : VerifyState) (line : Line (Record O)) (ok : Bool) (errors : List String) :
    verifyStep lib roots B (st.setLog ok errors) line =
      (verifyStep lib roots B st line).setLog
        (ok && (stepMessages lib roots B st line).isEmpty)
        (errors ++ stepMessages lib roots B st line) := by
  rcases st with ⟨⟨ok0, total, li, lh, rc, errs0⟩, ri, cb, ep, ei⟩
  cases line with
  | blank => simp [verifyStep, stepMessages, VerifyState.setLog]
  | garbled e => simp [verifyStep, stepMessages, VerifyState.setLog, VerifyReport.fail]
  | entry r =>
    unfold verifyStep stepMessages
    simp only [VerifyState.setLog]
    generalize (r.Index != ei + 1) = c1
    generalize (r.PrevHash != ep) = c2
    cases hj : StableJSON lib (Any.event r.Event) with
    | error e =>
      cases c1 <;> cases c2 <;> simp [VerifyReport.failIf, VerifyReport.fail]
    | ok payload =>
      dsimp only
      generalize (chainHash lib r.PrevHash r.Index payload != r.Hash) = c3
      by_cases hc : B > 0 ∧ ((cb ++ [r.Hash]).length : Int) = B
      · simp only [if_pos hc]
        cases hr : roots[ri]? with
        | none =>
          cases c1 <;> cases c2 <;> cases c3 <;> simp [VerifyReport.failIf, VerifyReport.fail]
        | some expected =>
          dsimp only
          generalize (expected.RootHash != MerkleRoot lib (cb ++ [r.Hash])) = c4
          cases c1 <;> cases c2 <;> cases c3 <;> cases c4 <;>
            simp [VerifyReport.failIf, VerifyReport.fail]
      · simp only [if_neg hc]
        cases c1 <;> cases c2 <;> cases c3 <;> simp [VerifyReport.failIf, VerifyReport.fail]

/-- A concatenation is empty when both parts are. -/
theorem isEmpty_append_eq {α : Type} (a b : List α) :
    (a ++ b).isEmpty = (a.isEmpty && b.isEmpty) := by
  cases a <;> simp

/-- The entries the loop body adds do not depend on the log so far. -/
theorem stepMessages_setLog {O : Type} (lib : Lib O) (roots : List RootRecord) (B : Int)
    (st : VerifyState) (line : Line (Record O)) (ok : Bool) (errors : List String) :
    stepMessages lib roots B (st.setLog ok errors) line = stepMessages lib roots B st line := by
  cases line <;> rfl

/-- The entries a run of the loop adds do not depend on the log so far. -/
theorem loopMessages_setLog {O : Type} (lib : Lib O) (roots : List RootRecord) (B : Int) :
    ∀ (lines : List (Line (Record O))) (st : VerifyState) (ok : Bool) (errors : List String),
      loopMessages lib roots B (st.setLog ok errors) lines = loopMessages lib roots B st lines
  | [], _, _, _ => rfl
  | line :: rest, st, ok, errors => by
    simp only [loopMessages, stepMessages_setLog, verifyStep_setLog, loopMessages_setLog]

/-- A run of the loop of `Verify` appends `loopMessages` to the error list,
clears the flag when there are any, and runs the same otherwise. -/
theorem verifyLoop_setLog {O : Type} (lib : Lib O) (roots : List RootRecord) (B : Int) :
    ∀ (lines : List (Line (Record O))) (st : VerifyState) (ok : Bool) (errors : List String),
      verifyLoop lib roots B (st.setLog ok errors) lines =
        (verifyLoop lib roots B st lines).setLog
          (ok && (loopMessages lib roots B st lines).flatten.isEmpty)
          (errors ++ (loopMessages lib roots B st lines).flatten)
  | [], st, ok, errors => by simp [verifyLoop, loopMessages]
  | line :: rest, st, ok, errors => by
    have ih := verifyLoop_setLog lib roots B rest (verifyStep lib roots B st line)
      (ok && (stepMessages lib roots B st line).isEmpty)
      (errors ++ stepMessages lib roots B st line)
    simp only [verifyLoop, List.foldl_cons] at ih ⊢
    rw [verifyStep_setLog, ih]
    simp only [loopMessages, List.flatten_cons, List.append_assoc, isEmpty_append_eq,
      Bool.and_assoc]

/-- The flag and the error list after a run of the loop. -/
theorem verifyLoop_log {O : Type} (lib : Lib O) (roots : List RootRecord) (B : Int)
    (lines : List (Line (Record O))) (st : VerifyState) :
    (verifyLoop lib roots B st lines).report.OK =
        (st.report.OK && (loopMessages lib roots B st lines).flatten.isEmpty) ∧
      (verifyLoop lib roots B st lines).report.Errors =
        st.report.Errors ++ (loopMessages lib roots B st lines).flatten := by
  have h := verifyLoop_setLog lib roots B lines st st.report.OK st.report.Errors
  have e : st.setLog st.report.OK st.report.Errors = st := rfl
  rw [e] at h
  constructor
  · exact congrArg (fun s => s.report.OK) h
  · exact congrArg (fun s => s.report.Errors) h

/-- The flag `OK` of a report of `Verify` is false exactly when the error
list has an entry. -/
theorem verify_ok_errors {O : Type} (lib : Lib O) (events : List (Line (Record O)))
    (roots : List (Line RootRecord)) (B : Int) :
    (Verify lib events roots B).OK = false ↔ (Verify lib events roots B).Errors ≠ [] := by
  unfold Verify
  cases readRoots roots with
  | error e => simp [VerifyReport.fail, VerifyState.init]
  | ok rs =>
    obtain ⟨h1, h2⟩ := verifyLoop_log lib rs B events VerifyState.init
    simp only [h1, h2]
    simp [VerifyState.init, List.isEmpty_iff]

/-- A record whose event `StableJSON` accepts yields a payload. -/
theorem canonOk_payload {O : Type} (lib : Lib O) (r : Record O) (hr : canonOk lib r = true) :
    ∃ payload, StableJSON lib (Any.event r.Event) = .ok payload := by
  unfold canonOk at hr
  cases hj : StableJSON lib (Any.event r.Event) with
  | error e => rw [hj] at hr; exact absurd hr (by simp)
  | ok payload => exact ⟨payload, rfl⟩

/-- After a record whose event `StableJSON` accepts, the loop of `Verify`
expects the next index and the hash the record stores. -/
theorem verifyStep_moves {O : Type} (lib : Lib O) (roots : List RootRecord) (B : Int)
    (st : VerifyState) (r : Record O) (hr : canonOk lib r = true) :
    (verifyStep lib roots B st (.entry r)).expectedIndex = st.expectedIndex + 1 ∧
    (verifyStep lib roots B st (.entry r)).expectedPrev = r.Hash := by
  obtain ⟨payload, hj⟩ := canonOk_payload lib r hr
  unfold verifyStep
  simp only [hj]
  split
  · split <;> exact ⟨rfl, rfl⟩
  · exact ⟨rfl, rfl⟩

/-- On a record whose event `StableJSON` accepts, the loop body adds the
entries of the three checks of the chain, then at most one entry from the
check of a batch. -/
theorem stepMessages_entry {O : Type} (lib : Lib O) (roots : List RootRecord) (B : Int)
    (st : VerifyState) (r : Record O) (hr : canonOk lib r = true) :
    ∃ extra : List String, extra.length ≤ 1 ∧ (∀ e ∈ extra, IsRootError e) ∧
      stepMessages lib roots B st (.entry r) =
        recordErrors lib (st.expectedIndex + 1) st.expectedPrev r ++ extra := by
  obtain ⟨payload, hj⟩ := canonOk_payload lib r hr
  unfold stepMessages recordErrors hashMismatch
  simp only [hj]
  by_cases hc : B > 0 ∧ ((st.currentBatch ++ [r.Hash]).length : Int) = B
  · simp only [if_pos hc]
    cases hroot : roots[st.rootIndex]? with
    | none =>
      refine ⟨["missing root record"], by simp, ?_, by simp⟩
      intro e he
      simp only [List.mem_singleton] at he
      exact Or.inl he
    | some expected =>
      dsimp only
      refine ⟨if (expected.RootHash != MerkleRoot lib (st.currentBatch ++ [r.Hash])) = true then
          ["root mismatch for batch ending " ++ toString r.Index] else [], ?_, ?_,
        by simp only [List.append_assoc]⟩
      · split <;> simp
      · intro e he
        split at he
        · simp only [List.mem_singleton] at he
          exact Or.inr ⟨r.Index, he⟩
        · simp at he
  · simp only [if_neg hc]
    exact ⟨[], by simp, by simp, by simp⟩

/-- Along records whose events `StableJSON` accepts, the loop of `Verify`
adds, record by record, the entries of `chainErrors` and after them at most
one entry from the check of a batch. -/
theorem loopMessages_chain {O : Type} (lib : Lib O) (roots : List RootRecord) (B : Int) :
    ∀ (recs : List (Record O)) (st : VerifyState), recs.all (canonOk lib) = true →
      ∃ extra : List (List String), extra.length = recs.length ∧
        (∀ l ∈ extra, l.length ≤ 1 ∧ ∀ e ∈ l, IsRootError e) ∧
        loopMessages lib roots B st (recs.map Line.entry) =
          List.zipWith (fun a b => a ++ b)
            (chainErrors lib st.expectedIndex st.expectedPrev recs) extra
  | [], _, _ => ⟨[], rfl, by simp, rfl⟩
  | r :: rest, st, h => by
    simp only [List.all_cons, Bool.and_eq_true] at h
    obtain ⟨x, hx1, hx2, hx3⟩ := stepMessages_entry lib roots B st r h.1
    obtain ⟨hi, hp⟩ := verifyStep_moves lib roots B st r h.1
    obtain ⟨extra, he1, he2, he3⟩ :=
      loopMessages_chain lib roots B rest (verifyStep lib roots B st (.entry r)) h.2
    refine ⟨x :: extra, by simp [he1], ?_, ?_⟩
    · intro l hl
      rcases List.mem_cons.1 hl with rfl | hl
      · exact ⟨hx1, hx2⟩
      · exact he2 l hl
    · simp only [List.map_cons, loopMessages, chainErrors, List.zipWith_cons_cons]
      rw [hx3, he3, hi, hp]

/-- The error list of `Verify` on files without undecodable lines whose
events `StableJSON` accepts. -/
theorem verify_errors_spec {O : Type} (lib : Lib O) (events : List (Line (Record O)))
    (roots : List (Line RootRecord)) (B : Int)
    (hev : decodable events = true) (hroots : decodable roots = true)
    (hjson : (entries events).all (canonOk lib) = true) :
    ∃ extra : List (List String), extra.length = (entries events).length ∧
      (∀ l ∈ extra, l.length ≤ 1 ∧ ∀ e ∈ l, IsRootError e) ∧
      (Verify lib events roots B).Errors =
        (List.zipWith (fun a b => a ++ b) (chainErrors lib 0 "" (entries events)) extra).flatten := by
  obtain ⟨extra, h1, h2, h3⟩ :=
    loopMessages_chain lib (entries roots) B (entries events) VerifyState.init hjson
  refine ⟨extra, h1, h2, ?_⟩
  simp only [Verify, readRoots_decodable roots hroots]
  rw [verifyLoop_entries lib (entries roots) B events VerifyState.init hev]
  rw [(verifyLoop_log lib (entries roots) B _ VerifyState.init).2, h3]
  rfl

/-- C17. `Verify` does not stop at the first error. On an events log and a
roots log without undecodable lines, every event of which `StableJSON`
accepts, the error list is made of one block per record, in file order; the
block of a record holds `index mismatch` when its index is not its 1-based
position, then `prev_hash mismatch` when its `prev_hash` is not the hash
stored in the record before it (`""` for the first), then `hash mismatch`
when its stored hash is not the recomputed chain hash, whatever the blocks
before it hold, and after these at most one entry from the check of a batch
against the roots log. `OK` is false exactly when the error list has an
entry. -/
theorem verify_accumulates {O : Type} (lib : Lib O) (events : List (Line (Record O)))
    (roots : List (Line RootRecord)) (B : Int)
    (hev : decodable events = true) (hroots : decodable roots = true)
    (hjson : (entries events).all (canonOk lib) = true) :
    (∃ extra : List (List String), extra.length = (entries events).length ∧
      (∀ l ∈ extra, l.length ≤ 1 ∧ ∀ e ∈ l, IsRootError e) ∧
      (Verify lib events roots B).Errors =
        (List.zipWith (fun a b => a ++ b)
          (chainErrors lib 0 "" (entries events)) extra).flatten) ∧
    ((Verify lib events roots B).OK = false ↔ (Verify lib events roots B).Errors ≠ []) :=
  ⟨verify_errors_spec lib events roots B hev hroots hjson, verify_ok_errors lib events roots B⟩

theorem verify_accumulates_witness :
    (decodable demoDamaged = true ∧ decodable demoDisk.roots = true ∧
      (entries demoDamaged).all (canonOk demoLib) = true) ∧
    (Verify demoLib demoDamaged demoDisk.roots 2).Errors =
      ["index mismatch at 5", "hash mismatch at 5", "hash mismatch at 2",
       "root mismatch for batch ending 2", "prev_hash mismatch at 3"] ∧
    chainErrors demoLib 0 "" (entries demoDamaged) =
      [["index mismatch at 5", "hash mismatch at 5"],
       ["hash mismatch at 2"], ["prev_hash mismatch at 3"]] ∧
    ((∃ extra : List (List String), extra.length = (entries demoDamaged).length ∧
      (∀ l ∈ extra, l.length ≤ 1 ∧ ∀ e ∈ l, IsRootError e) ∧
      (Verify demoLib demoDamaged demoDisk.roots 2).Errors =
        (List.zipWith (fun a b => a ++ b)
          (chainErrors demoLib 0 "" (entries demoDamaged)) extra).flatten) ∧
    ((Verify demoLib demoDamaged demoDisk.roots 2).OK = false ↔
      (Verify demoLib demoDamaged demoDisk.roots 2).Errors ≠ [])) :=
  ⟨⟨by decide, by decide, by decide⟩, by decide, by decide,
    verify_accumulates demoLib demoDamaged demoDisk.roots 2 (by decide) (by decide) (by decide)⟩

/-! ## Undecodable lines -/


/-- The loop of `loadState` fails on a log with an undecodable line. -/
theorem loadLoop_garbled {O : Type} (c : Int) (e : String) (after : List (Line (Record O))) :
    ∀ (before : List (Line (Record O))) (s : Store),
      ∃ msg, loadLoop c (before ++ Line.garbled e :: after) s = .error msg
  | [], _ => ⟨_, rfl⟩
  | .blank :: rest, s => loadLoop_garbled c e after rest s
  | .garbled e' :: rest, _ => ⟨_, rfl⟩
  | .entry r :: rest, s => by
    simp only [List.cons_append, loadLoop]
    exact loadLoop_garbled c e after rest _

/-- Store startup fails on an events log with an undecodable line, whatever
the roots log holds. -/
theorem newStore_garbled {O : Type} (before after : List (Line (Record O))) (e : String)
    (roots : List (Line RootRecord)) (b : Int) :
    ∃ msg, NewStore { events := before ++ Line.garbled e :: after, roots := roots } b =
      .error msg := by
  unfold NewStore loadState
  dsimp only
  cases readLastRoot roots with
  | error m => exact ⟨m, rfl⟩
  | ok lastRoot => exact loadLoop_garbled _ e after before _

/-- The report of `Verify` on a log with an undecodable line, against the
report on the log without that line. -/
theorem verify_garbled_spec {O : Type} (lib : Lib O) (before after : List (Line (Record O)))
    (e : String) (roots : List (Line RootRecord)) (B : Int) (hroots : decodable roots = true) :
    (Verify lib (before ++ Line.garbled e :: after) roots B).OK = false ∧
    (∃ post, (Verify lib (before ++ after) roots B).Errors =
        (Verify lib before roots B).Errors ++ post ∧
      (Verify lib (before ++ Line.garbled e :: after) roots B).Errors =
        (Verify lib before roots B).Errors ++ ["decode record: " ++ e] ++ post) ∧
    (Verify lib (before ++ Line.garbled e :: after) roots B).Total =
      (Verify lib (before ++ after) roots B).Total ∧
    (Verify lib (before ++ Line.garbled e :: after) roots B).LastIndex =
      (Verify lib (before ++ after) roots B).LastIndex ∧
    (Verify lib (before ++ Line.garbled e :: after) roots B).LastHash =
      (Verify lib (before ++ after) roots B).LastHash ∧
    (Verify lib (before ++ Line.garbled e :: after) roots B).RootsChecked =
      (Verify lib (before ++ after) roots B).RootsChecked := by
  simp only [Verify, readRoots_decodable roots hroots]
  have hg : ∀ st : VerifyState, verifyStep lib (entries roots) B st (Line.garbled e) =
      st.setLog false (st.report.Errors ++ ["decode record: " ++ e]) := fun _ => rfl
  have h1 : verifyLoop lib (entries roots) B VerifyState.init (before ++ Line.garbled e :: after) =
      (verifyLoop lib (entries roots) B VerifyState.init (before ++ after)).setLog
        (false && (loopMessages lib (entries roots) B
          (verifyLoop lib (entries roots) B VerifyState.init before) after).flatten.isEmpty)
        ((verifyLoop lib (entries roots) B VerifyState.init before).report.Errors ++
          ["decode record: " ++ e] ++ (loopMessages lib (entries roots) B
          (verifyLoop lib (entries roots) B VerifyState.init before) after).flatten) := by
    rw [verifyLoop_append, verifyLoop_append]
    have : verifyLoop lib (entries roots) B
        (verifyLoop lib (entries roots) B VerifyState.init before) (Line.garbled e :: after) =
        verifyLoop lib (entries roots) B
          (verifyStep lib (entries roots) B
            (verifyLoop lib (entries roots) B VerifyState.init before) (Line.garbled e)) after :=
      rfl
    rw [this, hg, verifyLoop_setLog]
  have h2 := (verifyLoop_log lib (entries roots) B after
    (verifyLoop lib (entries roots) B VerifyState.init before)).2
  rw [← verifyLoop_append] at h2
  rw [h1]
  exact ⟨rfl, ⟨_, h2, rfl⟩, rfl, rfl, rfl, rfl⟩

/-- An undecodable line leaves the local variables of the loop of `Verify`
as they were. -/
theorem verifyLoop_garbled_state {O : Type} (lib : Lib O) (roots : List RootRecord) (B : Int)
    (before : List (Line (Record O))) (e : String) :
    (verifyLoop lib roots B VerifyState.init (before ++ [Line.garbled e])).expectedIndex =
      (verifyLoop lib roots B VerifyState.init before).expectedIndex ∧
    (verifyLoop lib roots B VerifyState.init (before ++ [Line.garbled e])).expectedPrev =
      (verifyLoop lib roots B VerifyState.init before).expectedPrev ∧
    (verifyLoop lib roots B VerifyState.init (before ++ [Line.garbled e])).currentBatch =
      (verifyLoop lib roots B VerifyState.init before).currentBatch ∧
    (verifyLoop lib roots B VerifyState.init (before ++ [Line.garbled e])).rootIndex =
      (verifyLoop lib roots B VerifyState.init before).rootIndex := by
  rw [verifyLoop_append]
  exact ⟨rfl, rfl, rfl, rfl⟩

/-- C18. On an events log with an undecodable line `e` between the lines
`before` and `after`, and a roots log without undecodable lines, `Verify`
returns `OK = false`; the line leaves the expected index, the expected
`prev_hash`, the current batch and the position in the roots log as they
were; the error list is that of the log without the line, with the one entry
`decode record: e` put in after the entries of `before`, and `Total`,
`LastIndex`, `LastHash` and `RootsChecked` are those of the log without the
line. `NewStore` on the same events log returns an error, whatever the roots
log and the batch size. -/
theorem verify_continues_newStore_fails {O : Type} (lib : Lib O)
    (before after : List (Line (Record O))) (e : String) (roots : List (Line RootRecord))
    (B : Int) (hroots : decodable roots = true) :
    ((Verify lib (before ++ Line.garbled e :: after) roots B).OK = false ∧
      (∃ post, (Verify lib (before ++ after) roots B).Errors =
          (Verify lib before roots B).Errors ++ post ∧
        (Verify lib (before ++ Line.garbled e :: after) roots B).Errors =
          (Verify lib before roots B).Errors ++ ["decode record: " ++ e] ++ post) ∧
      (Verify lib (before ++ Line.garbled e :: after) roots B).Total =
        (Verify lib (before ++ after) roots B).Total ∧
      (Verify lib (before ++ Line.garbled e :: after) roots B).LastIndex =
        (Verify lib (before ++ after) roots B).LastIndex ∧
      (Verify lib (before ++ Line.garbled e :: after) roots B).LastHash =
        (Verify lib (before ++ after) roots B).LastHash ∧
      (Verify lib (before ++ Line.garbled e :: after) roots B).RootsChecked =
        (Verify lib (before ++ after) roots B).RootsChecked) ∧
    ((verifyLoop lib (entries roots) B VerifyState.init
          (before ++ [Line.garbled e])).expectedIndex =
        (verifyLoop lib (entries roots) B VerifyState.init before).expectedIndex ∧
      (verifyLoop lib (entries roots) B VerifyState.init
          (before ++ [Line.garbled e])).expectedPrev =
        (verifyLoop lib (entries roots) B VerifyState.init before).expectedPrev ∧
      (verifyLoop lib (entries roots) B VerifyState.init
          (before ++ [Line.garbled e])).currentBatch =
        (verifyLoop lib (entries roots) B VerifyState.init before).currentBatch ∧
      (verifyLoop lib (entries roots) B VerifyState.init
          (before ++ [Line.garbled e])).rootIndex =
        (verifyLoop lib (entries roots) B VerifyState.init before).rootIndex) ∧
    (∀ (roots' : List (Line RootRecord)) (b : Int),
      ∃ msg, NewStore { events := before ++ Line.garbled e :: after, roots := roots' } b =
        .error msg) :=
  ⟨verify_garbled_spec lib before after e roots B hroots,
    verifyLoop_garbled_state lib (entries roots) B before e,
    fun roots' b => newStore_garbled before after e roots' b⟩

theorem verify_continues_newStore_fails_witness :
    decodable demoDisk.roots = true ∧
    (Verify demoLib demoGarbled demoDisk.roots 2).Errors =
      ["index mismatch at 5", "hash mismatch at 5",
       "decode record: unexpected end of JSON input", "hash mismatch at 2",
       "root mismatch for batch ending 2", "prev_hash mismatch at 3"] ∧
    (((Verify demoLib demoGarbled demoDisk.roots 2).OK = false ∧
      (∃ post, (Verify demoLib (demoDamaged.take 1 ++ demoDamaged.drop 1) demoDisk.roots 2).Errors =
          (Verify demoLib (demoDamaged.take 1) demoDisk.roots 2).Errors ++ post ∧
        (Verify demoLib demoGarbled demoDisk.roots 2).Errors =
          (Verify demoLib (demoDamaged.take 1) demoDisk.roots 2).Errors ++
            ["decode record: " ++ "unexpected end of JSON input"] ++ post) ∧
      (Verify demoLib demoGarbled demoDisk.roots 2).Total =
        (Verify demoLib (demoDamaged.take 1 ++ demoDamaged.drop 1) demoDisk.roots 2).Total ∧
      (Verify demoLib demoGarbled demoDisk.roots 2).LastIndex =
        (Verify demoLib (demoDamaged.take 1 ++ demoDamaged.drop 1) demoDisk.roots 2).LastIndex ∧
      (Verify demoLib demoGarbled demoDisk.roots 2).LastHash =
        (Verify demoLib (demoDamaged.take 1 ++ demoDamaged.drop 1) demoDisk.roots 2).LastHash ∧
      (Verify demoLib demoGarbled demoDisk.roots 2).RootsChecked =
        (Verify demoLib (demoDamaged.take 1 ++ demoDamaged.drop 1) demoDisk.roots 2).RootsChecked) ∧
    ((verifyLoop demoLib (entries demoDisk.roots) 2 VerifyState.init
          (demoDamaged.take 1 ++ [Line.garbled "unexpected end of JSON input"])).expectedIndex =
        (verifyLoop demoLib (entries demoDisk.roots) 2 VerifyState.init
          (demoDamaged.take 1)).expectedIndex ∧
      (verifyLoop demoLib (entries demoDisk.roots) 2 VerifyState.init
          (demoDamaged.take 1 ++ [Line.garbled "unexpected end of JSON input"])).expectedPrev =
        (verifyLoop demoLib (entries demoDisk.roots) 2 VerifyState.init
          (demoDamaged.take 1)).expectedPrev ∧
      (verifyLoop demoLib (entries demoDisk.roots) 2 VerifyState.init
          (demoDamaged.take 1 ++ [Line.garbled "unexpected end of JSON input"])).currentBatch =
        (verifyLoop demoLib (entries demoDisk.roots) 2 VerifyState.init
          (demoDamaged.take 1)).currentBatch ∧
      (verifyLoop demoLib (entries demoDisk.roots) 2 VerifyState.init
          (demoDamaged.take 1 ++ [Line.garbled "unexpected end of JSON input"])).rootIndex =
        (verifyLoop demoLib (entries demoDisk.roots) 2 VerifyState.init
          (demoDamaged.take 1)).rootIndex) ∧
    (∀ (roots' : List (Line RootRecord)) (b : Int),
      ∃ msg, NewStore { events := demoGarbled, roots := roots' } b =
        .error msg)) :=
  ⟨by decide, by decide,
    verify_continues_newStore_fails demoLib (demoDamaged.take 1) (demoDamaged.drop 1)
      "unexpected end of JSON input" demoDisk.roots 2 (by decide)⟩

/-! ## The summary of token counts -/


/-- The first loop of `SummarizeTokenCounts` counts the entries below `k`
and emits the others in order, each with its key, its raw count and the
window. -/
theorem summarizeLoop_spec {F R : Type} (rt : Runtime F R) (k : Int) (epsilon : F) (w : Int) :
    ∀ (counts : List (String × Int)) (st : SummaryState F R),
      (summarizeLoop rt k epsilon w counts st).redacted =
          st.redacted + ((counts.filter fun p => decide (p.2 < k)).length : Int) ∧
        (summarizeLoop rt k epsilon w counts st).items.map (fun t => (t.Mint, t.Count)) =
          st.items.map (fun t => (t.Mint, t.Count)) ++
            counts.filter (fun p => decide (k ≤ p.2)) ∧
        ((∀ t ∈ st.items, t.WindowHrs = w) →
          ∀ t ∈ (summarizeLoop rt k epsilon w counts st).items, t.WindowHrs = w)
  | [], st => by simp [summarizeLoop]
  | (mint, count) :: rest, st => by
    by_cases h : count < k
    · have ih := summarizeLoop_spec rt k epsilon w rest { st with redacted := st.redacted + 1 }
      have h' : ¬ k ≤ count := by omega
      simp only [summarizeLoop, if_pos h]
      refine ⟨?_, ?_, ih.2.2⟩
      · rw [ih.1]
        simp only [List.filter_cons, h, decide_True, if_true, List.length_cons]
        push_cast
        ring
      · rw [ih.2.1]
        simp [List.filter_cons, h']
    · have ih := summarizeLoop_spec rt k epsilon w rest
        { st with
          items := st.items ++
            [{ Mint := mint, Count := count,
               Noised := rt.add (rt.ofInt count)
                 (laplace rt st.rng (rt.div (rt.lit 1 0) epsilon)).1,
               WindowHrs := w }],
          rng := (laplace rt st.rng (rt.div (rt.lit 1 0) epsilon)).2 }
      have h' : k ≤ count := by omega
      simp only [summarizeLoop, if_neg h]
      refine ⟨?_, ?_, ?_⟩
      · rw [ih.1]
        simp [List.filter_cons, h]
      · rw [ih.2.1]
        simp [List.filter_cons, h']
      · intro hst
        apply ih.2.2
        intro t ht
        rcases List.mem_append.1 ht with ht | ht
        · exact hst t ht
        · simp only [List.mem_singleton] at ht
          rw [ht]

/-- The summary of `SummarizeTokenCounts` when `sort.Slice` permutes. -/
theorem summarize_spec {F R : Type} (rt : Runtime F R) (counts : List (String × Int))
    (k : Int) (epsilon : F) (seed w now : Int)
    (hsort : ∀ less l, (rt.sortSlice less l).Perm l) :
    ((SummarizeTokenCounts rt counts k epsilon seed w now).Items.map
        fun t => (t.Mint, t.Count)).Perm
      (counts.filter fun p => decide (appliedK k ≤ p.2)) ∧
    (∀ t ∈ (SummarizeTokenCounts rt counts k epsilon seed w now).Items,
      ¬ t.Count < appliedK k ∧ t.WindowHrs = w) ∧
    (SummarizeTokenCounts rt counts k epsilon seed w now).RedactedCount =
      ((counts.filter fun p => decide (p.2 < appliedK k)).length : Int) ∧
    (SummarizeTokenCounts rt counts k epsilon seed w now).AppliedK = appliedK k ∧
    0 < appliedK k ∧ (0 < k → appliedK k = k) ∧ (k ≤ 0 → appliedK k = 1) := by
  obtain ⟨h1, h2, h3⟩ := summarizeLoop_spec rt (appliedK k) (appliedEpsilon rt epsilon) w counts
    { redacted := 0, items := [], rng := seededRng rt seed now }
  have hperm : ((SummarizeTokenCounts rt counts k epsilon seed w now).Items.map
        fun t => (t.Mint, t.Count)).Perm
      (counts.filter fun p => decide (appliedK k ≤ p.2)) := by
    have := (hsort (fun x y => rt.lt y.Noised x.Noised)
      (summarizeLoop rt (appliedK k) (appliedEpsilon rt epsilon) w counts
        { redacted := 0, items := [], rng := seededRng rt seed now }).items).map
      (fun t => (t.Mint, t.Count))
    rw [h2] at this
    simpa [SummarizeTokenCounts] using this
  refine ⟨hperm, ?_, ?_, rfl, ?_, ?_, ?_⟩
  · intro t ht
    constructor
    · have hm : (t.Mint, t.Count) ∈ (SummarizeTokenCounts rt counts k epsilon seed w now).Items.map
          fun t => (t.Mint, t.Count) := List.mem_map_of_mem _ ht
      have := (hperm.mem_iff).1 hm
      simp only [List.mem_filter, decide_eq_true_eq] at this
      omega
    · have ht' := ((hsort _ _).mem_iff).1 ht
      exact h3 (by simp) t ht'
  · simp only [SummarizeTokenCounts]
    rw [h1]
    simp
  · unfold appliedK; split <;> omega
  · intro hk; unfold appliedK; rw [if_neg (by omega)]
  · intro hk; unfold appliedK; rw [if_pos hk]

/-- C19. Whenever `sort.Slice` returns a permutation of the slice it is
given, for every order of iteration of the counts map and all parameters,
with `appliedK k` the value of `k` after the clamp (1 when `k <= 0`, `k`
otherwise): the items of the summary, read as pairs of key and raw count,
are a permutation of the input entries whose count is at least `appliedK k`;
no item has a count below `appliedK k`; and `RedactedCount` is the number of
input entries whose count is below `appliedK k`. -/
theorem summarize_k_suppression {F R : Type} (rt : Runtime F R) (counts : List (String × Int))
    (k : Int) (epsilon : F) (seed w now : Int)
    (hsort : ∀ less l, (rt.sortSlice less l).Perm l) :
    ((SummarizeTokenCounts rt counts k epsilon seed w now).Items.map
        fun t => (t.Mint, t.Count)).Perm
      (counts.filter fun p => decide (appliedK k ≤ p.2)) ∧
    (∀ t ∈ (SummarizeTokenCounts rt counts k epsilon seed w now).Items,
      ¬ t.Count < appliedK k ∧ t.WindowHrs = w) ∧
    (SummarizeTokenCounts rt counts k epsilon seed w now).RedactedCount =
      ((counts.filter fun p => decide (p.2 < appliedK k)).length : Int) ∧
    (SummarizeTokenCounts rt counts k epsilon seed w now).AppliedK = appliedK k ∧
    0 < appliedK k ∧ (0 < k → appliedK k = k) ∧ (k ≤ 0 → appliedK k = 1) :=
  summarize_spec rt counts k epsilon seed w now hsort

theorem summarize_k_suppression_witness :
    (∀ less l, (demoRuntime.sortSlice less l).Perm l) ∧
    (SummarizeTokenCounts demoRuntime demoCounts 5 500 1 24 0).RedactedCount = 2 ∧
    (SummarizeTokenCounts demoRuntime demoCounts 5 500 1 24 0).Items.map
      (fun t => (t.Mint, t.Count, t.Noised)) = [("A", 10, 10360)] ∧
    (((SummarizeTokenCounts demoRuntime demoCounts 5 500 1 24 0).Items.map
        fun t => (t.Mint, t.Count)).Perm
      (demoCounts.filter fun p => decide (appliedK 5 ≤ p.2)) ∧
    (∀ t ∈ (SummarizeTokenCounts demoRuntime demoCounts 5 500 1 24 0).Items,
      ¬ t.Count < appliedK 5 ∧ t.WindowHrs = 24) ∧
    (SummarizeTokenCounts demoRuntime demoCounts 5 500 1 24 0).RedactedCount =
      ((demoCounts.filter fun p => decide (p.2 < appliedK 5)).length : Int) ∧
    (SummarizeTokenCounts demoRuntime demoCounts 5 500 1 24 0).AppliedK = appliedK 5 ∧
    0 < appliedK 5 ∧ ((0 : Int) < 5 → appliedK 5 = 5) ∧ ((5 : Int) ≤ 0 → appliedK 5 = 1)) :=
  ⟨fun _ l => List.perm_insertionSort _ l, by decide, by decide,
    summarize_k_suppression demoRuntime demoCounts 5 500 1 24 0
      (fun _ l => List.perm_insertionSort _ l)⟩

/-! ## The seed and the order of iteration -/

/-- The items of `SummarizeTokenCounts` on two entries that are both kept:
the first entry of the iteration takes the first draw of the generator, the
second entry the second draw. -/
theorem summarize_two_kept {F R : Type} (rt : Runtime F R) (a b : String) (c k : Int)
    (epsilon : F) (seed w now : Int) (hk : appliedK k ≤ c) :
    (SummarizeTokenCounts rt [(a, c), (b, c)] k epsilon seed w now).Items =
      rt.sortSlice (fun x y => rt.lt y.Noised x.Noised)
        [{ Mint := a, Count := c,
           Noised := rt.add (rt.ofInt c)
             (laplace rt (seededRng rt seed now)
               (rt.div (rt.lit 1 0) (appliedEpsilon rt epsilon))).1,
           WindowHrs := w },
         { Mint := b, Count := c,
           Noised := rt.add (rt.ofInt c)
             (laplace rt
               (laplace rt (seededRng rt seed now)
                 (rt.div (rt.lit 1 0) (appliedEpsilon rt epsilon))).2
               (rt.div (rt.lit 1 0) (appliedEpsilon rt epsilon))).1,
           WindowHrs := w }] := by
  have h : ¬ c < appliedK k := by omega
  simp only [SummarizeTokenCounts, summarizeLoop, if_neg h, List.nil_append, List.cons_append]

/-- The summary depends on the order of iteration of the map: with two kept
keys of equal count and a generator whose first two draws give different
noised values, the key that is visited first carries the first draw. -/
theorem summarize_order_spec {F R : Type} (rt : Runtime F R) (a b : String) (c k : Int)
    (epsilon : F) (seed w now : Int)
    (hsort : ∀ less l, (rt.sortSlice less l).Perm l) (hab : a ≠ b) (hk : appliedK k ≤ c)
    (hnoise :
      rt.add (rt.ofInt c)
          (laplace rt (seededRng rt seed now)
            (rt.div (rt.lit 1 0) (appliedEpsilon rt epsilon))).1 ≠
        rt.add (rt.ofInt c)
          (laplace rt
            (laplace rt (seededRng rt seed now)
              (rt.div (rt.lit 1 0) (appliedEpsilon rt epsilon))).2
            (rt.div (rt.lit 1 0) (appliedEpsilon rt epsilon))).1) :
    (∃ t ∈ (SummarizeTokenCounts rt [(a, c), (b, c)] k epsilon seed w now).Items,
      t.Mint = a ∧
      t.Noised = rt.add (rt.ofInt c)
        (laplace rt (seededRng rt seed now)
          (rt.div (rt.lit 1 0) (appliedEpsilon rt epsilon))).1) ∧
    (∀ t ∈ (SummarizeTokenCounts rt [(b, c), (a, c)] k epsilon seed w now).Items,
      t.Mint = a →
      t.Noised ≠ rt.add (rt.ofInt c)
        (laplace rt (seededRng rt seed now)
          (rt.div (rt.lit 1 0) (appliedEpsilon rt epsilon))).1) ∧
    SummarizeTokenCounts rt [(a, c), (b, c)] k epsilon seed w now ≠
      SummarizeTokenCounts rt [(b, c), (a, c)] k epsilon seed w now := by
  have h1 := summarize_two_kept rt a b c k epsilon seed w now hk
  have h2 := summarize_two_kept rt b a c k epsilon seed w now hk
  have m1 : ∃ t ∈ (SummarizeTokenCounts rt [(a, c), (b, c)] k epsilon seed w now).Items,
      t.Mint = a ∧
      t.Noised = rt.add (rt.ofInt c)
        (laplace rt (seededRng rt seed now)
          (rt.div (rt.lit 1 0) (appliedEpsilon rt epsilon))).1 := by
    rw [h1]
    exact ⟨_, ((hsort _ _).mem_iff).2 (List.mem_cons_self _ _), rfl, rfl⟩
  have m2 : ∀ t ∈ (SummarizeTokenCounts rt [(b, c), (a, c)] k epsilon seed w now).Items,
      t.Mint = a →
      t.Noised ≠ rt.add (rt.ofInt c)
        (laplace rt (seededRng rt seed now)
          (rt.div (rt.lit 1 0) (appliedEpsilon rt epsilon))).1 := by
    intro t ht hta
    rw [h2] at ht
    have ht' := ((hsort _ _).mem_iff).1 ht
    simp only [List.mem_cons, List.mem_singleton, List.not_mem_nil, or_false] at ht'
    rcases ht' with rfl | rfl
    · exact absurd hta.symm hab
    · exact fun e => hnoise e.symm
  refine ⟨m1, m2, ?_⟩
  intro e
  obtain ⟨t, ht, hta, htn⟩ := m1
  rw [e] at ht
  exact m2 t ht hta htn

/-- C20. With a fixed seed the summary still depends on the order in which
the counts map is iterated. Whenever `sort.Slice` permutes, for two
different keys `a` and `b` of the same count `c`, not below the clamped `k`,
and a generator whose first two draws give different noised values for `c`:
iterated as `a, b` the summary holds an item of key `a` with the noised
value of the first draw; iterated as `b, a` no item of key `a` has that
noised value; so the two summaries differ. -/
theorem summarize_depends_on_iteration_order {F R : Type} (rt : Runtime F R) (a b : String)
    (c k : Int) (epsilon : F) (seed w now : Int)
    (hsort : ∀ less l, (rt.sortSlice less l).Perm l) (hab : a ≠ b) (hk : appliedK k ≤ c)
    (hnoise :
      rt.add (rt.ofInt c)
          (laplace rt (seededRng rt seed now)
            (rt.div (rt.lit 1 0) (appliedEpsilon rt epsilon))).1 ≠
        rt.add (rt.ofInt c)
          (laplace rt
            (laplace rt (seededRng rt seed now)
              (rt.div (rt.lit 1 0) (appliedEpsilon rt epsilon))).2
            (rt.div (rt.lit 1 0) (appliedEpsilon rt epsilon))).1) :
    (∃ t ∈ (SummarizeTokenCounts rt [(a, c), (b, c)] k epsilon seed w now).Items,
      t.Mint = a ∧
      t.Noised = rt.add (rt.ofInt c)
        (laplace rt (seededRng rt seed now)
          (rt.div (rt.lit 1 0) (appliedEpsilon rt epsilon))).1) ∧
    (∀ t ∈ (SummarizeTokenCounts rt [(b, c), (a, c)] k epsilon seed w now).Items,
      t.Mint = a →
      t.Noised ≠ rt.add (rt.ofInt c)
        (laplace rt (seededRng rt seed now)
          (rt.div (rt.lit 1 0) (appliedEpsilon rt epsilon))).1) ∧
    SummarizeTokenCounts rt [(a, c), (b, c)] k epsilon seed w now ≠
      SummarizeTokenCounts rt [(b, c), (a, c)] k epsilon seed w now :=
  summarize_order_spec rt a b c k epsilon seed w now hsort hab hk hnoise

theorem summarize_depends_on_iteration_order_witness :
    ((∀ less l, (demoRuntime.sortSlice less l).Perm l) ∧ "A" ≠ "B" ∧ appliedK 1 ≤ 10 ∧
      (demoRuntime.add (demoRuntime.ofInt 10)
          (laplace demoRuntime (seededRng demoRuntime 1 0)
            (demoRuntime.div (demoRuntime.lit 1 0) (appliedEpsilon demoRuntime 500))).1 ≠
        demoRuntime.add (demoRuntime.ofInt 10)
          (laplace demoRuntime
            (laplace demoRuntime (seededRng demoRuntime 1 0)
              (demoRuntime.div (demoRuntime.lit 1 0) (appliedEpsilon demoRuntime 500))).2
            (demoRuntime.div (demoRuntime.lit 1 0) (appliedEpsilon demoRuntime 500))).1)) ∧
    (SummarizeTokenCounts demoRuntime [("A", 10), ("B", 10)] 1 500 1 24 0).Items.map
      (fun t => (t.Mint, t.Count, t.Noised)) = [("B", 10, 11580), ("A", 10, 10360)] ∧
    (SummarizeTokenCounts demoRuntime [("B", 10), ("A", 10)] 1 500 1 24 0).Items.map
      (fun t => (t.Mint, t.Count, t.Noised)) = [("A", 10, 11580), ("B", 10, 10360)] ∧
    ((∃ t ∈ (SummarizeTokenCounts demoRuntime [("A", 10), ("B", 10)] 1 500 1 24 0).Items,
      t.Mint = "A" ∧
      t.Noised = demoRuntime.add (demoRuntime.ofInt 10)
        (laplace demoRuntime (seededRng demoRuntime 1 0)
          (demoRuntime.div (demoRuntime.lit 1 0) (appliedEpsilon demoRuntime 500))).1) ∧
    (∀ t ∈ (SummarizeTokenCounts demoRuntime [("B", 10), ("A", 10)] 1 500 1 24 0).Items,
      t.Mint = "A" →
      t.Noised ≠ demoRuntime.add (demoRuntime.ofInt 10)
        (laplace demoRuntime (seededRng demoRuntime 1 0)
          (demoRuntime.div (demoRuntime.lit 1 0) (appliedEpsilon demoRuntime 500))).1) ∧
    SummarizeTokenCounts demoRuntime [("A", 10), ("B", 10)] 1 500 1 24 0 ≠
      SummarizeTokenCounts demoRuntime [("B", 10), ("A", 10)] 1 500 1 24 0) :=
  ⟨⟨fun _ l => List.perm_insertionSort _ l, by decide, by decide, by decide⟩,
    by decide, by decide,
    summarize_depends_on_iteration_order demoRuntime "A" "B" 10 1 500 1 24 0
      (fun _ l => List.perm_insertionSort _ l) (by decide) (by decide) (by decide)⟩

/-! ## The bytes of a string -/


/-- A shift of a bit vector by a bit vector, as numbers. -/
theorem bv_shr_toNat (x y : BitVec 32) : (x >>> y).toNat = x.toNat >>> y.toNat := rfl

/-- The shift `v >>> 6`, as a number. -/
theorem u32_shr6 (v : UInt32) : (v >>> 6).toNat = v.toNat / 64 := by
  show (UInt32.shiftRight v 6).toNat = _
  unfold UInt32.shiftRight
  have e : (UInt32.mod 6 32).toBitVec = 6#32 := by decide
  rw [e]
  simp only [UInt32.toNat]
  rw [bv_shr_toNat, Nat.shiftRight_eq_div_pow]
  rfl

/-- The shift `v >>> 12`, as a number. -/
theorem u32_shr12 (v : UInt32) : (v >>> 12).toNat = v.toNat / 4096 := by
  show (UInt32.shiftRight v 12).toNat = _
  unfold UInt32.shiftRight
  have e : (UInt32.mod 12 32).toBitVec = 12#32 := by decide
  rw [e]
  simp only [UInt32.toNat]
  rw [bv_shr_toNat, Nat.shiftRight_eq_div_pow]
  rfl

/-- The shift `v >>> 18`, as a number. -/
theorem u32_shr18 (v : UInt32) : (v >>> 18).toNat = v.toNat / 262144 := by
  show (UInt32.shiftRight v 18).toNat = _
  unfold UInt32.shiftRight
  have e : (UInt32.mod 18 32).toBitVec = 18#32 := by decide
  rw [e]
  simp only [UInt32.toNat]
  rw [bv_shr_toNat, Nat.shiftRight_eq_div_pow]
  rfl

/-- The conversion `toUInt8` keeps the low byte. -/
theorem u32_low (v : UInt32) : v.toUInt8.toNat = v.toNat % 256 := by
  simp only [UInt32.toUInt8, UInt32.toNat, Nat.toUInt8, UInt8.ofNat, UInt8.toNat, BitVec.toNat_ofNat]

set_option maxRecDepth 100000 in
/-- A continuation byte `x &&& 0x3f ||| 0x80`, as a number. -/
theorem utf8_tail_byte (x : UInt8) : (x &&& 63 ||| 128).toNat = 128 + x.toNat % 64 := by
  rcases x with ⟨⟨n, h⟩⟩
  revert h
  revert n
  decide

set_option maxRecDepth 100000 in
/-- The first byte of a two-byte encoding, as a number. -/
theorem utf8_lead2 (x : UInt8) : (x &&& 31 ||| 192).toNat = 192 + x.toNat % 32 := by
  rcases x with ⟨⟨n, h⟩⟩
  revert h
  revert n
  decide

set_option maxRecDepth 100000 in
/-- The first byte of a three-byte encoding, as a number. -/
theorem utf8_lead3 (x : UInt8) : (x &&& 15 ||| 224).toNat = 224 + x.toNat % 16 := by
  rcases x with ⟨⟨n, h⟩⟩
  revert h
  revert n
  decide

set_option maxRecDepth 100000 in
/-- The first byte of a four-byte encoding, as a number. -/
theorem utf8_lead4 (x : UInt8) : (x &&& 7 ||| 240).toNat = 240 + x.toNat % 8 := by
  rcases x with ⟨⟨n, h⟩⟩
  revert h
  revert n
  decide

/-- A comparison with a constant, as numbers. -/
theorem u32_le_lit (v : UInt32) (n : Nat) (hn : n < 4294967296) :
    v ≤ UInt32.ofNat n ↔ v.toNat ≤ n := by
  show v.toBitVec ≤ (UInt32.ofNat n).toBitVec ↔ _
  rw [BitVec.le_def]
  simp only [UInt32.ofNat, BitVec.toNat_ofNat, UInt32.toNat]
  rw [Nat.mod_eq_of_lt (by simpa using hn)]

/-- The bytes of a character are those of `encNat`. -/
theorem utf8EncodeChar_toNat (c : Char) :
    (String.utf8EncodeChar c).map UInt8.toNat = encNat c.val.toNat := by
  have h1 : c.val ≤ 127 ↔ c.val.toNat ≤ 127 := u32_le_lit c.val 127 (by decide)
  have h2 : c.val ≤ 2047 ↔ c.val.toNat ≤ 2047 := u32_le_lit c.val 2047 (by decide)
  have h3 : c.val ≤ 65535 ↔ c.val.toNat ≤ 65535 := u32_le_lit c.val 65535 (by decide)
  unfold String.utf8EncodeChar encNat
  simp only []
  by_cases c1 : c.val.toNat ≤ 127
  · rw [if_pos (h1.2 c1), if_pos c1]
    simp only [List.map_cons, List.map_nil, u32_low]
    congr 1
    omega
  · rw [if_neg (fun h => c1 (h1.1 h)), if_neg c1]
    by_cases c2 : c.val.toNat ≤ 2047
    · rw [if_pos (h2.2 c2), if_pos c2]
      simp only [List.map_cons, List.map_nil, utf8_tail_byte, utf8_lead2, u32_low, u32_shr6]
      congr 1
      · omega
      · congr 1; omega
    · rw [if_neg (fun h => c2 (h2.1 h)), if_neg c2]
      by_cases c3 : c.val.toNat ≤ 65535
      · rw [if_pos (h3.2 c3), if_pos c3]
        simp only [List.map_cons, List.map_nil, utf8_tail_byte, utf8_lead3, u32_low, u32_shr6,
          u32_shr12]
        congr 1
        · omega
        · congr 1
          · omega
          · congr 1; omega
      · rw [if_neg (fun h => c3 (h3.1 h)), if_neg c3]
        simp only [List.map_cons, List.map_nil, utf8_tail_byte, utf8_lead4, u32_low, u32_shr6,
          u32_shr12, u32_shr18]
        congr 1
        · omega
        · congr 1
          · omega
          · congr 1
            · omega
            · congr 1; omega

/-- The encoding of a code point is read off the front of a byte sequence. -/
theorem encNat_append_inj (v w : Nat) (x y : List Nat) (hv : v < 2097152) (hw : w < 2097152)
    (h : encNat v ++ x = encNat w ++ y) : v = w := by
  unfold encNat at h
  split_ifs at h <;>
    simp only [List.cons_append, List.nil_append, List.cons.injEq] at h <;> omega

/-- A code point has at most 21 bits. -/
theorem char_val_lt (c : Char) : c.val.toNat < 2097152 := by
  have h := c.valid
  unfold UInt32.isValidChar Nat.isValidChar at h
  omega

/-- The encoding of characters is prefix free. -/
theorem utf8EncodeChar_append_inj (c d : Char) (x y : Bytes)
    (h : String.utf8EncodeChar c ++ x = String.utf8EncodeChar d ++ y) : c = d ∧ x = y := by
  have h' := congrArg (List.map UInt8.toNat) h
  simp only [List.map_append, utf8EncodeChar_toNat] at h'
  have hv := encNat_append_inj _ _ _ _ (char_val_lt c) (char_val_lt d) h'
  have hcd : c = d := by
    apply Char.ext
    exact UInt32.ext hv
  subst hcd
  exact ⟨rfl, List.append_cancel_left h⟩

/-- A character has at least one byte. -/
theorem utf8EncodeChar_ne_nil (c : Char) : String.utf8EncodeChar c ≠ [] := by
  intro h
  have h' := congrArg (List.map UInt8.toNat) h
  rw [utf8EncodeChar_toNat] at h'
  unfold encNat at h'
  split_ifs at h' <;> simp at h'

/-- Lists of characters with the same bytes are equal. -/
theorem flatMap_utf8_inj : ∀ l₁ l₂ : List Char,
    l₁.flatMap String.utf8EncodeChar = l₂.flatMap String.utf8EncodeChar → l₁ = l₂
  | [], [], _ => rfl
  | [], d :: l₂, h => by
    simp only [List.flatMap_nil, List.flatMap_cons] at h
    exact absurd (List.append_eq_nil.1 h.symm).1 (utf8EncodeChar_ne_nil d)
  | c :: l₁, [], h => by
    simp only [List.flatMap_nil, List.flatMap_cons] at h
    exact absurd (List.append_eq_nil.1 h).1 (utf8EncodeChar_ne_nil c)
  | c :: l₁, d :: l₂, h => by
    simp only [List.flatMap_cons] at h
    obtain ⟨hcd, hrest⟩ := utf8EncodeChar_append_inj c d _ _ h
    rw [hcd, flatMap_utf8_inj l₁ l₂ hrest]

/-- Different strings have different bytes. -/
theorem utf8_inj (a b : String) (h : utf8 a = utf8 b) : a = b := by
  unfold utf8 at h
  have := flatMap_utf8_inj _ _ h
  exact String.ext this

/-! ## The order of keys -/


/-- The byte order compares any two byte sequences. -/
theorem bytesLE_total : ∀ a b : Bytes, bytesLE a b = true ∨ bytesLE b a = true
  | [], _ => Or.inl rfl
  | _ :: _, [] => Or.inr rfl
  | a :: as, b :: bs => by
    unfold bytesLE
    by_cases h1 : a.toNat < b.toNat
    · exact Or.inl (by rw [if_pos h1])
    · by_cases h2 : b.toNat < a.toNat
      · exact Or.inr (by rw [if_pos h2])
      · rw [if_neg h1, if_neg h2, if_neg h2, if_neg h1]
        exact bytesLE_total as bs

/-- The byte order is transitive. -/
theorem bytesLE_trans : ∀ a b c : Bytes, bytesLE a b = true → bytesLE b c = true →
    bytesLE a c = true
  | [], _, _, _, _ => rfl
  | _ :: _, [], _, h, _ => by simp [bytesLE] at h
  | _ :: _, _ :: _, [], _, h => by simp [bytesLE] at h
  | a :: as, b :: bs, c :: cs, h1, h2 => by
    unfold bytesLE at h1 h2 ⊢
    by_cases ab : a.toNat < b.toNat
    · by_cases bc : b.toNat < c.toNat
      · rw [if_pos (by omega)]
      · by_cases cb : c.toNat < b.toNat
        · rw [if_neg bc, if_pos cb] at h2; exact absurd h2 (by simp)
        · rw [if_pos (by omega)]
    · by_cases ba : b.toNat < a.toNat
      · rw [if_neg ab, if_pos ba] at h1; exact absurd h1 (by simp)
      · rw [if_neg ab, if_neg ba] at h1
        by_cases bc : b.toNat < c.toNat
        · rw [if_pos (by omega)]
        · by_cases cb : c.toNat < b.toNat
          · rw [if_neg bc, if_pos cb] at h2; exact absurd h2 (by simp)
          · rw [if_neg bc, if_neg cb] at h2
            rw [if_neg (by omega), if_neg (by omega)]
            exact bytesLE_trans as bs cs h1 h2

/-- Byte sequences that precede each other are equal. -/
theorem bytesLE_antisymm : ∀ a b : Bytes, bytesLE a b = true → bytesLE b a = true → a = b
  | [], [], _, _ => rfl
  | [], _ :: _, _, h => by simp [bytesLE] at h
  | _ :: _, [], h, _ => by simp [bytesLE] at h
  | a :: as, b :: bs, h1, h2 => by
    unfold bytesLE at h1 h2
    by_cases ab : a.toNat < b.toNat
    · rw [if_neg (by omega), if_pos ab] at h2; exact absurd h2 (by simp)
    · by_cases ba : b.toNat < a.toNat
      · rw [if_neg ab, if_pos ba] at h1; exact absurd h1 (by simp)
      · rw [if_neg ab, if_neg ba] at h1
        rw [if_neg ba, if_neg ab] at h2
        have e : a = b := UInt8.ext_iff.mpr (by omega)
        rw [e, bytesLE_antisymm as bs h1 h2]

/-- The order of Go strings is total. -/
theorem stringLE_total : IsTotal String (fun a b => stringLE a b = true) :=
  ⟨fun a b => bytesLE_total (utf8 a) (utf8 b)⟩

/-- The order of Go strings is transitive. -/
theorem stringLE_trans : IsTrans String (fun a b => stringLE a b = true) :=
  ⟨fun a b c => bytesLE_trans (utf8 a) (utf8 b) (utf8 c)⟩

/-- The order of Go strings is antisymmetric. -/
theorem stringLE_antisymm : IsAntisymm String (fun a b => stringLE a b = true) :=
  ⟨fun a b h1 h2 => utf8_inj a b (bytesLE_antisymm (utf8 a) (utf8 b) h1 h2)⟩

/-- The call `sort.Strings` permutes the keys. -/
theorem sortStrings_perm (keys : List String) : (sortStrings keys).Perm keys :=
  List.perm_insertionSort _ keys

/-- The call `sort.Strings` leaves the keys in ascending order. -/
theorem sortStrings_sorted (keys : List String) :
    (sortStrings keys).Sorted (fun a b => stringLE a b = true) :=
  @List.sorted_insertionSort _ _ _ stringLE_total stringLE_trans keys

/-- The call `sort.Strings` gives the same slice for the same keys in any
order. -/
theorem sortStrings_of_perm (keys keys' : List String) (h : keys.Perm keys') :
    sortStrings keys = sortStrings keys' :=
  @List.eq_of_perm_of_sorted _ _ stringLE_antisymm _ _
    (((sortStrings_perm keys).trans h).trans (sortStrings_perm keys').symm)
    (sortStrings_sorted keys) (sortStrings_sorted keys')

/-- Distinct keys come out of `sort.Strings` in strictly ascending order. -/
theorem sortStrings_strict (keys : List String) (h : keys.Nodup) :
    (sortStrings keys).Pairwise (fun a b => stringLE a b = true ∧ stringLE b a = false) := by
  have hs : (sortStrings keys).Pairwise (fun a b => stringLE a b = true) := sortStrings_sorted keys
  have hn : (sortStrings keys).Pairwise (fun a b => a ≠ b) :=
    ((sortStrings_perm keys).nodup_iff).2 h
  refine (hs.and hn).imp ?_
  intro a b hab
  refine ⟨hab.1, ?_⟩
  cases hba : stringLE b a with
  | false => rfl
  | true => exact absurd (stringLE_antisymm.antisymm a b hab.1 hba) hab.2

/-! ## The shape of a normalized value -/

/-- A lookup in the entries of a map does not depend on their order when
the keys are distinct. -/
theorem lookup_of_perm {β : Type} {l l' : List (String × β)} (h : l.Perm l')
    (hn : (l.map Prod.fst).Nodup) (k : String) : l.lookup k = l'.lookup k := by
  induction h with
  | nil => rfl
  | cons x _ ih =>
    rcases x with ⟨a, b⟩
    simp only [List.map_cons, List.nodup_cons] at hn
    simp only [List.lookup_cons]
    split
    · rfl
    · exact ih hn.2
  | swap x y l =>
    rcases x with ⟨a, b⟩
    rcases y with ⟨c, d⟩
    simp only [List.map_cons, List.nodup_cons, List.mem_cons, not_or] at hn
    simp only [List.lookup_cons]
    have e1 : ∀ x y : String, x = y → (x == y) = true := fun x y h => by simp [h]
    have e2 : ∀ x y : String, x ≠ y → (x == y) = false := fun x y h => by simpa using h
    by_cases h1 : k = a
    · by_cases h2 : k = c
      · exact absurd (h2.symm.trans h1) hn.1.1
      · rw [e1 k a h1, e2 k c h2]
    · by_cases h2 : k = c
      · rw [e1 k c h2, e2 k a h1]
      · rw [e2 k c h2, e2 k a h1]
  | trans h1 _ ih1 ih2 =>
    rw [ih1 hn, ih2 ((h1.map Prod.fst).nodup_iff.1 hn)]

/-- The values of a map after `normalize`, looked up by key. -/
theorem normalizeEntries_lookup {O : Type} (dflt : O → Except String (Value Empty)) (k : String) :
    ∀ entries : List (String × Value O),
      (normalizeEntries dflt entries).lookup k = (entries.lookup k).map (normalizeWith dflt)
  | [] => by simp [normalizeEntries]
  | (a, v) :: rest => by
    simp only [normalizeEntries, List.lookup_cons]
    split
    · rfl
    · exact normalizeEntries_lookup dflt k rest

/-- The lookup `val[k]` of a key of the map, after `normalize`. -/
theorem lookupNorm_mem {O : Type} (dflt : O → Except String (Value Empty)) (k : String)
    (entries : List (String × Value O)) (hk : k ∈ entries.map Prod.fst) :
    ∃ v, (k, v) ∈ entries ∧
      lookupNorm k (normalizeEntries dflt entries) = normalizeWith dflt v := by
  unfold lookupNorm
  rw [normalizeEntries_lookup]
  induction entries with
  | nil => simp at hk
  | cons p rest ih =>
    rcases p with ⟨a, v⟩
    simp only [List.lookup_cons]
    by_cases h : k = a
    · subst h
      exact ⟨v, List.mem_cons_self _ _, by simp⟩
    · have hk' : k ∈ rest.map Prod.fst := by
        simp only [List.map_cons, List.mem_cons] at hk
        rcases hk with hk | hk
        · exact absurd hk h
        · exact hk
      obtain ⟨w, hw1, hw2⟩ := ih hk'
      refine ⟨w, List.mem_cons_of_mem _ hw1, ?_⟩
      have hb : (k == a) = false := by simpa using h
      rw [hb]
      exact hw2

/-- A loop that stops at the first error succeeds with the results of its
steps. -/
theorem mapM_ok_iff {α β : Type} (f : α → Except String β) :
    ∀ (l : List α) (out : List β),
      l.mapM f = .ok out ↔ List.Forall₂ (fun a b => f a = .ok b) l out
  | [], out => by
    simp only [List.mapM_nil]
    constructor
    · intro h
      cases h
      exact List.Forall₂.nil
    · intro h
      cases h
      rfl
  | a :: l, out => by
    rw [List.mapM_cons]
    cases hf : f a with
    | error e =>
      constructor
      · intro h; cases h
      · intro h
        cases h with
        | cons h1 _ => rw [hf] at h1; cases h1
    | ok b =>
      cases hl : l.mapM f with
      | error e =>
        constructor
        · intro h; cases h
        · intro h
          cases h with
          | cons h1 h2 =>
            have := (mapM_ok_iff f l _).2 h2
            rw [hl] at this
            cases this
      | ok bs =>
        constructor
        · intro h
          cases h
          exact List.Forall₂.cons hf ((mapM_ok_iff f l bs).1 hl)
        · intro h
          cases h with
          | cons h1 h2 =>
            rw [hf] at h1
            cases h1
            have := (mapM_ok_iff f l _).2 h2
            rw [hl] at this
            cases this
            rfl

/-- A loop that stops at the first error succeeds when each step does. -/
theorem mapM_ok_of_all {α β : Type} (f : α → Except String β) :
    ∀ l : List α, (∀ a ∈ l, ∃ b, f a = .ok b) → ∃ out, l.mapM f = .ok out
  | [], _ => ⟨[], rfl⟩
  | a :: l, h => by
    obtain ⟨b, hb⟩ := h a (List.mem_cons_self _ _)
    obtain ⟨bs, hbs⟩ := mapM_ok_of_all f l fun x hx => h x (List.mem_cons_of_mem _ hx)
    exact ⟨b :: bs, by rw [List.mapM_cons, hb, hbs]; rfl⟩

/-- The `map` branch of `normalize`, in one expression. -/
theorem normalizeWith_map {O : Type} (dflt : O → Except String (Value Empty))
    (entries : List (String × Value O)) :
    normalizeWith dflt (.map entries) =
      ((sortStrings (entries.map Prod.fst)).mapM fun k =>
        (lookupNorm k (normalizeEntries dflt entries)).map fun nv => [Value.str k, nv]).map
        fun out => Value.list out.flatten := by
  rw [normalizeWith]

/-- The calls `normalize(item)` over a slice are the items mapped. -/
theorem normalizeItems_eq_map {O : Type} (dflt : O → Except String (Value Empty)) :
    ∀ items : List (Value O), normalizeItems dflt items = items.map (normalizeWith dflt)
  | [] => by simp [normalizeItems]
  | v :: rest => by simp [normalizeItems, normalizeItems_eq_map dflt rest]

/-- The `list` branch of `normalize`, in one expression. -/
theorem normalizeWith_list {O : Type} (dflt : O → Except String (Value Empty))
    (items : List (Value O)) :
    normalizeWith dflt (.list items) =
      ((items.map (normalizeWith dflt)).mapM id).map Value.list := by
  rw [normalizeWith, normalizeItems_eq_map]

/-- The pairs a successful `map` branch emits. -/
theorem pairs_of_steps (vals : List (String × Except String (Value Empty))) :
    ∀ (ks : List String) (outs : List (List (Value Empty))),
      List.Forall₂
        (fun k o => (lookupNorm k vals).map (fun nv => [Value.str k, nv]) = .ok o) ks outs →
      ∃ nvs, List.Forall₂ (fun k nv => lookupNorm k vals = .ok nv) ks nvs ∧
        outs.flatten = alternating ks nvs
  | _, _, .nil => ⟨[], .nil, rfl⟩
  | k :: ks, o :: outs, .cons h1 h2 => by
    obtain ⟨nvs, hn1, hn2⟩ := pairs_of_steps vals ks outs h2
    cases hl : lookupNorm k vals with
    | error e => rw [hl] at h1; cases h1
    | ok nv =>
      rw [hl] at h1
      cases h1
      refine ⟨nv :: nvs, .cons hl hn1, ?_⟩
      simp only [alternating, List.zipWith_cons_cons, List.flatten_cons] at hn2 ⊢
      rw [hn2]

/-- An alternating sequence has two items per key. -/
theorem alternating_length {R : String → Value Empty → Prop} :
    ∀ (ks : List String) (nvs : List (Value Empty)), List.Forall₂ R ks nvs →
      (alternating ks nvs).length = 2 * ks.length
  | _, _, .nil => rfl
  | k :: ks, nv :: nvs, .cons _ h => by
    have ih := alternating_length ks nvs h
    simp only [alternating, List.zipWith_cons_cons, List.flatten_cons, List.length_append,
      List.length_cons, List.length_nil] at ih ⊢
    omega

/-- A relation between two lists, weakened on the members of the first. -/
theorem forall₂_imp_mem {α β : Type} {R S : α → β → Prop} :
    ∀ {l : List α} {l' : List β}, List.Forall₂ R l l' →
      (∀ a ∈ l, ∀ b, R a b → S a b) → List.Forall₂ S l l'
  | _, _, .nil, _ => .nil
  | _, _, .cons h1 h2, h =>
    .cons (h _ (List.mem_cons_self _ _) _ h1)
      (forall₂_imp_mem h2 fun a ha b hab => h a (List.mem_cons_of_mem _ ha) b hab)

/-- The result of `normalize` on a map with distinct keys. -/
theorem normalizeWith_map_spec {O : Type} (dflt : O → Except String (Value Empty))
    (entries : List (String × Value O)) (out : Value Empty)
    (h : normalizeWith dflt (.map entries) = .ok out) :
    ∃ nvs : List (Value Empty),
      List.Forall₂ (fun k nv => ∃ v, (k, v) ∈ entries ∧ normalizeWith dflt v = .ok nv)
        (sortStrings (entries.map Prod.fst)) nvs ∧
      out = .list (alternating (sortStrings (entries.map Prod.fst)) nvs) ∧
      (alternating (sortStrings (entries.map Prod.fst)) nvs).length = 2 * entries.length := by
  rw [normalizeWith_map] at h
  cases hm : (sortStrings (entries.map Prod.fst)).mapM fun k =>
      (lookupNorm k (normalizeEntries dflt entries)).map fun nv => [Value.str k, nv] with
  | error e => rw [hm] at h; cases h
  | ok outs =>
    rw [hm] at h
    cases h
    obtain ⟨nvs, hn1, hn2⟩ := pairs_of_steps _ _ _ ((mapM_ok_iff _ _ _).1 hm)
    have hn3 : List.Forall₂ (fun k nv => ∃ v, (k, v) ∈ entries ∧ normalizeWith dflt v = .ok nv)
        (sortStrings (entries.map Prod.fst)) nvs := by
      refine forall₂_imp_mem hn1 ?_
      intro k hk nv hnv
      obtain ⟨v, hv1, hv2⟩ :=
        lookupNorm_mem dflt k entries (((sortStrings_perm _).mem_iff).1 hk)
      exact ⟨v, hv1, hv2 ▸ hnv⟩
    refine ⟨nvs, hn3, by dsimp only; rw [hn2], ?_⟩
    rw [alternating_length _ _ hn3, (sortStrings_perm _).length_eq, List.length_map]

/-- The `map` branch of `normalize` succeeds when `normalize` succeeds on
every value of the map. -/
theorem normalizeWith_map_ok {O : Type} (dflt : O → Except String (Value Empty))
    (entries : List (String × Value O))
    (h : ∀ p ∈ entries, ∃ nv, normalizeWith dflt p.2 = .ok nv) :
    ∃ out, normalizeWith dflt (.map entries) = .ok out := by
  rw [normalizeWith_map]
  obtain ⟨outs, ho⟩ := mapM_ok_of_all
    (fun k => (lookupNorm k (normalizeEntries dflt entries)).map fun nv => [Value.str k, nv])
    (sortStrings (entries.map Prod.fst)) (by
      intro k hk
      obtain ⟨v, hv1, hv2⟩ :=
        lookupNorm_mem dflt k entries (((sortStrings_perm _).mem_iff).1 hk)
      obtain ⟨nv, hnv⟩ := h (k, v) hv1
      exact ⟨[Value.str k, nv], by dsimp only at hnv ⊢; rw [hv2, hnv]; rfl⟩)
  exact ⟨_, by rw [ho]; rfl⟩

/-- The result of `normalize` on a list: the results on its items, in the
order of the items. -/
theorem normalizeWith_list_spec {O : Type} (dflt : O → Except String (Value Empty))
    (items : List (Value O)) (out : Value Empty) :
    normalizeWith dflt (.list items) = .ok out ↔
      ∃ outs, out = .list outs ∧
        List.Forall₂ (fun v nv => normalizeWith dflt v = .ok nv) items outs := by
  rw [normalizeWith_list]
  have hm : ∀ outs, (items.map (normalizeWith dflt)).mapM id = .ok outs ↔
      List.Forall₂ (fun v nv => normalizeWith dflt v = .ok nv) items outs := by
    intro outs
    rw [mapM_ok_iff, List.forall₂_map_left_iff]
    rfl
  constructor
  · intro h
    cases hx : (items.map (normalizeWith dflt)).mapM id with
    | error e => rw [hx] at h; cases h
    | ok outs =>
      rw [hx] at h
      cases h
      exact ⟨outs, rfl, (hm outs).1 hx⟩
  · rintro ⟨outs, rfl, h⟩
    rw [(hm outs).2 h]
    rfl

/-- The result of `normalize` on a map does not depend on the order of its
entries when the keys are distinct. -/
theorem normalizeWith_map_perm {O : Type} (dflt : O → Except String (Value Empty))
    (entries entries' : List (String × Value O)) (hn : (entries.map Prod.fst).Nodup)
    (hp : entries.Perm entries') :
    normalizeWith dflt (.map entries) = normalizeWith dflt (.map entries') := by
  rw [normalizeWith_map, normalizeWith_map, sortStrings_of_perm _ _ (hp.map Prod.fst)]
  have hl : ∀ k, lookupNorm k (normalizeEntries dflt entries) =
      lookupNorm k (normalizeEntries dflt entries') := by
    intro k
    unfold lookupNorm
    rw [normalizeEntries_lookup, normalizeEntries_lookup, lookup_of_perm hp hn k]
  simp only [hl]

/-- C13. For a mapping `entries` with distinct keys, `normalize` takes the
keys in strictly ascending byte order (`sortStrings`, a permutation of the
keys); when it succeeds, its result is the list of alternating key and
normalized value in that order, of length twice the number of entries, and it
succeeds when it succeeds on every value. On a list it succeeds exactly with
the list of the normalized items in the input order. Strings, booleans,
floats and null pass through unchanged. Hence neither `normalize` nor
`StableJSON` of a mapping depends on the order of its entries. -/
theorem normalize_map_sorted_pairs {O : Type} (lib : Lib O)
    (entries entries' : List (String × Value O)) (items : List (Value O))
    (hnodup : (entries.map Prod.fst).Nodup) (hperm : entries.Perm entries') :
    ((sortStrings (entries.map Prod.fst)).Perm (entries.map Prod.fst) ∧
      (sortStrings (entries.map Prod.fst)).Pairwise
        (fun a b => stringLE a b = true ∧ stringLE b a = false) ∧
      (∀ out, normalize lib (.value (.map entries)) = .ok out →
        ∃ nvs : List (Value Empty),
          List.Forall₂ (fun k nv => ∃ v, (k, v) ∈ entries ∧ normalize lib (.value v) = .ok nv)
            (sortStrings (entries.map Prod.fst)) nvs ∧
          out = .list (alternating (sortStrings (entries.map Prod.fst)) nvs) ∧
          (alternating (sortStrings (entries.map Prod.fst)) nvs).length = 2 * entries.length) ∧
      ((∀ p ∈ entries, ∃ nv, normalize lib (.value p.2) = .ok nv) →
        ∃ out, normalize lib (.value (.map entries)) = .ok out)) ∧
    (∀ out, normalize lib (.value (.list items)) = .ok out ↔
      ∃ outs, out = .list outs ∧
        List.Forall₂ (fun v nv => normalize lib (.value v) = .ok nv) items outs) ∧
    ((∀ s, normalize lib (.value (.str s)) = .ok (.str s)) ∧
      (∀ b, normalize lib (.value (.bool b)) = .ok (.bool b)) ∧
      (∀ bits, normalize lib (.value (.float bits)) = .ok (.float bits)) ∧
      normalize lib (.value .null) = .ok .null) ∧
    normalize lib (.value (.map entries)) = normalize lib (.value (.map entries')) ∧
    StableJSON lib (.value (.map entries)) = StableJSON lib (.value (.map entries')) := by
  have hp := normalizeWith_map_perm (fun o => reparse lib (lib.marshal o)) entries entries'
    hnodup hperm
  refine ⟨⟨sortStrings_perm _, sortStrings_strict _ hnodup, ?_, ?_⟩, ?_,
    ⟨fun _ => rfl, fun _ => rfl, fun _ => rfl, rfl⟩, hp, ?_⟩
  · intro out h
    exact normalizeWith_map_spec _ entries out h
  · intro h
    exact normalizeWith_map_ok _ entries h
  · intro out
    exact normalizeWith_list_spec _ items out
  · unfold StableJSON
    have hp' : normalize lib (.value (.map entries)) = normalize lib (.value (.map entries')) := hp
    rw [hp']

theorem normalize_map_sorted_pairs_witness :
    ((demoEntries.map Prod.fst).Nodup ∧ demoEntries.Perm demoEntries.reverse) ∧
    normalize demoLib (.value (.map demoEntries)) =
      .ok (.list [.str "amount", .str "5", .str "mint", .str "MINT", .str "tags",
        .list [.bool true, .null]]) ∧
    (((sortStrings (demoEntries.map Prod.fst)).Perm (demoEntries.map Prod.fst) ∧
      (sortStrings (demoEntries.map Prod.fst)).Pairwise
        (fun a b => stringLE a b = true ∧ stringLE b a = false) ∧
      (∀ out, normalize demoLib (.value (.map demoEntries)) = .ok out →
        ∃ nvs : List (Value Empty),
          List.Forall₂ (fun k nv => ∃ v, (k, v) ∈ demoEntries ∧ normalize demoLib (.value v) = .ok nv)
            (sortStrings (demoEntries.map Prod.fst)) nvs ∧
          out = .list (alternating (sortStrings (demoEntries.map Prod.fst)) nvs) ∧
          (alternating (sortStrings (demoEntries.map Prod.fst)) nvs).length = 2 * demoEntries.length) ∧
      ((∀ p ∈ demoEntries, ∃ nv, normalize demoLib (.value p.2) = .ok nv) →
        ∃ out, normalize demoLib (.value (.map demoEntries)) = .ok out)) ∧
    (∀ out, normalize demoLib (.value (.list [Value.bool true, Value.null])) = .ok out ↔
      ∃ outs, out = .list outs ∧
        List.Forall₂ (fun v nv => normalize demoLib (.value v) = .ok nv) [Value.bool true, Value.null] outs) ∧
    ((∀ s, normalize demoLib (.value (.str s)) = .ok (.str s)) ∧
      (∀ b, normalize demoLib (.value (.bool b)) = .ok (.bool b)) ∧
      (∀ bits, normalize demoLib (.value (.float bits)) = .ok (.float bits)) ∧
      normalize demoLib (.value .null) = .ok .null) ∧
    normalize demoLib (.value (.map demoEntries)) = normalize demoLib (.value (.map demoEntries.reverse)) ∧
    StableJSON demoLib (.value (.map demoEntries)) = StableJSON demoLib (.value (.map demoEntries.reverse))) :=
  ⟨⟨by decide, (List.reverse_perm demoEntries).symm⟩, rfl,
    normalize_map_sorted_pairs demoLib demoEntries demoEntries.reverse
      [Value.bool true, Value.null] (by decide) (List.reverse_perm demoEntries).symm⟩

/-! ## What `StableJSON` tells apart -/


mutual
/-- Values that are the same up to the order of map entries have the same
normal form. -/
theorem sameValue_normalize {O : Type} (dflt : O → Except String (Value Empty)) :
    ∀ v w : Value O, SameValue v w → normalizeWith dflt v = normalizeWith dflt w
  | .map es, w, h => by
    unfold SameValue at h
    obtain ⟨hn, es2, es', rfl, h1, h2⟩ := h
    obtain ⟨e1, e2⟩ := sameEntries_normalize dflt es es2 h1
    have h3 : normalizeWith dflt (.map es) = normalizeWith dflt (.map es2) := by
      rw [normalizeWith_map, normalizeWith_map, e1, e2]
    rw [h3]
    exact normalizeWith_map_perm dflt es2 es' (e2 ▸ hn) h2
  | .list xs, w, h => by
    unfold SameValue at h
    obtain ⟨ys, rfl, h1⟩ := h
    rw [normalizeWith, normalizeWith, sameItems_normalize dflt xs ys h1]
  | .null, w, h => by unfold SameValue at h; rw [h]
  | .bool b, w, h => by unfold SameValue at h; rw [h]
  | .float x, w, h => by unfold SameValue at h; rw [h]
  | .number s, w, h => by unfold SameValue at h; rw [h]
  | .str s, w, h => by unfold SameValue at h; rw [h]
  | .other o, w, h => by unfold SameValue at h; rw [h]
/-- Lists that are item by item the same have the same normal forms. -/
theorem sameItems_normalize {O : Type} (dflt : O → Except String (Value Empty)) :
    ∀ xs ys : List (Value O), SameItems xs ys → normalizeItems dflt xs = normalizeItems dflt ys
  | [], ys, h => by unfold SameItems at h; rw [h]
  | x :: xs, ys, h => by
    unfold SameItems at h
    obtain ⟨y, ys', rfl, h1, h2⟩ := h
    rw [normalizeItems, normalizeItems, sameValue_normalize dflt x y h1,
      sameItems_normalize dflt xs ys' h2]
/-- Entries that are key by key the same have the same keys and the same
normal forms. -/
theorem sameEntries_normalize {O : Type} (dflt : O → Except String (Value Empty)) :
    ∀ es es2 : List (String × Value O), SameEntries es es2 →
      normalizeEntries dflt es = normalizeEntries dflt es2 ∧
        es.map Prod.fst = es2.map Prod.fst
  | [], es2, h => by unfold SameEntries at h; rw [h]; exact ⟨rfl, rfl⟩
  | (k, v) :: es, es2, h => by
    unfold SameEntries at h
    obtain ⟨v', rest, rfl, h1, h2⟩ := h
    obtain ⟨e1, e2⟩ := sameEntries_normalize dflt es rest h2
    rw [normalizeEntries, normalizeEntries, sameValue_normalize dflt v v' h1, e1]
    exact ⟨rfl, by simp [e2]⟩
end

/-- The two demo payloads are the same up to the order of map entries. -/
theorem demoNested_same : SameValue demoNested demoNestedSwapped := by
  unfold demoNested demoNestedSwapped
  simp only [SameValue, SameItems, SameEntries]
  refine ⟨by decide, [("a", .map [("y", .bool true), ("x", .null)]),
    ("b", .list [.str "s", .number "1"])], _, rfl, ?_, List.Perm.swap _ _ _⟩
  refine ⟨_, _, rfl, ⟨by decide, [("x", .null), ("y", .bool true)], _, rfl, ?_,
    List.Perm.swap _ _ _⟩, ?_⟩
  · exact ⟨_, _, rfl, rfl, _, _, rfl, rfl, rfl⟩
  · exact ⟨_, _, rfl, ⟨_, rfl, _, _, rfl, rfl, _, _, rfl, rfl, rfl⟩, rfl⟩

/-- C14. `StableJSON` encodes alike any two values that are the same up to
the order of the entries of their maps, at every depth. It is not injective:
for every library, a map with one string member and the list of its key and
value are different values with the same encoding, and so are a
`json.Number` and the string of its literal. -/
theorem stableJSON_same_value {O : Type} (lib : Lib O) (v w : Value O) (h : SameValue v w) :
    normalize lib (.value v) = normalize lib (.value w) ∧
    StableJSON lib (.value v) = StableJSON lib (.value w) ∧
    (∀ k s : String,
      (Value.map [(k, Value.str s)] : Value O) ≠ Value.list [Value.str k, Value.str s] ∧
      StableJSON lib (.value (.map [(k, Value.str s)])) =
        StableJSON lib (.value (.list [Value.str k, Value.str s]))) ∧
    (∀ s : String,
      (Value.number s : Value O) ≠ Value.str s ∧
      StableJSON lib (.value (.number s)) = StableJSON lib (.value (.str s))) := by
  have hn : normalize lib (.value v) = normalize lib (.value w) :=
    sameValue_normalize (fun o => reparse lib (lib.marshal o)) v w h
  refine ⟨hn, by unfold StableJSON; rw [hn], ?_, ?_⟩
  · intro k s
    refine ⟨(fun e => by cases e), ?_⟩
    have e : normalize lib (.value (.map [(k, Value.str s)])) =
        normalize lib (.value (.list [Value.str k, Value.str s])) := by
      show normalizeWith _ _ = normalizeWith _ _
      rw [normalizeWith_map, normalizeWith_list]
      simp only [List.map_cons, List.map_nil, sortStrings, List.insertionSort,
        List.orderedInsert, List.mapM_cons, List.mapM_nil, lookupNorm, normalizeEntries,
        List.lookup_cons, beq_self_eq_true, normalizeWith]
      rfl
    unfold StableJSON
    rw [e]
  · intro s
    exact ⟨(fun e => by cases e), rfl⟩

theorem stableJSON_same_value_witness :
    SameValue demoNested demoNestedSwapped ∧
    demoNested ≠ demoNestedSwapped ∧
    (normalize demoLib (.value demoNested) = normalize demoLib (.value demoNestedSwapped) ∧
    StableJSON demoLib (.value demoNested) = StableJSON demoLib (.value demoNestedSwapped) ∧
    (∀ k s : String,
      (Value.map [(k, Value.str s)] : Value Nat) ≠ Value.list [Value.str k, Value.str s] ∧
      StableJSON demoLib (.value (.map [(k, Value.str s)])) =
        StableJSON demoLib (.value (.list [Value.str k, Value.str s]))) ∧
    (∀ s : String,
      (Value.number s : Value Nat) ≠ Value.str s ∧
      StableJSON demoLib (.value (.number s)) = StableJSON demoLib (.value (.str s)))) :=
  ⟨demoNested_same, (fun e => by simp [demoNested, demoNestedSwapped] at e),
    stableJSON_same_value demoLib demoNested demoNestedSwapped demoNested_same⟩

theorem stableJSON_not_injective :
    (Value.map [("a", Value.str "b")] : Value Nat) ≠ Value.list [Value.str "a", Value.str "b"] ∧
    normalize demoJson (.value (.map [("a", Value.str "b")])) =
      .ok (.list [.str "a", .str "b"]) ∧
    normalize demoJson (.value (.list [Value.str "a", Value.str "b"])) =
      .ok (.list [.str "a", .str "b"]) ∧
    StableJSON demoJson (.value (.map [("a", Value.str "b")])) =
      .ok [91, 34, 97, 34, 44, 34, 98, 34, 93] ∧
    StableJSON demoJson (.value (.list [Value.str "a", Value.str "b"])) =
      .ok [91, 34, 97, 34, 44, 34, 98, 34, 93] ∧
    (Value.number "1" : Value Nat) ≠ Value.str "1" ∧
    StableJSON demoJson (.value (.number "1")) = .ok [34, 49, 34] ∧
    StableJSON demoJson (.value (.str "1")) = .ok [34, 49, 34] :=
  ⟨(fun e => by cases e), rfl, rfl, rfl, rfl, (fun e => by cases e), rfl, rfl⟩

/-! ## The round trip through JSON -/


mutual
/-- A lifted value has the normal form of the value. -/
theorem normalizeWith_lift {O : Type} (dflt : O → Except String (Value Empty))
    (g : Empty → Except String (Value Empty)) :
    ∀ d : Value Empty,
      normalizeWith dflt (liftValue d) = normalizeWith g d
  | .null => by rw [liftValue, normalizeWith, normalizeWith]
  | .bool b => by rw [liftValue, normalizeWith, normalizeWith]
  | .float x => by rw [liftValue, normalizeWith, normalizeWith]
  | .number s => by rw [liftValue, normalizeWith, normalizeWith]
  | .str s => by rw [liftValue, normalizeWith, normalizeWith]
  | .list xs => by
    rw [liftValue, normalizeWith, normalizeWith, normalizeItems_lift dflt g xs]
  | .map es => by
    obtain ⟨e1, e2⟩ := normalizeEntries_lift dflt g es
    rw [liftValue, normalizeWith_map, normalizeWith_map, e1, e2]
  | .other o => nomatch o
/-- Lifted items have the normal forms of the items. -/
theorem normalizeItems_lift {O : Type} (dflt : O → Except String (Value Empty))
    (g : Empty → Except String (Value Empty)) :
    ∀ xs : List (Value Empty),
      normalizeItems dflt (liftItems xs) = normalizeItems g xs
  | [] => by rw [liftItems, normalizeItems, normalizeItems]
  | x :: xs => by
    rw [liftItems, normalizeItems, normalizeItems, normalizeWith_lift dflt g x,
      normalizeItems_lift dflt g xs]
/-- Lifted entries have the keys and the normal forms of the entries. -/
theorem normalizeEntries_lift {O : Type} (dflt : O → Except String (Value Empty))
    (g : Empty → Except String (Value Empty)) :
    ∀ es : List (String × Value Empty),
      normalizeEntries dflt (liftEntries es) = normalizeEntries g es ∧
        (liftEntries es : List (String × Value O)).map Prod.fst = es.map Prod.fst
  | [] => by rw [liftEntries, normalizeEntries, normalizeEntries]; exact ⟨rfl, rfl⟩
  | (k, v) :: es => by
    obtain ⟨e1, e2⟩ := normalizeEntries_lift dflt g es
    rw [liftEntries, normalizeEntries, normalizeEntries, normalizeWith_lift dflt g v, e1]
    exact ⟨rfl, by simp [e2]⟩
end

/-- A successful step of a loop that stops at the first error. -/
theorem mapM_id_cons_ok {β : Type} (r : Except String β) (rs : List (Except String β))
    (out : List β) (h : (r :: rs).mapM id = .ok out) :
    ∃ b bs, out = b :: bs ∧ r = .ok b ∧ rs.mapM id = .ok bs := by
  cases ((mapM_ok_iff id (r :: rs) out).1 h) with
  | cons h1 h2 => exact ⟨_, _, rfl, h1, (mapM_ok_iff id rs _).2 h2⟩

mutual
/-- A value without `json.Number` has the normal form of its round trip,
when the codec gives a `float64` back as it is. -/
theorem roundTrip_normalize {O : Type} (lib : Lib O) (codec : JsonCodec)
    (hsem : ∀ x y, codec.float x = .ok y → y = x) (g : Empty → Except String (Value Empty)) :
    ∀ (v : Value O) (d : Value Empty), numberFree v = true → roundTrip lib codec v = .ok d →
      normalizeWith (fun o => reparse lib (lib.marshal o)) v =
        normalizeWith g d
  | .null, d, _, h => by
    rw [roundTrip] at h
    cases h
    rw [normalizeWith, normalizeWith]
  | .bool b, d, _, h => by
    rw [roundTrip] at h
    cases h
    rw [normalizeWith, normalizeWith]
  | .str s, d, _, h => by
    rw [roundTrip] at h
    cases h
    rw [normalizeWith, normalizeWith]
  | .float x, d, _, h => by
    rw [roundTrip] at h
    cases hc : codec.float x with
    | error e => rw [hc] at h; cases h
    | ok y =>
      rw [hc] at h
      cases h
      rw [hsem x y hc, normalizeWith, normalizeWith]
  | .number s, d, hf, _ => by
    rw [numberFree] at hf
    cases hf
  | .list xs, d, hf, h => by
    rw [numberFree] at hf
    rw [roundTrip] at h
    cases hm : (roundTripItems lib codec xs).mapM id with
    | error e => rw [hm] at h; cases h
    | ok ds =>
      rw [hm] at h
      cases h
      rw [normalizeWith, normalizeWith, roundTripItems_normalize lib codec hsem g xs ds hf hm]
  | .map es, d, hf, h => by
    rw [numberFree] at hf
    rw [roundTrip] at h
    cases hm : (roundTripEntries lib codec es).mapM id with
    | error e => rw [hm] at h; cases h
    | ok ds =>
      rw [hm] at h
      cases h
      obtain ⟨e1, e2⟩ := roundTripEntries_normalize lib codec hsem g es ds hf hm
      rw [normalizeWith_map, normalizeWith_map, e1, e2]
  | .other o, d, _, h => by
    rw [roundTrip] at h
    rw [normalizeWith]
    cases hb : lib.marshal o with
    | error e => rw [hb] at h; cases h
    | ok b =>
      rw [hb] at h
      simp only [] at h
      simp only [reparse, h]
      exact congrArg (fun f => normalizeWith f d) (funext fun o => nomatch o)
/-- Items without `json.Number` have the normal forms of their round
trips. -/
theorem roundTripItems_normalize {O : Type} (lib : Lib O) (codec : JsonCodec)
    (hsem : ∀ x y, codec.float x = .ok y → y = x) (g : Empty → Except String (Value Empty)) :
    ∀ (xs : List (Value O)) (ds : List (Value Empty)), numberFreeItems xs = true →
      (roundTripItems lib codec xs).mapM id = .ok ds →
      normalizeItems (fun o => reparse lib (lib.marshal o)) xs =
        normalizeItems g ds
  | [], ds, _, h => by
    rw [roundTripItems] at h
    cases h
    simp only [normalizeItems]
  | x :: xs, ds, hf, h => by
    rw [numberFreeItems, Bool.and_eq_true] at hf
    rw [roundTripItems] at h
    obtain ⟨b, bs, rfl, h1, h2⟩ := mapM_id_cons_ok _ _ _ h
    simp only [normalizeItems]
    rw [roundTrip_normalize lib codec hsem g x b hf.1 h1,
      roundTripItems_normalize lib codec hsem g xs bs hf.2 h2]
/-- Members without `json.Number` have the keys and the normal forms of
their round trips. -/
theorem roundTripEntries_normalize {O : Type} (lib : Lib O) (codec : JsonCodec)
    (hsem : ∀ x y, codec.float x = .ok y → y = x) (g : Empty → Except String (Value Empty)) :
    ∀ (es : List (String × Value O)) (ds : List (String × Value Empty)),
      numberFreeEntries es = true → (roundTripEntries lib codec es).mapM id = .ok ds →
      normalizeEntries (fun o => reparse lib (lib.marshal o)) es =
          normalizeEntries g ds ∧
        es.map Prod.fst = ds.map Prod.fst
  | [], ds, _, h => by
    rw [roundTripEntries] at h
    cases h
    exact ⟨by simp only [normalizeEntries], rfl⟩
  | (k, v) :: es, ds, hf, h => by
    rw [numberFreeEntries, Bool.and_eq_true] at hf
    rw [roundTripEntries] at h
    obtain ⟨b, bs, rfl, h1, h2⟩ := mapM_id_cons_ok _ _ _ h
    cases hv : roundTrip lib codec v with
    | error e => rw [hv] at h1; cases h1
    | ok d =>
      rw [hv] at h1
      cases h1
      obtain ⟨e1, e2⟩ := roundTripEntries_normalize lib codec hsem g es bs hf.2 h2
      simp only [normalizeEntries]
      rw [roundTrip_normalize lib codec hsem g v d hf.1 hv, e1]
      exact ⟨rfl, by simp [e2]⟩
end

/-- The report of `StableJSON` on a value without `json.Number` and on its
round trip. -/
theorem stableJSON_roundTrip_spec {O : Type} (lib : Lib O) (codec : JsonCodec) (v : Value O)
    (d : Value Empty) (hsem : ∀ x y, codec.float x = .ok y → y = x)
    (hfree : numberFree v = true) (hrt : roundTrip lib codec v = .ok d) :
    StableJSON lib (.value v) = StableJSON lib (.value (liftValue d)) := by
  have h1 := roundTrip_normalize lib codec hsem (fun o => nomatch o) v d hfree hrt
  have h2 := normalizeWith_lift (fun o => reparse lib (lib.marshal o)) (fun o => nomatch o) d
  have h3 : normalize lib (.value v) = normalize lib (.value (liftValue d)) := h1.trans h2.symm
  unfold StableJSON
  rw [h3]

/-- The report of `StableJSON` on an event and on its round trip. -/
theorem stableJSON_event_roundTrip {O : Type} (lib : Lib O) (e : Event O) (b : Bytes)
    (d : Value Empty) (hm : lib.marshalEvent e = .ok b) (hu : lib.unmarshal b = .ok d) :
    StableJSON lib (.event e) = StableJSON lib (.value (liftValue d)) := by
  have h2 := normalizeWith_lift (fun o => reparse lib (lib.marshal o)) (fun o => nomatch o) d
  have h3 : normalize lib (.event e) = normalize lib (.value (liftValue d)) := by
    show reparse lib (lib.marshalEvent e) = normalizeWith _ (liftValue d)
    rw [h2, hm]
    simp only [reparse, hu]
  unfold StableJSON
  rw [h3]

/-- C15. For a value `v` that holds no `json.Number` and a codec that gives
a `float64` back as it is: when the round trip `decode(encode(v))` succeeds
with `d`, `StableJSON` gives the same result on `v` and on `d`; it gives the
same result on every value that is the same as `v` up to the order of map
entries (a copy); and on an event it gives the result it gives on what
`json.Unmarshal` makes of the marshalled event. A `json.Number` is the
exception: its normal form is the string of its literal, whereas the normal
form of its round trip is a `float64`. -/
theorem stableJSON_round_trip {O : Type} (lib : Lib O) (codec : JsonCodec) (v : Value O)
    (d : Value Empty) (hsem : ∀ x y, codec.float x = .ok y → y = x)
    (hfree : numberFree v = true) (hrt : roundTrip lib codec v = .ok d) :
    StableJSON lib (.value v) = StableJSON lib (.value (liftValue d)) ∧
    (∀ w, SameValue v w → StableJSON lib (.value v) = StableJSON lib (.value w)) ∧
    (∀ (e : Event O) (b : Bytes) (d' : Value Empty), lib.marshalEvent e = .ok b →
      lib.unmarshal b = .ok d' →
      StableJSON lib (.event e) = StableJSON lib (.value (liftValue d'))) ∧
    (∀ (s : String) (x : Nat), codec.number s = .ok x →
      roundTrip lib codec (.number s) = .ok (.float x) ∧
      normalize lib (.value (.number s)) = .ok (.str s) ∧
      normalize lib (.value (liftValue (.float x))) = .ok (.float x)) := by
  refine ⟨stableJSON_roundTrip_spec lib codec v d hsem hfree hrt, ?_,
    fun e b d' hm hu => stableJSON_event_roundTrip lib e b d' hm hu, ?_⟩
  · intro w hw
    have hn : normalize lib (.value v) = normalize lib (.value w) :=
      sameValue_normalize (fun o => reparse lib (lib.marshal o)) v w hw
    unfold StableJSON
    rw [hn]
  · intro s x hx
    refine ⟨?_, rfl, rfl⟩
    rw [roundTrip, hx]
    rfl

theorem stableJSON_round_trip_witness :
    ((∀ x y, demoCodec.float x = .ok y → y = x) ∧ numberFree demoPlain = true ∧
      roundTrip demoJson demoCodec demoPlain =
        .ok (.map [("n", .float 0), ("o", .str "7"), ("l", .list [.str "s", .null]),
          ("m", .map [("k", .bool true)])])) ∧
    StableJSON demoJson (.value demoPlain) =
      .ok [91, 34, 108, 34, 44, 91, 34, 115, 34, 44, 110, 117, 108, 108, 93, 44, 34, 109, 34, 44,
        91, 34, 107, 34, 44, 116, 114, 117, 101, 93, 44, 34, 110, 34, 44, 48, 44, 34, 111, 34,
        44, 34, 55, 34, 93] ∧
    (StableJSON demoJson (.value demoPlain) =
      StableJSON demoJson (.value (liftValue
        (.map [("n", .float 0), ("o", .str "7"), ("l", .list [.str "s", .null]),
          ("m", .map [("k", .bool true)])]))) ∧
    (∀ w, SameValue demoPlain w →
      StableJSON demoJson (.value demoPlain) = StableJSON demoJson (.value w)) ∧
    (∀ (e : Event Nat) (b : Bytes) (d' : Value Empty), demoJson.marshalEvent e = .ok b →
      demoJson.unmarshal b = .ok d' →
      StableJSON demoJson (.event e) = StableJSON demoJson (.value (liftValue d'))) ∧
    (∀ (s : String) (x : Nat), demoCodec.number s = .ok x →
      roundTrip demoJson demoCodec (.number s) = .ok (.float x) ∧
      normalize demoJson (.value (.number s)) = .ok (.str s) ∧
      normalize demoJson (.value (liftValue (.float x))) = .ok (.float x))) :=
  ⟨⟨(fun _ _ h => by cases h; rfl), by decide, rfl⟩, rfl,
    stableJSON_round_trip demoJson demoCodec demoPlain _
      (fun _ _ h => by cases h; rfl) (by decide) rfl⟩

theorem stableJSON_number_round_trip_differs :
    roundTrip demoJson demoCodec (.number "1") = .ok (.float 4607182418800017408) ∧
    normalize demoJson (.value (.number "1")) = .ok (.str "1") ∧
    normalize demoJson (.value (liftValue (.float 4607182418800017408))) =
      .ok (.float 4607182418800017408) ∧
    StableJSON demoJson (.value (.number "1")) = .ok [34, 49, 34] ∧
    StableJSON demoJson (.value (liftValue (.float 4607182418800017408))) = .ok [49] ∧
    StableJSON demoJson (.value (.number "1")) ≠
      StableJSON demoJson (.value (liftValue (.float 4607182418800017408))) :=
  ⟨rfl, rfl, rfl, rfl, rfl, fun h => by
    have e1 : StableJSON demoJson (.value (.number "1")) = .ok [34, 49, 34] := rfl
    have e2 : StableJSON demoJson (.value (liftValue (.float 4607182418800017408))) =
      .ok [49] := rfl
    rw [e1, e2] at h
    simp at h⟩

/-! ## A root and the size of its batch -/


/-- The decoding loop of `MerkleRoot` on a list with one more hash. -/
theorem decodeLevel_append_one :
    ∀ (T : List String) (s : String),
      decodeLevel (T ++ [s]) =
        (decodeLevel T).bind fun level => (hexDecode s).map fun b => level ++ [b]
  | [], s => by
    cases h : hexDecode s <;> simp [decodeLevel, h]
  | t :: T, s => by
    have ih := decodeLevel_append_one T s
    simp only [List.cons_append, decodeLevel, List.append_eq]
    rw [ih]
    cases hexDecode t <;> cases decodeLevel T <;> cases hexDecode s <;> simp

/-- One pass of the loop of `MerkleRoot` gives the same level when the last
node of a level of odd length is repeated. -/
theorem nextLevel_repeat_last {O : Type} (lib : Lib O) (b : Bytes) :
    ∀ (n : Nat) (level : List Bytes), level.length = 2 * n →
      nextLevel lib (level ++ [b, b]) = nextLevel lib (level ++ [b])
  | 0, level, h => by
    have : level = [] := List.length_eq_zero.mp (by simpa using h)
    subst this
    rfl
  | n + 1, level, h => by
    match level, h with
    | x :: y :: rest, h =>
      have hr : rest.length = 2 * n := by simp only [List.length_cons] at h; omega
      simp only [List.cons_append, nextLevel, List.append_eq,
        nextLevel_repeat_last lib b n rest hr]

/-- The loop of `MerkleRoot` gives the same node for any two fuels that are
at least the length of the level. -/
theorem reduceLevel_fuel {O : Type} (lib : Lib O) (level : List Bytes) (f g : Nat)
    (hne : level ≠ []) (hf : level.length ≤ f + 1) (hg : level.length ≤ g + 1) :
    reduceLevel lib f level = reduceLevel lib g level := by
  obtain ⟨n, hn⟩ : ∃ n, level.length = n + 1 := by
    cases level with
    | nil => exact absurd rfl hne
    | cons a rest => exact ⟨rest.length, rfl⟩
  obtain ⟨k, node, hk, _, _, hfuel⟩ := reduceLevel_single lib n level hn
  rw [hfuel f (by omega), hfuel g (by omega)]

/-- The root of a list of hashes of odd length, at least three, with its last
hash repeated. -/
theorem merkleRoot_repeat_spec {O : Type} (lib : Lib O) (T : List String) (last : String)
    (hodd : T.length % 2 = 0) (hlen : 2 ≤ T.length) :
    MerkleRoot lib (T ++ [last] ++ [last]) = MerkleRoot lib (T ++ [last]) := by
  have l1 : ¬ (T ++ [last] ++ [last]).length = 0 := by simp
  have l2 : ¬ (T ++ [last]).length = 0 := by simp
  simp only [MerkleRoot, if_neg l1, if_neg l2]
  rw [decodeLevel_append_one (T ++ [last]) last, decodeLevel_append_one T last]
  cases hT : decodeLevel T with
  | none => rfl
  | some lt =>
    cases hs : hexDecode last with
    | none => rfl
    | some b =>
      have hlt : lt.length = T.length := by
        have : ∀ (H : List String) (l : List Bytes), decodeLevel H = some l →
            l.length = H.length := by
          intro H
          induction H with
          | nil => intro l h; simp only [decodeLevel] at h; cases h; rfl
          | cons x rest ih =>
            intro l h
            simp only [decodeLevel] at h
            cases hx : hexDecode x with
            | none => rw [hx] at h; cases h
            | some bx =>
              cases hr : decodeLevel rest with
              | none => rw [hx, hr] at h; cases h
              | some lr =>
                rw [hx, hr] at h
                cases h
                simp [ih lr hr]
        exact this T lt hT
      obtain ⟨n, hn⟩ : ∃ n, lt.length = 2 * n := ⟨T.length / 2, by omega⟩
      simp only [Option.bind_some, Option.map_some', Option.bind, List.length_append,
        List.length_singleton]
      have e1 : reduceLevel lib (lt.length + 1 + 1) (lt ++ [b] ++ [b]) =
          reduceLevel lib (lt.length + 1) (nextLevel lib (lt ++ [b])) := by
        have hgt : (lt ++ [b] ++ [b]).length > 1 := by simp
        rw [reduceLevel, if_pos hgt, List.append_assoc]
        exact congrArg _ (nextLevel_repeat_last lib b n lt hn)
      have e2 : reduceLevel lib (lt.length + 1) (lt ++ [b]) =
          reduceLevel lib lt.length (nextLevel lib (lt ++ [b])) := by
        have hgt : (lt ++ [b]).length > 1 := by simp; omega
        rw [reduceLevel, if_pos hgt]
      have hx : (nextLevel lib (lt ++ [b])).length = (lt.length + 1 + 1) / 2 := by
        rw [nextLevel_length]; simp
      have hne : nextLevel lib (lt ++ [b]) ≠ [] := by
        intro h
        rw [h] at hx
        simp only [List.length_nil] at hx
        omega
      rw [e1, e2, reduceLevel_fuel lib _ (lt.length + 1) lt.length hne (by omega) (by omega)]

/-- C27. For a list `H` of hashes of odd length, at least three, whose last
hash is `last`: `MerkleRoot (H ++ [last]) = MerkleRoot H`, whether or not
the hashes are valid hex; when they are the hex of bytes and SHA-256 gives
32 bytes, this common root is not empty. The two lists have different
lengths. -/
theorem merkleRoot_repeat_last {O : Type} (lib : Lib O) (H : List String) (last : String)
    (hodd : H.length % 2 = 1) (h3 : 3 ≤ H.length) (hlast : H.getLast? = some last) :
    MerkleRoot lib (H ++ [last]) = MerkleRoot lib H ∧
    (H ++ [last]).length = H.length + 1 ∧
    (ShaSized lib → (∀ h ∈ H, GoodHash h) → MerkleRoot lib H ≠ "") := by
  have hH : H.dropLast ++ [last] = H := List.dropLast_append_getLast? last (by simp [hlast])
  have hT : H.dropLast.length = H.length - 1 := List.length_dropLast H
  refine ⟨?_, by simp, ?_⟩
  · have h := merkleRoot_repeat_spec lib H.dropLast last (by omega) (by omega)
    rw [hH] at h
    exact h
  · intro hs hg
    exact MerkleRoot_ne_empty lib hs H (by intro e; rw [e] at h3; simp at h3) hg

theorem merkleRoot_repeat_last_witness :
    ((["ab", "CD", "01"] : List String).length % 2 = 1 ∧
      3 ≤ (["ab", "CD", "01"] : List String).length ∧
      (["ab", "CD", "01"] : List String).getLast? = some "01") ∧
    MerkleRoot demoLib ["ab", "CD", "01"] =
      "4040404040404040404040404040404040404040404040404040404040404040" ∧
    (MerkleRoot demoLib (["ab", "CD", "01"] ++ ["01"]) = MerkleRoot demoLib ["ab", "CD", "01"] ∧
    (["ab", "CD", "01"] ++ ["01"]).length = (["ab", "CD", "01"] : List String).length + 1 ∧
    (ShaSized demoLib → (∀ h ∈ (["ab", "CD", "01"] : List String), GoodHash h) →
      MerkleRoot demoLib ["ab", "CD", "01"] ≠ "")) :=
  ⟨⟨by decide, by decide, by decide⟩, by decide,
    merkleRoot_repeat_last demoLib ["ab", "CD", "01"] "01" (by decide) (by decide) (by decide)⟩

/-! ## Roots checked and roots missing -/


/-- A message that starts with another letter is not `missing root record`. -/
theorem ne_missing_of_head (pre s : String) (c : Char) (rest : List Char)
    (hpre : pre.data = c :: rest) (hc : c ≠ 'm') : pre ++ s ≠ "missing root record" := by
  intro h
  have h' := congrArg String.data h
  rw [String.data_append, hpre] at h'
  have h2 : c = 'm' := by
    have := List.head_eq_of_cons_eq h'
    exact this
  exact hc h2

/-- The entries `missing root record` that the loop body adds on a record
whose event `StableJSON` accepts: one when the record completes a batch and
the roots are exhausted, none otherwise. -/
theorem stepMessages_count_missing {O : Type} (lib : Lib O) (roots : List RootRecord) (B : Int)
    (st : VerifyState) (r : Record O) (hr : canonOk lib r = true) :
    (stepMessages lib roots B st (.entry r)).count "missing root record" =
      if (B > 0 ∧ ((st.currentBatch ++ [r.Hash]).length : Int) = B) ∧
          roots[st.rootIndex]? = none then 1 else 0 := by
  obtain ⟨payload, hj⟩ := canonOk_payload lib r hr
  have n1 : "index mismatch at " ++ toString r.Index ≠ "missing root record" :=
    ne_missing_of_head _ _ 'i' _ rfl (by decide)
  have n2 : "prev_hash mismatch at " ++ toString r.Index ≠ "missing root record" :=
    ne_missing_of_head _ _ 'p' _ rfl (by decide)
  have n3 : "hash mismatch at " ++ toString r.Index ≠ "missing root record" :=
    ne_missing_of_head _ _ 'h' _ rfl (by decide)
  have n4 : "root mismatch for batch ending " ++ toString r.Index ≠ "missing root record" :=
    ne_missing_of_head _ _ 'r' _ rfl (by decide)
  have c1 : ∀ (b : Bool) (m : String), m ≠ "missing root record" →
      (if b = true then [m] else []).count "missing root record" = 0 := by
    intro b m hm
    cases b
    · simp
    · simp [List.count_cons, hm]
  unfold stepMessages
  simp only [hj, List.count_append, c1 _ _ n1, c1 _ _ n2, c1 _ _ n3, Nat.zero_add]
  by_cases hc : B > 0 ∧ ((st.currentBatch ++ [r.Hash]).length : Int) = B
  · cases hroot : roots[st.rootIndex]? with
    | none =>
      simp only [if_pos hc, and_self, if_true, and_true]
      rfl
    | some expected =>
      have hne : ¬ ((B > 0 ∧ ((st.currentBatch ++ [r.Hash]).length : Int) = B) ∧
          (some expected = none)) := fun h => Option.noConfusion h.2
      simp only [if_pos hc, if_neg hne, c1 _ _ n4]
  · have hne : ¬ ((B > 0 ∧ ((st.currentBatch ++ [r.Hash]).length : Int) = B) ∧
        (roots[st.rootIndex]? = none)) := fun h => hc h.1
    simp only [if_neg hc, if_neg hne]
    rfl

/-- The root cursor, the open batch and `RootsChecked` after the loop body
has run on a record whose event `StableJSON` accepts. -/
theorem verifyStep_cursor {O : Type} (lib : Lib O) (roots : List RootRecord) (B : Int)
    (st : VerifyState) (r : Record O) (hr : canonOk lib r = true) :
    (¬ (B > 0 ∧ ((st.currentBatch ++ [r.Hash]).length : Int) = B) →
      (verifyStep lib roots B st (.entry r)).rootIndex = st.rootIndex ∧
      (verifyStep lib roots B st (.entry r)).currentBatch = st.currentBatch ++ [r.Hash] ∧
      (verifyStep lib roots B st (.entry r)).report.RootsChecked = st.report.RootsChecked) ∧
    ((B > 0 ∧ ((st.currentBatch ++ [r.Hash]).length : Int) = B) →
      roots[st.rootIndex]? = none →
      (verifyStep lib roots B st (.entry r)).rootIndex = st.rootIndex ∧
      (verifyStep lib roots B st (.entry r)).currentBatch = [] ∧
      (verifyStep lib roots B st (.entry r)).report.RootsChecked = st.report.RootsChecked) ∧
    ((B > 0 ∧ ((st.currentBatch ++ [r.Hash]).length : Int) = B) →
      roots[st.rootIndex]? ≠ none →
      (verifyStep lib roots B st (.entry r)).rootIndex = st.rootIndex + 1 ∧
      (verifyStep lib roots B st (.entry r)).currentBatch = [] ∧
      (verifyStep lib roots B st (.entry r)).report.RootsChecked =
        st.report.RootsChecked + 1) := by
  obtain ⟨payload, hj⟩ := canonOk_payload lib r hr
  have hf : ∀ (rep : VerifyReport) (c : Bool) (m : String),
      (rep.failIf c m).RootsChecked = rep.RootsChecked := by
    intro rep c m
    cases c <;> rfl
  unfold verifyStep
  simp only [hj]
  refine ⟨?_, ?_, ?_⟩
  · intro hc
    rw [if_neg hc]
    exact ⟨rfl, rfl, by simp only [hf]⟩
  · intro hc hroot
    rw [if_pos hc, hroot]
    exact ⟨rfl, rfl, by simp only [VerifyReport.fail, hf]⟩
  · intro hc hroot
    rw [if_pos hc]
    cases hx : roots[st.rootIndex]? with
    | none => exact absurd hx hroot
    | some expected => exact ⟨rfl, rfl, by simp only [hf]⟩

/-- The root cursor, `RootsChecked`, the open batch and the number of
`missing root record` entries after the loop of `Verify` has run over
records whose events `StableJSON` accepts, from a state whose open batch is
short of `B` hashes. -/
theorem verifyLoop_cursor {O : Type} (lib : Lib O) (roots : List RootRecord) (B : Nat)
    (hB : 0 < B) :
    ∀ (recs : List (Record O)) (st : VerifyState), recs.all (canonOk lib) = true →
      st.currentBatch.length < B →
      (verifyLoop lib roots B st (recs.map Line.entry)).rootIndex =
          st.rootIndex +
            min ((st.currentBatch.length + recs.length) / B) (roots.length - st.rootIndex) ∧
        (verifyLoop lib roots B st (recs.map Line.entry)).report.RootsChecked =
          st.report.RootsChecked +
            (min ((st.currentBatch.length + recs.length) / B)
              (roots.length - st.rootIndex) : Nat) ∧
        (verifyLoop lib roots B st (recs.map Line.entry)).currentBatch.length =
          (st.currentBatch.length + recs.length) % B ∧
        (loopMessages lib roots B st (recs.map Line.entry)).flatten.count
            "missing root record" =
          (st.currentBatch.length + recs.length) / B - (roots.length - st.rootIndex)
  | [], st, _, hlt => by
    simp only [List.map_nil, verifyLoop, List.foldl_nil, List.length_nil, Nat.add_zero,
      loopMessages, List.flatten_nil, List.count_nil]
    rw [Nat.div_eq_of_lt hlt, Nat.mod_eq_of_lt hlt]
    simp
  | r :: rest, st, hall, hlt => by
    simp only [List.all_cons, Bool.and_eq_true] at hall
    obtain ⟨h1, h2, h3⟩ := verifyStep_cursor lib roots B st r hall.1
    have hcnt := stepMessages_count_missing lib roots B st r hall.1
    simp only [List.map_cons, verifyLoop, List.foldl_cons, loopMessages, List.flatten_cons,
      List.count_append, List.length_cons]
    by_cases hfull : st.currentBatch.length + 1 = B
    · have hc : (B : Int) > 0 ∧ ((st.currentBatch ++ [r.Hash]).length : Int) = B := by
        refine ⟨by exact_mod_cast hB, ?_⟩
        simp only [List.length_append, List.length_singleton]
        exact_mod_cast hfull
      have hsum : st.currentBatch.length + (rest.length + 1) = B + rest.length := by omega
      have hq : (B + rest.length) / B = rest.length / B + 1 := Nat.add_div_left _ hB
      have hm : (B + rest.length) % B = rest.length % B := Nat.add_mod_left _ _
      rw [hsum, hq, hm]
      by_cases hroot : roots[st.rootIndex]? = none
      · obtain ⟨a1, a2, a3⟩ := h2 hc hroot
        have hlen : roots.length ≤ st.rootIndex := List.getElem?_eq_none_iff.1 hroot
        obtain ⟨i1, i2, i3, i4⟩ := verifyLoop_cursor lib roots B hB rest
          (verifyStep lib roots B st (Line.entry r)) hall.2 (by rw [a2]; exact hB)
        simp only [verifyLoop] at i1 i2 i3
        simp only [a1, a2, a3, List.length_nil, Nat.zero_add] at i1 i2 i3 i4
        rw [i1, i2, i3, i4, hcnt, if_pos ⟨hc, hroot⟩]
        have e0 : roots.length - st.rootIndex = 0 := by omega
        rw [e0]
        simp
        omega
      · obtain ⟨a1, a2, a3⟩ := h3 hc hroot
        have hlen : st.rootIndex < roots.length := by
          by_contra hcon
          exact hroot (List.getElem?_eq_none_iff.2 (by omega))
        obtain ⟨i1, i2, i3, i4⟩ := verifyLoop_cursor lib roots B hB rest
          (verifyStep lib roots B st (Line.entry r)) hall.2 (by rw [a2]; exact hB)
        simp only [verifyLoop] at i1 i2 i3
        simp only [a1, a2, a3, List.length_nil, Nat.zero_add] at i1 i2 i3 i4
        rw [i1, i2, i3, i4, hcnt, if_neg (fun h => hroot h.2)]
        refine ⟨by omega, ?_, rfl, by omega⟩
        have : min (rest.length / B + 1) (roots.length - st.rootIndex) =
            min (rest.length / B) (roots.length - (st.rootIndex + 1)) + 1 := by omega
        rw [this]
        push_cast
        ring
    · have hc : ¬ ((B : Int) > 0 ∧ ((st.currentBatch ++ [r.Hash]).length : Int) = B) := by
        intro h
        apply hfull
        have := h.2
        simp only [List.length_append, List.length_singleton] at this
        exact_mod_cast this
      obtain ⟨a1, a2, a3⟩ := h1 hc
      obtain ⟨i1, i2, i3, i4⟩ := verifyLoop_cursor lib roots B hB rest
        (verifyStep lib roots B st (Line.entry r)) hall.2 (by
          rw [a2]; simp only [List.length_append, List.length_singleton]; omega)
      simp only [verifyLoop] at i1 i2 i3
      simp only [a1, a2, a3, List.length_append, List.length_singleton] at i1 i2 i3 i4
      have hsum : st.currentBatch.length + (rest.length + 1) =
          st.currentBatch.length + 1 + rest.length := by omega
      rw [hsum, i1, i2, i3, i4, hcnt, if_neg (fun h => hc h.1)]
      exact ⟨rfl, rfl, rfl, by omega⟩

/-- The roots checked and the roots missed by `Verify` on files without
undecodable lines. -/
theorem verify_roots_spec {O : Type} (lib : Lib O) (events : List (Line (Record O)))
    (roots : List (Line RootRecord)) (B : Nat) (hB : 0 < B)
    (hev : decodable events = true) (hroots : decodable roots = true)
    (hjson : (entries events).all (canonOk lib) = true) :
    (Verify lib events roots B).RootsChecked =
      (min ((entries events).length / B) (entries roots).length : Nat) ∧
    (Verify lib events roots B).Errors.count "missing root record" =
      (entries events).length / B - (entries roots).length ∧
    (verifyLoop lib (entries roots) B VerifyState.init events).rootIndex =
      min ((entries events).length / B) (entries roots).length ∧
    (verifyLoop lib (entries roots) B VerifyState.init events).currentBatch.length =
      (entries events).length % B := by
  obtain ⟨i1, i2, i3, i4⟩ := verifyLoop_cursor lib (entries roots) B hB (entries events)
    VerifyState.init hjson (by simpa [VerifyState.init] using hB)
  have hlog := (verifyLoop_log lib (entries roots) B ((entries events).map Line.entry)
    VerifyState.init).2
  simp only [Verify, readRoots_decodable roots hroots]
  rw [verifyLoop_entries lib (entries roots) B events VerifyState.init hev]
  simp only [VerifyState.init, List.length_nil, Nat.zero_add, Nat.sub_zero, Int.zero_add,
    List.nil_append] at i1 i2 i3 i4 hlog ⊢
  rw [hlog, i4]
  exact ⟨i2, rfl, i1, i3⟩

/-- C26. On an events log and a roots log without undecodable lines, with
`n` records whose events `StableJSON` accepts, `R` root records and a batch
size `B > 0`: `RootsChecked` is `min (n / B) R`, whatever the root hashes
are; the error list holds `n / B - R` entries `missing root record` (none
when `R` is at least `n / B`); the loop ends with the root cursor at
`min (n / B) R` and with `n % B` hashes in the open batch, which no root is
compared with. -/
theorem verify_roots_checked {O : Type} (lib : Lib O) (events : List (Line (Record O)))
    (roots : List (Line RootRecord)) (B : Nat) (hB : 0 < B)
    (hev : decodable events = true) (hroots : decodable roots = true)
    (hjson : (entries events).all (canonOk lib) = true) :
    (Verify lib events roots B).RootsChecked =
      (min ((entries events).length / B) (entries roots).length : Nat) ∧
    (Verify lib events roots B).Errors.count "missing root record" =
      (entries events).length / B - (entries roots).length ∧
    (verifyLoop lib (entries roots) B VerifyState.init events).rootIndex =
      min ((entries events).length / B) (entries roots).length ∧
    (verifyLoop lib (entries roots) B VerifyState.init events).currentBatch.length =
      (entries events).length % B :=
  verify_roots_spec lib events roots B hB hev hroots hjson

theorem verify_roots_checked_witness :
    (0 < 1 ∧ decodable demoDamaged = true ∧ decodable demoDisk.roots = true ∧
      (entries demoDamaged).all (canonOk demoLib) = true) ∧
    ((entries demoDamaged).length = 3 ∧ (entries demoDisk.roots).length = 1) ∧
    (Verify demoLib demoDamaged demoDisk.roots (1 : Nat)).Errors =
      ["index mismatch at 5", "hash mismatch at 5", "root mismatch for batch ending 5",
        "hash mismatch at 2", "missing root record", "prev_hash mismatch at 3",
        "missing root record"] ∧
    ((Verify demoLib demoDamaged demoDisk.roots (1 : Nat)).RootsChecked =
      (min ((entries demoDamaged).length / 1) (entries demoDisk.roots).length : Nat) ∧
    (Verify demoLib demoDamaged demoDisk.roots (1 : Nat)).Errors.count "missing root record" =
      (entries demoDamaged).length / 1 - (entries demoDisk.roots).length ∧
    (verifyLoop demoLib (entries demoDisk.roots) (1 : Nat) VerifyState.init
        demoDamaged).rootIndex =
      min ((entries demoDamaged).length / 1) (entries demoDisk.roots).length ∧
    (verifyLoop demoLib (entries demoDisk.roots) (1 : Nat) VerifyState.init
        demoDamaged).currentBatch.length =
      (entries demoDamaged).length % 1) :=
  ⟨⟨by decide, by decide, by decide, by decide⟩, ⟨by decide, by decide⟩, by decide,
    verify_roots_checked demoLib demoDamaged demoDisk.roots 1 (by decide) (by decide)
      (by decide) (by decide)⟩

/-! ## What `Verify` reads of the roots log -/


/-- The loop body of `Verify` reads the roots log only at the root cursor,
and there only the root hash. -/
theorem verifyStep_roots {O : Type} (lib : Lib O) (roots₁ roots₂ : List RootRecord) (B : Int)
    (st : VerifyState) (line : Line (Record O))
    (h : (roots₁[st.rootIndex]?).map (fun x => x.RootHash) =
      (roots₂[st.rootIndex]?).map (fun x => x.RootHash)) :
    verifyStep lib roots₁ B st line = verifyStep lib roots₂ B st line := by
  cases line with
  | blank => rfl
  | garbled e => rfl
  | entry r =>
    unfold verifyStep
    cases hj : StableJSON lib (Any.event r.Event) with
    | error e => simp only [hj]
    | ok payload =>
      simp only [hj]
      by_cases hc : B > 0 ∧ ((st.currentBatch ++ [r.Hash]).length : Int) = B
      · rw [if_pos hc, if_pos hc]
        cases h1 : roots₁[st.rootIndex]? with
        | none =>
          cases h2 : roots₂[st.rootIndex]? with
          | none => rfl
          | some e2 => rw [h1, h2] at h; cases h
        | some e1 =>
          cases h2 : roots₂[st.rootIndex]? with
          | none => rw [h1, h2] at h; cases h
          | some e2 =>
            rw [h1, h2] at h
            simp only [Option.map_some', Option.some.injEq] at h
            simp only [h]
      · rw [if_neg hc, if_neg hc]

/-- The root cursor and the open batch after the loop body, against the
batch size: a step on a record uses up one record, and a batch uses up `B`
of them. -/
theorem verifyStep_budget {O : Type} (lib : Lib O) (roots : List RootRecord) (B : Nat)
    (st : VerifyState) (r : Record O) :
    (verifyStep lib roots B st (.entry r)).rootIndex * B +
        (verifyStep lib roots B st (.entry r)).currentBatch.length ≤
      st.rootIndex * B + st.currentBatch.length + 1 := by
  unfold verifyStep
  cases hj : StableJSON lib (Any.event r.Event) with
  | error e => simp only [hj]; omega
  | ok payload =>
    simp only [hj]
    by_cases hc : (B : Int) > 0 ∧ ((st.currentBatch ++ [r.Hash]).length : Int) = B
    · rw [if_pos hc]
      have hlen : st.currentBatch.length + 1 = B := by
        have := hc.2
        simp only [List.length_append, List.length_singleton] at this
        exact_mod_cast this
      cases roots[st.rootIndex]? with
      | none => simp only [List.length_nil]; omega
      | some e =>
        simp only [List.length_nil, Nat.add_zero]
        rw [Nat.add_mul]
        omega
    · rw [if_neg hc]
      simp only [List.length_append, List.length_singleton]
      omega

/-- The loop body of `Verify` on a record reads the roots log only when the
record completes a batch, and then only the root hash at the root cursor. -/
theorem verifyStep_roots_entry {O : Type} (lib : Lib O) (roots₁ roots₂ : List RootRecord)
    (B : Int) (st : VerifyState) (r : Record O)
    (h : (B > 0 ∧ ((st.currentBatch ++ [r.Hash]).length : Int) = B) →
      (roots₁[st.rootIndex]?).map (fun x => x.RootHash) =
        (roots₂[st.rootIndex]?).map (fun x => x.RootHash)) :
    verifyStep lib roots₁ B st (.entry r) = verifyStep lib roots₂ B st (.entry r) := by
  by_cases hc : B > 0 ∧ ((st.currentBatch ++ [r.Hash]).length : Int) = B
  · exact verifyStep_roots lib roots₁ roots₂ B st _ (h hc)
  · unfold verifyStep
    cases hj : StableJSON lib (Any.event r.Event) with
    | error e => simp only [hj]
    | ok payload => simp only [hj, if_neg hc]

/-- Two lists of root records with the same root hashes at the first
`N / B` positions give the same run of the loop of `Verify`, from any state
that has at most `N` records left to spend. -/
theorem verifyLoop_roots {O : Type} (lib : Lib O) (roots₁ roots₂ : List RootRecord)
    (B N : Nat)
    (hroots : ∀ i, i < N / B →
      (roots₁[i]?).map (fun x => x.RootHash) = (roots₂[i]?).map (fun x => x.RootHash)) :
    ∀ (lines : List (Line (Record O))) (st : VerifyState),
      st.rootIndex * B + st.currentBatch.length + (entries lines).length ≤ N →
      verifyLoop lib roots₁ B st lines = verifyLoop lib roots₂ B st lines
  | [], _, _ => rfl
  | .blank :: rest, st, h => by
    have ih := verifyLoop_roots lib roots₁ roots₂ B N hroots rest st (by simpa [entries] using h)
    simpa [verifyLoop, verifyStep] using ih
  | .garbled e :: rest, st, h => by
    have ih := verifyLoop_roots lib roots₁ roots₂ B N hroots rest
      { st with report := st.report.fail ("decode record: " ++ e) } (by simpa [entries] using h)
    simpa [verifyLoop, verifyStep] using ih
  | .entry r :: rest, st, h => by
    simp only [entries, List.length_cons] at h
    have hstep : verifyStep lib roots₁ B st (.entry r) = verifyStep lib roots₂ B st (.entry r) := by
      apply verifyStep_roots_entry
      intro hc
      apply hroots
      have hB : 0 < B := by exact_mod_cast hc.1
      have hlen : st.currentBatch.length + 1 = B := by
        have := hc.2
        simp only [List.length_append, List.length_singleton] at this
        exact_mod_cast this
      have : (st.rootIndex + 1) * B ≤ N := by
        rw [Nat.add_mul]
        omega
      exact (Nat.le_div_iff_mul_le hB).2 this
    have hb := verifyStep_budget lib roots₁ B st r
    have ih := verifyLoop_roots lib roots₁ roots₂ B N hroots rest
      (verifyStep lib roots₁ B st (.entry r)) (by omega)
    simp only [verifyLoop, List.foldl_cons] at ih ⊢
    rw [← hstep]
    exact ih

/-- The report of `Verify` with two roots logs that agree on the root hashes
of their first `n / B` records. -/
theorem verify_roots_agree {O : Type} (lib : Lib O) (events : List (Line (Record O)))
    (roots₁ roots₂ : List (Line RootRecord)) (B : Nat)
    (h1 : decodable roots₁ = true) (h2 : decodable roots₂ = true)
    (hq : ((entries roots₁).take ((entries events).length / B)).map (fun x => x.RootHash) =
      ((entries roots₂).take ((entries events).length / B)).map (fun x => x.RootHash)) :
    Verify lib events roots₁ B = Verify lib events roots₂ B := by
  simp only [Verify, readRoots_decodable roots₁ h1, readRoots_decodable roots₂ h2]
  have hroots : ∀ i, i < (entries events).length / B →
      ((entries roots₁)[i]?).map (fun x => x.RootHash) =
        ((entries roots₂)[i]?).map (fun x => x.RootHash) := by
    intro i hi
    have := congrArg (fun l => l[i]?) hq
    simp only [List.getElem?_map, List.getElem?_take, hi] at this
    simpa using this
  rw [verifyLoop_roots lib (entries roots₁) (entries roots₂) B (entries events).length hroots
    events VerifyState.init (by simp [VerifyState.init])]

/-- C28. For every events log and batch size `B`, two roots logs without
undecodable lines whose first `n / B` root records (`n` the number of
records of the events log; fewer when a log is shorter) carry the same root
hashes give the same report of `Verify`, whatever the `from_index`,
`to_index` and `created_at` of their records and whatever root records
follow. -/
theorem verify_ignores_root_ranges {O : Type} (lib : Lib O) (events : List (Line (Record O)))
    (roots₁ roots₂ : List (Line RootRecord)) (B : Nat)
    (h1 : decodable roots₁ = true) (h2 : decodable roots₂ = true)
    (hq : ((entries roots₁).take ((entries events).length / B)).map (fun x => x.RootHash) =
      ((entries roots₂).take ((entries events).length / B)).map (fun x => x.RootHash)) :
    Verify lib events roots₁ B = Verify lib events roots₂ B :=
  verify_roots_agree lib events roots₁ roots₂ B h1 h2 hq

theorem verify_ignores_root_ranges_witness :
    (decodable demoDisk.roots = true ∧ decodable demoRootsForged = true ∧
      ((entries demoDisk.roots).take ((entries demoDisk.events).length / 2)).map
          (fun x => x.RootHash) =
        ((entries demoRootsForged).take ((entries demoDisk.events).length / 2)).map
          (fun x => x.RootHash)) ∧
    ((entries demoDisk.roots).map (fun x => (x.FromIndex, x.ToIndex)) = [(1, 2)] ∧
      (entries demoRootsForged).map (fun x => (x.FromIndex, x.ToIndex)) =
        [(41, 42), (1000, 2000)]) ∧
    (Verify demoLib demoDisk.events demoRootsForged (2 : Nat)).OK = true ∧
    Verify demoLib demoDisk.events demoDisk.roots (2 : Nat) =
      Verify demoLib demoDisk.events demoRootsForged (2 : Nat) :=
  ⟨⟨by decide, by decide, by decide⟩, ⟨by decide, by decide⟩, by decide,
    verify_ignores_root_ranges demoLib demoDisk.events demoDisk.roots demoRootsForged 2
      (by decide) (by decide) (by decide)⟩

/-! ## The order of the items -/


/-- The items of `SummarizeTokenCounts` before the sort. -/
theorem summarize_items_eq {F R : Type} (rt : Runtime F R) (counts : List (String × Int))
    (k : Int) (epsilon : F) (seed w now : Int) :
    (SummarizeTokenCounts rt counts k epsilon seed w now).Items =
      rt.sortSlice (fun x y => rt.lt y.Noised x.Noised)
        (summarizeLoop rt (appliedK k) (appliedEpsilon rt epsilon) w counts
          { redacted := 0, items := [], rng := seededRng rt seed now }).items := rfl

/-- When the noised values of the items are comparable, that is, when they
can be read as values of a linear order that `<` and `<=` follow, and
`sort.Slice` sorts every slice on which `less` is a strict transitive
ordering (the requirement of package sort), the items come out in
descending order of their noised values. -/
theorem summarize_sorted_of_comparable {F R α : Type} [LinearOrder α] (rt : Runtime F R)
    (counts : List (String × Int)) (k : Int) (epsilon : F) (seed w now : Int) (val : F → α)
    (hperm : ∀ less l, (rt.sortSlice less l).Perm l)
    (hsort : ∀ (less : TokenCount F → TokenCount F → Bool) (l : List (TokenCount F)),
      (∀ a ∈ l, less a a = false) →
      (∀ a ∈ l, ∀ b ∈ l, ∀ c ∈ l, less a b = true → less b c = true → less a c = true) →
      (∀ a ∈ l, ∀ b ∈ l, ∀ c ∈ l, less a b = false → less b c = false → less a c = false) →
      (rt.sortSlice less l).Pairwise fun a b => less b a = false)
    (hval : ∀ t ∈ (SummarizeTokenCounts rt counts k epsilon seed w now).Items,
      ∀ u ∈ (SummarizeTokenCounts rt counts k epsilon seed w now).Items,
        (rt.lt t.Noised u.Noised = true ↔ val t.Noised < val u.Noised) ∧
        (rt.le t.Noised u.Noised = true ↔ val t.Noised ≤ val u.Noised)) :
    (SummarizeTokenCounts rt counts k epsilon seed w now).Items.Pairwise
      fun a b => rt.le b.Noised a.Noised = true := by
  rw [summarize_items_eq] at hval ⊢
  generalize (summarizeLoop rt (appliedK k) (appliedEpsilon rt epsilon) w counts
    { redacted := 0, items := [], rng := seededRng rt seed now }).items = l at hval ⊢
  have hmem : ∀ t, t ∈ l → t ∈ rt.sortSlice (fun x y => rt.lt y.Noised x.Noised) l :=
    fun t ht => ((hperm _ l).mem_iff).2 ht
  have hlt : ∀ t ∈ l, ∀ u ∈ l, (rt.lt t.Noised u.Noised = true ↔ val t.Noised < val u.Noised) :=
    fun t ht u hu => (hval t (hmem t ht) u (hmem u hu)).1
  have hf : ∀ t ∈ l, ∀ u ∈ l, (rt.lt t.Noised u.Noised = false ↔ ¬ val t.Noised < val u.Noised) := by
    intro t ht u hu
    rw [← hlt t ht u hu]
    simp
  have hs := hsort (fun x y => rt.lt y.Noised x.Noised) l
    (fun a ha => (hf a ha a ha).2 (lt_irrefl _))
    (fun a ha b hb c hc h1 h2 =>
      (hlt c hc a ha).2 (lt_trans ((hlt c hc b hb).1 h2) ((hlt b hb a ha).1 h1)))
    (fun a ha b hb c hc h1 h2 =>
      (hf c hc a ha).2 (by
        have e1 := (hf b hb a ha).1 h1
        have e2 := (hf c hc b hb).1 h2
        rw [not_lt] at e1 e2 ⊢
        exact le_trans e1 e2))
  have hs' : (rt.sortSlice (fun x y => rt.lt y.Noised x.Noised) l).Pairwise
      fun a b => a ∈ rt.sortSlice (fun x y => rt.lt y.Noised x.Noised) l ∧
        b ∈ rt.sortSlice (fun x y => rt.lt y.Noised x.Noised) l ∧
        rt.lt a.Noised b.Noised = false := by
    rw [List.pairwise_iff_forall_sublist] at hs ⊢
    intro a b hsub
    have ha : a ∈ rt.sortSlice (fun x y => rt.lt y.Noised x.Noised) l :=
      hsub.subset (List.mem_cons_self _ _)
    have hb : b ∈ rt.sortSlice (fun x y => rt.lt y.Noised x.Noised) l :=
      hsub.subset (List.mem_cons_of_mem _ (List.mem_cons_self _ _))
    exact ⟨ha, hb, hs hsub⟩
  refine hs'.imp ?_
  intro a b ⟨ha, hb, hab⟩
  have ha' : a ∈ l := ((hperm _ l).mem_iff).1 ha
  have hb' : b ∈ l := ((hperm _ l).mem_iff).1 hb
  rw [(hval b hb a ha).2]
  exact not_lt.1 ((hf a ha' b hb').1 hab)

/-- Insertion into a slice in order keeps the order, for a strict transitive
`less` on the values at hand. -/
theorem orderedInsert_pairwise {α : Type} (less : α → α → Bool) (M : α → Prop)
    (hirr : ∀ a, M a → less a a = false)
    (htr : ∀ a b c, M a → M b → M c → less a b = true → less b c = true → less a c = true)
    (a : α) (ha : M a) :
    ∀ s : List α, (∀ x ∈ s, M x) → s.Pairwise (fun x y => less y x = false) →
      (s.orderedInsert (fun x y => less x y = true) a).Pairwise fun x y => less y x = false
  | [], _, _ => by simp
  | b :: s, hM, hs => by
    have hb : M b := hM b (List.mem_cons_self _ _)
    have hMs : ∀ x ∈ s, M x := fun x hx => hM x (List.mem_cons_of_mem _ hx)
    rw [List.pairwise_cons] at hs
    by_cases hab : less a b = true
    · rw [List.orderedInsert, if_pos hab]
      refine List.pairwise_cons.2 ⟨?_, List.pairwise_cons.2 hs⟩
      intro x hx
      cases hxa : less x a with
      | false => rfl
      | true =>
        have hxM : M x := hM x hx
        have hxb := htr x a b hxM ha hb hxa hab
        rcases List.mem_cons.1 hx with rfl | hxs
        · rw [hirr x hxM] at hxb
          exact absurd hxb (by simp)
        · rw [hs.1 x hxs] at hxb
          exact absurd hxb (by simp)
    · rw [List.orderedInsert, if_neg hab]
      refine List.pairwise_cons.2 ⟨?_, orderedInsert_pairwise less M hirr htr a ha s hMs hs.2⟩
      intro x hx
      rcases (List.mem_orderedInsert (fun x y => less x y = true)).1 hx with rfl | hxs
      · simpa using hab
      · exact hs.1 x hxs

/-- Insertion sort sorts every slice on which `less` is a strict transitive
ordering. -/
theorem insertionSort_pairwise {α : Type} (less : α → α → Bool) :
    ∀ l : List α, (∀ a ∈ l, less a a = false) →
      (∀ a ∈ l, ∀ b ∈ l, ∀ c ∈ l, less a b = true → less b c = true → less a c = true) →
      (l.insertionSort fun x y => less x y = true).Pairwise fun x y => less y x = false
  | [], _, _ => by simp
  | a :: l, hirr, htr => by
    have ih := insertionSort_pairwise less l
      (fun x hx => hirr x (List.mem_cons_of_mem _ hx))
      (fun x hx y hy z hz => htr x (List.mem_cons_of_mem _ hx) y (List.mem_cons_of_mem _ hy)
        z (List.mem_cons_of_mem _ hz))
    rw [List.insertionSort]
    refine orderedInsert_pairwise less (fun x => x ∈ a :: l) hirr
      (fun x y z hx hy hz => htr x hx y hy z hz) a (List.mem_cons_self _ _) _ ?_ ih
    intro x hx
    exact List.mem_cons_of_mem _ (((List.perm_insertionSort _ l).mem_iff).1 hx)

/-- The items of the example with three counts come out in descending order
of their noised values. -/
theorem summarize_sorted_demo :
    (SummarizeTokenCounts demoRuntime [("A", 10), ("B", 12), ("C", 11)] 1 500 1 24 0).Items.map
        (fun t => (t.Mint, t.Noised)) = [("B", 13580), ("A", 10360), ("C", 9880)] ∧
    (SummarizeTokenCounts demoRuntime [("A", 10), ("B", 12), ("C", 11)] 1 500 1 24 0).Items.Pairwise
      fun a b => demoRuntime.le b.Noised a.Noised = true :=
  ⟨by decide,
    summarize_sorted_of_comparable demoRuntime [("A", 10), ("B", 12), ("C", 11)] 1 500 1 24 0
      (fun x => x) (fun _ l => List.perm_insertionSort _ l)
      (fun less l h1 h2 _ => insertionSort_pairwise less l h1 h2)
      (fun t _ u _ => ⟨by simp [demoRuntime], by simp [demoRuntime]⟩)⟩

/-- The items of `SummarizeTokenCounts` on two entries that are both kept,
before the sort. -/
theorem summarize_two_items {F R : Type} (rt : Runtime F R) (a b : String) (c₁ c₂ k : Int)
    (epsilon : F) (seed w now : Int) (h₁ : appliedK k ≤ c₁) (h₂ : appliedK k ≤ c₂) :
    (SummarizeTokenCounts rt [(a, c₁), (b, c₂)] k epsilon seed w now).Items =
      rt.sortSlice (fun x y => rt.lt y.Noised x.Noised)
        [{ Mint := a, Count := c₁,
           Noised := rt.add (rt.ofInt c₁)
             (laplace rt (seededRng rt seed now)
               (rt.div (rt.lit 1 0) (appliedEpsilon rt epsilon))).1,
           WindowHrs := w },
         { Mint := b, Count := c₂,
           Noised := rt.add (rt.ofInt c₂)
             (laplace rt
               (laplace rt (seededRng rt seed now)
                 (rt.div (rt.lit 1 0) (appliedEpsilon rt epsilon))).2
               (rt.div (rt.lit 1 0) (appliedEpsilon rt epsilon))).1,
           WindowHrs := w }] := by
  have g₁ : ¬ c₁ < appliedK k := by omega
  have g₂ : ¬ c₂ < appliedK k := by omega
  simp only [SummarizeTokenCounts, summarizeLoop, if_neg g₁, if_neg g₂, List.nil_append,
    List.cons_append]

/-- With two kept entries whose noised values do not compare either way, as
not-a-number values do, the two items of the summary are not in descending
order. -/
theorem summarize_unordered_spec {F R : Type} (rt : Runtime F R) (a b : String)
    (c₁ c₂ k : Int) (epsilon : F) (seed w now : Int)
    (hperm : ∀ less l, (rt.sortSlice less l).Perm l)
    (h₁ : appliedK k ≤ c₁) (h₂ : appliedK k ≤ c₂)
    (hnan : ∀ x ∈ [rt.add (rt.ofInt c₁)
            (laplace rt (seededRng rt seed now)
              (rt.div (rt.lit 1 0) (appliedEpsilon rt epsilon))).1,
          rt.add (rt.ofInt c₂)
            (laplace rt
              (laplace rt (seededRng rt seed now)
                (rt.div (rt.lit 1 0) (appliedEpsilon rt epsilon))).2
              (rt.div (rt.lit 1 0) (appliedEpsilon rt epsilon))).1],
      ∀ y ∈ [rt.add (rt.ofInt c₁)
            (laplace rt (seededRng rt seed now)
              (rt.div (rt.lit 1 0) (appliedEpsilon rt epsilon))).1,
          rt.add (rt.ofInt c₂)
            (laplace rt
              (laplace rt (seededRng rt seed now)
                (rt.div (rt.lit 1 0) (appliedEpsilon rt epsilon))).2
              (rt.div (rt.lit 1 0) (appliedEpsilon rt epsilon))).1],
      rt.le x y = false) :
    ∃ x y, (SummarizeTokenCounts rt [(a, c₁), (b, c₂)] k epsilon seed w now).Items = [x, y] ∧
      rt.le y.Noised x.Noised = false := by
  have hi := summarize_two_items rt a b c₁ c₂ k epsilon seed w now h₁ h₂
  have hp := hperm (fun x y => rt.lt y.Noised x.Noised)
    [{ Mint := a, Count := c₁,
       Noised := rt.add (rt.ofInt c₁)
         (laplace rt (seededRng rt seed now)
           (rt.div (rt.lit 1 0) (appliedEpsilon rt epsilon))).1,
       WindowHrs := w },
     { Mint := b, Count := c₂,
       Noised := rt.add (rt.ofInt c₂)
         (laplace rt
           (laplace rt (seededRng rt seed now)
             (rt.div (rt.lit 1 0) (appliedEpsilon rt epsilon))).2
           (rt.div (rt.lit 1 0) (appliedEpsilon rt epsilon))).1,
       WindowHrs := w }]
  rw [← hi] at hp
  have hlen := hp.length_eq
  simp only [List.length_cons, List.length_nil] at hlen
  match hS : (SummarizeTokenCounts rt [(a, c₁), (b, c₂)] k epsilon seed w now).Items, hlen with
  | [x, y], _ =>
    refine ⟨x, y, rfl, ?_⟩
    rw [hS] at hp
    have hx : x ∈ [x, y] := List.mem_cons_self _ _
    have hy : y ∈ [x, y] := List.mem_cons_of_mem _ (List.mem_cons_self _ _)
    have hx' := (hp.mem_iff).1 hx
    have hy' := (hp.mem_iff).1 hy
    refine hnan _ ?_ _ ?_
    · simp only [List.mem_cons, List.mem_singleton, List.not_mem_nil, or_false] at hy' ⊢
      rcases hy' with rfl | rfl
      · exact Or.inl rfl
      · exact Or.inr rfl
    · simp only [List.mem_cons, List.mem_singleton, List.not_mem_nil, or_false] at hx' ⊢
      rcases hx' with rfl | rfl
      · exact Or.inl rfl
      · exact Or.inr rfl

/-- C22. The items are not always in descending order of their noised
values. Whenever `sort.Slice` permutes, for two kept entries whose noised
values do not compare either way (`x <= y` is false for each of them, as for
the not-a-number values that an `epsilon` that is not a number produces),
the summary has two items `x`, `y` in this order with
`x.Noised >= y.Noised` false. -/
theorem summarize_items_unordered {F R : Type} (rt : Runtime F R) (a b : String)
    (c₁ c₂ k : Int) (epsilon : F) (seed w now : Int)
    (hperm : ∀ less l, (rt.sortSlice less l).Perm l)
    (h₁ : appliedK k ≤ c₁) (h₂ : appliedK k ≤ c₂)
    (hnan : ∀ x ∈ [rt.add (rt.ofInt c₁)
            (laplace rt (seededRng rt seed now)
              (rt.div (rt.lit 1 0) (appliedEpsilon rt epsilon))).1,
          rt.add (rt.ofInt c₂)
            (laplace rt
              (laplace rt (seededRng rt seed now)
                (rt.div (rt.lit 1 0) (appliedEpsilon rt epsilon))).2
              (rt.div (rt.lit 1 0) (appliedEpsilon rt epsilon))).1],
      ∀ y ∈ [rt.add (rt.ofInt c₁)
            (laplace rt (seededRng rt seed now)
              (rt.div (rt.lit 1 0) (appliedEpsilon rt epsilon))).1,
          rt.add (rt.ofInt c₂)
            (laplace rt
              (laplace rt (seededRng rt seed now)
                (rt.div (rt.lit 1 0) (appliedEpsilon rt epsilon))).2
              (rt.div (rt.lit 1 0) (appliedEpsilon rt epsilon))).1],
      rt.le x y = false) :
    ∃ x y, (SummarizeTokenCounts rt [(a, c₁), (b, c₂)] k epsilon seed w now).Items = [x, y] ∧
      rt.le y.Noised x.Noised = false :=
  summarize_unordered_spec rt a b c₁ c₂ k epsilon seed w now hperm h₁ h₂ hnan

theorem summarize_items_unordered_witness :
    ((∀ less l, (nanRuntime.sortSlice less l).Perm l) ∧ appliedK 1 ≤ 10 ∧ appliedK 1 ≤ 12 ∧
      (∀ x ∈ [nanRuntime.add (nanRuntime.ofInt 10)
            (laplace nanRuntime (seededRng nanRuntime 1 0)
              (nanRuntime.div (nanRuntime.lit 1 0) (appliedEpsilon nanRuntime none))).1,
          nanRuntime.add (nanRuntime.ofInt 12)
            (laplace nanRuntime
              (laplace nanRuntime (seededRng nanRuntime 1 0)
                (nanRuntime.div (nanRuntime.lit 1 0) (appliedEpsilon nanRuntime none))).2
              (nanRuntime.div (nanRuntime.lit 1 0) (appliedEpsilon nanRuntime none))).1],
      ∀ y ∈ [nanRuntime.add (nanRuntime.ofInt 10)
            (laplace nanRuntime (seededRng nanRuntime 1 0)
              (nanRuntime.div (nanRuntime.lit 1 0) (appliedEpsilon nanRuntime none))).1,
          nanRuntime.add (nanRuntime.ofInt 12)
            (laplace nanRuntime
              (laplace nanRuntime (seededRng nanRuntime 1 0)
                (nanRuntime.div (nanRuntime.lit 1 0) (appliedEpsilon nanRuntime none))).2
              (nanRuntime.div (nanRuntime.lit 1 0) (appliedEpsilon nanRuntime none))).1],
      nanRuntime.le x y = false)) ∧
    (SummarizeTokenCounts nanRuntime [("A", 10), ("B", 12)] 1 none 1 24 0).Items.map
      (fun t => (t.Mint, t.Count, t.Noised)) = [("B", 12, none), ("A", 10, none)] ∧
    (∃ x y, (SummarizeTokenCounts nanRuntime [("A", 10), ("B", 12)] 1 none 1 24 0).Items =
        [x, y] ∧
      nanRuntime.le y.Noised x.Noised = false) :=
  ⟨⟨fun _ l => List.perm_insertionSort _ l, by decide, by decide, by decide⟩, by decide,
    summarize_items_unordered nanRuntime "A" "B" 10 12 1 none 1 24 0
      (fun _ l => List.perm_insertionSort _ l) (by decide) (by decide) (by decide)⟩

/-! ## What the summary releases -/


/-- Every item the first loop of `SummarizeTokenCounts` emits carries, as its
noised value, its raw count plus a value that `laplace` returns for the scale
`1 / epsilon`. -/
theorem summarizeLoop_noised {F R : Type} (rt : Runtime F R) (k : Int) (epsilon : F) (w : Int) :
    ∀ (counts : List (String × Int)) (st : SummaryState F R),
      (∀ t ∈ st.items, ∃ rng : R,
        t.Noised = rt.add (rt.ofInt t.Count) (laplace rt rng (rt.div (rt.lit 1 0) epsilon)).1) →
      ∀ t ∈ (summarizeLoop rt k epsilon w counts st).items, ∃ rng : R,
        t.Noised = rt.add (rt.ofInt t.Count) (laplace rt rng (rt.div (rt.lit 1 0) epsilon)).1
  | [], st, h => by simpa [summarizeLoop] using h
  | (mint, count) :: rest, st, h => by
    by_cases hc : count < k
    · simp only [summarizeLoop, if_pos hc]
      exact summarizeLoop_noised rt k epsilon w rest _ h
    · simp only [summarizeLoop, if_neg hc]
      apply summarizeLoop_noised rt k epsilon w rest
      intro t ht
      rcases List.mem_append.1 ht with ht | ht
      · exact h t ht
      · simp only [List.mem_singleton] at ht
        exact ⟨st.rng, by rw [ht]⟩

/-- The summary carries the raw count of every key it emits, and the noised
value next to it is that count plus a value of `laplace`. -/
theorem summarize_releases_spec {F R : Type} (rt : Runtime F R)
    (pre post : List (String × Int)) (a : String) (c c' : Int) (k : Int) (epsilon : F)
    (hperm : ∀ less l, (rt.sortSlice less l).Perm l)
    (hpre : ∀ p ∈ pre, p.1 ≠ a) (hpost : ∀ p ∈ post, p.1 ≠ a)
    (hc : appliedK k ≤ c) (hne : c ≠ c') :
    (∀ seed w now : Int,
      (∃ t ∈ (SummarizeTokenCounts rt (pre ++ (a, c) :: post) k epsilon seed w now).Items,
        t.Mint = a ∧ t.Count = c) ∧
      (∀ t ∈ (SummarizeTokenCounts rt (pre ++ (a, c') :: post) k epsilon seed w now).Items,
        t.Mint = a → t.Count = c' ∧ t.Count ≠ c)) ∧
    (∀ (counts : List (String × Int)) (seed w now : Int),
      ∀ t ∈ (SummarizeTokenCounts rt counts k epsilon seed w now).Items,
        (t.Mint, t.Count) ∈ counts ∧
        ∃ rng : R, t.Noised = rt.add (rt.ofInt t.Count)
          (laplace rt rng (rt.div (rt.lit 1 0) (appliedEpsilon rt epsilon))).1) := by
  have hmem : ∀ (counts : List (String × Int)) (seed w now : Int),
      ∀ t ∈ (SummarizeTokenCounts rt counts k epsilon seed w now).Items,
        (t.Mint, t.Count) ∈ counts := by
    intro counts seed w now t ht
    have hp := (summarize_spec rt counts k epsilon seed w now hperm).1
    have := (hp.mem_iff).1 (List.mem_map_of_mem (fun t => (t.Mint, t.Count)) ht)
    exact (List.mem_filter.1 this).1
  refine ⟨?_, ?_⟩
  · intro seed w now
    constructor
    · have hp := (summarize_spec rt (pre ++ (a, c) :: post) k epsilon seed w now hperm).1
      have hin : (a, c) ∈ (pre ++ (a, c) :: post).filter fun p => decide (appliedK k ≤ p.2) := by
        rw [List.mem_filter]
        exact ⟨by simp, by simpa using hc⟩
      obtain ⟨t, ht, hte⟩ := List.mem_map.1 ((hp.mem_iff).2 hin)
      simp only [Prod.mk.injEq] at hte
      exact ⟨t, ht, hte.1, hte.2⟩
    · intro t ht hta
      have h := hmem _ seed w now t ht
      rw [hta] at h
      rcases List.mem_append.1 h with h | h
      · exact absurd rfl (hpre _ h)
      · rcases List.mem_cons.1 h with h | h
        · simp only [Prod.mk.injEq, true_and] at h
          exact ⟨h, by rw [h]; exact fun e => hne e.symm⟩
        · exact absurd rfl (hpost _ h)
  · intro counts seed w now t ht
    refine ⟨hmem counts seed w now t ht, ?_⟩
    rw [summarize_items_eq] at ht
    have ht' := ((hperm _ _).mem_iff).1 ht
    exact summarizeLoop_noised rt (appliedK k) (appliedEpsilon rt epsilon) w counts _
      (by simp) t ht'

/-- C21. The summary releases raw counts. Whenever `sort.Slice` permutes,
for two counts maps that differ only in the count of the key `a` (`c` in one,
`c'` in the other, `c` not below the clamped `k`): for every seed, window and
clock reading, the summary of the first map holds an item of key `a` with
count `c`, and no item of key `a` in the summary of the second map has count
`c`; so the set of summaries that hold `(a, c)` has probability one for the
first map and zero for the second, whatever the draws. For every counts
map, every item carries the raw count of its key, and its noised value is
that count plus a value of `laplace` for the scale `1 / epsilon`. -/
theorem summary_releases_counts {F R : Type} (rt : Runtime F R)
    (pre post : List (String × Int)) (a : String) (c c' : Int) (k : Int) (epsilon : F)
    (hperm : ∀ less l, (rt.sortSlice less l).Perm l)
    (hpre : ∀ p ∈ pre, p.1 ≠ a) (hpost : ∀ p ∈ post, p.1 ≠ a)
    (hc : appliedK k ≤ c) (hne : c ≠ c') :
    (∀ seed w now : Int,
      (∃ t ∈ (SummarizeTokenCounts rt (pre ++ (a, c) :: post) k epsilon seed w now).Items,
        t.Mint = a ∧ t.Count = c) ∧
      (∀ t ∈ (SummarizeTokenCounts rt (pre ++ (a, c') :: post) k epsilon seed w now).Items,
        t.Mint = a → t.Count = c' ∧ t.Count ≠ c)) ∧
    (∀ (counts : List (String × Int)) (seed w now : Int),
      ∀ t ∈ (SummarizeTokenCounts rt counts k epsilon seed w now).Items,
        (t.Mint, t.Count) ∈ counts ∧
        ∃ rng : R, t.Noised = rt.add (rt.ofInt t.Count)
          (laplace rt rng (rt.div (rt.lit 1 0) (appliedEpsilon rt epsilon))).1) :=
  summarize_releases_spec rt pre post a c c' k epsilon hperm hpre hpost hc hne

theorem summary_releases_counts_witness :
    ((∀ less l, (demoRuntime.sortSlice less l).Perm l) ∧
      (∀ p ∈ [(("B" : String), (3 : Int))], p.1 ≠ "A") ∧
      (∀ p ∈ ([] : List (String × Int)), p.1 ≠ "A") ∧ appliedK 1 ≤ 10 ∧ (10 : Int) ≠ 11) ∧
    ((∀ seed w now : Int,
      (∃ t ∈ (SummarizeTokenCounts demoRuntime ([("B", 3)] ++ ("A", 10) :: []) 1 500 seed w
            now).Items,
        t.Mint = "A" ∧ t.Count = 10) ∧
      (∀ t ∈ (SummarizeTokenCounts demoRuntime ([("B", 3)] ++ ("A", 11) :: []) 1 500 seed w
            now).Items,
        t.Mint = "A" → t.Count = 11 ∧ t.Count ≠ 10)) ∧
    (∀ (counts : List (String × Int)) (seed w now : Int),
      ∀ t ∈ (SummarizeTokenCounts demoRuntime counts 1 500 seed w now).Items,
        (t.Mint, t.Count) ∈ counts ∧
        ∃ rng : Nat, t.Noised = demoRuntime.add (demoRuntime.ofInt t.Count)
          (laplace demoRuntime rng
            (demoRuntime.div (demoRuntime.lit 1 0) (appliedEpsilon demoRuntime 500))).1)) :=
  ⟨⟨fun _ l => List.perm_insertionSort _ l, by decide, by decide, by decide, by decide⟩,
    summary_releases_counts demoRuntime [("B", 3)] [] "A" 10 11 1 500
      (fun _ l => List.perm_insertionSort _ l) (by decide) (by decide) (by decide) (by decide)⟩

theorem summary_determines_count :
    (SummarizeTokenCounts demoRuntime [("A", 10)] 1 500 1 24 0).Items.map
      (fun t => (t.Mint, t.Count, t.Noised)) = [("A", 10, 10360)] ∧
    (SummarizeTokenCounts demoRuntime [("A", 11)] 1 500 1 24 0).Items.map
      (fun t => (t.Mint, t.Count, t.Noised)) = [("A", 11, 11360)] ∧
    (∀ seed w now : Int,
      (SummarizeTokenCounts demoRuntime [("A", 10)] 1 500 seed w now).Items.map
        (fun t => (t.Mint, t.Count)) = [("A", 10)] ∧
      (SummarizeTokenCounts demoRuntime [("A", 11)] 1 500 seed w now).Items.map
        (fun t => (t.Mint, t.Count)) = [("A", 11)] ∧
      (SummarizeTokenCounts demoRuntime [("A", 10)] 1 500 seed w now).TotalSeen = 10 ∧
      (SummarizeTokenCounts demoRuntime [("A", 11)] 1 500 seed w now).TotalSeen = 11) := by
  refine ⟨by decide, by decide, ?_⟩
  intro seed w now
  have h1 := (summarize_spec demoRuntime [("A", 10)] 1 500 seed w now
    (fun _ l => List.perm_insertionSort _ l)).1
  have h2 := (summarize_spec demoRuntime [("A", 11)] 1 500 seed w now
    (fun _ l => List.perm_insertionSort _ l)).1
  have e1 : ([(("A" : String), (10 : Int))].filter fun p => decide (appliedK 1 ≤ p.2)) =
      [("A", 10)] := by decide
  have e2 : ([(("A" : String), (11 : Int))].filter fun p => decide (appliedK 1 ≤ p.2)) =
      [("A", 11)] := by decide
  rw [e1] at h1
  rw [e2] at h2
  exact ⟨List.perm_singleton.1 h1, List.perm_singleton.1 h2, rfl, rfl⟩

/-! ## The signature of a request -/

/-- The signature check accepts exactly the header `sha256=` followed by the
hex of the keyed digest, under a secret that is not empty. -/
theorem verifySignature_spec (hmac : Bytes → Bytes → Bytes) (body : Bytes)
    (header secret : String) (hlen : hmac (utf8 secret) body ≠ []) :
    verifySignature hmac body header secret = true ↔
      secret ≠ "" ∧ header = "sha256=" ++ hexEncode (hmac (utf8 secret) body) := by
  have hne := hexEncode_ne_empty _ hlen
  have hpos : 0 < (utf8 (hexEncode (hmac (utf8 secret) body))).length := by
    rw [List.length_pos]
    intro h
    exact hne (utf8_inj _ "" (by rw [h]; rfl))
  unfold verifySignature
  constructor
  · intro h
    by_cases h1 : header = "" ∨ secret = ""
    · rw [if_pos h1] at h
      exact absurd h (by simp)
    · rw [if_neg h1] at h
      simp only [] at h
      by_cases h2 : (utf8 header).length ≤ (utf8 "sha256=").length ∨
          (utf8 header).take (utf8 "sha256=").length ≠ utf8 "sha256="
      · rw [if_pos h2] at h
        exact absurd h (by simp)
      · rw [if_neg h2] at h
        have h3 := of_decide_eq_true h
        have h4 : (utf8 header).take (utf8 "sha256=").length = utf8 "sha256=" := by
          by_contra hc
          exact h2 (Or.inr hc)
        refine ⟨fun hs => h1 (Or.inr hs), ?_⟩
        apply utf8_inj
        rw [utf8_append]
        calc utf8 header
            = (utf8 header).take (utf8 "sha256=").length ++
                (utf8 header).drop (utf8 "sha256=").length :=
              (List.take_append_drop _ _).symm
          _ = utf8 "sha256=" ++ utf8 (hexEncode (hmac (utf8 secret) body)) := by
              rw [h4, ← h3]
  · rintro ⟨hs, hh⟩
    have hu : utf8 header = utf8 "sha256=" ++ utf8 (hexEncode (hmac (utf8 secret) body)) := by
      rw [hh, utf8_append]
    have h1 : ¬ (header = "" ∨ secret = "") := by
      rintro (h | h)
      · rw [h] at hu
        have := congrArg List.length hu
        simp only [List.length_append] at this
        have e : (utf8 "").length = 0 := rfl
        omega
      · exact hs h
    rw [if_neg h1]
    simp only []
    have h2 : ¬ ((utf8 header).length ≤ (utf8 "sha256=").length ∨
        (utf8 header).take (utf8 "sha256=").length ≠ utf8 "sha256=") := by
      rw [hu]
      rintro (h | h)
      · simp only [List.length_append] at h
        omega
      · exact h (List.take_left' rfl)
    rw [if_neg h2, hu, List.drop_left' rfl]
    exact decide_eq_true rfl

/-- C24. When the keyed digest is not empty (HMAC-SHA-256 has 32 bytes),
`verifySignature` returns true exactly when the secret is not empty and the
header is `sha256=` followed by the hex encoding of the digest of the body
under the secret, which is in lowercase. An empty header and an empty secret
are rejected, and so is a header that does not start with `sha256=`. -/
theorem verifySignature_iff (hmac : Bytes → Bytes → Bytes) (body : Bytes)
    (header secret : String) (hlen : hmac (utf8 secret) body ≠ []) :
    (verifySignature hmac body header secret = true ↔
      secret ≠ "" ∧ header = "sha256=" ++ hexEncode (hmac (utf8 secret) body)) ∧
    verifySignature hmac body "" secret = false ∧
    verifySignature hmac body header "" = false ∧
    ((utf8 header).take 7 ≠ utf8 "sha256=" → verifySignature hmac body header secret = false) ∧
    (∀ c ∈ (hexEncode (hmac (utf8 secret) body)).data, c ∈ "0123456789abcdef".data) := by
  refine ⟨verifySignature_spec hmac body header secret hlen, ?_, ?_, ?_,
    hexEncode_lower _⟩
  · unfold verifySignature
    rw [if_pos (Or.inl rfl)]
  · unfold verifySignature
    rw [if_pos (Or.inr rfl)]
  · intro h
    unfold verifySignature
    by_cases h1 : header = "" ∨ secret = ""
    · rw [if_pos h1]
    · rw [if_neg h1]
      have h7 : (utf8 "sha256=").length = 7 := by decide
      simp only [h7]
      rw [if_pos (Or.inr h)]

theorem verifySignature_iff_witness :
    demoHmac (utf8 "k") [64] ≠ [] ∧
    verifySignature demoHmac [64]
      "sha256=abababababababababababababababababababababababababababababababab" "k" = true ∧
    verifySignature demoHmac [64]
      "sha256=ABABABABABABABABABABABABABABABABABABABABABABABABABABABABABABABAB" "k" = false ∧
    verifySignature demoHmac [64]
      "abababababababababababababababababababababababababababababababab" "k" = false ∧
    ((verifySignature demoHmac [64]
        "sha256=abababababababababababababababababababababababababababababababab" "k" = true ↔
      "k" ≠ "" ∧
        "sha256=abababababababababababababababababababababababababababababababab" =
          "sha256=" ++ hexEncode (demoHmac (utf8 "k") [64])) ∧
    verifySignature demoHmac [64] "" "k" = false ∧
    verifySignature demoHmac [64]
      "sha256=abababababababababababababababababababababababababababababababab" "" = false ∧
    ((utf8 "sha256=abababababababababababababababababababababababababababababababab").take 7 ≠
        utf8 "sha256=" →
      verifySignature demoHmac [64]
        "sha256=abababababababababababababababababababababababababababababababab" "k" =
          false) ∧
    (∀ c ∈ (hexEncode (demoHmac (utf8 "k") [64])).data, c ∈ "0123456789abcdef".data)) :=
  ⟨by decide, by decide, by decide, by decide,
    verifySignature_iff demoHmac [64]
      "sha256=abababababababababababababababababababababababababababababababab" "k"
      (by decide)⟩

/-! ## The key of a trade -/

/-- The type assertion to `string` succeeds exactly on a present string. -/
theorem stringOf_eq_some {O : Type} (x : Option (Value O)) (s : String) :
    stringOf x = some s ↔ x = some (.str s) := by
  cases x with
  | none => simp [stringOf]
  | some v => cases v <;> simp [stringOf]

/-- What `extractMint` returns, by the first of the three members that holds a
string. -/
theorem extractMint_cases {O : Type} (trim : String → String) (p : List (String × Value O))
    (m : String) :
    extractMint trim (some p) = m ↔
      (∃ s, p.lookup "mint" = some (.str s) ∧ m = trim s) ∨
      (stringOf (p.lookup "mint") = none ∧
        ∃ s, p.lookup "tokenMint" = some (.str s) ∧ m = trim s) ∨
      (stringOf (p.lookup "mint") = none ∧ stringOf (p.lookup "tokenMint") = none ∧
        ∃ s, p.lookup "token_address" = some (.str s) ∧ m = trim s) ∨
      (stringOf (p.lookup "mint") = none ∧ stringOf (p.lookup "tokenMint") = none ∧
        stringOf (p.lookup "token_address") = none ∧ m = "") := by
  simp only [← stringOf_eq_some]
  simp only [extractMint, extractMintLoop]
  cases h1 : stringOf (p.lookup "mint") with
  | some s1 => simp [eq_comm]
  | none =>
    cases h2 : stringOf (p.lookup "tokenMint") with
    | some s2 => simp [eq_comm]
    | none =>
      cases h3 : stringOf (p.lookup "token_address") with
      | some s3 => simp [eq_comm]
      | none => simp [eq_comm]

/-- When no member among the three names holds a value that is not a string,
`extractMint` is the key the specification describes. -/
theorem extractMint_eq_specKey {O : Type} (trim : String → String)
    (p : List (String × Value O))
    (h : ∀ key ∈ ["mint", "tokenMint", "token_address"], ∀ v, p.lookup key = some v →
      ∃ s, v = .str s) :
    extractMint trim (some p) = specKey trim (some p) := by
  have hm := h "mint" (by simp)
  have ht := h "tokenMint" (by simp)
  have ha := h "token_address" (by simp)
  simp only [extractMint, extractMintLoop, specKey, List.filterMap_cons, List.filterMap_nil]
  cases h1 : p.lookup "mint" with
  | some v1 =>
    obtain ⟨s, rfl⟩ := hm v1 h1
    simp [stringOf]
  | none =>
    cases h2 : p.lookup "tokenMint" with
    | some v2 =>
      obtain ⟨s, rfl⟩ := ht v2 h2
      simp [stringOf]
    | none =>
      cases h3 : p.lookup "token_address" with
      | some v3 =>
        obtain ⟨s, rfl⟩ := ha v3 h3
        simp [stringOf]
      | none => simp [stringOf]

/-- The count of a key after `counts[mint]++`. -/
theorem countOf_increment (mint m : String) :
    ∀ counts : List (String × Int),
      countOf (increment counts mint) m = countOf counts m + if mint = m then 1 else 0
  | [] => by
    simp only [increment, countOf]
    split <;> simp
  | (key, c) :: rest => by
    by_cases hk : key = mint
    · simp only [increment, if_pos hk, countOf]
      subst hk
      by_cases hm : key = m
      · simp [hm]
      · simp [hm]
    · simp only [increment, if_neg hk, countOf]
      by_cases hm : key = m
      · have : mint ≠ m := fun e => hk (hm.trans e.symm)
        simp [hm, this]
      · simp only [if_neg hm]
        exact countOf_increment mint m rest

/-- The loop of `TokenCounts` on a log without an undecodable line: it
returns, and it adds to the count of every key the number of records counted
under that key. -/
theorem tokenCountsLoop_spec {O : Type} (trim : String → String) (cutoff : Time) :
    ∀ (events : List (Line (Record O))) (counts : List (String × Int)),
      decodable events = true →
      ∃ out, tokenCountsLoop trim cutoff events counts = .ok out ∧
        (∀ m, m ≠ "" → countOf out m =
          countOf counts m + ((entries events).countP (countedAs trim cutoff m) : Nat)) ∧
        countOf out "" = countOf counts ""
  | [], counts, _ => ⟨counts, rfl, by simp [entries], rfl⟩
  | .blank :: rest, counts, h => by
    simpa [tokenCountsLoop, entries] using
      tokenCountsLoop_spec trim cutoff rest counts (by simpa [decodable] using h)
  | .garbled err :: rest, counts, h => by simp [decodable] at h
  | .entry r :: rest, counts, h => by
    have hd : decodable rest = true := by simpa [decodable] using h
    by_cases ht : r.Event.Type_ ≠ "trade"
    · obtain ⟨out, ho, hc, he⟩ := tokenCountsLoop_spec trim cutoff rest counts hd
      refine ⟨out, by simp only [tokenCountsLoop, if_pos ht]; exact ho, ?_, he⟩
      intro m hm
      have : countedAs trim cutoff m r = false := by simp [countedAs, ht]
      simp only [entries, List.countP_cons, this]
      simpa using hc m hm
    · by_cases hw : (!r.Event.Timestamp.IsZero && decide (r.Event.Timestamp < cutoff)) = true
      · obtain ⟨out, ho, hc, he⟩ := tokenCountsLoop_spec trim cutoff rest counts hd
        refine ⟨out, by simp only [tokenCountsLoop, if_neg ht, if_pos hw]; exact ho, ?_, he⟩
        intro m hm
        have : countedAs trim cutoff m r = false := by
          simp only [Bool.and_eq_true, Bool.not_eq_true', decide_eq_true_eq] at hw
          simp [countedAs, hw.1, hw.2]
        simp only [entries, List.countP_cons, this]
        simpa using hc m hm
      · have hin : (r.Event.Timestamp.IsZero || !decide (r.Event.Timestamp < cutoff)) = true := by
          cases hz : r.Event.Timestamp.IsZero
          · simp only [hz, Bool.not_false, Bool.true_and] at hw
            simp [hw]
          · simp
        have htt : r.Event.Type_ = "trade" := not_not.1 ht
        by_cases hmint : extractMint trim r.Event.Payload = ""
        · obtain ⟨out, ho, hc, he⟩ := tokenCountsLoop_spec trim cutoff rest counts hd
          refine ⟨out, ?_, ?_, he⟩
          · simp only [tokenCountsLoop, if_neg ht, if_neg hw, if_pos hmint]
            exact ho
          · intro m hm
            have : countedAs trim cutoff m r = false := by
              simp [countedAs, hmint, Ne.symm hm]
            simp only [entries, List.countP_cons, this]
            simpa using hc m hm
        · obtain ⟨out, ho, hc, he⟩ := tokenCountsLoop_spec trim cutoff rest
            (increment counts (extractMint trim r.Event.Payload)) hd
          refine ⟨out, ?_, ?_, ?_⟩
          · simp only [tokenCountsLoop, if_neg ht, if_neg hw, if_neg hmint]
            exact ho
          · intro m hm
            rw [hc m hm, countOf_increment]
            simp only [entries, List.countP_cons]
            by_cases hk : extractMint trim r.Event.Payload = m
            · have : countedAs trim cutoff m r = true := by simp [countedAs, htt, hin, hk]
              simp only [if_pos hk, this, if_true]
              push_cast
              ring
            · have : countedAs trim cutoff m r = false := by simp [countedAs, hk]
              simp [hk, this]
          · rw [he, countOf_increment, if_neg hmint, add_zero]

/-- C23. The key of a trade is the trimmed value of the first member among
`mint`, `tokenMint`, `token_address` whose value is a string; a member that
is present with a value that is not a string is passed over and the next name
is consulted. On an events log without an undecodable line `TokenCounts`
returns a map in which the count of every non-empty key is the number of
trades, with a zero timestamp or one not before the cutoff, whose key it is,
and the empty key is never counted: so a record is counted, under the trimmed
value, exactly when that first string is not empty after trimming. When no
member among the three holds a value that is not a string, this is the key of
the first member present. -/
theorem tokenCounts_first_string_key {O : Type} (trim : String → String)
    (events : List (Line (Record O))) (window : Int) (now : Time)
    (hdec : decodable events = true) :
    (∃ counts, TokenCounts trim events window now = .ok counts ∧
      (∀ m, m ≠ "" → countOf counts m =
        ((entries events).countP (countedAs trim (now - window) m) : Nat)) ∧
      countOf counts "" = 0) ∧
    (∀ (p : List (String × Value O)) (m : String),
      extractMint trim (some p) = m ↔
        (∃ s, p.lookup "mint" = some (.str s) ∧ m = trim s) ∨
        (stringOf (p.lookup "mint") = none ∧
          ∃ s, p.lookup "tokenMint" = some (.str s) ∧ m = trim s) ∨
        (stringOf (p.lookup "mint") = none ∧ stringOf (p.lookup "tokenMint") = none ∧
          ∃ s, p.lookup "token_address" = some (.str s) ∧ m = trim s) ∨
        (stringOf (p.lookup "mint") = none ∧ stringOf (p.lookup "tokenMint") = none ∧
          stringOf (p.lookup "token_address") = none ∧ m = "")) ∧
    (∀ p : List (String × Value O),
      (∀ key ∈ ["mint", "tokenMint", "token_address"], ∀ v, p.lookup key = some v →
        ∃ s, v = .str s) →
      extractMint trim (some p) = specKey trim (some p)) ∧
    extractMint trim (none : Option (List (String × Value O))) = "" := by
  refine ⟨?_, extractMint_cases trim, extractMint_eq_specKey trim, rfl⟩
  obtain ⟨out, ho, hc, he⟩ := tokenCountsLoop_spec trim (now - window) events [] hdec
  refine ⟨out, ho, ?_, he⟩
  intro m hm
  rw [hc m hm]
  simp [countOf]

theorem tokenCounts_first_string_key_witness :
    decodable demoTrades = true ∧
    TokenCounts demoTrim demoTrades 50 120 = .ok [("ABC", 2)] ∧
    ((∃ counts, TokenCounts demoTrim demoTrades 50 120 = .ok counts ∧
      (∀ m, m ≠ "" → countOf counts m =
        ((entries demoTrades).countP (countedAs demoTrim (120 - 50) m) : Nat)) ∧
      countOf counts "" = 0) ∧
    (∀ (p : List (String × Value Empty)) (m : String),
      extractMint demoTrim (some p) = m ↔
        (∃ s, p.lookup "mint" = some (.str s) ∧ m = demoTrim s) ∨
        (stringOf (p.lookup "mint") = none ∧
          ∃ s, p.lookup "tokenMint" = some (.str s) ∧ m = demoTrim s) ∨
        (stringOf (p.lookup "mint") = none ∧ stringOf (p.lookup "tokenMint") = none ∧
          ∃ s, p.lookup "token_address" = some (.str s) ∧ m = demoTrim s) ∨
        (stringOf (p.lookup "mint") = none ∧ stringOf (p.lookup "tokenMint") = none ∧
          stringOf (p.lookup "token_address") = none ∧ m = "")) ∧
    (∀ p : List (String × Value Empty),
      (∀ key ∈ ["mint", "tokenMint", "token_address"], ∀ v, p.lookup key = some v →
        ∃ s, v = .str s) →
      extractMint demoTrim (some p) = specKey demoTrim (some p)) ∧
    extractMint demoTrim (none : Option (List (String × Value Empty))) = "") :=
  ⟨rfl, rfl, tokenCounts_first_string_key demoTrim demoTrades 50 120 rfl⟩

theorem extractMint_passes_non_string :
    extractMint demoTrim (some [("mint", (.float 7 : Value Empty)), ("tokenMint", .str "ABC")]) =
      "ABC" ∧
    specKey demoTrim (some [("mint", (.float 7 : Value Empty)), ("tokenMint", .str "ABC")]) =
      "" ∧
    TokenCounts demoTrim
      [.entry (demoTrade 0 100 [("mint", .float 7), ("tokenMint", .str "ABC")])] 50 120 =
        .ok [("ABC", 1)] :=
  ⟨rfl, rfl, rfl⟩

/-! ## Deny overrides allow -/

/-- The four tests of the loop of `Evaluate` pass exactly when the rule
matches. -/
theorem ruleMatches_tests {F O : Type} (lib : PolicyLib F O) (input : Input O) (rule : Rule O) :
    ruleMatches lib input rule = true ↔
      ¬ (!policy.matchString lib rule.Actions input.Action) = true ∧
      ¬ (!policy.matchString lib rule.Resources input.Resource) = true ∧
      ¬ (decide (rule.Roles.length > 0) &&
          !policy.intersects lib rule.Roles input.Subject.Roles) = true ∧
      ¬ (!policy.conditionsMatch lib rule.Conditions input) = true := by
  unfold ruleMatches
  cases hr : rule.Roles with
  | nil => simp [and_assoc]
  | cons x xs => simp [and_assoc]

/-- A rule that does not match is passed over. -/
theorem evaluateLoop_skip {F O : Type} (lib : PolicyLib F O) (input : Input O) (rule : Rule O)
    (rest : List (Rule O)) (d : Decision) (a : Bool) (h : ruleMatches lib input rule = false) :
    policy.evaluateLoop lib input (rule :: rest) d a =
      policy.evaluateLoop lib input rest { d with EvaluatedRule := d.EvaluatedRule + 1 } a := by
  have h' : ¬ ruleMatches lib input rule = true := by simp [h]
  rw [ruleMatches_tests] at h'
  rw [policy.evaluateLoop]
  simp only []
  by_cases h1 : (!policy.matchString lib rule.Actions input.Action) = true
  · rw [if_pos h1]
  · rw [if_neg h1]
    by_cases h2 : (!policy.matchString lib rule.Resources input.Resource) = true
    · rw [if_pos h2]
    · rw [if_neg h2]
      by_cases h3 : (decide (rule.Roles.length > 0) &&
          !policy.intersects lib rule.Roles input.Subject.Roles) = true
      · rw [if_pos h3]
      · rw [if_neg h3]
        by_cases h4 : (!policy.conditionsMatch lib rule.Conditions input) = true
        · rw [if_pos h4]
        · exact absurd ⟨h1, h2, h3, h4⟩ h'

/-- A rule that matches reaches the switch on its effect. -/
theorem evaluateLoop_match {F O : Type} (lib : PolicyLib F O) (input : Input O) (rule : Rule O)
    (rest : List (Rule O)) (d : Decision) (a : Bool) (h : ruleMatches lib input rule = true) :
    policy.evaluateLoop lib input (rule :: rest) d a =
      if effectOf lib rule = "deny" then
        policy.evaluateLoop lib input rest
          { d with EvaluatedRule := d.EvaluatedRule + 1, DeniedRules := d.DeniedRules ++ [rule.ID] }
          a
      else if effectOf lib rule = "allow" then
        policy.evaluateLoop lib input rest
          { d with EvaluatedRule := d.EvaluatedRule + 1,
                   MatchedRules := d.MatchedRules ++ [rule.ID] } true
      else .error ("unknown policy effect: " ++ rule.Effect) := by
  obtain ⟨h1, h2, h3, h4⟩ := (ruleMatches_tests lib input rule).1 h
  rw [policy.evaluateLoop]
  simp only [if_neg h1, if_neg h2, if_neg h3, if_neg h4, effectOf]

/-- The rules that match with the given effect. -/
theorem evaluateLoop_ok {F O : Type} (lib : PolicyLib F O) (input : Input O) :
    ∀ (rules : List (Rule O)) (d : Decision) (a : Bool),
      (∀ r ∈ rules, ruleMatches lib input r = true →
        effectOf lib r = "allow" ∨ effectOf lib r = "deny") →
      policy.evaluateLoop lib input rules d a = .ok
        ({ d with
            EvaluatedRule := d.EvaluatedRule + rules.length,
            DeniedRules := d.DeniedRules ++ (rules.filter fun r =>
              ruleMatches lib input r && decide (effectOf lib r = "deny")).map Rule.ID,
            MatchedRules := d.MatchedRules ++ (rules.filter fun r =>
              ruleMatches lib input r && decide (effectOf lib r = "allow")).map Rule.ID },
          a || rules.any fun r => ruleMatches lib input r && decide (effectOf lib r = "allow"))
  | [], d, a, _ => by simp [policy.evaluateLoop]
  | rule :: rest, d, a, h => by
    have hrest : ∀ r ∈ rest, ruleMatches lib input r = true →
        effectOf lib r = "allow" ∨ effectOf lib r = "deny" :=
      fun r hr => h r (List.mem_cons_of_mem _ hr)
    cases hm : ruleMatches lib input rule with
    | false =>
      rw [evaluateLoop_skip lib input rule rest d a hm, evaluateLoop_ok lib input rest _ a hrest]
      simp only [List.filter_cons, hm, Bool.false_and, List.any_cons, Bool.false_or,
        List.length_cons, Nat.cast_add, Nat.cast_one]
      simp [add_assoc, add_comm]
      omega
    | true =>
      rw [evaluateLoop_match lib input rule rest d a hm]
      by_cases hd : effectOf lib rule = "deny"
      · have hna : effectOf lib rule ≠ "allow" := by rw [hd]; decide
        rw [if_pos hd, evaluateLoop_ok lib input rest _ a hrest]
        simp only [List.filter_cons, hm, hd, hna, Bool.true_and, decide_True, decide_False,
          List.any_cons, Bool.false_or, List.length_cons, Nat.cast_add, Nat.cast_one, if_true,
          List.map_cons, List.append_assoc, List.singleton_append]
        simp [add_assoc, add_comm]
        omega
      · rcases h rule (List.mem_cons_self _ _) hm with ha | hd'
        · rw [if_neg hd, if_pos ha, evaluateLoop_ok lib input rest _ true hrest]
          simp only [List.filter_cons, hm, hd, ha, Bool.true_and, decide_True, decide_False,
            List.any_cons, Bool.true_or, Bool.or_true, List.length_cons, Nat.cast_add,
            Nat.cast_one, if_true, List.map_cons, List.append_assoc, List.singleton_append]
          simp [add_assoc, add_comm]
          omega
        · exact absurd hd' hd

/-- A rule that matches with an effect other than allow and deny stops the
loop with an error. -/
theorem evaluateLoop_error {F O : Type} (lib : PolicyLib F O) (input : Input O) :
    ∀ (rules : List (Rule O)) (d : Decision) (a : Bool),
      (∃ r ∈ rules, ruleMatches lib input r = true ∧
        effectOf lib r ≠ "allow" ∧ effectOf lib r ≠ "deny") →
      ∃ r ∈ rules, policy.evaluateLoop lib input rules d a =
        .error ("unknown policy effect: " ++ r.Effect)
  | [], _, _, h => by simp at h
  | rule :: rest, d, a, h => by
    by_cases hbad : ruleMatches lib input rule = true ∧
        effectOf lib rule ≠ "allow" ∧ effectOf lib rule ≠ "deny"
    · refine ⟨rule, List.mem_cons_self _ _, ?_⟩
      rw [evaluateLoop_match lib input rule rest d a hbad.1, if_neg hbad.2.2, if_neg hbad.2.1]
    · have hrest : ∃ r ∈ rest, ruleMatches lib input r = true ∧
          effectOf lib r ≠ "allow" ∧ effectOf lib r ≠ "deny" := by
        obtain ⟨r, hr, hb⟩ := h
        rcases List.mem_cons.1 hr with e | hr
        · exact absurd (e ▸ hb) hbad
        · exact ⟨r, hr, hb⟩
      cases hm : ruleMatches lib input rule with
      | false =>
        rw [evaluateLoop_skip lib input rule rest d a hm]
        obtain ⟨r, hr, he⟩ := evaluateLoop_error lib input rest _ a hrest
        exact ⟨r, List.mem_cons_of_mem _ hr, he⟩
      | true =>
        rw [evaluateLoop_match lib input rule rest d a hm]
        by_cases hd : effectOf lib rule = "deny"
        · rw [if_pos hd]
          obtain ⟨r, hr, he⟩ := evaluateLoop_error lib input rest _ a hrest
          exact ⟨r, List.mem_cons_of_mem _ hr, he⟩
        · by_cases ha : effectOf lib rule = "allow"
          · rw [if_neg hd, if_pos ha]
            obtain ⟨r, hr, he⟩ := evaluateLoop_error lib input rest _ true hrest
            exact ⟨r, List.mem_cons_of_mem _ hr, he⟩
          · exact absurd ⟨hm, ha, hd⟩ hbad

/-- A filtered list has a member exactly when some member passes the test. -/
theorem filter_length_pos_iff {α : Type} (p : α → Bool) (l : List α) :
    (l.filter p).length > 0 ↔ l.any p = true := by
  rw [gt_iff_lt, List.length_pos_iff_exists_mem, List.any_eq_true]
  constructor
  · rintro ⟨a, ha⟩
    exact ⟨a, (List.mem_filter.1 ha).1, (List.mem_filter.1 ha).2⟩
  · rintro ⟨a, ha, hp⟩
    exact ⟨a, List.mem_filter.2 ⟨ha, hp⟩⟩

/-- The decision of `Evaluate` when every rule that matches has the effect
allow or deny. -/
theorem evaluate_spec {F O : Type} (lib : PolicyLib F O) (pol : Policy O) (input : Input O)
    (hok : ∀ r ∈ pol.Rules, ruleMatches lib input r = true →
      effectOf lib r = "allow" ∨ effectOf lib r = "deny") :
    policy.Evaluate lib (some pol) input = .ok
      { Allow := (!pol.Rules.any fun r =>
            ruleMatches lib input r && decide (effectOf lib r = "deny")) &&
          pol.Rules.any fun r => ruleMatches lib input r && decide (effectOf lib r = "allow"),
        MatchedRules := (pol.Rules.filter fun r =>
          ruleMatches lib input r && decide (effectOf lib r = "allow")).map Rule.ID,
        DeniedRules := (pol.Rules.filter fun r =>
          ruleMatches lib input r && decide (effectOf lib r = "deny")).map Rule.ID,
        Reason :=
          if (pol.Rules.any fun r =>
            ruleMatches lib input r && decide (effectOf lib r = "deny")) = true then
            "explicit deny"
          else if (pol.Rules.any fun r =>
            ruleMatches lib input r && decide (effectOf lib r = "allow")) = true then "allow"
          else "no matching allow",
        DefaultDeny := !((!pol.Rules.any fun r =>
            ruleMatches lib input r && decide (effectOf lib r = "deny")) &&
          pol.Rules.any fun r => ruleMatches lib input r && decide (effectOf lib r = "allow")),
        EvaluatedRule := pol.Rules.length } := by
  unfold policy.Evaluate
  simp only [evaluateLoop_ok lib input pol.Rules _ false hok, List.nil_append, zero_add,
    Bool.false_or, List.length_map, filter_length_pos_iff]
  cases hden : (pol.Rules.any fun r =>
      ruleMatches lib input r && decide (effectOf lib r = "deny")) with
  | true => simp
  | false =>
    cases hall : (pol.Rules.any fun r =>
        ruleMatches lib input r && decide (effectOf lib r = "allow")) with
    | true => simp
    | false => simp

/-- The method `Evaluate` returns a decision exactly when every rule that
matches has the effect allow or deny. -/
theorem evaluate_ok_iff {F O : Type} (lib : PolicyLib F O) (pol : Policy O) (input : Input O) :
    (∃ d, policy.Evaluate lib (some pol) input = .ok d) ↔
      ∀ r ∈ pol.Rules, ruleMatches lib input r = true →
        effectOf lib r = "allow" ∨ effectOf lib r = "deny" := by
  constructor
  · rintro ⟨d, hd⟩
    by_contra hbad
    have hex : ∃ r ∈ pol.Rules, ruleMatches lib input r = true ∧
        effectOf lib r ≠ "allow" ∧ effectOf lib r ≠ "deny" := by
      push_neg at hbad
      obtain ⟨r, hr, hm, h1, h2⟩ := hbad
      exact ⟨r, hr, hm, h1, h2⟩
    obtain ⟨r, _, he⟩ := evaluateLoop_error lib input pol.Rules
      { Allow := false, MatchedRules := [], DeniedRules := [], Reason := "",
        DefaultDeny := true, EvaluatedRule := 0 } false hex
    unfold policy.Evaluate at hd
    simp only [he] at hd
    cases hd
  · intro hok
    exact ⟨_, evaluate_spec lib pol input hok⟩

/-- C25. When `Evaluate` returns the decision `d` without an error: `d.Allow`
is true exactly when some rule that matches the input (actions, resources,
roles and conditions) has the effect allow and no rule that matches has the
effect deny, the effect being read trimmed and in lower case; a rule that
matches with the effect deny makes `d.Allow` false, whatever rules allow, and
its identifier is in `d.DeniedRules`; when no rule matches the decision is
the default deny. `DeniedRules` and `MatchedRules` are the identifiers of the
matching rules of either effect in the order of the policy, every rule is
evaluated, and `Evaluate` returns without an error exactly when every
matching rule has one of the two effects. -/
theorem evaluate_deny_overrides {F O : Type} (lib : PolicyLib F O) (pol : Policy O)
    (input : Input O) (d : Decision) (h : policy.Evaluate lib (some pol) input = .ok d) :
    (d.Allow = true ↔
      (∃ r ∈ pol.Rules, ruleMatches lib input r = true ∧ effectOf lib r = "allow") ∧
      ¬ ∃ r ∈ pol.Rules, ruleMatches lib input r = true ∧ effectOf lib r = "deny") ∧
    (∀ r ∈ pol.Rules, ruleMatches lib input r = true → effectOf lib r = "deny" →
      d.Allow = false ∧ r.ID ∈ d.DeniedRules ∧ d.Reason = "explicit deny") ∧
    ((∀ r ∈ pol.Rules, ruleMatches lib input r = false) →
      d.Allow = false ∧ d.DefaultDeny = true ∧ d.Reason = "no matching allow" ∧
        d.MatchedRules = [] ∧ d.DeniedRules = []) ∧
    d.DeniedRules = (pol.Rules.filter fun r =>
      ruleMatches lib input r && decide (effectOf lib r = "deny")).map Rule.ID ∧
    d.MatchedRules = (pol.Rules.filter fun r =>
      ruleMatches lib input r && decide (effectOf lib r = "allow")).map Rule.ID ∧
    d.EvaluatedRule = pol.Rules.length ∧
    d.DefaultDeny = !d.Allow ∧
    ((∃ d', policy.Evaluate lib (some pol) input = .ok d') ↔
      ∀ r ∈ pol.Rules, ruleMatches lib input r = true →
        effectOf lib r = "allow" ∨ effectOf lib r = "deny") := by
  have hok := (evaluate_ok_iff lib pol input).1 ⟨d, h⟩
  have hs := evaluate_spec lib pol input hok
  rw [h] at hs
  have hd := Except.ok.inj hs
  have hden : ∀ r ∈ pol.Rules, ruleMatches lib input r = true → effectOf lib r = "deny" →
      (pol.Rules.any fun r =>
        ruleMatches lib input r && decide (effectOf lib r = "deny")) = true := by
    intro r hr hm he
    rw [List.any_eq_true]
    exact ⟨r, hr, by simp [hm, he]⟩
  refine ⟨?_, ?_, ?_, by rw [hd], by rw [hd], by rw [hd], by rw [hd],
    evaluate_ok_iff lib pol input⟩
  · rw [hd]
    simp only [Bool.and_eq_true, Bool.not_eq_true', decide_eq_true_eq, List.any_eq_true,
      List.any_eq_false]
    constructor
    · rintro ⟨hno, r, hr, hm, ha⟩
      refine ⟨⟨r, hr, hm, ha⟩, ?_⟩
      rintro ⟨r', hr', hm', hd'⟩
      exact hno r' hr' ⟨hm', hd'⟩
    · rintro ⟨⟨r, hr, hm, ha⟩, hno⟩
      refine ⟨?_, r, hr, hm, ha⟩
      intro r' hr' hc
      exact hno ⟨r', hr', hc.1, hc.2⟩
  · intro r hr hm he
    have hne := hden r hr hm he
    rw [hd]
    refine ⟨by simp only [hne]; rfl, ?_, by simp only [hne, if_true]⟩
    simp only [List.mem_map, List.mem_filter, Bool.and_eq_true, decide_eq_true_eq]
    exact ⟨r, ⟨hr, hm, he⟩, rfl⟩
  · intro hnone
    have f1 : ∀ e : String, (pol.Rules.filter fun r =>
        ruleMatches lib input r && decide (effectOf lib r = e)) = [] := by
      intro e
      rw [List.filter_eq_nil_iff]
      intro r hr
      simp [hnone r hr]
    have f2 : ∀ e : String, (pol.Rules.any fun r =>
        ruleMatches lib input r && decide (effectOf lib r = e)) = false := by
      intro e
      rw [List.any_eq_false]
      intro r hr
      simp [hnone r hr]
    rw [hd]
    simp [f1, f2]

theorem evaluate_deny_overrides_witness :
    policy.Evaluate demoPolicyLib (some demoPolicy) (demoInput 1500) = .ok demoDecision ∧
    (policy.Evaluate demoPolicyLib (some demoPolicy) (demoInput 500)).map Decision.Allow =
      .ok true ∧
    (policy.Evaluate demoPolicyLib (some demoIngestPolicy) demoIngestInput).map Decision.Allow =
      .ok true ∧
    policy.Evaluate demoPolicyLib (some demoIngestPolicy) (demoInput 500) =
      .ok { Allow := false, MatchedRules := [], DeniedRules := [],
            Reason := "no matching allow", DefaultDeny := true, EvaluatedRule := 1 } ∧
    ((demoDecision.Allow = true ↔
      (∃ r ∈ demoPolicy.Rules,
        ruleMatches demoPolicyLib (demoInput 1500) r = true ∧
          effectOf demoPolicyLib r = "allow") ∧
      ¬ ∃ r ∈ demoPolicy.Rules,
        ruleMatches demoPolicyLib (demoInput 1500) r = true ∧
          effectOf demoPolicyLib r = "deny") ∧
    (∀ r ∈ demoPolicy.Rules, ruleMatches demoPolicyLib (demoInput 1500) r = true →
      effectOf demoPolicyLib r = "deny" →
      demoDecision.Allow = false ∧ r.ID ∈ demoDecision.DeniedRules ∧
        demoDecision.Reason = "explicit deny") ∧
    ((∀ r ∈ demoPolicy.Rules, ruleMatches demoPolicyLib (demoInput 1500) r = false) →
      demoDecision.Allow = false ∧ demoDecision.DefaultDeny = true ∧
        demoDecision.Reason = "no matching allow" ∧
        demoDecision.MatchedRules = [] ∧ demoDecision.DeniedRules = []) ∧
    demoDecision.DeniedRules = (demoPolicy.Rules.filter fun r =>
      ruleMatches demoPolicyLib (demoInput 1500) r &&
        decide (effectOf demoPolicyLib r = "deny")).map Rule.ID ∧
    demoDecision.MatchedRules = (demoPolicy.Rules.filter fun r =>
      ruleMatches demoPolicyLib (demoInput 1500) r &&
        decide (effectOf demoPolicyLib r = "allow")).map Rule.ID ∧
    demoDecision.EvaluatedRule = demoPolicy.Rules.length ∧
    demoDecision.DefaultDeny = !demoDecision.Allow ∧
    ((∃ d', policy.Evaluate demoPolicyLib (some demoPolicy) (demoInput 1500) = .ok d') ↔
      ∀ r ∈ demoPolicy.Rules, ruleMatches demoPolicyLib (demoInput 1500) r = true →
        effectOf demoPolicyLib r = "allow" ∨ effectOf demoPolicyLib r = "deny")) :=
  ⟨rfl, rfl, rfl, rfl,
    evaluate_deny_overrides demoPolicyLib demoPolicy (demoInput 1500) demoDecision rfl⟩

/-! ## Lines at the limit of the scanners -/

/-- A file whose lines are all under the limit is scanned to its end. -/
theorem scanFile_short {α : Type} (limit : Nat) (size : Line α → Nat) :
    ∀ ls : List (Line α), (∀ l ∈ ls, size l < limit) → scanFile limit size ls = (ls, none)
  | [], _ => rfl
  | l :: rest, h => by
    have h1 : ¬ limit ≤ size l := by
      have := h l (List.mem_cons_self _ _)
      omega
    have ih := scanFile_short limit size rest fun x hx => h x (List.mem_cons_of_mem _ hx)
    simp only [scanFile, if_neg h1, ih]

/-- A file with a line at the limit or over it: the scanner yields a proper
initial part of the file and ends with `ErrTooLong`. -/
theorem scanFile_long {α : Type} (limit : Nat) (size : Line α → Nat) :
    ∀ ls : List (Line α), (∃ l ∈ ls, limit ≤ size l) →
      (scanFile limit size ls).2 = some errTooLong ∧
      ∃ post, post ≠ [] ∧ ls = (scanFile limit size ls).1 ++ post
  | [], h => by simp at h
  | l :: rest, h => by
    by_cases h1 : limit ≤ size l
    · exact ⟨by simp only [scanFile, if_pos h1], l :: rest, by simp,
        by simp only [scanFile, if_pos h1, List.nil_append]⟩
    · have hrest : ∃ x ∈ rest, limit ≤ size x := by
        obtain ⟨x, hx, hl⟩ := h
        rcases List.mem_cons.1 hx with e | hx
        · exact absurd (e ▸ hl) h1
        · exact ⟨x, hx, hl⟩
      obtain ⟨e, post, hp, hpost⟩ := scanFile_long limit size rest hrest
      simp only [scanFile, if_neg h1]
      refine ⟨e, post, hp, ?_⟩
      rw [List.cons_append, ← hpost]

/-- An initial part of a chain is a chain. -/
theorem chainFrom_prefix {O : Type} (lib : Lib O) :
    ∀ (pre post : List (Record O)) (idx : Int) (prev : String),
      ChainFrom lib idx prev (pre ++ post) → ChainFrom lib idx prev pre
  | [], _, _, _, _ => by simp [ChainFrom]
  | r :: rest, post, idx, prev, h => by
    simp only [List.cons_append, ChainFrom] at h ⊢
    exact ⟨h.1, h.2.1, h.2.2.1, chainFrom_prefix lib rest post _ _ h.2.2.2⟩

/-- The roots that seal an initial part of the hashes are an initial part of
the roots. -/
theorem rootsMatch_prefix {O : Type} (lib : Lib O) (B : Nat) :
    ∀ (pre post : List String) (start : Int) (pending : List String) (rts : List RootRecord),
      RootsMatch lib B start pending (pre ++ post) rts →
      ∃ rts₁ rts₂, rts = rts₁ ++ rts₂ ∧ RootsMatch lib B start pending pre rts₁
  | [], _, _, _, rts, _ => ⟨[], rts, rfl, by simp [RootsMatch]⟩
  | h :: hs, post, start, pending, rts, hm => by
    simp only [List.cons_append, RootsMatch] at hm ⊢
    by_cases hlen : (pending ++ [h]).length = B
    · rw [if_pos hlen] at hm
      obtain ⟨rt, rest, e, a, b, c, hm2⟩ := hm
      obtain ⟨r1, r2, e2, hm3⟩ := rootsMatch_prefix lib B hs post _ _ rest hm2
      refine ⟨rt :: r1, r2, by rw [e, e2]; rfl, ?_⟩
      rw [if_pos hlen]
      exact ⟨rt, r1, rfl, a, b, c, hm3⟩
    · rw [if_neg hlen] at hm
      obtain ⟨r1, r2, e2, hm3⟩ := rootsMatch_prefix lib B hs post _ _ rts hm
      refine ⟨r1, r2, e2, ?_⟩
      rw [if_neg hlen]
      exact hm3

/-- On lines that all decode, the loop of `loadState` returns a store. -/
theorem loadLoop_entries_ok {O : Type} (c : Int) :
    ∀ (recs : List (Record O)) (s : Store), ∃ s', loadLoop c (recs.map Line.entry) s = .ok s'
  | [], s => ⟨s, rfl⟩
  | r :: rest, s => by
    simp only [List.map_cons, loadLoop]
    exact loadLoop_entries_ok c rest _

/-- With every line of the roots log under the limit, `readRootsFile` is
`readRoots`. -/
theorem readRootsFile_short {O : Type} (sz : LineSizes O) (roots : List (Line RootRecord))
    (h : ∀ l ∈ roots, sz.root l < scanLimit) :
    readRootsFile sz roots = readRoots roots := by
  simp only [readRootsFile, scanFile_short scanLimit sz.root roots h]
  cases readRoots roots <;> rfl

/-- With every line of the roots log under the limit, `readLastRootFile` is
`readLastRoot`. -/
theorem readLastRootFile_short {O : Type} (sz : LineSizes O) (roots : List (Line RootRecord))
    (h : ∀ l ∈ roots, sz.root l < defaultScanLimit) :
    readLastRootFile sz roots = readLastRoot roots := by
  simp only [readLastRootFile, scanFile_short defaultScanLimit sz.root roots h]
  cases readLastRoot roots <;> rfl

/-- With every line of both logs under the limit of the scanner that reads
it, `VerifyFile` is `Verify`. -/
theorem verifyFile_short {O : Type} (lib : Lib O) (sz : LineSizes O)
    (events : List (Line (Record O))) (roots : List (Line RootRecord)) (batchSize : Int)
    (he : ∀ l ∈ events, sz.record l < scanLimit) (hr : ∀ l ∈ roots, sz.root l < scanLimit) :
    VerifyFile lib sz events roots batchSize = Verify lib events roots batchSize := by
  simp only [VerifyFile, Verify, readRootsFile_short sz roots hr,
    scanFile_short scanLimit sz.record events he]

/-- With every line of both logs under the limit of the scanner that reads
it, `NewStoreFile` is `NewStore`. -/
theorem newStoreFile_short {O : Type} (sz : LineSizes O) (d : Disk O) (batchSize : Int)
    (he : ∀ l ∈ d.events, sz.record l < scanLimit)
    (hr : ∀ l ∈ d.roots, sz.root l < defaultScanLimit) :
    NewStoreFile sz d batchSize = NewStore d batchSize := by
  simp only [NewStoreFile, NewStore, loadStateFile, loadState, readLastRootFile_short sz d.roots hr,
    scanFile_short scanLimit sz.record d.events he]
  cases readLastRoot d.roots with
  | error e => rfl
  | ok last =>
    simp only []
    cases loadLoop _ d.events _ <;> rfl

/-- The fresh store, with the limits. -/
theorem newStoreFile_empty {O : Type} (sz : LineSizes O) (B : Int) :
    NewStoreFile sz (Disk.empty : Disk O) B = NewStore (Disk.empty : Disk O) B :=
  newStoreFile_short sz Disk.empty B (by simp [Disk.empty]) (by simp [Disk.empty])

/-- The report of `VerifyFile` on the files of a run of successful appends in
which some record line is at the limit or over it. -/
theorem verifyFile_long_run {O : Type} (lib : Lib O) (sz : LineSizes O) (hs : ShaSized lib)
    (B : Nat) (hB : 0 < B) (s0 : Store) (inputs : List (Event O × Env))
    (hnew : NewStore (Disk.empty : Disk O) (B : Int) = .ok s0)
    (hok : appendsOk lib s0 Disk.empty inputs = true)
    (hroots : ∀ l ∈ (appendAll lib s0 Disk.empty inputs).2.roots, sz.root l < scanLimit)
    (hlong : ∃ l ∈ (appendAll lib s0 Disk.empty inputs).2.events, scanLimit ≤ sz.record l) :
    ∃ k : Nat, k < inputs.length ∧
      (scanFile scanLimit sz.record (appendAll lib s0 Disk.empty inputs).2.events).1.length = k ∧
      (VerifyFile lib sz (appendAll lib s0 Disk.empty inputs).2.events
        (appendAll lib s0 Disk.empty inputs).2.roots B).OK = false ∧
      (VerifyFile lib sz (appendAll lib s0 Disk.empty inputs).2.events
        (appendAll lib s0 Disk.empty inputs).2.roots B).Errors = ["scan: " ++ errTooLong] ∧
      (VerifyFile lib sz (appendAll lib s0 Disk.empty inputs).2.events
        (appendAll lib s0 Disk.empty inputs).2.roots B).Total = k := by
  obtain ⟨recs, rts, h1, h2, h3, h4, h5, _⟩ := fresh_run lib hs B hB s0 inputs hnew hok
  obtain ⟨herr, post, hpost, hsplit⟩ := scanFile_long scanLimit sz.record _ hlong
  generalize hpre : (scanFile scanLimit sz.record (appendAll lib s0 Disk.empty inputs).2.events).1
    = pre at hsplit
  rw [h1] at hsplit
  obtain ⟨r1, r2, hr, hp1, hp2⟩ := List.map_eq_append_iff.1 hsplit
  have hr2 : r2 ≠ [] := by
    rintro rfl
    exact hpost (by simpa using hp2.symm)
  have hklt : r1.length < inputs.length := by
    rw [← h3, hr, List.length_append]
    have := List.length_pos.2 hr2
    omega
  rw [hr] at h4 h5
  have hc := chainFrom_prefix lib r1 r2 _ _ h4
  rw [List.map_append] at h5
  obtain ⟨rts₁, rts₂, hrts, hm⟩ := rootsMatch_prefix lib B _ _ _ _ rts h5
  obtain ⟨g, a, _⟩ := verifyLoop_honest lib rts B hB r1 VerifyState.init 1 rts₁ rts₂
    ⟨rfl, rfl, rfl, rfl, rfl⟩ (by simpa [VerifyState.init] using hB) hc
    (by simpa [VerifyState.init] using hrts) hm
  have hfile : VerifyFile lib sz (appendAll lib s0 Disk.empty inputs).2.events
      (appendAll lib s0 Disk.empty inputs).2.roots B =
      (verifyLoop lib rts (B : Int) VerifyState.init (r1.map Line.entry)).report.fail
        ("scan: " ++ errTooLong) := by
    simp only [VerifyFile, readRootsFile_short sz _ hroots, herr, hpre]
    rw [h2, readRoots_entries, ← hp1]
  refine ⟨r1.length, hklt, by rw [← hp1, List.length_map], ?_, ?_, ?_⟩
  · rw [hfile]; rfl
  · rw [hfile]
    simp only [VerifyReport.fail, g.errors, List.nil_append]
  · rw [hfile]
    simp only [VerifyReport.fail]
    rw [g.total, a]
    simp [VerifyState.init]

/-- After a run of successful appends in which some record line is at the
limit or over it, `NewStoreFile` fails with `ErrTooLong`. -/
theorem newStoreFile_long_run {O : Type} (lib : Lib O) (sz : LineSizes O) (hs : ShaSized lib)
    (B : Nat) (hB : 0 < B) (s0 : Store) (inputs : List (Event O × Env))
    (hnew : NewStore (Disk.empty : Disk O) (B : Int) = .ok s0)
    (hok : appendsOk lib s0 Disk.empty inputs = true)
    (hroots : ∀ l ∈ (appendAll lib s0 Disk.empty inputs).2.roots, sz.root l < defaultScanLimit)
    (hlong : ∃ l ∈ (appendAll lib s0 Disk.empty inputs).2.events, scanLimit ≤ sz.record l) :
    NewStoreFile sz (appendAll lib s0 Disk.empty inputs).2 (B : Int) = .error errTooLong := by
  obtain ⟨recs, rts, h1, h2, _⟩ := fresh_run lib hs B hB s0 inputs hnew hok
  obtain ⟨herr, post, _, hsplit⟩ := scanFile_long scanLimit sz.record _ hlong
  generalize hpre : (scanFile scanLimit sz.record (appendAll lib s0 Disk.empty inputs).2.events).1
    = pre at hsplit
  rw [h1] at hsplit
  obtain ⟨r1, r2, _, hp1, _⟩ := List.map_eq_append_iff.1 hsplit
  have hlast : readLastRoot (appendAll lib s0 Disk.empty inputs).2.roots =
      .ok (match (entries (appendAll lib s0 Disk.empty inputs).2.roots).getLast? with
        | some r => some r
        | none => none) :=
    readLastRootLoop_spec _ none (by rw [h2]; exact decodable_map_entry rts)
  simp only [NewStoreFile, loadStateFile, readLastRootFile_short sz _ hroots, hlast, hpre, herr]
  rw [← hp1]
  split
  · rename_i e he
    obtain ⟨s', hs'⟩ := loadLoop_entries_ok _ r1 _
    rw [hs'] at he
    cases he
  · rfl

/-- C3. After any run of `N` successful `AppendEvent` calls on a fresh store of
positive batch size `B`, the lines of the roots log being under the limit of
5 MiB of the scanner: when every record line the store wrote is under the
limit, `VerifyFile` with batch size `B` reports `OK = true`, `Total = N` and
no error; when some record line has 5 MiB or more, which `AppendEvent`
writes as it writes any other, the scanner stops at the first such line and
`VerifyFile` reports `OK = false` with the one error
`scan: bufio.Scanner: token too long` and `Total` the number of records
before that line, which is below `N`. -/
theorem verifyFile_of_appends {O : Type} (lib : Lib O) (sz : LineSizes O) (B : Nat) (s0 : Store)
    (inputs : List (Event O × Env)) (hs : ShaSized lib) (hB : 0 < B)
    (hnew : NewStoreFile sz (Disk.empty : Disk O) (B : Int) = .ok s0)
    (hok : appendsOk lib s0 Disk.empty inputs = true)
    (hroots : ∀ l ∈ (appendAll lib s0 Disk.empty inputs).2.roots, sz.root l < scanLimit) :
    ((∀ l ∈ (appendAll lib s0 Disk.empty inputs).2.events, sz.record l < scanLimit) →
      VerifyFile lib sz (appendAll lib s0 Disk.empty inputs).2.events
          (appendAll lib s0 Disk.empty inputs).2.roots B =
        { OK := true, Total := inputs.length, LastIndex := inputs.length,
          LastHash := (appendAll lib s0 Disk.empty inputs).1.lastHash,
          RootsChecked := ((inputs.length / B : Nat) : Int), Errors := [] }) ∧
    ((∃ l ∈ (appendAll lib s0 Disk.empty inputs).2.events, scanLimit ≤ sz.record l) →
      ∃ k : Nat, k < inputs.length ∧
        (scanFile scanLimit sz.record (appendAll lib s0 Disk.empty inputs).2.events).1.length =
          k ∧
        (VerifyFile lib sz (appendAll lib s0 Disk.empty inputs).2.events
          (appendAll lib s0 Disk.empty inputs).2.roots B).OK = false ∧
        (VerifyFile lib sz (appendAll lib s0 Disk.empty inputs).2.events
          (appendAll lib s0 Disk.empty inputs).2.roots B).Errors = ["scan: " ++ errTooLong] ∧
        (VerifyFile lib sz (appendAll lib s0 Disk.empty inputs).2.events
          (appendAll lib s0 Disk.empty inputs).2.roots B).Total = k) := by
  rw [newStoreFile_empty] at hnew
  constructor
  · intro hshort
    rw [verifyFile_short lib sz _ _ _ hshort hroots]
    exact verify_report_of_run lib hs B hB s0 inputs hnew hok
  · intro hlong
    exact verifyFile_long_run lib sz hs B hB s0 inputs hnew hok hroots hlong

theorem verifyFile_of_appends_witness :
    (ShaSized demoLib ∧ 0 < 2 ∧
      NewStoreFile (demoSizes 2) (Disk.empty : Disk Nat) ((2 : Nat) : Int) = .ok demoStore ∧
      appendsOk demoLib demoStore Disk.empty demoInputs = true ∧
      (∀ l ∈ (appendAll demoLib demoStore Disk.empty demoInputs).2.roots,
        (demoSizes 2).root l < scanLimit)) ∧
    (∃ l ∈ (appendAll demoLib demoStore Disk.empty demoInputs).2.events,
      scanLimit ≤ (demoSizes 2).record l) ∧
    VerifyFile demoLib (demoSizes 2) (appendAll demoLib demoStore Disk.empty demoInputs).2.events
        (appendAll demoLib demoStore Disk.empty demoInputs).2.roots ((2 : Nat) : Int) =
      { OK := false, Total := 1, LastIndex := 1,
        LastHash := "8787878787878787878787878787878787878787878787878787878787878787",
        RootsChecked := 0, Errors := ["scan: bufio.Scanner: token too long"] } ∧
    (VerifyFile demoLib (demoSizes 0) (appendAll demoLib demoStore Disk.empty demoInputs).2.events
        (appendAll demoLib demoStore Disk.empty demoInputs).2.roots ((2 : Nat) : Int)).OK =
      true ∧
    ((∀ l ∈ (appendAll demoLib demoStore Disk.empty demoInputs).2.events,
        (demoSizes 2).record l < scanLimit) →
      VerifyFile demoLib (demoSizes 2)
          (appendAll demoLib demoStore Disk.empty demoInputs).2.events
          (appendAll demoLib demoStore Disk.empty demoInputs).2.roots (2 : Nat) =
        { OK := true, Total := demoInputs.length, LastIndex := demoInputs.length,
          LastHash := (appendAll demoLib demoStore Disk.empty demoInputs).1.lastHash,
          RootsChecked := ((demoInputs.length / 2 : Nat) : Int), Errors := [] }) ∧
    ((∃ l ∈ (appendAll demoLib demoStore Disk.empty demoInputs).2.events,
        scanLimit ≤ (demoSizes 2).record l) →
      ∃ k : Nat, k < demoInputs.length ∧
        (scanFile scanLimit (demoSizes 2).record
          (appendAll demoLib demoStore Disk.empty demoInputs).2.events).1.length = k ∧
        (VerifyFile demoLib (demoSizes 2)
          (appendAll demoLib demoStore Disk.empty demoInputs).2.events
          (appendAll demoLib demoStore Disk.empty demoInputs).2.roots (2 : Nat)).OK = false ∧
        (VerifyFile demoLib (demoSizes 2)
          (appendAll demoLib demoStore Disk.empty demoInputs).2.events
          (appendAll demoLib demoStore Disk.empty demoInputs).2.roots (2 : Nat)).Errors =
            ["scan: " ++ errTooLong] ∧
        (VerifyFile demoLib (demoSizes 2)
          (appendAll demoLib demoStore Disk.empty demoInputs).2.events
          (appendAll demoLib demoStore Disk.empty demoInputs).2.roots (2 : Nat)).Total = k) :=
  ⟨⟨demoLib_sized, by decide, rfl, by decide, by decide⟩, by decide, by decide, by decide,
    verifyFile_of_appends demoLib (demoSizes 2) 2 demoStore demoInputs demoLib_sized
      (by decide) rfl (by decide) (by decide)⟩

/-- C6. After any run of `N` successful appends on a fresh store of positive
batch size `B`, the lines of the roots log being under the limit of 64 KiB
of the scanner of `readLastRoot`: when every record line the store wrote is
under the limit of 5 MiB, `NewStoreFile` on the same files with the same `B`
succeeds, and if the next `AppendEvent` on the reopened store succeeds, its
record has index `N + 1` and a `prev_hash` equal to the hash of the last
record of the log (`lastHashOf`, empty when `N = 0`), and, the lines of the
files after that append being under the limit too, `VerifyFile` reports
`OK = true`, `Total = N + 1` and `RootsChecked = (N + 1) / B`; when some
record line has 5 MiB or more, which `AppendEvent` writes as it writes any
other, `NewStoreFile` fails with `bufio.Scanner: token too long` and the
store cannot be reopened. -/
theorem reopen_file_then_append {O : Type} (lib : Lib O) (sz : LineSizes O) (B : Nat)
    (s0 : Store) (inputs : List (Event O × Env)) (event : Event O) (env : Env)
    (hs : ShaSized lib) (hB : 0 < B)
    (hnew : NewStoreFile sz (Disk.empty : Disk O) (B : Int) = .ok s0)
    (hok : appendsOk lib s0 Disk.empty inputs = true)
    (hroots : ∀ l ∈ (appendAll lib s0 Disk.empty inputs).2.roots,
      sz.root l < defaultScanLimit) :
    ((∀ l ∈ (appendAll lib s0 Disk.empty inputs).2.events, sz.record l < scanLimit) →
      ∃ s1, NewStoreFile sz (appendAll lib s0 Disk.empty inputs).2 (B : Int) = .ok s1 ∧
        ((AppendEvent lib s1 (appendAll lib s0 Disk.empty inputs).2 event env).err = none →
          (AppendEvent lib s1 (appendAll lib s0 Disk.empty inputs).2 event env).record.Index =
            inputs.length + 1 ∧
          (∀ recs : List (Record O),
            (appendAll lib s0 Disk.empty inputs).2.events = recs.map Line.entry →
            (AppendEvent lib s1 (appendAll lib s0 Disk.empty inputs).2 event env).record.PrevHash =
              lastHashOf "" recs) ∧
          ((∀ l ∈ (AppendEvent lib s1 (appendAll lib s0 Disk.empty inputs).2 event
                env).disk.events, sz.record l < scanLimit) →
            (∀ l ∈ (AppendEvent lib s1 (appendAll lib s0 Disk.empty inputs).2 event
                env).disk.roots, sz.root l < scanLimit) →
            (VerifyFile lib sz
              (AppendEvent lib s1 (appendAll lib s0 Disk.empty inputs).2 event env).disk.events
              (AppendEvent lib s1 (appendAll lib s0 Disk.empty inputs).2 event env).disk.roots
              B).OK = true ∧
            (VerifyFile lib sz
              (AppendEvent lib s1 (appendAll lib s0 Disk.empty inputs).2 event env).disk.events
              (AppendEvent lib s1 (appendAll lib s0 Disk.empty inputs).2 event env).disk.roots
              B).Total = inputs.length + 1 ∧
            (VerifyFile lib sz
              (AppendEvent lib s1 (appendAll lib s0 Disk.empty inputs).2 event env).disk.events
              (AppendEvent lib s1 (appendAll lib s0 Disk.empty inputs).2 event env).disk.roots
              B).RootsChecked = (((inputs.length + 1) / B : Nat) : Int)))) ∧
    ((∃ l ∈ (appendAll lib s0 Disk.empty inputs).2.events, scanLimit ≤ sz.record l) →
      NewStoreFile sz (appendAll lib s0 Disk.empty inputs).2 (B : Int) = .error errTooLong) := by
  rw [newStoreFile_empty] at hnew
  constructor
  · intro hshort
    obtain ⟨s1, hns, hrest⟩ := reopen_then_append lib B s0 inputs event env hs hB hnew hok
    refine ⟨s1, by rw [newStoreFile_short sz _ _ hshort hroots]; exact hns, ?_⟩
    intro hnext
    obtain ⟨a, b, c, d, e⟩ := hrest hnext
    refine ⟨a, b, ?_⟩
    intro he hr
    rw [verifyFile_short lib sz _ _ _ he hr]
    exact ⟨c, d, e⟩
  · intro hlong
    exact newStoreFile_long_run lib sz hs B hB s0 inputs hnew hok hroots hlong

theorem reopen_file_then_append_witness :
    (ShaSized demoLib ∧ 0 < 2 ∧
      NewStoreFile (demoSizes 2) (Disk.empty : Disk Nat) ((2 : Nat) : Int) = .ok demoStore ∧
      appendsOk demoLib demoStore Disk.empty demoInputs = true ∧
      (∀ l ∈ (appendAll demoLib demoStore Disk.empty demoInputs).2.roots,
        (demoSizes 2).root l < defaultScanLimit)) ∧
    (∃ l ∈ (appendAll demoLib demoStore Disk.empty demoInputs).2.events,
      scanLimit ≤ (demoSizes 2).record l) ∧
    NewStoreFile (demoSizes 2) (appendAll demoLib demoStore Disk.empty demoInputs).2
      ((2 : Nat) : Int) = .error "bufio.Scanner: token too long" ∧
    NewStoreFile (demoSizes 0) (appendAll demoLib demoStore Disk.empty demoInputs).2
      ((2 : Nat) : Int) = .ok (appendAll demoLib demoStore Disk.empty demoInputs).1 ∧
    ((∀ l ∈ (appendAll demoLib demoStore Disk.empty demoInputs).2.events,
        (demoSizes 2).record l < scanLimit) →
      ∃ s1, NewStoreFile (demoSizes 2) (appendAll demoLib demoStore Disk.empty demoInputs).2
          ((2 : Nat) : Int) = .ok s1 ∧
        ((AppendEvent demoLib s1 (appendAll demoLib demoStore Disk.empty demoInputs).2
            (demoEvent 3) demoEnv).err = none →
          (AppendEvent demoLib s1 (appendAll demoLib demoStore Disk.empty demoInputs).2
            (demoEvent 3) demoEnv).record.Index = demoInputs.length + 1 ∧
          (∀ recs : List (Record Nat),
            (appendAll demoLib demoStore Disk.empty demoInputs).2.events =
              recs.map Line.entry →
            (AppendEvent demoLib s1 (appendAll demoLib demoStore Disk.empty demoInputs).2
              (demoEvent 3) demoEnv).record.PrevHash = lastHashOf "" recs) ∧
          ((∀ l ∈ (AppendEvent demoLib s1 (appendAll demoLib demoStore Disk.empty demoInputs).2
                (demoEvent 3) demoEnv).disk.events, (demoSizes 2).record l < scanLimit) →
            (∀ l ∈ (AppendEvent demoLib s1
                (appendAll demoLib demoStore Disk.empty demoInputs).2
                (demoEvent 3) demoEnv).disk.roots, (demoSizes 2).root l < scanLimit) →
            (VerifyFile demoLib (demoSizes 2)
              (AppendEvent demoLib s1 (appendAll demoLib demoStore Disk.empty demoInputs).2
                (demoEvent 3) demoEnv).disk.events
              (AppendEvent demoLib s1 (appendAll demoLib demoStore Disk.empty demoInputs).2
                (demoEvent 3) demoEnv).disk.roots
              ((2 : Nat) : Int)).OK = true ∧
            (VerifyFile demoLib (demoSizes 2)
              (AppendEvent demoLib s1 (appendAll demoLib demoStore Disk.empty demoInputs).2
                (demoEvent 3) demoEnv).disk.events
              (AppendEvent demoLib s1 (appendAll demoLib demoStore Disk.empty demoInputs).2
                (demoEvent 3) demoEnv).disk.roots
              ((2 : Nat) : Int)).Total = demoInputs.length + 1 ∧
            (VerifyFile demoLib (demoSizes 2)
              (AppendEvent demoLib s1 (appendAll demoLib demoStore Disk.empty demoInputs).2
                (demoEvent 3) demoEnv).disk.events
              (AppendEvent demoLib s1 (appendAll demoLib demoStore Disk.empty demoInputs).2
                (demoEvent 3) demoEnv).disk.roots
              ((2 : Nat) : Int)).RootsChecked = (((demoInputs.length + 1) / 2 : Nat) : Int)))) ∧
    ((∃ l ∈ (appendAll demoLib demoStore Disk.empty demoInputs).2.events,
        scanLimit ≤ (demoSizes 2).record l) →
      NewStoreFile (demoSizes 2) (appendAll demoLib demoStore Disk.empty demoInputs).2
        ((2 : Nat) : Int) = .error errTooLong) :=
  ⟨⟨demoLib_sized, by decide, rfl, by decide, by decide⟩, by decide, rfl, rfl,
    reopen_file_then_append demoLib (demoSizes 2) 2 demoStore demoInputs (demoEvent 3) demoEnv
      demoLib_sized (by decide) rfl (by decide) (by decide)⟩

end Audit
